import Mathlib

set_option linter.unusedSectionVars false

/-! # Segmented deque: a shallow embedding of `SegmentDeque.hpp` and its collaborators

The C++ classes are embedded as Lean structures and the member functions as
functions on them.

* An object mutated in place becomes explicit state passing.  A member function
  that can throw after having written to the object returns the pair of its
  outcome and the state it leaves behind.
* `size_t` values are natural numbers.  Subtraction and decrement are the
  wrapping ones of a 64-bit `size_t` (`usub`); increments are plain additions
  (the counters count elements held in memory and cannot reach `2^64`).
* `T& Get(...)` is embedded by the value read through the reference.
* `new T[n]{}` value-initialises, which is `default` of an `Inhabited` type.
* Storage release (`delete`) has no counterpart.
* Running time is followed through one quantity, the links of the segment chain
  a call walks (section "Link traversals").
* `LinkedList<T>` is embedded twice: by the chain of the values it holds, which
  is what the deque is verified over, and node by node with the `next` and `prev`
  pointers (`LinkedNodes`).  `LinkedNodes.Represents` relates the two, and
  `Append`, `Prepend`, `Get` and `RemoveNode` are proved to agree on them.
-/

namespace SegDeque

/-- The standard exceptions thrown by the library, with their message. -/
inductive Error where
  | invalid_argument (what : String)
  | out_of_range (what : String)
  | runtime_error (what : String)
  deriving DecidableEq, Repr, Inhabited

/-- Subtraction of two `size_t` values: for operands below `2^64` this is
`(a - b) mod 2^64`. -/
def usub (a b : Nat) : Nat :=
  if b ≤ a then a - b else a + 2 ^ 64 - b

/-! ## lib/DynamicArray.hpp -/

/-- The class `DynamicArray<T>`: the buffer `items`; the field `size` is its length. -/
structure DynamicArray (T : Type) where
  items : List T
  deriving DecidableEq, Repr, Inhabited

namespace DynamicArray

variable {T : Type} [Inhabited T]

/-- The member `DynamicArray::GetSize`. -/
def GetSize (a : DynamicArray T) : Nat := a.items.length

/-- The member `DynamicArray::CheckIndex`. -/
def CheckIndex (a : DynamicArray T) (index : Nat) : Except Error Unit :=
  if index ≥ a.GetSize ∨ a.GetSize = 0 then
    .error (.out_of_range ("Index " ++ toString index ++ " is out of range"))
  else .ok ()

/-- The constructor `DynamicArray(size_t size)`: `new T[size]{}`. -/
def ofSize (size : Nat) : DynamicArray T := ⟨List.replicate size default⟩

/-- The member `DynamicArray::Get`. -/
def Get (a : DynamicArray T) (index : Nat) : Except Error T :=
  match a.CheckIndex index with
  | .error e => .error e
  | .ok _ => .ok (a.items[index]?.getD default)

/-- The member `DynamicArray::Set`. -/
def Set (a : DynamicArray T) (value : T) (index : Nat) : Except Error (DynamicArray T) :=
  match a.CheckIndex index with
  | .error e => .error e
  | .ok _ => .ok ⟨a.items.set index value⟩

/-- The copy loop `for (i = 0; i < n; i++) new_items[i] = items[i];`, entered at `i`
with `n - i` iterations left. -/
def copyLoop (items : List T) : Nat → Nat → List T → List T
  | 0, _, new_items => new_items
  | rem + 1, i, new_items =>
    copyLoop items rem (i + 1) (new_items.set i (items[i]?.getD default))

/-- The member `DynamicArray::Resize`. -/
def Resize (a : DynamicArray T) (new_size : Nat) : DynamicArray T :=
  let new_items : List T := List.replicate new_size default
  let min_size := if a.GetSize < new_size then a.GetSize else new_size
  ⟨copyLoop a.items min_size 0 new_items⟩

/-- The second loop of `InsertAt`, `for (i = index; i < size; i++) new_items[i] =
items[i - 1];`, entered at `i` with `size - i` iterations left. -/
def shiftLoop (items : List T) : Nat → Nat → List T → List T
  | 0, _, new_items => new_items
  | rem + 1, i, new_items =>
    shiftLoop items rem (i + 1) (new_items.set i (items[usub i 1]?.getD default))

/-- The body of `InsertAt` after `T* new_items = new T[size];`: the copy of the slots
before `index`, the store of `value`, and the shifted copy of the slots from `index` on,
into the buffer `new_items`. -/
def insertInto (items : List T) (value : T) (index size : Nat) (new_items : List T) : List T :=
  let new_items := copyLoop items index 0 new_items
  let new_items := new_items.set index value
  let index := index + 1
  shiftLoop items (size - index) index new_items

/-- The member `DynamicArray::InsertAt`.  `new T[size]` leaves the slots of the new
buffer unspecified; they are taken as `default` here, and `insertInto` assigns every one
of them. -/
def InsertAt (a : DynamicArray T) (value : T) (index : Nat) : Except Error (DynamicArray T) :=
  match (if index ≠ a.GetSize then a.CheckIndex index else .ok ()) with
  | .error e => .error e
  | .ok _ =>
    let size := a.GetSize + 1
    .ok ⟨insertInto a.items value index size (List.replicate size default)⟩

end DynamicArray

/-! ## lib/ArraySequence.hpp -/

/-- The class `MutableArraySequence<T>`; its `Instance()` is the object itself, so
every modifier works in place. -/
structure MutableArraySequence (T : Type) where
  items : DynamicArray T
  deriving DecidableEq, Repr, Inhabited

namespace MutableArraySequence

variable {T : Type} [Inhabited T]

/-- The constructor `ArraySequence(size_t size)`. -/
def ofSize (size : Nat) : MutableArraySequence T := ⟨DynamicArray.ofSize size⟩

/-- The member `ArraySequence::GetSize`. -/
def GetSize (s : MutableArraySequence T) : Nat := s.items.GetSize

/-- The member `ArraySequence::Get`. -/
def Get (s : MutableArraySequence T) (index : Nat) : Except Error T := s.items.Get index

/-- The member `ArraySequence::Set`. -/
def Set (s : MutableArraySequence T) (value : T) (index : Nat) :
    Except Error (MutableArraySequence T) :=
  match s.items.Set value index with
  | .error e => .error e
  | .ok items1 => .ok ⟨items1⟩

/-- The member `ArraySequence::Append`: grow by one, then store in the last slot. -/
def Append (s : MutableArraySequence T) (value : T) : Except Error (MutableArraySequence T) :=
  let items1 := s.items.Resize (s.items.GetSize + 1)
  match items1.Set value (usub items1.GetSize 1) with
  | .error e => .error e
  | .ok items2 => .ok ⟨items2⟩

end MutableArraySequence

/-! ## lib/LinkedList.hpp

The node chain from `head` to `tail` is the list `nodes`; a node pointer is the
position of the node in the chain, `next` is the position after it and `prev`
the one before it.  The field `size` is the length of the chain. -/

/-- The class `LinkedList<T>`. -/
structure LinkedList (T : Type) where
  nodes : List T
  deriving DecidableEq, Repr, Inhabited

namespace LinkedList

variable {T : Type} [Inhabited T]

/-- The member `LinkedList::GetSize`. -/
def GetSize (l : LinkedList T) : Nat := l.nodes.length

/-- The member `LinkedList::CheckIndex`. -/
def CheckIndex (l : LinkedList T) (index : Nat) : Except Error Unit :=
  if index ≥ l.GetSize ∨ l.GetSize = 0 then
    .error (.out_of_range ("Index " ++ toString index ++ " is out of range"))
  else .ok ()

/-- The walk `current_node = current_node->next`, repeated `n` times. -/
def walkNext : Nat → Nat → Nat
  | 0, current_node => current_node
  | n + 1, current_node => walkNext n (current_node + 1)

/-- The walk `current_node = current_node->prev`, repeated `n` times. -/
def walkPrev : Nat → Nat → Nat
  | 0, current_node => current_node
  | n + 1, current_node => walkPrev n (current_node - 1)

/-- The member `LinkedList::Get`: walk `index` links from `head`. -/
def Get (l : LinkedList T) (index : Nat) : Except Error T :=
  match l.CheckIndex index with
  | .error e => .error e
  | .ok _ => .ok (l.nodes[walkNext index 0]?.getD default)

/-- The member `LinkedList::Append`. -/
def Append (l : LinkedList T) (value : T) : LinkedList T := ⟨l.nodes ++ [value]⟩

/-- The member `LinkedList::Prepend`. -/
def Prepend (l : LinkedList T) (value : T) : LinkedList T := ⟨value :: l.nodes⟩

/-- The member `LinkedList::RemoveNode`: find the node from the nearer end, unlink it. -/
def RemoveNode (l : LinkedList T) (index : Nat) : Except Error (LinkedList T) :=
  match l.CheckIndex index with
  | .error e => .error e
  | .ok _ =>
    let current_node :=
      if index < usub l.GetSize index then walkNext index 0
      else walkPrev (usub (usub l.GetSize 1) index) (usub l.GetSize 1)
    .ok ⟨l.nodes.eraseIdx current_node⟩

end LinkedList

/-! ## lib/ListSequence.hpp -/

/-- The class `ListSequence<T>`. -/
structure ListSequence (T : Type) where
  items : LinkedList T
  deriving DecidableEq, Repr, Inhabited

namespace ListSequence

variable {T : Type} [Inhabited T]

/-- The constructor `ListSequence()`. -/
def empty : ListSequence T := ⟨⟨[]⟩⟩

/-- The member `ListSequence::GetSize`. -/
def GetSize (s : ListSequence T) : Nat := s.items.GetSize

/-- The member `ListSequence::Get`. -/
def Get (s : ListSequence T) (index : Nat) : Except Error T := s.items.Get index

/-- The member `ListSequence::Append`. -/
def Append (s : ListSequence T) (value : T) : ListSequence T := ⟨s.items.Append value⟩

/-- The member `ListSequence::Prepend`. -/
def Prepend (s : ListSequence T) (value : T) : ListSequence T := ⟨s.items.Prepend value⟩

/-- The member `ListSequence::RemoveNode`. -/
def RemoveNode (s : ListSequence T) (index : Nat) : Except Error (ListSequence T) :=
  match s.items.RemoveNode index with
  | .error e => .error e
  | .ok items1 => .ok ⟨items1⟩

end ListSequence

/-! ## lib/LinkedList.hpp, node by node

The members of `LinkedList<T>` once more, this time on the nodes and their `next` and
`prev` pointers instead of on the list of values they hold.  A `Node*` is the address
of a node in the storage `cells`, and `none` is `nullptr`; `new Node(value)` takes the
next free address; `delete` has no counterpart.  A member that dereferences `nullptr`
has undefined behaviour, the outcome `undefined`. -/

/-- The result of a member call on the nodes: it returns, it throws, or its behaviour
is undefined. -/
inductive Outcome (α : Type) where
  | ok (a : α)
  | thrown (e : Error)
  | undefined
  deriving DecidableEq, Repr

/-- An outcome from a computation on pointers that yields `none` where it dereferences
`nullptr`. -/
def Outcome.ofOption {α : Type} : Option α → Outcome α
  | some a => .ok a
  | none => .undefined

/-- The struct `LinkedList::Node`. -/
structure Node (T : Type) where
  value : T
  next : Option Nat
  prev : Option Nat
  deriving DecidableEq, Repr, Inhabited

/-- The class `LinkedList<T>` with its nodes: the node at address `p` is `cells[p]`;
`head`, `tail` and `size` are the data members. -/
structure LinkedNodes (T : Type) where
  cells : List (Node T)
  head : Option Nat
  tail : Option Nat
  size : Nat
  deriving DecidableEq, Repr, Inhabited

namespace LinkedNodes

variable {T : Type}

/-- The constructor `LinkedList() = default`. -/
def empty : LinkedNodes T := ⟨[], none, none, 0⟩

/-- The member `LinkedList::GetSize`. -/
def GetSize (l : LinkedNodes T) : Nat := l.size

/-- The member `LinkedList::CheckIndex`. -/
def CheckIndex (l : LinkedNodes T) (index : Nat) : Except Error Unit :=
  if index ≥ l.size ∨ l.size = 0 then
    .error (.out_of_range ("Index " ++ toString index ++ " is out of range"))
  else .ok ()

/-- The node `*p`; there is none for `nullptr`. -/
def deref (cells : List (Node T)) (p : Option Nat) : Option (Node T) :=
  match p with
  | none => none
  | some a => cells[a]?

/-- The assignment `p->next = x`. -/
def setNext (cells : List (Node T)) (p x : Option Nat) : Option (List (Node T)) :=
  match p with
  | none => none
  | some a =>
    match cells[a]? with
    | none => none
    | some nd => some (cells.set a { nd with next := x })

/-- The assignment `p->prev = x`. -/
def setPrev (cells : List (Node T)) (p x : Option Nat) : Option (List (Node T)) :=
  match p with
  | none => none
  | some a =>
    match cells[a]? with
    | none => none
    | some nd => some (cells.set a { nd with prev := x })

/-- The statement `current_node = current_node->next;` repeated `n` times. -/
def walkNext (cells : List (Node T)) : Nat → Option Nat → Option (Option Nat)
  | 0, current_node => some current_node
  | n + 1, current_node =>
    match deref cells current_node with
    | none => none
    | some nd => walkNext cells n nd.next

/-- The statement `current_node = current_node->prev;` repeated `n` times. -/
def walkPrev (cells : List (Node T)) : Nat → Option Nat → Option (Option Nat)
  | 0, current_node => some current_node
  | n + 1, current_node =>
    match deref cells current_node with
    | none => none
    | some nd => walkPrev cells n nd.prev

/-- The member `LinkedList::Get` (both overloads): `index` links from `head`, then
`current_node->value`. -/
def Get (l : LinkedNodes T) (index : Nat) : Outcome T :=
  match l.CheckIndex index with
  | .error e => .thrown e
  | .ok _ =>
    match walkNext l.cells index l.head with
    | none => .undefined
    | some current_node =>
      match deref l.cells current_node with
      | none => .undefined
      | some nd => .ok nd.value

/-- The member `LinkedList::Append`. -/
def Append (l : LinkedNodes T) (value : T) : Outcome (LinkedNodes T) :=
  let node := l.cells.length
  let cells := l.cells ++ [⟨value, none, none⟩]
  match l.tail with
  | none => .ok { cells := cells, head := some node, tail := some node, size := l.size + 1 }
  | some tail =>
    match setNext cells (some tail) (some node) with
    | none => .undefined
    | some cells1 =>
      match setPrev cells1 (some node) (some tail) with
      | none => .undefined
      | some cells2 =>
        .ok { cells := cells2, head := l.head, tail := some node, size := l.size + 1 }

/-- The member `LinkedList::Prepend`. -/
def Prepend (l : LinkedNodes T) (value : T) : Outcome (LinkedNodes T) :=
  let node := l.cells.length
  let cells := l.cells ++ [⟨value, none, none⟩]
  match l.tail with
  | none => .ok { cells := cells, head := some node, tail := some node, size := l.size + 1 }
  | some _ =>
    match setPrev cells l.head (some node) with
    | none => .undefined
    | some cells1 =>
      match setNext cells1 (some node) l.head with
      | none => .undefined
      | some cells2 =>
        .ok { cells := cells2, head := some node, tail := l.tail, size := l.size + 1 }

/-- The last branch of `LinkedList::InsertAt`, taken for `0 < index < size`: find
`current_node`, link the new node before it, `size++`.  The walk from `tail` makes
`index` steps; `head` is not assigned. -/
def insertBefore (l : LinkedNodes T) (value : T) (index : Nat) : Option (LinkedNodes T) :=
  let node := l.cells.length
  let cells := l.cells ++ [⟨value, none, none⟩]
  match (if index < usub l.size index then walkNext cells index l.head
         else walkPrev cells index l.tail) with
  | none => none
  | some current_node =>
    match setNext cells (some node) current_node with
    | none => none
    | some cells1 =>
      match deref cells1 current_node with
      | none => none
      | some cur1 =>
        match setPrev cells1 (some node) cur1.prev with
        | none => none
        | some cells2 =>
          match deref cells2 current_node with
          | none => none
          | some cur2 =>
            match (match cur2.prev with
                   | some prev => setNext cells2 (some prev) (some node)
                   | none => some cells2) with
            | none => none
            | some cells3 =>
              match setPrev cells3 current_node (some node) with
              | none => none
              | some cells4 =>
                some { cells := cells4, head := l.head, tail := l.tail, size := l.size + 1 }

/-- The member `LinkedList::InsertAt`. -/
def InsertAt (l : LinkedNodes T) (value : T) (index : Nat) : Outcome (LinkedNodes T) :=
  match (if index ≠ l.size then l.CheckIndex index else .ok ()) with
  | .error e => .thrown e
  | .ok _ =>
    if index = 0 then l.Prepend value
    else if index = l.size then l.Append value
    else Outcome.ofOption (l.insertBefore value index)

/-- The body of `LinkedList::RemoveNode` after `CheckIndex`: find `current_node` from
the nearer end, unlink it, `size--`. -/
def unlink (l : LinkedNodes T) (index : Nat) : Option (LinkedNodes T) :=
  match (if index < usub l.size index then walkNext l.cells index l.head
         else walkPrev l.cells (usub l.size 1 - index) l.tail) with
  | none => none
  | some current_node =>
    match deref l.cells current_node with
    | none => none
    | some cur =>
      match (match cur.prev with
             | some prev =>
               match setNext l.cells (some prev) cur.next with
               | none => none
               | some cells1 => some (cells1, l.head)
             | none => some (l.cells, cur.next)) with
      | none => none
      | some (cells1, head1) =>
        match deref cells1 current_node with
        | none => none
        | some cur1 =>
          match (match cur1.next with
                 | some next =>
                   match setPrev cells1 (some next) cur1.prev with
                   | none => none
                   | some cells2 => some (cells2, l.tail)
                 | none => some (cells1, cur1.prev)) with
          | none => none
          | some (cells2, tail2) =>
            some { cells := cells2, head := head1, tail := tail2, size := usub l.size 1 }

/-- The member `LinkedList::RemoveNode`. -/
def RemoveNode (l : LinkedNodes T) (index : Nat) : Outcome (LinkedNodes T) :=
  match l.CheckIndex index with
  | .error e => .thrown e
  | .ok _ => Outcome.ofOption (l.unlink index)

/-- The member `ListSequence::Get`, on the nodes of its list `items`. -/
def SequenceGet (items : LinkedNodes T) (index : Nat) : Outcome T := items.Get index

/-- The member `ListSequence::RemoveNode`, on the nodes of its list `items`. -/
def SequenceRemoveNode (items : LinkedNodes T) (index : Nat) : Outcome (LinkedNodes T) :=
  items.RemoveNode index

/-- The member `ListSequence::InsertAt`, on the nodes of its list `items`. -/
def SequenceInsertAt (items : LinkedNodes T) (value : T) (index : Nat) :
    Outcome (LinkedNodes T) :=
  if index = 0 then items.Prepend value
  else if index = items.GetSize then items.Append value
  else items.InsertAt value index

end LinkedNodes

/-! ## SegmentDeque.hpp -/

/-- The struct `Segment<T>`. -/
structure Segment (T : Type) where
  data : MutableArraySequence T
  front_offset : Nat
  back_size : Nat
  deriving DecidableEq, Repr, Inhabited

namespace Segment

variable {T : Type} [Inhabited T]

/-- The constructor `Segment(MutableArraySequence<T>* arr)`. -/
def ofData (arr : MutableArraySequence T) : Segment T := ⟨arr, 0, 0⟩

/-- The member `Segment::GetEffectiveSize`. -/
def GetEffectiveSize (s : Segment T) : Nat := usub s.back_size s.front_offset

/-- The member `Segment::IsEmpty`. -/
def IsEmpty (s : Segment T) : Bool := decide (s.front_offset ≥ s.back_size)

/-- The member `Segment::Get`. -/
def Get (s : Segment T) (index : Nat) : Except Error T := s.data.Get (s.front_offset + index)

end Segment

/-- The class `SegmentDeque<T>`.  The chain holds the segments themselves: a
write through a `Segment<T>*` taken from the chain is a write to that node. -/
structure SegmentDeque (T : Type) where
  segment_capacity : Nat
  total_size : Nat
  segments : ListSequence (Segment T)
  deriving DecidableEq, Repr, Inhabited

/-- The outcome of a member function that modifies the deque: what it returned
or threw, and the deque as it stands afterwards. -/
abbrev Effect (T : Type) := Except Error Unit × SegmentDeque T

/-- The container type returned by the callable given to `FlatMap`: a template
parameter of which the member uses the interface `GetSize()` and `Get(j)`. -/
structure Container (U : Type) where
  GetSize : Nat
  Get : Nat → U

namespace SegmentDeque

variable {T : Type} [Inhabited T]

/-- A write through the segment pointer held by node `i` of the chain. -/
def setSegment (d : SegmentDeque T) (i : Nat) (s : Segment T) : SegmentDeque T :=
  { d with segments := ⟨⟨d.segments.items.nodes.set i s⟩⟩ }

/-- The constructor `SegmentDeque(size_t segment_capacity)`. -/
def Construct (segment_capacity : Nat) : Except Error (SegmentDeque T) :=
  if segment_capacity = 0 then .error (.invalid_argument "segment_capacity == 0")
  else
    let initial_segment : Segment T := Segment.ofData (MutableArraySequence.ofSize segment_capacity)
    .ok { segment_capacity := segment_capacity, total_size := 0,
          segments := ListSequence.empty.Append initial_segment }

/-- The default argument `segment_capacity = 16` of the constructor. -/
def defaultCapacity : Nat := 16

/-- The member `SegmentDeque::GetSegmentCount`. -/
def GetSegmentCount (d : SegmentDeque T) : Nat := d.segments.GetSize

/-- The member `SegmentDeque::GetSegment`. -/
def GetSegment (d : SegmentDeque T) (index : Nat) : Except Error (Segment T) :=
  if index ≥ d.segments.GetSize then .error (.out_of_range "Segment index out of range")
  else d.segments.Get index

/-- The member `SegmentDeque::GetSize`. -/
def GetSize (d : SegmentDeque T) : Nat := d.total_size

/-- The member `SegmentDeque::IsEmpty`. -/
def IsEmpty (d : SegmentDeque T) : Bool := decide (d.total_size = 0)

/-- The member `SegmentDeque::CheckBackCapacity`. -/
def CheckBackCapacity (d : SegmentDeque T) : Effect T :=
  match d.segments.Get (usub d.segments.GetSize 1) with
  | .error e => (.error e, d)
  | .ok last =>
    if last.back_size ≥ d.segment_capacity then
      let new_segment : Segment T := Segment.ofData (MutableArraySequence.ofSize d.segment_capacity)
      (.ok (), { d with segments := d.segments.Append new_segment })
    else (.ok (), d)

/-- The member `SegmentDeque::CheckFrontCapacity`. -/
def CheckFrontCapacity (d : SegmentDeque T) : Effect T :=
  match d.segments.Get 0 with
  | .error e => (.error e, d)
  | .ok first =>
    if first.front_offset = 0 then
      let new_segment : Segment T := Segment.ofData (MutableArraySequence.ofSize d.segment_capacity)
      let new_segment := { new_segment with back_size := d.segment_capacity }
      let new_segment := { new_segment with front_offset := d.segment_capacity }
      (.ok (), { d with segments := d.segments.Prepend new_segment })
    else (.ok (), d)

/-- The member `SegmentDeque::Append`. -/
def Append (d : SegmentDeque T) (value : T) : Effect T :=
  match CheckBackCapacity d with
  | (.error e, d1) => (.error e, d1)
  | (.ok _, d1) =>
    let idx := usub d1.segments.GetSize 1
    match d1.segments.Get idx with
    | .error e => (.error e, d1)
    | .ok last =>
      match (if last.back_size ≥ last.data.GetSize then last.data.Append value
             else last.data.Set value last.back_size) with
      | .error e => (.error e, d1)
      | .ok data1 =>
        let d2 := d1.setSegment idx { last with data := data1, back_size := last.back_size + 1 }
        (.ok (), { d2 with total_size := d2.total_size + 1 })

/-- The member `SegmentDeque::Prepend`. -/
def Prepend (d : SegmentDeque T) (value : T) : Effect T :=
  match CheckFrontCapacity d with
  | (.error e, d1) => (.error e, d1)
  | (.ok _, d1) =>
    match d1.segments.Get 0 with
    | .error e => (.error e, d1)
    | .ok first =>
      let first1 := { first with front_offset := usub first.front_offset 1 }
      let d2 := d1.setSegment 0 first1
      if first1.front_offset < first1.data.GetSize then
        match first1.data.Set value first1.front_offset with
        | .error e => (.error e, d2)
        | .ok data1 =>
          let d3 := d2.setSegment 0 { first1 with data := data1 }
          (.ok (), { d3 with total_size := d3.total_size + 1 })
      else (.error (.runtime_error "Front capacity check failed"), d2)

/-- The first loop of `CleanupEmptySegments`.  Every iteration removes a node, so
the loop makes at most `GetSize()` iterations; `fuel` bounds their number. -/
def cleanupFrontLoop : Nat → SegmentDeque T → Effect T
  | 0, d => (.ok (), d)
  | fuel + 1, d =>
    if d.segments.GetSize > 1 then
      match d.segments.Get 0 with
      | .error e => (.error e, d)
      | .ok first =>
        if first.IsEmpty then
          match d.segments.RemoveNode 0 with
          | .error e => (.error e, d)
          | .ok segments1 => cleanupFrontLoop fuel { d with segments := segments1 }
        else (.ok (), d)
    else (.ok (), d)

/-- The second loop of `CleanupEmptySegments`, with the same bound. -/
def cleanupBackLoop : Nat → SegmentDeque T → Effect T
  | 0, d => (.ok (), d)
  | fuel + 1, d =>
    if d.segments.GetSize > 1 then
      match d.segments.Get (usub d.segments.GetSize 1) with
      | .error e => (.error e, d)
      | .ok last =>
        if last.IsEmpty then
          match d.segments.RemoveNode (usub d.segments.GetSize 1) with
          | .error e => (.error e, d)
          | .ok segments1 => cleanupBackLoop fuel { d with segments := segments1 }
        else (.ok (), d)
    else (.ok (), d)

/-- The member `SegmentDeque::CleanupEmptySegments`. -/
def CleanupEmptySegments (d : SegmentDeque T) : Effect T :=
  match cleanupFrontLoop d.segments.GetSize d with
  | (.error e, d1) => (.error e, d1)
  | (.ok _, d1) => cleanupBackLoop d1.segments.GetSize d1

/-- The loop of `PopBack`, `for (int i = GetSize() - 1; i >= 0; i--)`, entered
with `i + 1` as first argument (the chain length is taken to fit an `int`). -/
def popBackLoop : Nat → SegmentDeque T → Effect T
  | 0, d => (.ok (), d)
  | i + 1, d =>
    match d.segments.Get i with
    | .error e => (.error e, d)
    | .ok segment =>
      if !segment.IsEmpty then
        let d1 := d.setSegment i { segment with back_size := usub segment.back_size 1 }
        (.ok (), { d1 with total_size := usub d1.total_size 1 })
      else popBackLoop i d

/-- The member `SegmentDeque::PopBack`. -/
def PopBack (d : SegmentDeque T) : Effect T :=
  if d.total_size = 0 then (.error (.out_of_range "PopBack from empty deque"), d)
  else
    match popBackLoop d.segments.GetSize d with
    | (.error e, d1) => (.error e, d1)
    | (.ok _, d1) => CleanupEmptySegments d1

/-- The loop of `PopFront`, `for (size_t i = 0; i < GetSize(); i++)`, entered at
`i` with `GetSize() - i` iterations left. -/
def popFrontLoop : Nat → Nat → SegmentDeque T → Effect T
  | 0, _, d => (.ok (), d)
  | rem + 1, i, d =>
    match d.segments.Get i with
    | .error e => (.error e, d)
    | .ok segment =>
      if !segment.IsEmpty then
        let d1 := d.setSegment i { segment with front_offset := segment.front_offset + 1 }
        (.ok (), { d1 with total_size := usub d1.total_size 1 })
      else popFrontLoop rem (i + 1) d

/-- The member `SegmentDeque::PopFront`. -/
def PopFront (d : SegmentDeque T) : Effect T :=
  if d.total_size = 0 then (.error (.out_of_range "PopFront from empty deque"), d)
  else
    match popFrontLoop d.segments.GetSize 0 d with
    | (.error e, d1) => (.error e, d1)
    | (.ok _, d1) => CleanupEmptySegments d1

/-- The segment walk of `Get`, `for (size_t i = 0; i < GetSize(); i++)`, entered
at `i` with `GetSize() - i` iterations left. -/
def getLoop (d : SegmentDeque T) (index : Nat) : Nat → Nat → Nat → Except Error T
  | 0, _, _ => .error (.out_of_range "Index calculation error")
  | rem + 1, i, current_index =>
    match d.segments.Get i with
    | .error e => .error e
    | .ok segment =>
      let segment_size := segment.GetEffectiveSize
      if current_index + segment_size > index then segment.Get (usub index current_index)
      else getLoop d index rem (i + 1) (current_index + segment_size)

/-- The member `SegmentDeque::Get` (both overloads run the same walk). -/
def Get (d : SegmentDeque T) (index : Nat) : Except Error T :=
  if index ≥ d.total_size then .error (.out_of_range "Index out of range")
  else getLoop d index d.segments.GetSize 0 0

/-- The loop of `Map`, `for (size_t i = 0; i < GetSize(); ++i)`, entered at `i`
with `GetSize() - i` iterations left. -/
def mapLoop {U : Type} [Inhabited U] (d : SegmentDeque T) (func : T → U) :
    Nat → Nat → SegmentDeque U → Except Error (SegmentDeque U)
  | 0, _, result => .ok result
  | rem + 1, i, result =>
    match d.Get i with
    | .error e => .error e
    | .ok x =>
      match result.Append (func x) with
      | (.error e, _) => .error e
      | (.ok _, result1) => mapLoop d func rem (i + 1) result1

/-- The member `SegmentDeque::Map`. -/
def Map {U : Type} [Inhabited U] (d : SegmentDeque T) (func : T → U) :
    Except Error (SegmentDeque U) :=
  match (Construct d.segment_capacity : Except Error (SegmentDeque U)) with
  | .error e => .error e
  | .ok result => mapLoop d func d.GetSize 0 result

/-- The inner loop of `FlatMap`, `for (size_t j = 0; j < intermediate.GetSize(); ++j)`,
entered at `j` with `intermediate.GetSize() - j` iterations left. -/
def flatMapInner {U : Type} [Inhabited U] (intermediate : Container U) :
    Nat → Nat → SegmentDeque U → Except Error (SegmentDeque U)
  | 0, _, result => .ok result
  | rem + 1, j, result =>
    match result.Append (intermediate.Get j) with
    | (.error e, _) => .error e
    | (.ok _, result1) => flatMapInner intermediate rem (j + 1) result1

/-- The outer loop of `FlatMap`, `for (size_t i = 0; i < GetSize(); ++i)`, entered at
`i` with `GetSize() - i` iterations left. -/
def flatMapLoop {U : Type} [Inhabited U] (d : SegmentDeque T) (func : T → Container U) :
    Nat → Nat → SegmentDeque U → Except Error (SegmentDeque U)
  | 0, _, result => .ok result
  | rem + 1, i, result =>
    match d.Get i with
    | .error e => .error e
    | .ok x =>
      let intermediate := func x
      match flatMapInner intermediate intermediate.GetSize 0 result with
      | .error e => .error e
      | .ok result1 => flatMapLoop d func rem (i + 1) result1

/-- The member `SegmentDeque::FlatMap`. -/
def FlatMap {U : Type} [Inhabited U] (d : SegmentDeque T) (func : T → Container U) :
    Except Error (SegmentDeque U) :=
  match (Construct d.segment_capacity : Except Error (SegmentDeque U)) with
  | .error e => .error e
  | .ok result => flatMapLoop d func d.GetSize 0 result

/-- The loop of `Reduce`, `for (size_t i = 0; i < GetSize(); ++i)`, entered at `i`
with `GetSize() - i` iterations left. -/
def reduceLoop (d : SegmentDeque T) (func : T → T → T) : Nat → Nat → T → Except Error T
  | 0, _, result => .ok result
  | rem + 1, i, result =>
    match d.Get i with
    | .error e => .error e
    | .ok x => reduceLoop d func rem (i + 1) (func result x)

/-- The member `SegmentDeque::Reduce`. -/
def Reduce (d : SegmentDeque T) (func : T → T → T) (init : T) : Except Error T :=
  reduceLoop d func d.GetSize 0 init

/-- The loop of `Where`, `for (size_t i = 0; i < GetSize(); ++i)`, entered at `i`
with `GetSize() - i` iterations left. -/
def whereLoop (d : SegmentDeque T) (predicate : T → Bool) :
    Nat → Nat → SegmentDeque T → Except Error (SegmentDeque T)
  | 0, _, result => .ok result
  | rem + 1, i, result =>
    match d.Get i with
    | .error e => .error e
    | .ok x =>
      if predicate x then
        match d.Get i with
        | .error e => .error e
        | .ok y =>
          match result.Append y with
          | (.error e, _) => .error e
          | (.ok _, result1) => whereLoop d predicate rem (i + 1) result1
      else whereLoop d predicate rem (i + 1) result

/-- The member `SegmentDeque::Where`. -/
def Where (d : SegmentDeque T) (predicate : T → Bool) : Except Error (SegmentDeque T) :=
  match (Construct d.segment_capacity : Except Error (SegmentDeque T)) with
  | .error e => .error e
  | .ok result => whereLoop d predicate d.GetSize 0 result

end SegmentDeque

/-! ## SegmentDeque.hpp: the iterators

The `container` pointer of an iterator is embedded by passing the deque to every
member call.  A `T&` handed out for writing is embedded by the slot it refers to. -/

section Iterators

variable {T : Type} [Inhabited T]

/-- The loop `while (segment_idx < GetSegmentCount() &&
GetSegment(segment_idx)->IsEmpty()) segment_idx++;` of the `Next` members.  Every
iteration advances `segment_idx`, so the loop makes at most `GetSegmentCount()`
iterations; `fuel` bounds their number.  The result is the outcome and the value of
`segment_idx` reached. -/
def skipEmptySegments (d : SegmentDeque T) : Nat → Nat → Except Error Unit × Nat
  | 0, segment_idx => (.ok (), segment_idx)
  | fuel + 1, segment_idx =>
    if segment_idx < d.GetSegmentCount then
      match d.GetSegment segment_idx with
      | .error e => (.error e, segment_idx)
      | .ok segment =>
        if segment.IsEmpty then skipEmptySegments d fuel (segment_idx + 1)
        else (.ok (), segment_idx)
    else (.ok (), segment_idx)

/-- The class `ConstDequeIterator<T>`. -/
structure ConstDequeIterator where
  segment_idx : Nat
  pos_in_segment : Nat
  started : Bool
  deriving DecidableEq, Repr, Inhabited

/-- The member `SegmentDeque::GetIterator`. -/
def SegmentDeque.GetIterator (_d : SegmentDeque T) : ConstDequeIterator := ⟨0, 0, false⟩

/-- The member `ConstDequeIterator::Next`. -/
def ConstDequeIterator.Next (it : ConstDequeIterator) (d : SegmentDeque T) :
    Except Error Bool × ConstDequeIterator :=
  if !it.started then
    let it1 := { it with started := true }
    match skipEmptySegments d d.GetSegmentCount it1.segment_idx with
    | (.error e, idx) => (.error e, { it1 with segment_idx := idx })
    | (.ok _, idx) => (.ok (decide (idx < d.GetSegmentCount)), { it1 with segment_idx := idx })
  else if it.segment_idx ≥ d.GetSegmentCount then (.ok false, it)
  else
    match d.GetSegment it.segment_idx with
    | .error e => (.error e, it)
    | .ok segment =>
      let it1 := { it with pos_in_segment := it.pos_in_segment + 1 }
      if it1.pos_in_segment ≥ segment.GetEffectiveSize then
        let it2 := { it1 with segment_idx := it1.segment_idx + 1, pos_in_segment := 0 }
        match skipEmptySegments d d.GetSegmentCount it2.segment_idx with
        | (.error e, idx) => (.error e, { it2 with segment_idx := idx })
        | (.ok _, idx) =>
          (.ok (decide (idx < d.GetSegmentCount)), { it2 with segment_idx := idx })
      else (.ok (decide (it1.segment_idx < d.GetSegmentCount)), it1)

/-- The member `ConstDequeIterator::Get`. -/
def ConstDequeIterator.Get (it : ConstDequeIterator) (d : SegmentDeque T) : Except Error T :=
  if !it.started || it.segment_idx ≥ d.GetSegmentCount then
    .error (.out_of_range "Iterator out of range")
  else
    match d.GetSegment it.segment_idx with
    | .error e => .error e
    | .ok segment => segment.Get it.pos_in_segment

/-- The class `MutableDequeIterator<T>`. -/
structure MutableDequeIterator where
  segment_idx : Nat
  pos_in_segment : Nat
  started : Bool
  deriving DecidableEq, Repr, Inhabited

/-- The member `SegmentDeque::GetMutableIterator`. -/
def SegmentDeque.GetMutableIterator (_d : SegmentDeque T) : MutableDequeIterator :=
  ⟨0, 0, false⟩

/-- The member `MutableDequeIterator::Next`. -/
def MutableDequeIterator.Next (it : MutableDequeIterator) (d : SegmentDeque T) :
    Except Error Bool × MutableDequeIterator :=
  if !it.started then
    let it1 := { it with started := true }
    match skipEmptySegments d d.GetSegmentCount it1.segment_idx with
    | (.error e, idx) => (.error e, { it1 with segment_idx := idx })
    | (.ok _, idx) => (.ok (decide (idx < d.GetSegmentCount)), { it1 with segment_idx := idx })
  else if it.segment_idx ≥ d.GetSegmentCount then (.ok false, it)
  else
    match d.GetSegment it.segment_idx with
    | .error e => (.error e, it)
    | .ok segment =>
      let it1 := { it with pos_in_segment := it.pos_in_segment + 1 }
      if it1.pos_in_segment ≥ segment.GetEffectiveSize then
        let it2 := { it1 with segment_idx := it1.segment_idx + 1, pos_in_segment := 0 }
        match skipEmptySegments d d.GetSegmentCount it2.segment_idx with
        | (.error e, idx) => (.error e, { it2 with segment_idx := idx })
        | (.ok _, idx) =>
          (.ok (decide (idx < d.GetSegmentCount)), { it2 with segment_idx := idx })
      else (.ok (decide (it1.segment_idx < d.GetSegmentCount)), it1)

/-- The member `MutableDequeIterator::Get`, by the value read through the reference. -/
def MutableDequeIterator.Get (it : MutableDequeIterator) (d : SegmentDeque T) : Except Error T :=
  if !it.started || it.segment_idx ≥ d.GetSegmentCount then
    .error (.out_of_range "Iterator out of range")
  else
    match d.GetSegment it.segment_idx with
    | .error e => .error e
    | .ok segment => segment.Get it.pos_in_segment

/-- What a `T&` into the deque refers to: slot `slot` of the buffer owned by the
segment at position `segment` of the chain. -/
structure ElementRef where
  segment : Nat
  slot : Nat
  deriving DecidableEq, Repr, Inhabited

/-- The member `MutableDequeIterator::Get`, by the reference it returns: the checks
of `Get`, `GetSegment` and `DynamicArray::Get`, then the slot
`front_offset + pos_in_segment` of the segment's buffer. -/
def MutableDequeIterator.GetRef (it : MutableDequeIterator) (d : SegmentDeque T) :
    Except Error ElementRef :=
  if !it.started || it.segment_idx ≥ d.GetSegmentCount then
    .error (.out_of_range "Iterator out of range")
  else
    match d.GetSegment it.segment_idx with
    | .error e => .error e
    | .ok segment =>
      match segment.data.items.CheckIndex (segment.front_offset + it.pos_in_segment) with
      | .error e => .error e
      | .ok _ => .ok ⟨it.segment_idx, segment.front_offset + it.pos_in_segment⟩

/-- Reading through a reference into the deque. -/
def SegmentDeque.load (d : SegmentDeque T) (r : ElementRef) : T :=
  match d.segments.items.nodes[r.segment]? with
  | none => default
  | some segment => segment.data.items.items[r.slot]?.getD default

/-- Assigning through a reference into the deque. -/
def SegmentDeque.store (d : SegmentDeque T) (r : ElementRef) (value : T) : SegmentDeque T :=
  match d.segments.items.nodes[r.segment]? with
  | none => d
  | some segment =>
    d.setSegment r.segment { segment with data := ⟨⟨segment.data.items.items.set r.slot value⟩⟩ }

/-- The segment walk of the non-const `SegmentDeque::Get`, by the reference it returns:
the slot reached by `segment->Get(index - current_index)` through
`MutableArraySequence::Get` and `DynamicArray::Get`, after the latter's `CheckIndex`. -/
def SegmentDeque.getRefLoop (d : SegmentDeque T) (index : Nat) :
    Nat → Nat → Nat → Except Error ElementRef
  | 0, _, _ => .error (.out_of_range "Index calculation error")
  | rem + 1, i, current_index =>
    match d.segments.Get i with
    | .error e => .error e
    | .ok segment =>
      let segment_size := segment.GetEffectiveSize
      if current_index + segment_size > index then
        match segment.data.items.CheckIndex (segment.front_offset + usub index current_index) with
        | .error e => .error e
        | .ok _ => .ok ⟨i, segment.front_offset + usub index current_index⟩
      else SegmentDeque.getRefLoop d index rem (i + 1) (current_index + segment_size)

/-- The non-const member `SegmentDeque::Get`, by the reference it returns. -/
def SegmentDeque.GetRef (d : SegmentDeque T) (index : Nat) : Except Error ElementRef :=
  if index ≥ d.total_size then .error (.out_of_range "Index out of range")
  else d.getRefLoop index d.segments.GetSize 0 0

/-- The statement `deque.Get(index) = value;` of `InteractiveDeque::HandleSet`. -/
def SegmentDeque.assign (d : SegmentDeque T) (index : Nat) (value : T) : Effect T :=
  match d.GetRef index with
  | .error e => (.error e, d)
  | .ok r => (.ok (), d.store r value)

end Iterators

/-! ## Link traversals

The part of the running time of a member call that depends on the length of the
chain: the number of executions of `current_node = current_node->next` and of
`current_node = current_node->prev` the call makes inside `LinkedList::Get` and
`LinkedList::RemoveNode`.  Each function below follows the control flow of the member
it accompanies and adds up the iterations of those two loops; every other statement
of the members counts for nothing. -/

section LinkTraversals

variable {T : Type} [Inhabited T]

/-- The iterations of `for (size_t i = 0; i < index; i++) current_node =
current_node->next;` in `LinkedList::Get`: the walk starts from `head` whatever the
index, and `CheckIndex` throws before it on an invalid index. -/
def LinkedList.GetSteps (l : LinkedList T) (index : Nat) : Nat :=
  match l.CheckIndex index with
  | .error _ => 0
  | .ok _ => index

/-- The iterations of the walk of `LinkedList::RemoveNode`: `index` links from `head`
if `index < size - index`, and `size - 1 - index` links back from `tail` otherwise. -/
def LinkedList.RemoveNodeSteps (l : LinkedList T) (index : Nat) : Nat :=
  match l.CheckIndex index with
  | .error _ => 0
  | .ok _ =>
    if index < usub l.GetSize index then index
    else usub (usub l.GetSize 1) index

/-- The link traversals of `ListSequence::Get`, which forwards to `LinkedList::Get`. -/
def ListSequence.GetSteps (s : ListSequence T) (index : Nat) : Nat := s.items.GetSteps index

/-- The link traversals of `ListSequence::RemoveNode`, which forwards to
`LinkedList::RemoveNode`. -/
def ListSequence.RemoveNodeSteps (s : ListSequence T) (index : Nat) : Nat :=
  s.items.RemoveNodeSteps index

/-- The link traversals of `SegmentDeque::CheckBackCapacity`: those of
`segments->Get(segments->GetSize() - 1)`; `segments->Append` uses `tail` and walks no
link. -/
def SegmentDeque.CheckBackCapacitySteps (d : SegmentDeque T) : Nat :=
  d.segments.GetSteps (usub d.segments.GetSize 1)

/-- The link traversals of `SegmentDeque::CheckFrontCapacity`: those of
`segments->Get(0)`; `segments->Prepend` uses `head` and walks no link. -/
def SegmentDeque.CheckFrontCapacitySteps (d : SegmentDeque T) : Nat :=
  d.segments.GetSteps 0

/-- The link traversals of `SegmentDeque::Append`: `CheckBackCapacity()`, then
`segments->Get(segments->GetSize() - 1)` on the chain it leaves. -/
def SegmentDeque.AppendSteps (d : SegmentDeque T) : Nat :=
  d.CheckBackCapacitySteps +
    match d.CheckBackCapacity with
    | (.error _, _) => 0
    | (.ok _, d1) => d1.segments.GetSteps (usub d1.segments.GetSize 1)

/-- The link traversals of `SegmentDeque::Prepend`: `CheckFrontCapacity()`, then
`segments->Get(0)` on the chain it leaves. -/
def SegmentDeque.PrependSteps (d : SegmentDeque T) : Nat :=
  d.CheckFrontCapacitySteps +
    match d.CheckFrontCapacity with
    | (.error _, _) => 0
    | (.ok _, d1) => d1.segments.GetSteps 0

/-- The link traversals of the first loop of `CleanupEmptySegments`: `segments->Get(0)`
in the condition, and `segments->Get(0)` and `segments->RemoveNode(0)` in the body. -/
def SegmentDeque.cleanupFrontLoopSteps : Nat → SegmentDeque T → Nat
  | 0, _ => 0
  | fuel + 1, d =>
    if d.segments.GetSize > 1 then
      d.segments.GetSteps 0 +
        match d.segments.Get 0 with
        | .error _ => 0
        | .ok first =>
          if first.IsEmpty then
            d.segments.GetSteps 0 + d.segments.RemoveNodeSteps 0 +
              match d.segments.RemoveNode 0 with
              | .error _ => 0
              | .ok segments1 => cleanupFrontLoopSteps fuel { d with segments := segments1 }
          else 0
    else 0

/-- The link traversals of the second loop of `CleanupEmptySegments`:
`segments->Get(segments->GetSize() - 1)` in the condition, and the same call and
`segments->RemoveNode(segments->GetSize() - 1)` in the body. -/
def SegmentDeque.cleanupBackLoopSteps : Nat → SegmentDeque T → Nat
  | 0, _ => 0
  | fuel + 1, d =>
    if d.segments.GetSize > 1 then
      d.segments.GetSteps (usub d.segments.GetSize 1) +
        match d.segments.Get (usub d.segments.GetSize 1) with
        | .error _ => 0
        | .ok last =>
          if last.IsEmpty then
            d.segments.GetSteps (usub d.segments.GetSize 1) +
              d.segments.RemoveNodeSteps (usub d.segments.GetSize 1) +
              match d.segments.RemoveNode (usub d.segments.GetSize 1) with
              | .error _ => 0
              | .ok segments1 => cleanupBackLoopSteps fuel { d with segments := segments1 }
          else 0
    else 0

/-- The link traversals of `SegmentDeque::CleanupEmptySegments`. -/
def SegmentDeque.CleanupEmptySegmentsSteps (d : SegmentDeque T) : Nat :=
  d.cleanupFrontLoopSteps d.segments.GetSize +
    match d.cleanupFrontLoop d.segments.GetSize with
    | (.error _, _) => 0
    | (.ok _, d1) => d1.cleanupBackLoopSteps d1.segments.GetSize

/-- The link traversals of the loop of `PopBack`: `segments->Get(i)` in every
iteration. -/
def SegmentDeque.popBackLoopSteps : Nat → SegmentDeque T → Nat
  | 0, _ => 0
  | i + 1, d =>
    d.segments.GetSteps i +
      match d.segments.Get i with
      | .error _ => 0
      | .ok segment => if !segment.IsEmpty then 0 else popBackLoopSteps i d

/-- The link traversals of `SegmentDeque::PopBack`. -/
def SegmentDeque.PopBackSteps (d : SegmentDeque T) : Nat :=
  if d.total_size = 0 then 0
  else
    d.popBackLoopSteps d.segments.GetSize +
      match d.popBackLoop d.segments.GetSize with
      | (.error _, _) => 0
      | (.ok _, d1) => d1.CleanupEmptySegmentsSteps

/-- The link traversals of the loop of `PopFront`: `segments->Get(i)` in every
iteration. -/
def SegmentDeque.popFrontLoopSteps : Nat → Nat → SegmentDeque T → Nat
  | 0, _, _ => 0
  | rem + 1, i, d =>
    d.segments.GetSteps i +
      match d.segments.Get i with
      | .error _ => 0
      | .ok segment => if !segment.IsEmpty then 0 else popFrontLoopSteps rem (i + 1) d

/-- The link traversals of `SegmentDeque::PopFront`. -/
def SegmentDeque.PopFrontSteps (d : SegmentDeque T) : Nat :=
  if d.total_size = 0 then 0
  else
    d.popFrontLoopSteps d.segments.GetSize 0 +
      match d.popFrontLoop d.segments.GetSize 0 with
      | (.error _, _) => 0
      | (.ok _, d1) => d1.CleanupEmptySegmentsSteps

end LinkTraversals

/-! ## Abstraction: element sequence, representation invariant, reachable states -/

variable {T : Type} [Inhabited T]

/-- The logically valid elements of a segment: the buffer slots from
`front_offset` up to `back_size`. -/
def Segment.window (s : Segment T) : List T :=
  (s.data.items.items.drop s.front_offset).take (s.back_size - s.front_offset)

/-- The cursors of a segment lie in order inside its buffer of `c` slots. -/
def Segment.WF (c : Nat) (s : Segment T) : Prop :=
  s.front_offset ≤ s.back_size ∧ s.back_size ≤ c ∧ s.data.items.items.length = c

/-- The element sequence of a chain of segments, in chain order. -/
def chainElems (l : List (Segment T)) : List T := (l.map Segment.window).flatten

/-- The logical element sequence of a deque. -/
def SegmentDeque.toList (d : SegmentDeque T) : List T := chainElems d.segments.items.nodes

/-- The representation invariant of the deque. -/
structure SegmentDeque.WF (d : SegmentDeque T) : Prop where
  cap_pos : 0 < d.segment_capacity
  chain_ne : d.segments.items.nodes ≠ []
  segs : ∀ s ∈ d.segments.items.nodes, Segment.WF d.segment_capacity s
  size_eq : d.total_size = d.toList.length

/-- The deque states a client can reach: a successful construction followed by
any number of calls of the four modifiers. -/
inductive SegmentDeque.Reachable : SegmentDeque T → Prop
  | construct (c : Nat) (d : SegmentDeque T) : SegmentDeque.Construct c = .ok d → Reachable d
  | append (d : SegmentDeque T) (v : T) : Reachable d → Reachable (d.Append v).2
  | prepend (d : SegmentDeque T) (v : T) : Reachable d → Reachable (d.Prepend v).2
  | popBack (d : SegmentDeque T) : Reachable d → Reachable d.PopBack.2
  | popFront (d : SegmentDeque T) : Reachable d → Reachable d.PopFront.2

/-! ## Client programs used to state the properties -/

/-- The client loop `for v in values: deque.Append(v)`. -/
def SegmentDeque.AppendAll (d : SegmentDeque T) (values : List T) : SegmentDeque T :=
  values.foldl (fun acc v => (acc.Append v).2) d

/-- The client loop `for v in values: deque.Prepend(v)`. -/
def SegmentDeque.PrependAll (d : SegmentDeque T) (values : List T) : SegmentDeque T :=
  values.foldl (fun acc v => (acc.Prepend v).2) d

/-- The value of `current_index` when the walk of `Get` enters segment `k`: the
effective sizes of the segments before it, added up. -/
def SegmentDeque.accumulated (d : SegmentDeque T) (k : Nat) : Nat :=
  ((d.segments.items.nodes.take k).map Segment.GetEffectiveSize).sum

/-- A freshly constructed `SegmentDeque<int>` of segment capacity 2. -/
def fresh2 : SegmentDeque Int :=
  { segment_capacity := 2, total_size := 0, segments := ⟨⟨[⟨⟨⟨[0, 0]⟩⟩, 0, 0⟩]⟩⟩ }

/-- The deque of capacity 2 after `Append(1); Append(2); Append(3); PopFront()`:
elements 2, 3 with one slot of front slack. -/
def sampleSlack : SegmentDeque Int :=
  (((fresh2.Append 1).2.Append 2).2.Append 3).2.PopFront.2

/-- The deque of capacity 2 after `Prepend(1); Prepend(2)`: elements 2, 1 in the
first segment, followed by an empty last segment. -/
def sampleEmptyLast : SegmentDeque Int :=
  ((fresh2.Prepend 1).2.Prepend 2).2

/-- The deque of capacity 2 after `Append(1); Append(2); PopFront(); PopFront();
Append(3); Append(4)`: an empty first segment followed by the elements 3, 4. -/
def sampleEmptyFirst : SegmentDeque Int :=
  ((((((fresh2.Append 1).2.Append 2).2.PopFront).2.PopFront).2.Append 3).2.Append 4).2



/-- The values 0..9 appended by `Tests::TestBoundaryConditions`. -/
def boundaryBack : List Int := (List.range 10).map Int.ofNat

/-- The values 10..19 prepended by `Tests::TestBoundaryConditions`. -/
def boundaryFront : List Int := (List.range 10).map (fun i => Int.ofNat (i + 10))




/-- One call of a modifier of the deque, as a client issues it. -/
inductive Op (T : Type) where
  | append (v : T)
  | prepend (v : T)
  | popBack
  | popFront
  deriving Repr

/-- The call `op` made on the deque `d`. -/
def Op.call (op : Op T) (d : SegmentDeque T) : Effect T :=
  match op with
  | .append v => d.Append v
  | .prepend v => d.Prepend v
  | .popBack => d.PopBack
  | .popFront => d.PopFront

/-- Whether the call is an `Append` or a `Prepend`. -/
def Op.isInsert : Op T → Bool
  | .append _ => true
  | .prepend _ => true
  | .popBack => false
  | .popFront => false

/-- Whether a call returned normally. -/
def returned (r : Except Error Unit) : Bool :=
  match r with
  | .ok _ => true
  | .error _ => false

/-- The deque after a sequence of calls, every exception being caught by the client. -/
def runOps : List (Op T) → SegmentDeque T → SegmentDeque T
  | [], d => d
  | op :: ops, d => runOps ops (op.call d).2

/-- The number of `Append` and `Prepend` calls in a sequence of calls. -/
def insertCalls (ops : List (Op T)) : Nat := (ops.filter Op.isInsert).length

/-- The number of `PopBack` and `PopFront` calls of the sequence that returned normally. -/
def successfulPops : List (Op T) → SegmentDeque T → Nat
  | [], _ => 0
  | op :: ops, d =>
    (if !op.isInsert && returned (op.call d).1 then 1 else 0) + successfulPops ops (op.call d).2

/-- The number of calls of the sequence that threw. -/
def failedCalls : List (Op T) → SegmentDeque T → Nat
  | [], _ => 0
  | op :: ops, d =>
    (if returned (op.call d).1 then 0 else 1) + failedCalls ops (op.call d).2

/-- The insertions of `Tests::TestLargeOperations`: 1000 values, `Append` for the even
ones and `Prepend` for the odd ones. -/
def largeInserts : List (Op Int) :=
  (List.range 1000).map (fun i => if i % 2 = 0 then Op.append (Int.ofNat i) else Op.prepend (Int.ofNat i))

/-- The removals of `Tests::TestLargeOperations`: 500 pops, `PopBack` on even turns and
`PopFront` on odd ones. -/
def largePops : List (Op Int) :=
  (List.range 500).map (fun i => if i % 2 = 0 then Op.popBack else Op.popFront)

/-- The values `Get(0)`, ..., `Get(GetSize() - 1)` a client reads from the deque, in
index order. -/
def SegmentDeque.contents (d : SegmentDeque T) : List T :=
  (List.range d.GetSize).filterMap (fun i =>
    match d.Get i with
    | .ok x => some x
    | .error _ => none)

/-- The values `Get(0)`, ..., `Get(GetSize() - 1)` read from a container, in index order. -/
def Container.elements {U : Type} (c : Container U) : List U :=
  (List.range c.GetSize).map c.Get

/-- The deque of capacity 2 after `Append(1); ...; Append(5)`, the deque of
`Tests::TestFunctionalMethods`. -/
def sampleFive : SegmentDeque Int :=
  fresh2.AppendAll [1, 2, 3, 4, 5]

/-- A container holding its argument twice. -/
def twice (x : Int) : Container Int :=
  { GetSize := 2, Get := fun _ => x }

/-- The layout of the chain: every segment but the first has no front slack, every
segment but the last is filled to the back, and of a chain of two or more segments
the first and the last are not both empty. -/
structure SegmentDeque.Layout (d : SegmentDeque T) : Prop where
  tail_front : ∀ s ∈ d.segments.items.nodes.tail, s.front_offset = 0
  init_back : ∀ s ∈ d.segments.items.nodes.dropLast, s.back_size = d.segment_capacity
  ends : ∀ first last, d.segments.items.nodes.head? = some first →
    d.segments.items.nodes.getLast? = some last → 2 ≤ d.segments.items.nodes.length →
    first.IsEmpty = false ∨ last.IsEmpty = false

/-- The chain as boundary cleanup leaves it: a single segment, or a first and a last
segment that are both non-empty. -/
def SegmentDeque.Trimmed (d : SegmentDeque T) : Prop :=
  d.segments.items.nodes.length ≤ 1 ∨
    ((∀ first, d.segments.items.nodes.head? = some first → first.IsEmpty = false) ∧
     (∀ last, d.segments.items.nodes.getLast? = some last → last.IsEmpty = false))

/-- The deque of capacity 2 after `Append(1); Append(2); PopFront(); PopFront();
Append(3)`: not empty, with an empty first segment. -/
def sampleAppendAfterDrain : SegmentDeque Int :=
  (((((fresh2.Append 1).2.Append 2).2.PopFront).2.PopFront).2.Append 3).2

/-- The deque of capacity 2 after `Append(1); ...; Append(5); PopFront()`: three
segments, the first with front slack, the last partly filled. -/
def sampleThree : SegmentDeque Int :=
  (fresh2.AppendAll [1, 2, 3, 4, 5]).PopFront.2

/-- The iterator stands on the element of index `k` of the deque: it has started, its
segment exists, its position lies inside the effective size of that segment, and `k`
is the number of elements of the earlier segments plus that position. -/
def ConstDequeIterator.Positioned (it : ConstDequeIterator) (d : SegmentDeque T) (k : Nat) :
    Prop :=
  it.started = true ∧
    ∃ seg, d.segments.items.nodes[it.segment_idx]? = some seg ∧
      it.pos_in_segment < seg.GetEffectiveSize ∧
      k = d.accumulated it.segment_idx + it.pos_in_segment

/-- The iterator has started and has run past the last segment. -/
def ConstDequeIterator.Exhausted (it : ConstDequeIterator) (d : SegmentDeque T) : Prop :=
  it.started = true ∧ d.GetSegmentCount ≤ it.segment_idx

/-- The iterator after `k` successive calls of `Next()`. -/
def ConstDequeIterator.advance (d : SegmentDeque T) : Nat → ConstDequeIterator → ConstDequeIterator
  | 0, it => it
  | k + 1, it => ((ConstDequeIterator.advance d k it).Next d).2

/-- The members of a mutable iterator, read as those of a read-only one. -/
def MutableDequeIterator.toConst (it : MutableDequeIterator) : ConstDequeIterator :=
  ⟨it.segment_idx, it.pos_in_segment, it.started⟩

/-- The mutable iterator after `k` successive calls of `Next()`. -/
def MutableDequeIterator.advance (d : SegmentDeque T) :
    Nat → MutableDequeIterator → MutableDequeIterator
  | 0, it => it
  | k + 1, it => ((MutableDequeIterator.advance d k it).Next d).2

/-- The cursors `(front_offset, back_size)` of the segments of the chain, in order. -/
def SegmentDeque.cursors (d : SegmentDeque T) : List (Nat × Nat) :=
  d.segments.items.nodes.map (fun s => (s.front_offset, s.back_size))

/-- The client loop `while (it->Next()) { it->Get() = g(it->Get()); }` of
`Tests::TestIterator`, with the number of calls of `Next()` that returned true so
far.  `none` stands for a loop that has not ended within `fuel` iterations. -/
def mutateEach (g : T → T) :
    Nat → SegmentDeque T → MutableDequeIterator → Nat →
      Option (Except Error (SegmentDeque T × MutableDequeIterator × Nat))
  | 0, _, _, _ => none
  | fuel + 1, d, it, count =>
    match it.Next d with
    | (.error e, _) => some (.error e)
    | (.ok false, it1) => some (.ok (d, it1, count))
    | (.ok true, it1) =>
      match it1.GetRef d with
      | .error e => some (.error e)
      | .ok r => mutateEach g fuel (d.store r (g (d.load r))) it1 (count + 1)

/-- The deque inside `PopBack()`, after the loop that moves a cursor and before the call
of `CleanupEmptySegments()`. -/
def SegmentDeque.afterBackScan (d : SegmentDeque T) : SegmentDeque T :=
  (d.popBackLoop d.segments.GetSize).2

/-- The deque inside `PopFront()`, after the loop that moves a cursor and before the call
of `CleanupEmptySegments()`. -/
def SegmentDeque.afterFrontScan (d : SegmentDeque T) : SegmentDeque T :=
  (d.popFrontLoop d.segments.GetSize 0).2

/-- The deque of capacity 2 after `Prepend(1)` on a fresh deque: one element in the first
segment, followed by an empty last segment. -/
def sampleOneThenEmpty : SegmentDeque Int :=
  (fresh2.Prepend 1).2

/-- The deque of capacity 2 after `Append(1); Append(2); PopFront(); PopFront(); Append(3);
Append(4); Append(5)`: an empty first segment, then 3, 4 and then 5. -/
def sampleEmptyFirstThree : SegmentDeque Int :=
  (sampleEmptyFirst.Append 5).2

/-- The link traversals of the call `op` made on the deque `d`. -/
def Op.steps (op : Op T) (d : SegmentDeque T) : Nat :=
  match op with
  | .append _ => d.AppendSteps
  | .prepend _ => d.PrependSteps
  | .popBack => d.PopBackSteps
  | .popFront => d.PopFrontSteps

/-- The link traversals of a sequence of calls, added up. -/
def totalSteps : List (Op T) → SegmentDeque T → Nat
  | [], _ => 0
  | op :: ops, d => op.steps d + totalSteps ops (op.call d).2

/-- The number of empty segments of the chain. -/
def SegmentDeque.emptySegments (d : SegmentDeque T) : Nat :=
  d.segments.items.nodes.countP Segment.IsEmpty

/-- The nodes of `l` form the doubly linked list of the values `L`: the node holding
`L[k]` lies at address `addrs[k]`, its `next` is the address of the node holding
`L[k + 1]` and its `prev` that of the node holding `L[k - 1]` (`nullptr` at the ends);
`head` and `tail` are the first and the last address and `size` is the length. -/
def LinkedNodes.Represents {T : Type} (l : LinkedNodes T) (addrs : List Nat) (L : List T) :
    Prop :=
  addrs.length = L.length ∧ l.size = L.length ∧ addrs.Nodup ∧
  l.head = addrs[0]? ∧ l.tail = addrs[addrs.length - 1]? ∧
  ∀ k, k < L.length →
    (addrs[k]?.bind fun a => l.cells[a]?) =
      L[k]?.map fun x => (⟨x, addrs[k + 1]?, if k = 0 then none else addrs[k - 1]?⟩ : Node T)

instance {T : Type} [DecidableEq T] (l : LinkedNodes T) (addrs : List Nat) (L : List T) :
    Decidable (l.Represents addrs L) := by
  unfold LinkedNodes.Represents
  infer_instance

/-- The list of `int` built by `Append(10); Append(20); Append(30); Append(40)`. -/
def fourNodes : LinkedNodes Int :=
  { cells := [⟨10, some 1, none⟩, ⟨20, some 2, some 0⟩, ⟨30, some 3, some 1⟩, ⟨40, none, some 2⟩],
    head := some 0, tail := some 3, size := 4 }

/-- The list of `int` built by `Append(10); Append(20)`. -/
def twoNodes : LinkedNodes Int :=
  { cells := [⟨10, some 1, none⟩, ⟨20, none, some 0⟩], head := some 0, tail := some 1, size := 2 }

/-- The calls `Append(v)` for the values `v` of `values`, in order, as the constructor
`LinkedList(T* items, size_t size)` makes them. -/
def LinkedNodes.AppendAll {T : Type} (l : LinkedNodes T) : List T → Outcome (LinkedNodes T)
  | [] => .ok l
  | v :: values =>
    match l.Append v with
    | .ok l1 => LinkedNodes.AppendAll l1 values
    | .thrown e => .thrown e
    | .undefined => .undefined

/-- The nodes of `twoNodes` after `InsertAt(99, 1)`: the new node, at address 2, is linked
before the node of 10 and `head` still points at the node of 10. -/
def twoNodesInserted : LinkedNodes Int :=
  { cells := [⟨10, some 1, some 2⟩, ⟨20, none, some 0⟩, ⟨99, some 0, none⟩],
    head := some 0, tail := some 1, size := 3 }

/-- The nodes of `fourNodes` after `InsertAt(99, 2)`: the new node, at address 4, is linked
between the nodes of 10 and 20. -/
def fourNodesInserted : LinkedNodes Int :=
  { cells := [⟨10, some 4, none⟩, ⟨20, some 2, some 4⟩, ⟨30, some 3, some 1⟩,
      ⟨40, none, some 2⟩, ⟨99, some 1, some 0⟩],
    head := some 0, tail := some 3, size := 5 }

/-! ## The collaborators on valid indices -/

theorem usub_of_le {a b : Nat} (h : b ≤ a) : usub a b = a - b := by
  simp [usub, h]

theorem LinkedList.walkNext_eq (n p : Nat) : LinkedList.walkNext n p = p + n := by
  induction n generalizing p with
  | zero => rfl
  | succ n ih => simp [LinkedList.walkNext, ih]; omega

theorem LinkedList.walkPrev_eq (n p : Nat) : LinkedList.walkPrev n p = p - n := by
  induction n generalizing p with
  | zero => rfl
  | succ n ih => simp [LinkedList.walkPrev, ih]; omega

theorem LinkedList.CheckIndex_node_of_lt (l : LinkedList T) {i : Nat} (h : i < l.nodes.length) :
    l.CheckIndex i = .ok () := by
  have h1 : ¬ (i ≥ l.nodes.length ∨ l.nodes.length = 0) := by omega
  simp only [LinkedList.CheckIndex, LinkedList.GetSize, if_neg h1]

theorem DynamicArray.CheckIndex_slot_of_lt (a : DynamicArray T) {i : Nat} (h : i < a.items.length) :
    a.CheckIndex i = .ok () := by
  have h1 : ¬ (i ≥ a.items.length ∨ a.items.length = 0) := by omega
  simp only [DynamicArray.CheckIndex, DynamicArray.GetSize, if_neg h1]

theorem ListSequence.Get_node_of_lt (s : ListSequence T) {i : Nat} (h : i < s.items.nodes.length) :
    s.Get i = .ok (s.items.nodes[i]) := by
  simp [ListSequence.Get, LinkedList.Get, LinkedList.CheckIndex_node_of_lt _ h,
    LinkedList.walkNext_eq, List.getElem?_eq_getElem h]

theorem ListSequence.Get_of_getElem? (s : ListSequence T) {i : Nat} {x : T}
    (h : s.items.nodes[i]? = some x) : s.Get i = .ok x := by
  obtain ⟨hlt, hx⟩ := List.getElem?_eq_some.mp h
  rw [ListSequence.Get_node_of_lt s hlt, hx]

theorem ListSequence.RemoveNode_of_lt (s : ListSequence T) {i : Nat}
    (h : i < s.items.nodes.length) :
    s.RemoveNode i = .ok ⟨⟨s.items.nodes.eraseIdx i⟩⟩ := by
  have h1 : usub s.items.nodes.length i = s.items.nodes.length - i := usub_of_le (by omega)
  have h2 : usub s.items.nodes.length 1 = s.items.nodes.length - 1 := usub_of_le (by omega)
  have h3 : usub (s.items.nodes.length - 1) i = s.items.nodes.length - 1 - i :=
    usub_of_le (by omega)
  have h4 : s.items.nodes.length - 1 - (s.items.nodes.length - 1 - i) = i := by omega
  simp only [ListSequence.RemoveNode, LinkedList.RemoveNode, LinkedList.CheckIndex_node_of_lt _ h,
    LinkedList.GetSize, LinkedList.walkNext_eq, LinkedList.walkPrev_eq, h1, h2, h3, h4]
  simp

theorem MutableArraySequence.Get_slot_of_lt (a : MutableArraySequence T) {i : Nat}
    (h : i < a.items.items.length) : a.Get i = .ok (a.items.items[i]) := by
  simp [MutableArraySequence.Get, DynamicArray.Get, DynamicArray.CheckIndex_slot_of_lt _ h,
    List.getElem?_eq_getElem h]

theorem MutableArraySequence.Set_of_lt (a : MutableArraySequence T) (v : T) {i : Nat}
    (h : i < a.items.items.length) : a.Set v i = .ok ⟨⟨a.items.items.set i v⟩⟩ := by
  simp [MutableArraySequence.Set, DynamicArray.Set, DynamicArray.CheckIndex_slot_of_lt _ h]

/-! ## The window of a segment -/

theorem getElem?_append_length {α : Type} (A B : List α) (s : α) :
    (A ++ s :: B)[A.length]? = some s := by
  induction A with
  | nil => simp
  | cons a A ih => simpa using ih

theorem take_succ_set {α : Type} (v : α) (l : List α) (k : Nat) (h : k < l.length) :
    (l.set k v).take (k + 1) = l.take k ++ [v] := by
  induction l generalizing k with
  | nil => simp at h
  | cons a l ih =>
    cases k with
    | zero => simp
    | succ k => simpa using ih k (by simpa using h)

theorem drop_set_self {α : Type} (v : α) (l : List α) (j : Nat) (h : j < l.length) :
    (l.set j v).drop j = v :: l.drop (j + 1) := by
  induction l generalizing j with
  | nil => simp at h
  | cons a l ih =>
    cases j with
    | zero => simp
    | succ j => simpa using ih j (by simpa using h)

theorem Segment.window_length (s : Segment T) (h : s.back_size ≤ s.data.items.items.length) :
    s.window.length = s.back_size - s.front_offset := by
  simp only [Segment.window, List.length_take, List.length_drop]
  omega

theorem Segment.window_of_isEmpty (s : Segment T) (h : s.IsEmpty = true) : s.window = [] := by
  have h1 : s.back_size - s.front_offset = 0 := by
    simp only [Segment.IsEmpty, decide_eq_true_eq] at h
    omega
  simp [Segment.window, h1]

theorem Segment.window_getElem (s : Segment T) (k : Nat) (hk : k < s.window.length)
    (h : s.back_size ≤ s.data.items.items.length) :
    s.front_offset + k < s.data.items.items.length ∧
      s.window[k]? = s.data.items.items[s.front_offset + k]? := by
  have hl := s.window_length h
  refine ⟨by omega, ?_⟩
  simp only [Segment.window]
  rw [List.getElem?_take_of_lt (by omega), List.getElem?_drop]

theorem Segment.window_push (s : Segment T) (v : T) (h1 : s.front_offset ≤ s.back_size)
    (h2 : s.back_size < s.data.items.items.length) :
    Segment.window { s with data := ⟨⟨s.data.items.items.set s.back_size v⟩⟩,
                            back_size := s.back_size + 1 } = s.window ++ [v] := by
  have e1 : ¬ s.back_size < s.front_offset := by omega
  have e2 : s.back_size + 1 - s.front_offset = (s.back_size - s.front_offset) + 1 := by omega
  simp only [Segment.window, List.drop_set, if_neg e1, e2]
  exact take_succ_set v _ _ (by simp only [List.length_drop]; omega)

theorem Segment.window_cons (s : Segment T) (v : T) (h0 : 1 ≤ s.front_offset)
    (h1 : s.front_offset ≤ s.back_size) (h2 : s.back_size ≤ s.data.items.items.length) :
    Segment.window { s with data := ⟨⟨s.data.items.items.set (s.front_offset - 1) v⟩⟩,
                            front_offset := s.front_offset - 1 } = v :: s.window := by
  have e1 : s.front_offset - 1 + 1 = s.front_offset := by omega
  have e2 : s.back_size - (s.front_offset - 1) = (s.back_size - s.front_offset) + 1 := by omega
  have e3 : s.front_offset - 1 < s.data.items.items.length := by omega
  simp only [Segment.window, e2]
  rw [drop_set_self v _ _ e3, e1, List.take_succ_cons]

theorem Segment.window_popBack (s : Segment T) (h1 : s.front_offset < s.back_size)
    (h2 : s.back_size ≤ s.data.items.items.length) :
    Segment.window { s with back_size := s.back_size - 1 } = s.window.dropLast := by
  simp only [Segment.window, List.dropLast_eq_take, List.length_take, List.length_drop,
    List.take_take]
  congr 1
  omega

theorem Segment.window_popFront (s : Segment T) :
    Segment.window { s with front_offset := s.front_offset + 1 } = s.window.tail := by
  simp only [Segment.window, ← List.drop_one, List.drop_take, List.drop_drop]
  rfl

/-! ## Element sequence of a chain -/

theorem chainElems_nil : chainElems ([] : List (Segment T)) = [] := rfl

theorem chainElems_cons (s : Segment T) (l : List (Segment T)) :
    chainElems (s :: l) = s.window ++ chainElems l := by
  simp [chainElems]

theorem chainElems_append (a b : List (Segment T)) :
    chainElems (a ++ b) = chainElems a ++ chainElems b := by
  simp [chainElems]

theorem chainElems_of_all_empty (l : List (Segment T)) (h : ∀ s ∈ l, s.IsEmpty = true) :
    chainElems l = [] := by
  induction l with
  | nil => rfl
  | cons s l ih =>
    rw [chainElems_cons, Segment.window_of_isEmpty s (h s (by simp)),
      ih (fun t ht => h t (by simp [ht]))]
    rfl

/-! ## The segment walk of `Get` -/

theorem SegmentDeque.getLoop_spec (d : SegmentDeque T) (index : Nat) (B : List (Segment T)) :
    ∀ (A : List (Segment T)) (x : T), d.segments.items.nodes = A ++ B →
      (∀ s ∈ B, s.front_offset ≤ s.back_size ∧ s.back_size ≤ s.data.items.items.length) →
      (chainElems A).length ≤ index →
      (chainElems B)[index - (chainElems A).length]? = some x →
      d.getLoop index B.length A.length (chainElems A).length = .ok x := by
  induction B with
  | nil => intro A x _ _ _ hx; simp [chainElems_nil] at hx
  | cons s B ih =>
    intro A x hd hB hle hx
    have hs := hB s (by simp)
    have hlen : A.length < d.segments.items.nodes.length := by simp [hd]
    have hget : d.segments.Get A.length = .ok s :=
      ListSequence.Get_of_getElem? _ (by rw [hd]; exact getElem?_append_length A B s)
    have heff : s.GetEffectiveSize = s.window.length := by
      rw [Segment.window_length s hs.2, Segment.GetEffectiveSize, usub_of_le hs.1]
    simp only [List.length_cons, SegmentDeque.getLoop, hget, heff]
    by_cases hin : (chainElems A).length + s.window.length > index
    · rw [if_pos hin, usub_of_le hle]
      have hk : index - (chainElems A).length < s.window.length := by omega
      obtain ⟨hb, hw⟩ := s.window_getElem _ hk hs.2
      rw [chainElems_cons, List.getElem?_append_left hk, hw, List.getElem?_eq_getElem hb] at hx
      rw [Segment.Get, MutableArraySequence.Get_slot_of_lt _ hb]
      simpa using hx
    · rw [if_neg hin]
      have h1 := ih (A ++ [s]) x (by simp [hd]) (fun t ht => hB t (by simp [ht]))
      simp only [chainElems_append, chainElems_cons, chainElems_nil, List.append_nil,
        List.length_append, List.length_cons, List.length_nil, Nat.zero_add] at h1
      apply h1 (by omega)
      rw [chainElems_cons, List.getElem?_append_right (by omega)] at hx
      rw [← hx]
      congr 1
      omega

theorem SegmentDeque.Get_eq (d : SegmentDeque T) (hwf : d.WF) (index : Nat) :
    d.Get index = match d.toList[index]? with
      | some x => .ok x
      | none => .error (.out_of_range "Index out of range") := by
  unfold SegmentDeque.Get
  by_cases h : index ≥ d.total_size
  · rw [if_pos h, List.getElem?_eq_none (by rw [← hwf.size_eq]; exact h)]
  · rw [if_neg h]
    have hlt : index < d.toList.length := by rw [← hwf.size_eq]; omega
    rw [List.getElem?_eq_getElem hlt]
    have := d.getLoop_spec index d.segments.items.nodes [] (d.toList[index]) (by simp)
      (fun s hs => ⟨(hwf.segs s hs).1, by rw [(hwf.segs s hs).2.2]; exact (hwf.segs s hs).2.1⟩)
      (by simp [chainElems_nil])
      (by simp [chainElems_nil, SegmentDeque.toList] at hlt ⊢)
    simpa [chainElems_nil, ListSequence.GetSize, LinkedList.GetSize] using this

theorem set_append_length {α : Type} (A B : List α) (s x : α) :
    (A ++ s :: B).set A.length x = A ++ x :: B := by
  induction A with
  | nil => simp
  | cons a A ih => simp [ih]

theorem exists_concat_of_ne_nil {α : Type} (l : List α) (h : l ≠ []) :
    ∃ l0 last, l = l0 ++ [last] :=
  ⟨l.dropLast, l.getLast h, (List.dropLast_append_getLast h).symm⟩

theorem usub_succ_one (n : Nat) : usub (n + 1) 1 = n := by
  rw [usub_of_le (by omega)]; omega

/-! ## Construction -/

theorem SegmentDeque.Construct_pos (c : Nat) (hc : 0 < c) :
    (SegmentDeque.Construct c : Except Error (SegmentDeque T)) =
      .ok { segment_capacity := c, total_size := 0,
            segments := ⟨⟨[⟨⟨⟨List.replicate c default⟩⟩, 0, 0⟩]⟩⟩ } := by
  have h : c ≠ 0 := by omega
  simp [SegmentDeque.Construct, h, ListSequence.empty, ListSequence.Append, LinkedList.Append,
    Segment.ofData, MutableArraySequence.ofSize, DynamicArray.ofSize]

theorem SegmentDeque.Construct_spec (c : Nat) (d : SegmentDeque T)
    (h : SegmentDeque.Construct c = .ok d) :
    0 < c ∧ d.WF ∧ d.toList = [] ∧ d.segment_capacity = c := by
  have hc : 0 < c := by
    rcases Nat.eq_zero_or_pos c with h0 | h0
    · simp [SegmentDeque.Construct, h0] at h
    · exact h0
  rw [SegmentDeque.Construct_pos c hc] at h
  cases h
  refine ⟨hc, ⟨hc, by simp, ?_, ?_⟩, ?_, rfl⟩
  · intro s hs
    simp only [List.mem_singleton] at hs
    subst hs
    simp [Segment.WF]
  · simp [SegmentDeque.toList, chainElems, Segment.window]
  · simp [SegmentDeque.toList, chainElems, Segment.window]

/-! ## `Append` -/

theorem SegmentDeque.CheckBackCapacity_spec (d : SegmentDeque T) (hwf : d.WF) :
    ∃ d1 L0 last, d.CheckBackCapacity = (.ok (), d1) ∧ d1.WF ∧ d1.toList = d.toList ∧
      d1.segment_capacity = d.segment_capacity ∧ d1.segments.items.nodes = L0 ++ [last] ∧
      last.back_size < d.segment_capacity := by
  obtain ⟨L0, last, hL⟩ := exists_concat_of_ne_nil _ hwf.chain_ne
  have hsz : d.segments.GetSize = L0.length + 1 := by
    simp [ListSequence.GetSize, LinkedList.GetSize, hL]
  have hget : d.segments.Get L0.length = .ok last :=
    ListSequence.Get_of_getElem? _ (by rw [hL]; exact getElem?_append_length L0 [] last)
  have hlast := hwf.segs last (by simp [hL])
  simp only [SegmentDeque.CheckBackCapacity, hsz, usub_succ_one, hget]
  by_cases hfull : last.back_size ≥ d.segment_capacity
  · rw [if_pos hfull]
    refine ⟨_, L0 ++ [last], Segment.ofData (MutableArraySequence.ofSize d.segment_capacity),
      rfl, ⟨hwf.cap_pos, ?_, ?_, ?_⟩, ?_, rfl, ?_, ?_⟩
    · simp [ListSequence.Append, LinkedList.Append]
    · intro s hs
      simp only [ListSequence.Append, LinkedList.Append, List.mem_append, List.mem_singleton] at hs
      rcases hs with hs | hs
      · exact hwf.segs s hs
      · subst hs
        simp [Segment.WF, Segment.ofData, MutableArraySequence.ofSize, DynamicArray.ofSize]
    · simp only [SegmentDeque.toList, ListSequence.Append, LinkedList.Append, chainElems_append,
        chainElems_cons, chainElems_nil]
      simp [hwf.size_eq, SegmentDeque.toList, Segment.window, Segment.ofData]
    · simp only [SegmentDeque.toList, ListSequence.Append, LinkedList.Append, chainElems_append,
        chainElems_cons, chainElems_nil]
      simp [Segment.window, Segment.ofData]
    · simp [ListSequence.Append, LinkedList.Append, hL]
    · simp [Segment.ofData, hwf.cap_pos]
  · rw [if_neg hfull]
    exact ⟨d, L0, last, rfl, hwf, rfl, rfl, hL, by omega⟩

theorem SegmentDeque.Append_spec (d : SegmentDeque T) (hwf : d.WF) (v : T) :
    ∃ d1, d.Append v = (.ok (), d1) ∧ d1.WF ∧ d1.toList = d.toList ++ [v] ∧
      d1.segment_capacity = d.segment_capacity := by
  obtain ⟨d1, L0, last, hcb, hwf1, hl1, hc1, hL, hroom⟩ := d.CheckBackCapacity_spec hwf
  have hsz : d1.segments.GetSize = L0.length + 1 := by
    simp [ListSequence.GetSize, LinkedList.GetSize, hL]
  have hget : d1.segments.Get L0.length = .ok last :=
    ListSequence.Get_of_getElem? _ (by rw [hL]; exact getElem?_append_length L0 [] last)
  have hlast := hwf1.segs last (by simp [hL])
  rw [hc1] at hlast
  obtain ⟨hfb, hbc, hlen⟩ := hlast
  have hlt : last.back_size < last.data.items.items.length := by omega
  have hnot : ¬ last.back_size ≥ last.data.GetSize := by
    simp only [MutableArraySequence.GetSize, DynamicArray.GetSize]; omega
  simp only [SegmentDeque.Append, hcb, hsz, usub_succ_one, hget, if_neg hnot,
    MutableArraySequence.Set_of_lt _ v hlt, SegmentDeque.setSegment, hL, set_append_length]
  have hwin := last.window_push v hfb hlt
  refine ⟨_, rfl, ⟨by simpa [hc1] using hwf.cap_pos, by simp, ?_, ?_⟩, ?_, hc1⟩
  · intro s hs
    simp only [List.mem_append, List.mem_singleton] at hs
    rcases hs with hs | hs
    · exact hwf1.segs s (by simp [hL, hs])
    · subst hs
      simp only [Segment.WF, List.length_set, hc1]
      omega
  · simp only [SegmentDeque.toList, chainElems_append, chainElems_cons, chainElems_nil, hwin,
      List.append_nil, List.length_append, List.length_cons, List.length_nil]
    have := hwf1.size_eq
    simp only [SegmentDeque.toList, hL, chainElems_append, chainElems_cons, chainElems_nil,
      List.append_nil, List.length_append] at this
    omega
  · simp only [SegmentDeque.toList, chainElems_append, chainElems_cons, chainElems_nil, hwin,
      List.append_nil]
    have := hl1
    simp only [SegmentDeque.toList, hL, chainElems_append, chainElems_cons, chainElems_nil,
      List.append_nil] at this
    rw [← this, List.append_assoc]

/-! ## `Prepend` -/

theorem SegmentDeque.CheckFrontCapacity_spec (d : SegmentDeque T) (hwf : d.WF) :
    ∃ d1 first rest, d.CheckFrontCapacity = (.ok (), d1) ∧ d1.WF ∧ d1.toList = d.toList ∧
      d1.segment_capacity = d.segment_capacity ∧ d1.segments.items.nodes = first :: rest ∧
      1 ≤ first.front_offset := by
  obtain ⟨first, rest, hL⟩ := List.exists_cons_of_ne_nil hwf.chain_ne
  have hget : d.segments.Get 0 = .ok first :=
    ListSequence.Get_of_getElem? _ (by rw [hL]; simp)
  simp only [SegmentDeque.CheckFrontCapacity, hget]
  by_cases hz : first.front_offset = 0
  · rw [if_pos hz]
    refine ⟨_, ⟨MutableArraySequence.ofSize d.segment_capacity, d.segment_capacity,
      d.segment_capacity⟩, first :: rest, rfl, ⟨hwf.cap_pos, ?_, ?_, ?_⟩, ?_, rfl, ?_, ?_⟩
    · simp [ListSequence.Prepend, LinkedList.Prepend]
    · intro s hs
      simp only [ListSequence.Prepend, LinkedList.Prepend, List.mem_cons] at hs
      rcases hs with hs | hs
      · subst hs
        simp [Segment.WF, Segment.ofData, MutableArraySequence.ofSize, DynamicArray.ofSize]
      · exact hwf.segs s hs
    · simp only [SegmentDeque.toList, ListSequence.Prepend, LinkedList.Prepend, chainElems_cons]
      simp [hwf.size_eq, SegmentDeque.toList, Segment.window, Segment.ofData]
    · simp only [SegmentDeque.toList, ListSequence.Prepend, LinkedList.Prepend, chainElems_cons]
      simp [Segment.window, Segment.ofData]
    · simp only [ListSequence.Prepend, LinkedList.Prepend, hL]
      rfl
    · exact hwf.cap_pos
  · rw [if_neg hz]
    exact ⟨d, first, rest, rfl, hwf, rfl, rfl, hL, by omega⟩

theorem SegmentDeque.Prepend_spec (d : SegmentDeque T) (hwf : d.WF) (v : T) :
    ∃ d1, d.Prepend v = (.ok (), d1) ∧ d1.WF ∧ d1.toList = v :: d.toList ∧
      d1.segment_capacity = d.segment_capacity := by
  obtain ⟨d1, first, rest, hcf, hwf1, hl1, hc1, hL, hslack⟩ := d.CheckFrontCapacity_spec hwf
  have hget : d1.segments.Get 0 = .ok first :=
    ListSequence.Get_of_getElem? _ (by rw [hL]; simp)
  have hfirst := hwf1.segs first (by simp [hL])
  rw [hc1] at hfirst
  obtain ⟨hfb, hbc, hlen⟩ := hfirst
  have hlt : first.front_offset - 1 < first.data.items.items.length := by omega
  have hin : first.front_offset - 1 < first.data.GetSize := by
    simp only [MutableArraySequence.GetSize, DynamicArray.GetSize]; omega
  simp only [SegmentDeque.Prepend, hcf, hget, usub_of_le hslack, if_pos hin,
    MutableArraySequence.Set_of_lt _ v hlt, SegmentDeque.setSegment, hL, List.set_cons_zero]
  have hwin := first.window_cons v hslack hfb (by omega)
  refine ⟨_, rfl, ⟨by simpa [hc1] using hwf.cap_pos, by simp, ?_, ?_⟩, ?_, hc1⟩
  · intro s hs
    simp only [List.mem_cons] at hs
    rcases hs with hs | hs
    · subst hs
      simp only [Segment.WF, List.length_set, hc1]
      omega
    · exact hwf1.segs s (by simp [hL, hs])
  · simp only [SegmentDeque.toList, chainElems_cons, hwin, List.length_append, List.length_cons]
    have := hwf1.size_eq
    simp only [SegmentDeque.toList, hL, chainElems_cons, List.length_append] at this
    omega
  · simp only [SegmentDeque.toList, chainElems_cons, hwin]
    have := hl1
    simp only [SegmentDeque.toList, hL, chainElems_cons] at this
    rw [← this, List.cons_append]

/-! ## The scans of `PopBack` and `PopFront` -/

theorem Segment.window_ne_nil (s : Segment T) (h : s.IsEmpty = false)
    (hb : s.back_size ≤ s.data.items.items.length) : s.window ≠ [] := by
  have h1 : s.front_offset < s.back_size := by
    simp only [Segment.IsEmpty, decide_eq_false_iff_not] at h
    omega
  intro hnil
  have := s.window_length hb
  rw [hnil] at this
  simp only [List.length_nil] at this
  omega

theorem SegmentDeque.popBackLoop_spec (d : SegmentDeque T) (A : List (Segment T)) :
    ∀ B : List (Segment T), d.segments.items.nodes = A ++ B →
      (∀ s ∈ B, s.IsEmpty = true) → chainElems A ≠ [] →
      (∀ s ∈ d.segments.items.nodes, Segment.WF d.segment_capacity s) →
      ∃ d1, d.popBackLoop A.length = (.ok (), d1) ∧
        d1.segment_capacity = d.segment_capacity ∧ d1.total_size = usub d.total_size 1 ∧
        d1.segments.items.nodes ≠ [] ∧
        (∀ s ∈ d1.segments.items.nodes, Segment.WF d.segment_capacity s) ∧
        d1.toList = d.toList.dropLast := by
  induction A using List.reverseRecOn with
  | nil => intro B _ _ hne; exact absurd chainElems_nil hne
  | append_singleton A s ih =>
    intro B hd hB hne hwf
    have hd1 : d.segments.items.nodes = A ++ s :: B := by simp [hd]
    have hget : d.segments.Get A.length = .ok s :=
      ListSequence.Get_of_getElem? _ (by rw [hd1]; exact getElem?_append_length A B s)
    have hs := hwf s (by simp [hd1])
    obtain ⟨hfb, hbc, hlen⟩ := hs
    simp only [List.length_append, List.length_cons, List.length_nil, Nat.zero_add,
      SegmentDeque.popBackLoop, hget]
    cases he : s.IsEmpty with
    | true =>
      simp only [Bool.not_true, Bool.false_eq_true, if_false]
      apply ih (s :: B) hd1
      · intro t ht
        simp only [List.mem_cons] at ht
        rcases ht with ht | ht
        · rw [ht]; exact he
        · exact hB t ht
      · intro hnil
        apply hne
        rw [chainElems_append, hnil, chainElems_cons, Segment.window_of_isEmpty s he]
        rfl
      · exact hwf
    | false =>
      simp only [Bool.not_false, if_true, SegmentDeque.setSegment, hd1, set_append_length]
      have hlt : s.front_offset < s.back_size := by
        simp only [Segment.IsEmpty, decide_eq_false_iff_not] at he
        omega
      have hwin := s.window_popBack hlt (by omega)
      rw [usub_of_le (show 1 ≤ s.back_size by omega)]
      refine ⟨_, rfl, rfl, rfl, by simp, ?_, ?_⟩
      · intro t ht
        simp only [List.mem_append, List.mem_cons] at ht
        rcases ht with ht | ht | ht
        · exact hwf t (by simp [hd1, ht])
        · subst ht
          simp only [Segment.WF]
          omega
        · exact hwf t (by simp [hd1, ht])
      · simp only [SegmentDeque.toList, hd1, chainElems_append, chainElems_cons, hwin,
          chainElems_of_all_empty B hB, List.append_nil]
        rw [List.dropLast_append_of_ne_nil _ (s.window_ne_nil he (by omega))]

theorem SegmentDeque.popFrontLoop_spec (d : SegmentDeque T) (B : List (Segment T)) :
    ∀ A : List (Segment T), d.segments.items.nodes = A ++ B →
      (∀ s ∈ A, s.IsEmpty = true) → chainElems B ≠ [] →
      (∀ s ∈ d.segments.items.nodes, Segment.WF d.segment_capacity s) →
      ∃ d1, d.popFrontLoop B.length A.length = (.ok (), d1) ∧
        d1.segment_capacity = d.segment_capacity ∧ d1.total_size = usub d.total_size 1 ∧
        d1.segments.items.nodes ≠ [] ∧
        (∀ s ∈ d1.segments.items.nodes, Segment.WF d.segment_capacity s) ∧
        d1.toList = d.toList.tail := by
  induction B with
  | nil => intro A _ _ hne; exact absurd chainElems_nil hne
  | cons s B ih =>
    intro A hd hA hne hwf
    have hget : d.segments.Get A.length = .ok s :=
      ListSequence.Get_of_getElem? _ (by rw [hd]; exact getElem?_append_length A B s)
    have hs := hwf s (by simp [hd])
    obtain ⟨hfb, hbc, hlen⟩ := hs
    simp only [List.length_cons, SegmentDeque.popFrontLoop, hget]
    cases he : s.IsEmpty with
    | true =>
      simp only [Bool.not_true, Bool.false_eq_true, if_false]
      have := ih (A ++ [s]) (by simp [hd])
        (by
          intro t ht
          simp only [List.mem_append, List.mem_singleton] at ht
          rcases ht with ht | ht
          · exact hA t ht
          · rw [ht]; exact he)
        (by
          intro hnil
          apply hne
          rw [chainElems_cons, hnil, Segment.window_of_isEmpty s he]
          rfl)
        hwf
      simpa using this
    | false =>
      simp only [Bool.not_false, if_true, SegmentDeque.setSegment, hd, set_append_length]
      have hlt : s.front_offset < s.back_size := by
        simp only [Segment.IsEmpty, decide_eq_false_iff_not] at he
        omega
      have hwin := s.window_popFront
      refine ⟨_, rfl, rfl, rfl, by simp, ?_, ?_⟩
      · intro t ht
        simp only [List.mem_append, List.mem_cons] at ht
        rcases ht with ht | ht | ht
        · exact hwf t (by simp [hd, ht])
        · subst ht
          simp only [Segment.WF]
          omega
        · exact hwf t (by simp [hd, ht])
      · simp only [SegmentDeque.toList, hd, chainElems_append, chainElems_cons, hwin,
          chainElems_of_all_empty A hA, List.nil_append]
        rw [List.tail_append_of_ne_nil (s.window_ne_nil he (by omega))]

/-! ## Boundary cleanup -/

theorem SegmentDeque.cleanupFrontLoop_spec (fuel : Nat) :
    ∀ d : SegmentDeque T, d.segments.items.nodes ≠ [] →
      ∃ d1 A, d.cleanupFrontLoop fuel = (.ok (), d1) ∧
        d1.segment_capacity = d.segment_capacity ∧ d1.total_size = d.total_size ∧
        d1.segments.items.nodes ≠ [] ∧ d.segments.items.nodes = A ++ d1.segments.items.nodes ∧
        (∀ s ∈ A, s.IsEmpty = true) ∧
        (d.segments.items.nodes.length ≤ fuel →
          d1.segments.items.nodes.length ≤ 1 ∨
            ∃ first rest, d1.segments.items.nodes = first :: rest ∧ first.IsEmpty = false) := by
  induction fuel with
  | zero =>
    intro d hne
    refine ⟨d, [], rfl, rfl, rfl, hne, rfl, by simp, ?_⟩
    intro h
    left
    omega
  | succ fuel ih =>
    intro d hne
    obtain ⟨first, rest, hL⟩ := List.exists_cons_of_ne_nil hne
    have hget : d.segments.Get 0 = .ok first :=
      ListSequence.Get_of_getElem? _ (by rw [hL]; simp)
    have hsz : d.segments.GetSize = rest.length + 1 := by
      simp [ListSequence.GetSize, LinkedList.GetSize, hL]
    simp only [SegmentDeque.cleanupFrontLoop, hsz]
    by_cases hmany : rest.length + 1 > 1
    · rw [if_pos hmany]
      simp only [hget]
      cases he : first.IsEmpty with
      | true =>
        simp only [if_true]
        rw [ListSequence.RemoveNode_of_lt _ (show 0 < d.segments.items.nodes.length by
          rw [hL]; simp)]
        simp only [hL, List.eraseIdx_zero, List.tail_cons]
        have hrest : rest ≠ [] := by
          intro h; rw [h] at hmany; simp at hmany
        obtain ⟨d1, A, hrun, hc, ht, hne1, hsplit, hA, hexit⟩ :=
          ih { d with segments := ⟨⟨rest⟩⟩ } hrest
        refine ⟨d1, first :: A, hrun, hc, ht, hne1, ?_, ?_, ?_⟩
        · simp only [List.cons_append]
          rw [← hsplit]
        · intro s hs
          simp only [List.mem_cons] at hs
          rcases hs with hs | hs
          · rw [hs]; exact he
          · exact hA s hs
        · intro hfuel
          apply hexit
          simp only [List.length_cons] at hfuel
          simp only
          omega
      | false =>
        simp only [Bool.false_eq_true, if_false]
        exact ⟨d, [], rfl, rfl, rfl, hne, rfl, by simp, fun _ => Or.inr ⟨first, rest, hL, he⟩⟩
    · rw [if_neg hmany]
      refine ⟨d, [], rfl, rfl, rfl, hne, rfl, by simp, fun _ => Or.inl ?_⟩
      rw [hL]
      simp only [List.length_cons]
      omega

theorem SegmentDeque.cleanupBackLoop_spec (fuel : Nat) :
    ∀ d : SegmentDeque T, d.segments.items.nodes ≠ [] →
      ∃ d1 A, d.cleanupBackLoop fuel = (.ok (), d1) ∧
        d1.segment_capacity = d.segment_capacity ∧ d1.total_size = d.total_size ∧
        d1.segments.items.nodes ≠ [] ∧ d.segments.items.nodes = d1.segments.items.nodes ++ A ∧
        (∀ s ∈ A, s.IsEmpty = true) ∧
        (d.segments.items.nodes.length ≤ fuel →
          d1.segments.items.nodes.length ≤ 1 ∨
            ∃ init last, d1.segments.items.nodes = init ++ [last] ∧ last.IsEmpty = false) := by
  induction fuel with
  | zero =>
    intro d hne
    refine ⟨d, [], rfl, rfl, rfl, hne, by simp, by simp, ?_⟩
    intro h
    left
    omega
  | succ fuel ih =>
    intro d hne
    obtain ⟨init, last, hL⟩ := exists_concat_of_ne_nil _ hne
    have hget : d.segments.Get init.length = .ok last :=
      ListSequence.Get_of_getElem? _ (by rw [hL]; exact getElem?_append_length init [] last)
    have hsz : d.segments.GetSize = init.length + 1 := by
      simp [ListSequence.GetSize, LinkedList.GetSize, hL]
    simp only [SegmentDeque.cleanupBackLoop, hsz, usub_succ_one]
    by_cases hmany : init.length + 1 > 1
    · rw [if_pos hmany]
      simp only [hget]
      cases he : last.IsEmpty with
      | true =>
        simp only [if_true]
        rw [ListSequence.RemoveNode_of_lt _ (show init.length < d.segments.items.nodes.length by
          rw [hL]; simp)]
        have herase : d.segments.items.nodes.eraseIdx init.length = init := by
          rw [hL, List.eraseIdx_append_of_length_le (Nat.le_refl _)]
          simp
        simp only [herase]
        have hinit : init ≠ [] := by
          intro h; rw [h] at hmany; simp at hmany
        obtain ⟨d1, A, hrun, hc, ht, hne1, hsplit, hA, hexit⟩ :=
          ih { d with segments := ⟨⟨init⟩⟩ } hinit
        refine ⟨d1, A ++ [last], hrun, hc, ht, hne1, ?_, ?_, ?_⟩
        · rw [hL, ← List.append_assoc]
          simp only at hsplit
          rw [← hsplit]
        · intro s hs
          simp only [List.mem_append, List.mem_singleton] at hs
          rcases hs with hs | hs
          · exact hA s hs
          · rw [hs]; exact he
        · intro hfuel
          apply hexit
          rw [hL] at hfuel
          simp only [List.length_append, List.length_cons, List.length_nil] at hfuel
          simp only
          omega
      | false =>
        simp only [Bool.false_eq_true, if_false]
        exact ⟨d, [], rfl, rfl, rfl, hne, by simp, by simp,
          fun _ => Or.inr ⟨init, last, hL, he⟩⟩
    · rw [if_neg hmany]
      refine ⟨d, [], rfl, rfl, rfl, hne, by simp, by simp, fun _ => Or.inl ?_⟩
      rw [hL]
      simp only [List.length_append, List.length_cons, List.length_nil]
      omega

theorem SegmentDeque.CleanupEmptySegments_spec (d : SegmentDeque T)
    (hne : d.segments.items.nodes ≠ []) :
    ∃ d1 A B, d.CleanupEmptySegments = (.ok (), d1) ∧
      d1.segment_capacity = d.segment_capacity ∧ d1.total_size = d.total_size ∧
      d1.segments.items.nodes ≠ [] ∧
      d.segments.items.nodes = A ++ d1.segments.items.nodes ++ B ∧
      (∀ s ∈ A, s.IsEmpty = true) ∧ (∀ s ∈ B, s.IsEmpty = true) := by
  obtain ⟨d1, A, hrun1, hc1, ht1, hne1, hsplit1, hA, -⟩ :=
    SegmentDeque.cleanupFrontLoop_spec d.segments.GetSize d hne
  obtain ⟨d2, B, hrun2, hc2, ht2, hne2, hsplit2, hB, -⟩ :=
    SegmentDeque.cleanupBackLoop_spec d1.segments.GetSize d1 hne1
  refine ⟨d2, A, B, ?_, by rw [hc2, hc1], by rw [ht2, ht1], hne2, ?_, hA, hB⟩
  · simp only [SegmentDeque.CleanupEmptySegments, hrun1, hrun2]
  · rw [hsplit1, hsplit2, List.append_assoc]

theorem SegmentDeque.CleanupEmptySegments_toList (d d1 : SegmentDeque T)
    (A B : List (Segment T)) (h : d.segments.items.nodes = A ++ d1.segments.items.nodes ++ B)
    (hA : ∀ s ∈ A, s.IsEmpty = true) (hB : ∀ s ∈ B, s.IsEmpty = true) :
    d1.toList = d.toList := by
  simp only [SegmentDeque.toList, h, chainElems_append, chainElems_of_all_empty A hA,
    chainElems_of_all_empty B hB, List.nil_append, List.append_nil]

/-! ## `PopBack` and `PopFront` -/

theorem SegmentDeque.toList_ne_nil (d : SegmentDeque T) (hwf : d.WF) (h : d.total_size ≠ 0) :
    d.toList ≠ [] := by
  intro hnil
  apply h
  rw [hwf.size_eq, hnil]
  rfl

theorem SegmentDeque.after_pop_scan (d d1 d2 : SegmentDeque T) (hwf : d.WF) (l : List T)
    (hc : d1.segment_capacity = d.segment_capacity) (ht : d1.total_size = usub d.total_size 1)
    (hsegs : ∀ s ∈ d1.segments.items.nodes, Segment.WF d.segment_capacity s)
    (hl : d1.toList = l) (hlen : l.length = d.toList.length - 1) (hpos : d.total_size ≠ 0)
    (hclean : d1.CleanupEmptySegments = (.ok (), d2) ∧
      d2.segment_capacity = d1.segment_capacity ∧ d2.total_size = d1.total_size ∧
      d2.segments.items.nodes ≠ [] ∧
      ∃ A B, d1.segments.items.nodes = A ++ d2.segments.items.nodes ++ B ∧
        (∀ s ∈ A, s.IsEmpty = true) ∧ (∀ s ∈ B, s.IsEmpty = true)) :
    d2.WF ∧ d2.toList = l ∧ d2.segment_capacity = d.segment_capacity := by
  obtain ⟨-, hc2, ht2, hne2, A, B, hsplit, hA, hB⟩ := hclean
  have hl2 : d2.toList = l := by
    rw [SegmentDeque.CleanupEmptySegments_toList d1 d2 A B hsplit hA hB, hl]
  refine ⟨⟨by rw [hc2, hc]; exact hwf.cap_pos, hne2, ?_, ?_⟩, hl2, by rw [hc2, hc]⟩
  · intro s hs
    rw [hc2, hc]
    exact hsegs s (by rw [hsplit]; simp [hs])
  · rw [ht2, ht, hl2, hlen, usub_of_le (by omega), hwf.size_eq]

theorem SegmentDeque.PopBack_spec (d : SegmentDeque T) (hwf : d.WF) (hpos : d.total_size ≠ 0) :
    ∃ d1, d.PopBack = (.ok (), d1) ∧ d1.WF ∧ d1.toList = d.toList.dropLast ∧
      d1.segment_capacity = d.segment_capacity := by
  obtain ⟨d1, hrun, hc, ht, hne, hsegs, hl⟩ :=
    d.popBackLoop_spec d.segments.items.nodes [] (by simp) (by simp)
      (d.toList_ne_nil hwf hpos) hwf.segs
  obtain ⟨d2, A, B, hclean, hc2, ht2, hne2, hsplit, hA, hB⟩ :=
    d1.CleanupEmptySegments_spec hne
  have := d.after_pop_scan d1 d2 hwf d.toList.dropLast hc ht hsegs hl (by simp) hpos
    ⟨hclean, hc2, ht2, hne2, A, B, hsplit, hA, hB⟩
  refine ⟨d2, ?_, this⟩
  simp only [SegmentDeque.PopBack, if_neg hpos]
  simp only [ListSequence.GetSize, LinkedList.GetSize, hrun, hclean]

theorem SegmentDeque.PopFront_spec (d : SegmentDeque T) (hwf : d.WF) (hpos : d.total_size ≠ 0) :
    ∃ d1, d.PopFront = (.ok (), d1) ∧ d1.WF ∧ d1.toList = d.toList.tail ∧
      d1.segment_capacity = d.segment_capacity := by
  obtain ⟨d1, hrun, hc, ht, hne, hsegs, hl⟩ :=
    d.popFrontLoop_spec d.segments.items.nodes [] (by simp) (by simp)
      (d.toList_ne_nil hwf hpos) hwf.segs
  obtain ⟨d2, A, B, hclean, hc2, ht2, hne2, hsplit, hA, hB⟩ :=
    d1.CleanupEmptySegments_spec hne
  have := d.after_pop_scan d1 d2 hwf d.toList.tail hc ht hsegs hl (by simp) hpos
    ⟨hclean, hc2, ht2, hne2, A, B, hsplit, hA, hB⟩
  refine ⟨d2, ?_, this⟩
  simp only [SegmentDeque.PopFront, if_neg hpos]
  simp only [List.length_nil] at hrun
  simp only [ListSequence.GetSize, LinkedList.GetSize, hrun, hclean]

theorem SegmentDeque.PopBack_of_empty (d : SegmentDeque T) (h : d.total_size = 0) :
    d.PopBack = (.error (.out_of_range "PopBack from empty deque"), d) := by
  simp only [SegmentDeque.PopBack, if_pos h]

theorem SegmentDeque.PopFront_of_empty (d : SegmentDeque T) (h : d.total_size = 0) :
    d.PopFront = (.error (.out_of_range "PopFront from empty deque"), d) := by
  simp only [SegmentDeque.PopFront, if_pos h]

/-! ## Every reachable state satisfies the representation invariant -/

theorem SegmentDeque.Reachable.wf {d : SegmentDeque T} (h : d.Reachable) : d.WF := by
  induction h with
  | construct c d hc => exact (SegmentDeque.Construct_spec c d hc).2.1
  | append d v _ ih =>
    obtain ⟨d1, hrun, hwf1, -⟩ := d.Append_spec ih v
    rw [hrun]; exact hwf1
  | prepend d v _ ih =>
    obtain ⟨d1, hrun, hwf1, -⟩ := d.Prepend_spec ih v
    rw [hrun]; exact hwf1
  | popBack d _ ih =>
    by_cases hz : d.total_size = 0
    · rw [d.PopBack_of_empty hz]; exact ih
    · obtain ⟨d1, hrun, hwf1, -⟩ := d.PopBack_spec ih hz
      rw [hrun]; exact hwf1
  | popFront d _ ih =>
    by_cases hz : d.total_size = 0
    · rw [d.PopFront_of_empty hz]; exact ih
    · obtain ⟨d1, hrun, hwf1, -⟩ := d.PopFront_spec ih hz
      rw [hrun]; exact hwf1

/-! ## Indexed access in terms of the element sequence -/

theorem SegmentDeque.Get_ok_iff (d : SegmentDeque T) (hwf : d.WF) (i : Nat) (x : T) :
    d.Get i = .ok x ↔ d.toList[i]? = some x := by
  rw [d.Get_eq hwf]
  cases h : d.toList[i]? with
  | none => simp
  | some y => simp

theorem SegmentDeque.Get_elem_of_lt (d : SegmentDeque T) (hwf : d.WF) (i : Nat)
    (h : i < d.GetSize) : ∃ x, d.toList[i]? = some x ∧ d.Get i = .ok x := by
  have hlt : i < d.toList.length := by rw [← hwf.size_eq]; exact h
  exact ⟨d.toList[i], List.getElem?_eq_getElem hlt,
    (d.Get_ok_iff hwf i _).mpr (List.getElem?_eq_getElem hlt)⟩

theorem SegmentDeque.AppendAll_spec (values : List T) :
    ∀ d : SegmentDeque T, d.WF →
      (d.AppendAll values).WF ∧ (d.AppendAll values).toList = d.toList ++ values ∧
        (d.AppendAll values).segment_capacity = d.segment_capacity := by
  induction values with
  | nil => intro d hwf; exact ⟨hwf, by simp [SegmentDeque.AppendAll], rfl⟩
  | cons v values ih =>
    intro d hwf
    obtain ⟨d1, hrun, hwf1, hl1, hc1⟩ := d.Append_spec hwf v
    obtain ⟨h1, h2, h3⟩ := ih d1 hwf1
    simp only [SegmentDeque.AppendAll, List.foldl_cons, hrun] at h1 h2 h3 ⊢
    exact ⟨h1, by rw [h2, hl1]; simp, by rw [h3, hc1]⟩

theorem SegmentDeque.PrependAll_spec (values : List T) :
    ∀ d : SegmentDeque T, d.WF →
      (d.PrependAll values).WF ∧ (d.PrependAll values).toList = values.reverse ++ d.toList ∧
        (d.PrependAll values).segment_capacity = d.segment_capacity := by
  induction values with
  | nil => intro d hwf; exact ⟨hwf, by simp [SegmentDeque.PrependAll], rfl⟩
  | cons v values ih =>
    intro d hwf
    obtain ⟨d1, hrun, hwf1, hl1, hc1⟩ := d.Prepend_spec hwf v
    obtain ⟨h1, h2, h3⟩ := ih d1 hwf1
    simp only [SegmentDeque.PrependAll, List.foldl_cons, hrun] at h1 h2 h3 ⊢
    exact ⟨h1, by rw [h2, hl1]; simp, by rw [h3, hc1]⟩

/-! ## Properties of the modifiers and of indexed access -/

/-- C1: in every reachable state `Append(v)` returns normally, the size grows by one,
`Get` at the old size returns `v`, and `Get(i)` returns the element it returned before
for every `i` below the old size; hence `N` appends of `v_0..v_{N-1}` on a fresh deque
give `Get(i) == v_i` for every `i < N`. -/
theorem C1_append_get (d : SegmentDeque T) (hreach : d.Reachable) (v : T) :
    (d.Append v).1 = .ok () ∧
    (d.Append v).2.GetSize = d.GetSize + 1 ∧
    (d.Append v).2.Get d.GetSize = .ok v ∧
    (∀ i, i < d.GetSize → ∃ x, d.Get i = .ok x ∧ (d.Append v).2.Get i = .ok x) ∧
    (∀ (c : Nat) (d0 : SegmentDeque T) (values : List T),
      SegmentDeque.Construct c = .ok d0 →
        (d0.AppendAll values).GetSize = values.length ∧
        ∀ i x, values[i]? = some x → (d0.AppendAll values).Get i = .ok x) := by
  have hwf := hreach.wf
  obtain ⟨d1, hrun, hwf1, hl1, -⟩ := d.Append_spec hwf v
  rw [hrun]
  have hsz : d.GetSize = d.toList.length := hwf.size_eq
  refine ⟨rfl, ?_, ?_, ?_, ?_⟩
  · show d1.total_size = d.total_size + 1
    rw [hwf1.size_eq, hl1, hwf.size_eq]
    simp
  · rw [d1.Get_ok_iff hwf1, hl1, hsz]
    simp
  · intro i hi
    obtain ⟨x, hx, hget⟩ := d.Get_elem_of_lt hwf i hi
    refine ⟨x, hget, ?_⟩
    rw [d1.Get_ok_iff hwf1, hl1, List.getElem?_append_left (by rw [← hsz]; exact hi)]
    exact hx
  · intro c d0 values hc
    obtain ⟨-, hwf0, hl0, -⟩ := SegmentDeque.Construct_spec c d0 hc
    obtain ⟨hwfA, hlA, -⟩ := SegmentDeque.AppendAll_spec values d0 hwf0
    rw [hl0, List.nil_append] at hlA
    refine ⟨?_, ?_⟩
    · show (d0.AppendAll values).total_size = _
      rw [hwfA.size_eq, hlA]
    · intro i x hx
      rw [SegmentDeque.Get_ok_iff _ hwfA, hlA]
      exact hx

/-- Witness for C1 on the deque holding 2, 3 behind one slot of front slack. -/
theorem C1_append_get_witness :
    sampleSlack.Reachable ∧ (sampleSlack.Append 7).2.GetSize = sampleSlack.GetSize + 1 ∧
      (sampleSlack.Append 7).2.Get sampleSlack.GetSize = .ok 7 :=
  have hreach : sampleSlack.Reachable :=
    .popFront _ (.append _ 3 (.append _ 2 (.append _ 1 (.construct 2 fresh2 rfl))))
  ⟨hreach, (C1_append_get sampleSlack hreach 7).2.1, (C1_append_get sampleSlack hreach 7).2.2.1⟩

/-- C2: in every reachable state `Prepend(v)` returns normally, the size grows by one,
`Get(0)` returns `v`, and `Get(i+1)` returns what `Get(i)` returned before for every `i`
below the old size; hence `N` prepends of `v_0..v_{N-1}` on a fresh deque give
`Get(i) == v_{N-1-i}`, and with capacity 2, appending 0..9 and then prepending 10..19
gives `Get(i) == 19-i` for `i < 10` and `Get(i) == i-10` for `10 <= i < 20`. -/
theorem C2_prepend_get (d : SegmentDeque T) (hreach : d.Reachable) (v : T) :
    (d.Prepend v).1 = .ok () ∧
    (d.Prepend v).2.GetSize = d.GetSize + 1 ∧
    (d.Prepend v).2.Get 0 = .ok v ∧
    (∀ i, i < d.GetSize → ∃ x, d.Get i = .ok x ∧ (d.Prepend v).2.Get (i + 1) = .ok x) ∧
    (∀ (c : Nat) (d0 : SegmentDeque T) (values : List T),
      SegmentDeque.Construct c = .ok d0 →
        (d0.PrependAll values).GetSize = values.length ∧
        ∀ i x, i < values.length → values[values.length - 1 - i]? = some x →
          (d0.PrependAll values).Get i = .ok x) ∧
    (∀ d0 : SegmentDeque Int, SegmentDeque.Construct 2 = .ok d0 →
      ((d0.AppendAll boundaryBack).PrependAll boundaryFront).GetSize = 20 ∧
      (∀ i : Nat, i < 10 →
        ((d0.AppendAll boundaryBack).PrependAll boundaryFront).Get i = .ok (19 - (i : Int))) ∧
      (∀ i : Nat, 10 ≤ i → i < 20 →
        ((d0.AppendAll boundaryBack).PrependAll boundaryFront).Get i = .ok ((i : Int) - 10))) := by
  have hwf := hreach.wf
  obtain ⟨d1, hrun, hwf1, hl1, -⟩ := d.Prepend_spec hwf v
  rw [hrun]
  have hsz : d.GetSize = d.toList.length := hwf.size_eq
  refine ⟨rfl, ?_, ?_, ?_, ?_, ?_⟩
  · show d1.total_size = d.total_size + 1
    rw [hwf1.size_eq, hl1, hwf.size_eq]
    simp
  · rw [d1.Get_ok_iff hwf1, hl1]
    simp
  · intro i hi
    obtain ⟨x, hx, hget⟩ := d.Get_elem_of_lt hwf i hi
    refine ⟨x, hget, ?_⟩
    rw [d1.Get_ok_iff hwf1, hl1, List.getElem?_cons_succ]
    exact hx
  · intro c d0 values hc
    obtain ⟨-, hwf0, hl0, -⟩ := SegmentDeque.Construct_spec c d0 hc
    obtain ⟨hwfP, hlP, -⟩ := SegmentDeque.PrependAll_spec values d0 hwf0
    rw [hl0, List.append_nil] at hlP
    refine ⟨?_, ?_⟩
    · show (d0.PrependAll values).total_size = _
      rw [hwfP.size_eq, hlP, List.length_reverse]
    · intro i x hi hx
      rw [SegmentDeque.Get_ok_iff _ hwfP, hlP, List.getElem?_reverse hi]
      exact hx
  · intro d0 hc
    obtain ⟨-, hwf0, hl0, -⟩ := SegmentDeque.Construct_spec 2 d0 hc
    obtain ⟨hwfA, hlA, -⟩ := SegmentDeque.AppendAll_spec boundaryBack d0 hwf0
    obtain ⟨hwfP, hlP, -⟩ := SegmentDeque.PrependAll_spec boundaryFront _ hwfA
    rw [hlA, hl0, List.nil_append] at hlP
    have hl : ((d0.AppendAll boundaryBack).PrependAll boundaryFront).toList =
        [19, 18, 17, 16, 15, 14, 13, 12, 11, 10, 0, 1, 2, 3, 4, 5, 6, 7, 8, 9] := by
      rw [hlP]; rfl
    refine ⟨?_, ?_, ?_⟩
    · show SegmentDeque.total_size _ = 20
      rw [hwfP.size_eq, hl]
      rfl
    · intro i hi
      rw [SegmentDeque.Get_ok_iff _ hwfP, hl]
      interval_cases i <;> rfl
    · intro i h1 h2
      rw [SegmentDeque.Get_ok_iff _ hwfP, hl]
      interval_cases i <;> rfl

/-- Witness for C2 on the deque whose first segment is empty. -/
theorem C2_prepend_get_witness :
    sampleEmptyFirst.Reachable ∧
      (sampleEmptyFirst.Prepend 7).2.GetSize = sampleEmptyFirst.GetSize + 1 ∧
      (sampleEmptyFirst.Prepend 7).2.Get 0 = .ok 7 :=
  have hreach : sampleEmptyFirst.Reachable :=
    .append _ 4 (.append _ 3 (.popFront _ (.popFront _
      (.append _ 2 (.append _ 1 (.construct 2 fresh2 rfl))))))
  ⟨hreach, (C2_prepend_get sampleEmptyFirst hreach 7).2.1,
    (C2_prepend_get sampleEmptyFirst hreach 7).2.2.1⟩

/-- C3: in every reachable state of size `n > 0`, `PopBack` returns normally, the size
becomes `n - 1`, and `Get(i)` returns the element it returned before for every
`i < n - 1`, wherever in the chain the last element lives. -/
theorem C3_popBack (d : SegmentDeque T) (hreach : d.Reachable) (hpos : 0 < d.GetSize) :
    d.PopBack.1 = .ok () ∧
    d.PopBack.2.GetSize = d.GetSize - 1 ∧
    (∀ i, i < d.GetSize - 1 → ∃ x, d.Get i = .ok x ∧ d.PopBack.2.Get i = .ok x) ∧
    (∀ i, d.GetSize - 1 ≤ i → d.PopBack.2.Get i = .error (.out_of_range "Index out of range")) := by
  have hwf := hreach.wf
  have hsz : d.GetSize = d.toList.length := hwf.size_eq
  obtain ⟨d1, hrun, hwf1, hl1, -⟩ := d.PopBack_spec hwf (by
    show d.GetSize ≠ 0
    omega)
  rw [hrun]
  have hsz1 : d1.GetSize = d.GetSize - 1 := by
    show d1.total_size = _
    rw [hwf1.size_eq, hl1, hsz]
    simp
  refine ⟨rfl, hsz1, ?_, ?_⟩
  · intro i hi
    obtain ⟨x, hx, hget⟩ := d.Get_elem_of_lt hwf i (by omega)
    refine ⟨x, hget, ?_⟩
    rw [d1.Get_ok_iff hwf1, hl1, List.dropLast_eq_take, List.getElem?_take_of_lt (by omega)]
    exact hx
  · intro i hi
    show d1.Get i = _
    simp only [SegmentDeque.Get]
    rw [if_pos (by
      show i ≥ d1.GetSize
      omega)]

/-- Witness for C3 on the deque whose last chain segment is empty: the element removed
lives in the first segment. -/
theorem C3_popBack_witness :
    sampleEmptyLast.Reachable ∧ 0 < sampleEmptyLast.GetSize ∧
      sampleEmptyLast.PopBack.1 = .ok () ∧
      sampleEmptyLast.PopBack.2.GetSize = sampleEmptyLast.GetSize - 1 :=
  have hreach : sampleEmptyLast.Reachable :=
    .prepend _ 2 (.prepend _ 1 (.construct 2 fresh2 rfl))
  have hpos : 0 < sampleEmptyLast.GetSize := by decide
  ⟨hreach, hpos, (C3_popBack sampleEmptyLast hreach hpos).1,
    (C3_popBack sampleEmptyLast hreach hpos).2.1⟩

/-- C4: in every reachable state of size `n > 0`, `PopFront` returns normally, the size
becomes `n - 1`, and the new `Get(i)` is the old `Get(i+1)` for every `i < n - 1`,
wherever in the chain the first element lives. -/
theorem C4_popFront (d : SegmentDeque T) (hreach : d.Reachable) (hpos : 0 < d.GetSize) :
    d.PopFront.1 = .ok () ∧
    d.PopFront.2.GetSize = d.GetSize - 1 ∧
    (∀ i, i < d.GetSize - 1 → ∃ x, d.Get (i + 1) = .ok x ∧ d.PopFront.2.Get i = .ok x) ∧
    (∀ i, d.GetSize - 1 ≤ i → d.PopFront.2.Get i = .error (.out_of_range "Index out of range")) := by
  have hwf := hreach.wf
  have hsz : d.GetSize = d.toList.length := hwf.size_eq
  obtain ⟨d1, hrun, hwf1, hl1, -⟩ := d.PopFront_spec hwf (by
    show d.GetSize ≠ 0
    omega)
  rw [hrun]
  have hsz1 : d1.GetSize = d.GetSize - 1 := by
    show d1.total_size = _
    rw [hwf1.size_eq, hl1, hsz]
    simp
  refine ⟨rfl, hsz1, ?_, ?_⟩
  · intro i hi
    obtain ⟨x, hx, hget⟩ := d.Get_elem_of_lt hwf (i + 1) (by omega)
    refine ⟨x, hget, ?_⟩
    rw [d1.Get_ok_iff hwf1, hl1, ← List.drop_one, List.getElem?_drop, Nat.add_comm]
    exact hx
  · intro i hi
    show d1.Get i = _
    simp only [SegmentDeque.Get]
    rw [if_pos (by
      show i ≥ d1.GetSize
      omega)]

/-- Witness for C4 on the deque whose first chain segment is empty: the element
removed lives in the second segment. -/
theorem C4_popFront_witness :
    sampleEmptyFirst.Reachable ∧ 0 < sampleEmptyFirst.GetSize ∧
      sampleEmptyFirst.PopFront.1 = .ok () ∧
      sampleEmptyFirst.PopFront.2.GetSize = sampleEmptyFirst.GetSize - 1 :=
  have hreach : sampleEmptyFirst.Reachable :=
    .append _ 4 (.append _ 3 (.popFront _ (.popFront _
      (.append _ 2 (.append _ 1 (.construct 2 fresh2 rfl))))))
  have hpos : 0 < sampleEmptyFirst.GetSize := by decide
  ⟨hreach, hpos, (C4_popFront sampleEmptyFirst hreach hpos).1,
    (C4_popFront sampleEmptyFirst hreach hpos).2.1⟩

/-! ## Sequences of calls -/

theorem runOps_append (a b : List (Op T)) (d : SegmentDeque T) :
    runOps (a ++ b) d = runOps b (runOps a d) := by
  induction a generalizing d with
  | nil => rfl
  | cons op a ih =>
    show runOps (a ++ b) (op.call d).2 = runOps b (runOps a (op.call d).2)
    exact ih _

theorem failedCalls_append (a b : List (Op T)) (d : SegmentDeque T) :
    failedCalls (a ++ b) d = failedCalls a d + failedCalls b (runOps a d) := by
  induction a generalizing d with
  | nil => simp [failedCalls, runOps]
  | cons op a ih =>
    show (if returned (op.call d).1 then 0 else 1) + failedCalls (a ++ b) (op.call d).2 =
      ((if returned (op.call d).1 then 0 else 1) + failedCalls a (op.call d).2) +
        failedCalls b (runOps a (op.call d).2)
    rw [ih, Nat.add_assoc]

theorem Op.call_spec (op : Op T) (d : SegmentDeque T) (hwf : d.WF) :
    (op.call d).2.WF ∧
    (op.isInsert = true → (op.call d).1 = .ok () ∧ (op.call d).2.GetSize = d.GetSize + 1) ∧
    (op.isInsert = false → d.GetSize ≠ 0 →
      (op.call d).1 = .ok () ∧ (op.call d).2.GetSize = d.GetSize - 1) ∧
    (op.isInsert = false → d.GetSize = 0 →
      returned (op.call d).1 = false ∧ (op.call d).2 = d) := by
  have hsz : d.GetSize = d.toList.length := hwf.size_eq
  cases op with
  | append v =>
    obtain ⟨d1, hrun, hwf1, hl1, -⟩ := d.Append_spec hwf v
    simp only [Op.call, hrun, Op.isInsert]
    refine ⟨hwf1, fun _ => ⟨trivial, ?_⟩, by simp, by simp⟩
    show d1.total_size = _
    rw [hwf1.size_eq, hl1, hsz]; simp
  | prepend v =>
    obtain ⟨d1, hrun, hwf1, hl1, -⟩ := d.Prepend_spec hwf v
    simp only [Op.call, hrun, Op.isInsert]
    refine ⟨hwf1, fun _ => ⟨trivial, ?_⟩, by simp, by simp⟩
    show d1.total_size = _
    rw [hwf1.size_eq, hl1, hsz]; simp
  | popBack =>
    simp only [Op.call, Op.isInsert]
    by_cases hz : d.total_size = 0
    · rw [d.PopBack_of_empty hz]
      exact ⟨hwf, by simp, fun _ h => absurd hz h, fun _ _ => ⟨rfl, rfl⟩⟩
    · obtain ⟨d1, hrun, hwf1, hl1, -⟩ := d.PopBack_spec hwf hz
      rw [hrun]
      refine ⟨hwf1, by simp, fun _ _ => ⟨rfl, ?_⟩, fun _ h => absurd h hz⟩
      show d1.total_size = _
      rw [hwf1.size_eq, hl1, hsz]; simp
  | popFront =>
    simp only [Op.call, Op.isInsert]
    by_cases hz : d.total_size = 0
    · rw [d.PopFront_of_empty hz]
      exact ⟨hwf, by simp, fun _ h => absurd hz h, fun _ _ => ⟨rfl, rfl⟩⟩
    · obtain ⟨d1, hrun, hwf1, hl1, -⟩ := d.PopFront_spec hwf hz
      rw [hrun]
      refine ⟨hwf1, by simp, fun _ _ => ⟨rfl, ?_⟩, fun _ h => absurd h hz⟩
      show d1.total_size = _
      rw [hwf1.size_eq, hl1, hsz]; simp

theorem runOps_size (ops : List (Op T)) :
    ∀ d : SegmentDeque T, d.WF →
      (runOps ops d).WF ∧
      (runOps ops d).GetSize + successfulPops ops d = d.GetSize + insertCalls ops := by
  induction ops with
  | nil => intro d hwf; exact ⟨hwf, rfl⟩
  | cons op ops ih =>
    intro d hwf
    obtain ⟨hwf1, hins, hpop, hfail⟩ := op.call_spec d hwf
    obtain ⟨hwf2, hcount⟩ := ih _ hwf1
    refine ⟨hwf2, ?_⟩
    simp only [runOps, successfulPops, insertCalls, List.filter_cons] at hcount ⊢
    cases hi : op.isInsert with
    | true =>
      obtain ⟨-, h2⟩ := hins hi
      simp only [Bool.not_true, Bool.false_and, Bool.false_eq_true, if_false, if_true,
        List.length_cons, insertCalls] at hcount ⊢
      omega
    | false =>
      by_cases hz : d.GetSize = 0
      · obtain ⟨h1, h2⟩ := hfail hi hz
        rw [h2] at hcount ⊢
        simp only [h1, Bool.not_false, Bool.and_false, Bool.false_eq_true, if_false,
          insertCalls] at hcount ⊢
        omega
      · obtain ⟨h1, h2⟩ := hpop hi hz
        simp only [h1, returned, Bool.not_false, Bool.and_true, if_true, Bool.false_eq_true,
          if_false, insertCalls] at hcount ⊢
        omega

theorem runOps_inserts (ops : List (Op T)) (hall : ∀ op ∈ ops, op.isInsert = true) :
    ∀ d : SegmentDeque T, d.WF →
      (runOps ops d).WF ∧ (runOps ops d).GetSize = d.GetSize + ops.length ∧
        failedCalls ops d = 0 := by
  induction ops with
  | nil => intro d hwf; exact ⟨hwf, rfl, rfl⟩
  | cons op ops ih =>
    intro d hwf
    obtain ⟨hwf1, hins, -, -⟩ := op.call_spec d hwf
    obtain ⟨h1, h2⟩ := hins (hall op (by simp))
    obtain ⟨hwf2, hsize, hfail⟩ := ih (fun o ho => hall o (by simp [ho])) _ hwf1
    refine ⟨hwf2, ?_, ?_⟩
    · simp only [runOps, List.length_cons]
      omega
    · simp only [failedCalls, h1, returned, hfail, if_true]

theorem runOps_pops (ops : List (Op T)) (hall : ∀ op ∈ ops, op.isInsert = false) :
    ∀ d : SegmentDeque T, d.WF → ops.length ≤ d.GetSize →
      (runOps ops d).WF ∧ (runOps ops d).GetSize = d.GetSize - ops.length ∧
        failedCalls ops d = 0 := by
  induction ops with
  | nil => intro d hwf _; exact ⟨hwf, rfl, rfl⟩
  | cons op ops ih =>
    intro d hwf hlen
    simp only [List.length_cons] at hlen
    obtain ⟨hwf1, -, hpop, -⟩ := op.call_spec d hwf
    obtain ⟨h1, h2⟩ := hpop (hall op (by simp)) (by omega)
    obtain ⟨hwf2, hsize, hfail⟩ := ih (fun o ho => hall o (by simp [ho])) _ hwf1 (by omega)
    refine ⟨hwf2, ?_, ?_⟩
    · simp only [runOps, List.length_cons]
      omega
    · simp only [failedCalls, h1, returned, hfail, if_true]

/-- C5: after any sequence of `Append`/`Prepend`/`PopBack`/`PopFront` calls on a freshly
constructed deque, `GetSize()` is the number of `Append` and `Prepend` calls minus the
number of pops that returned normally, and `IsEmpty()` holds exactly when `GetSize()` is
0; the 1000 alternating insertions followed by 500 alternating pops of the large test
leave size 500 and no call throws. -/
theorem C5_size_invariant (c : Nat) (d0 : SegmentDeque T) (ops : List (Op T))
    (hc : SegmentDeque.Construct c = .ok d0) :
    successfulPops ops d0 ≤ insertCalls ops ∧
    (runOps ops d0).GetSize = insertCalls ops - successfulPops ops d0 ∧
    ((runOps ops d0).IsEmpty = true ↔ (runOps ops d0).GetSize = 0) ∧
    (∀ e0 : SegmentDeque Int, SegmentDeque.Construct 16 = .ok e0 →
      (runOps largeInserts e0).GetSize = 1000 ∧
      (runOps (largeInserts ++ largePops) e0).GetSize = 500 ∧
      failedCalls (largeInserts ++ largePops) e0 = 0) := by
  obtain ⟨-, hwf0, hl0, -⟩ := SegmentDeque.Construct_spec c d0 hc
  have hz : d0.GetSize = 0 := by
    show d0.total_size = 0
    rw [hwf0.size_eq, hl0]; rfl
  obtain ⟨-, hcount⟩ := runOps_size ops d0 hwf0
  refine ⟨by omega, by omega, ?_, ?_⟩
  · simp [SegmentDeque.IsEmpty, SegmentDeque.GetSize]
  · intro e0 he
    obtain ⟨-, hwfe, hle, -⟩ := SegmentDeque.Construct_spec 16 e0 he
    have hze : e0.GetSize = 0 := by
      show e0.total_size = 0
      rw [hwfe.size_eq, hle]; rfl
    have hins : ∀ op ∈ largeInserts, op.isInsert = true := by
      intro op hop
      simp only [largeInserts, List.mem_map] at hop
      obtain ⟨i, -, rfl⟩ := hop
      split <;> rfl
    have hpops : ∀ op ∈ largePops, op.isInsert = false := by
      intro op hop
      simp only [largePops, List.mem_map] at hop
      obtain ⟨i, -, rfl⟩ := hop
      split <;> rfl
    have hlen1 : largeInserts.length = 1000 := by simp [largeInserts]
    have hlen2 : largePops.length = 500 := by simp [largePops]
    obtain ⟨hwf1, hs1, hf1⟩ := runOps_inserts largeInserts hins e0 hwfe
    obtain ⟨-, hs2, hf2⟩ := runOps_pops largePops hpops _ hwf1 (by omega)
    refine ⟨by omega, ?_, ?_⟩
    · rw [runOps_append]; omega
    · rw [failedCalls_append, hf1, hf2]

/-- Witness for C5: three insertions and a pop on a fresh deque of capacity 2. -/
theorem C5_size_invariant_witness :
    (SegmentDeque.Construct 2 : Except Error (SegmentDeque Int)) = .ok fresh2 ∧
      (runOps [Op.append 1, Op.prepend 2, Op.popBack, Op.append 3] fresh2).GetSize =
        insertCalls [Op.append (1 : Int), Op.prepend 2, Op.popBack, Op.append 3] -
          successfulPops [Op.append 1, Op.prepend 2, Op.popBack, Op.append 3] fresh2 :=
  ⟨rfl, (C5_size_invariant 2 fresh2 [Op.append 1, Op.prepend 2, Op.popBack, Op.append 3] rfl).2.1⟩

/-! ## The owning segment of an index -/

theorem chain_locate (L : List (Segment T)) :
    (∀ s ∈ L, s.front_offset ≤ s.back_size ∧ s.back_size ≤ s.data.items.items.length) →
    ∀ (index : Nat) (x : T), (chainElems L)[index]? = some x →
      ∃ k seg, L[k]? = some seg ∧
        ((L.take k).map Segment.GetEffectiveSize).sum ≤ index ∧
        index < ((L.take k).map Segment.GetEffectiveSize).sum + seg.GetEffectiveSize ∧
        seg.front_offset + (index - ((L.take k).map Segment.GetEffectiveSize).sum) <
          seg.data.items.items.length ∧
        seg.data.items.items[seg.front_offset +
          (index - ((L.take k).map Segment.GetEffectiveSize).sum)]? = some x := by
  induction L with
  | nil => intro _ index x hx; simp [chainElems_nil] at hx
  | cons s L ih =>
    intro hwf index x hx
    have hs := hwf s (by simp)
    have heff : s.GetEffectiveSize = s.window.length := by
      rw [Segment.window_length s hs.2, Segment.GetEffectiveSize, usub_of_le hs.1]
    rw [chainElems_cons] at hx
    by_cases hin : index < s.window.length
    · obtain ⟨hb, hw⟩ := s.window_getElem index hin hs.2
      rw [List.getElem?_append_left hin, hw] at hx
      refine ⟨0, s, by simp, by simp, by simp [heff, hin], by simpa using hb, by simpa using hx⟩
    · rw [List.getElem?_append_right (by omega)] at hx
      obtain ⟨k, seg, hk, hle, hlt, hb, hget⟩ :=
        ih (fun t ht => hwf t (by simp [ht])) _ x hx
      refine ⟨k + 1, seg, by simpa using hk, ?_, ?_, ?_, ?_⟩
      · simp only [List.take_succ_cons, List.map_cons, List.sum_cons, heff]
        omega
      · simp only [List.take_succ_cons, List.map_cons, List.sum_cons, heff]
        omega
      · simp only [List.take_succ_cons, List.map_cons, List.sum_cons, heff]
        have e : index - (s.window.length + (List.map Segment.GetEffectiveSize (List.take k L)).sum) =
            index - s.window.length - (List.map Segment.GetEffectiveSize (List.take k L)).sum := by
          omega
        rw [e]; exact hb
      · simp only [List.take_succ_cons, List.map_cons, List.sum_cons, heff]
        have e : index - (s.window.length + (List.map Segment.GetEffectiveSize (List.take k L)).sum) =
            index - s.window.length - (List.map Segment.GetEffectiveSize (List.take k L)).sum := by
          omega
        rw [e]; exact hget

/-- C6: in every reachable state `Get(index)` throws exactly when `index >= GetSize()`,
and then it is the out-of-range error of the entry check; for `index < GetSize()` the
walk stops at an owning segment `k` (accumulated size at most `index`, less than it
after adding the segment's effective size), the offset
`front_offset + (index - accumulated)` lies inside that segment's buffer, and `Get`
returns the element stored there. -/
theorem C6_get_range (d : SegmentDeque T) (hreach : d.Reachable) (index : Nat) :
    (d.Get index = .error (.out_of_range "Index out of range") ↔ d.GetSize ≤ index) ∧
    ((∃ e, d.Get index = .error e) ↔ d.GetSize ≤ index) ∧
    (index < d.GetSize →
      ∃ k seg x, d.GetSegment k = .ok seg ∧
        d.accumulated k ≤ index ∧ index < d.accumulated k + seg.GetEffectiveSize ∧
        seg.front_offset + (index - d.accumulated k) < seg.data.GetSize ∧
        seg.data.Get (seg.front_offset + (index - d.accumulated k)) = .ok x ∧
        d.Get index = .ok x) := by
  have hwf := hreach.wf
  have hsz : d.GetSize = d.toList.length := hwf.size_eq
  have hout : d.GetSize ≤ index → d.Get index = .error (.out_of_range "Index out of range") := by
    intro h
    simp only [SegmentDeque.Get]
    rw [if_pos (show index ≥ d.total_size from h)]
  have hin : index < d.GetSize → ∃ x, d.toList[index]? = some x ∧ d.Get index = .ok x :=
    d.Get_elem_of_lt hwf index
  refine ⟨⟨?_, hout⟩, ⟨?_, fun h => ⟨_, hout h⟩⟩, ?_⟩
  · intro herr
    by_contra hlt
    obtain ⟨x, -, hx⟩ := hin (by omega)
    rw [hx] at herr
    cases herr
  · rintro ⟨e, herr⟩
    by_contra hlt
    obtain ⟨x, -, hx⟩ := hin (by omega)
    rw [hx] at herr
    cases herr
  · intro hlt
    obtain ⟨x, hx, hget⟩ := hin hlt
    obtain ⟨k, seg, hk, hle, hlt2, hb, hval⟩ := chain_locate d.segments.items.nodes
      (fun s hs => ⟨(hwf.segs s hs).1, by rw [(hwf.segs s hs).2.2]; exact (hwf.segs s hs).2.1⟩)
      index x hx
    have hklt : k < d.segments.items.nodes.length := (List.getElem?_eq_some.mp hk).1
    refine ⟨k, seg, x, ?_, hle, hlt2, hb, ?_, hget⟩
    · simp only [SegmentDeque.GetSegment]
      rw [if_neg (by
        show ¬ k ≥ d.segments.items.nodes.length
        omega)]
      exact ListSequence.Get_of_getElem? _ hk
    · show seg.data.Get (seg.front_offset + (index -
        ((d.segments.items.nodes.take k).map Segment.GetEffectiveSize).sum)) = .ok x
      rw [MutableArraySequence.Get_slot_of_lt _ hb]
      rw [List.getElem?_eq_getElem hb] at hval
      simpa using hval

/-- Witness for C6 on the deque of size 2 whose first segment is empty, at index 2. -/
theorem C6_get_range_witness :
    sampleEmptyFirst.Reachable ∧
      (sampleEmptyFirst.Get 2 = .error (.out_of_range "Index out of range") ↔
        sampleEmptyFirst.GetSize ≤ 2) :=
  have hreach : sampleEmptyFirst.Reachable :=
    .append _ 4 (.append _ 3 (.popFront _ (.popFront _
      (.append _ 2 (.append _ 1 (.construct 2 fresh2 rfl))))))
  ⟨hreach, (C6_get_range sampleEmptyFirst hreach 2).1⟩

/-- C7: in every reachable state `PopBack` and `PopFront` throw exactly when the size is
0, the exception is the out-of-range one of the entry check, and a pop that throws
leaves the whole deque state as it was. -/
theorem C7_pop_underflow (d : SegmentDeque T) (hreach : d.Reachable) :
    (d.PopBack.1 = .error (.out_of_range "PopBack from empty deque") ↔ d.GetSize = 0) ∧
    ((∃ e, d.PopBack.1 = .error e) ↔ d.GetSize = 0) ∧
    (∀ e, d.PopBack.1 = .error e → d.PopBack.2 = d) ∧
    (d.PopFront.1 = .error (.out_of_range "PopFront from empty deque") ↔ d.GetSize = 0) ∧
    ((∃ e, d.PopFront.1 = .error e) ↔ d.GetSize = 0) ∧
    (∀ e, d.PopFront.1 = .error e → d.PopFront.2 = d) := by
  have hwf := hreach.wf
  have hback : ∀ e, d.PopBack.1 = .error e → d.GetSize = 0 := by
    intro e he
    by_contra hz
    obtain ⟨d1, hrun, -⟩ := d.PopBack_spec hwf hz
    rw [hrun] at he
    cases he
  have hfront : ∀ e, d.PopFront.1 = .error e → d.GetSize = 0 := by
    intro e he
    by_contra hz
    obtain ⟨d1, hrun, -⟩ := d.PopFront_spec hwf hz
    rw [hrun] at he
    cases he
  have hb0 : d.GetSize = 0 →
      d.PopBack.1 = .error (.out_of_range "PopBack from empty deque") := by
    intro h
    rw [d.PopBack_of_empty h]
  have hf0 : d.GetSize = 0 →
      d.PopFront.1 = .error (.out_of_range "PopFront from empty deque") := by
    intro h
    rw [d.PopFront_of_empty h]
  refine ⟨⟨hback _, hb0⟩, ⟨fun ⟨e, he⟩ => hback e he, fun h => ⟨_, hb0 h⟩⟩, ?_,
    ⟨hfront _, hf0⟩, ⟨fun ⟨e, he⟩ => hfront e he, fun h => ⟨_, hf0 h⟩⟩, ?_⟩
  · intro e he
    rw [d.PopBack_of_empty (hback e he)]
  · intro e he
    rw [d.PopFront_of_empty (hfront e he)]

/-- Witness for C7 on a fresh deque of capacity 2. -/
theorem C7_pop_underflow_witness :
    fresh2.Reachable ∧
      (fresh2.PopBack.1 = .error (.out_of_range "PopBack from empty deque") ↔
        fresh2.GetSize = 0) ∧
      (∀ e, fresh2.PopFront.1 = .error e → fresh2.PopFront.2 = fresh2) :=
  have hreach : fresh2.Reachable := .construct 2 fresh2 rfl
  ⟨hreach, (C7_pop_underflow fresh2 hreach).1, (C7_pop_underflow fresh2 hreach).2.2.2.2.2⟩



/-- C8: the constructor throws exactly when `segment_capacity == 0`, and then the
invalid-argument error; for every positive capacity, the default 16 included, it yields
a deque of size 0 that `IsEmpty`, whose chain is one empty segment with
`front_offset == back_size == 0`. -/
theorem C8_construct (T : Type) [Inhabited T] (c : Nat) :
    ((∃ e, (SegmentDeque.Construct c : Except Error (SegmentDeque T)) = .error e) ↔ c = 0) ∧
    (c = 0 → (SegmentDeque.Construct c : Except Error (SegmentDeque T)) =
      .error (.invalid_argument "segment_capacity == 0")) ∧
    (0 < c → ∃ (d : SegmentDeque T) (seg : Segment T),
      SegmentDeque.Construct c = .ok d ∧ d.GetSize = 0 ∧ d.IsEmpty = true ∧
      d.segment_capacity = c ∧ d.GetSegmentCount = 1 ∧ d.GetSegment 0 = .ok seg ∧
      d.segments.items.nodes = [seg] ∧ seg.IsEmpty = true ∧
      seg.front_offset = 0 ∧ seg.back_size = 0 ∧ seg.data.GetSize = c) ∧
    (∃ d : SegmentDeque T, SegmentDeque.Construct SegmentDeque.defaultCapacity = .ok d ∧
      d.GetSize = 0 ∧ d.IsEmpty = true ∧ d.GetSegmentCount = 1) := by
  have hzero : c = 0 → (SegmentDeque.Construct c : Except Error (SegmentDeque T)) =
      .error (.invalid_argument "segment_capacity == 0") := by
    intro h
    simp [SegmentDeque.Construct, h]
  refine ⟨⟨?_, fun h => ⟨_, hzero h⟩⟩, hzero, ?_, ?_⟩
  · rintro ⟨e, he⟩
    by_contra hne
    rw [SegmentDeque.Construct_pos c (by omega)] at he
    cases he
  · intro hc
    refine ⟨_, ⟨⟨⟨List.replicate c default⟩⟩, 0, 0⟩, SegmentDeque.Construct_pos c hc,
      rfl, rfl, rfl, rfl, ?_, rfl, rfl, rfl, rfl, ?_⟩
    · simp only [SegmentDeque.GetSegment, ListSequence.GetSize, LinkedList.GetSize,
        List.length_singleton]
      rw [if_neg (by omega)]
      exact ListSequence.Get_of_getElem? _ (by simp)
    · simp [MutableArraySequence.GetSize, DynamicArray.GetSize]
  · exact ⟨_, SegmentDeque.Construct_pos 16 (by omega), rfl, rfl, rfl⟩

/-- Witness for C8 at the capacity 32 of `Tests::TestConstructor`. -/
theorem C8_construct_witness :
    0 < 32 ∧ ∃ (d : SegmentDeque Int) (seg : Segment Int),
      SegmentDeque.Construct 32 = .ok d ∧ d.GetSize = 0 ∧ d.IsEmpty = true ∧
      d.segment_capacity = 32 ∧ d.GetSegmentCount = 1 ∧ d.GetSegment 0 = .ok seg ∧
      d.segments.items.nodes = [seg] ∧ seg.IsEmpty = true ∧
      seg.front_offset = 0 ∧ seg.back_size = 0 ∧ seg.data.GetSize = 32 :=
  ⟨by decide, (C8_construct Int 32).2.2.1 (by decide)⟩

/-! ## `Map` -/

theorem SegmentDeque.mapLoop_spec {U : Type} [Inhabited U] (d : SegmentDeque T) (hwf : d.WF)
    (func : T → U) (rem : Nat) :
    ∀ (i : Nat) (result : SegmentDeque U), result.Reachable → i + rem = d.total_size →
      result.toList = (d.toList.take i).map func →
      ∃ r, d.mapLoop func rem i result = .ok r ∧ r.Reachable ∧
        r.toList = d.toList.map func ∧ r.segment_capacity = result.segment_capacity := by
  induction rem with
  | zero =>
    intro i result hreach hi hl
    refine ⟨result, rfl, hreach, ?_, rfl⟩
    rw [hl, List.take_of_length_le (by rw [← hwf.size_eq]; omega)]
  | succ rem ih =>
    intro i result hreach hi hl
    obtain ⟨x, hx, hget⟩ := d.Get_elem_of_lt hwf i (by
      show i < d.total_size
      omega)
    obtain ⟨r1, hrun, hwf1, hl1, hc1⟩ := result.Append_spec hreach.wf (func x)
    have hreach1 : r1.Reachable := by
      have := SegmentDeque.Reachable.append result (func x) hreach
      rw [hrun] at this
      exact this
    obtain ⟨r, hr, hreachr, hlr, hcr⟩ := ih (i + 1) r1 hreach1 (by omega) (by
      rw [hl1, hl, List.take_succ, hx]
      simp)
    refine ⟨r, ?_, hreachr, hlr, by rw [hcr, hc1]⟩
    simp only [SegmentDeque.mapLoop, hget, hrun]
    exact hr

theorem SegmentDeque.Map_spec {U : Type} [Inhabited U] (d : SegmentDeque T) (hwf : d.WF)
    (func : T → U) :
    ∃ r, d.Map func = .ok r ∧ r.Reachable ∧ r.toList = d.toList.map func ∧
      r.segment_capacity = d.segment_capacity := by
  have hc : (SegmentDeque.Construct d.segment_capacity : Except Error (SegmentDeque U)) = _ :=
    SegmentDeque.Construct_pos d.segment_capacity hwf.cap_pos
  obtain ⟨-, hwf0, hl0, hcap0⟩ := SegmentDeque.Construct_spec _ _ hc
  obtain ⟨r, hr, hreach, hl, hcap⟩ := d.mapLoop_spec hwf func d.GetSize 0 _
    (SegmentDeque.Reachable.construct _ _ hc) (by simp [SegmentDeque.GetSize]) (by
      rw [hl0]; simp)
  refine ⟨r, ?_, hreach, hl, by rw [hcap]⟩
  simp only [SegmentDeque.Map, hc]
  exact hr

/-- C9: for every reachable deque `d` and function `f`, `d.Map(f)` returns a deque
(itself reachable, of the same segment capacity) of the same size as `d` whose element
at every index `i < d.GetSize()` is `f(d.Get(i))`. -/
theorem C9_map {U : Type} [Inhabited U] (d : SegmentDeque T) (hreach : d.Reachable)
    (f : T → U) :
    ∃ r, d.Map f = .ok r ∧ r.Reachable ∧ r.segment_capacity = d.segment_capacity ∧
      r.GetSize = d.GetSize ∧
      ∀ i, i < d.GetSize → ∃ x, d.Get i = .ok x ∧ r.Get i = .ok (f x) := by
  have hwf := hreach.wf
  obtain ⟨r, hr, hreachr, hl, hcap⟩ := d.Map_spec hwf f
  have hwfr := hreachr.wf
  refine ⟨r, hr, hreachr, hcap, ?_, ?_⟩
  · show r.total_size = d.total_size
    rw [hwfr.size_eq, hl, hwf.size_eq, List.length_map]
  · intro i hi
    obtain ⟨x, hx, hget⟩ := d.Get_elem_of_lt hwf i hi
    refine ⟨x, hget, ?_⟩
    rw [r.Get_ok_iff hwfr, hl, List.getElem?_map, hx]
    rfl

/-- Witness for C9: doubling the deque that holds 2, 3 behind one slot of front slack. -/
theorem C9_map_witness :
    sampleSlack.Reachable ∧
      ∃ r, sampleSlack.Map (fun x => x * 2) = .ok r ∧ r.Reachable ∧
        r.segment_capacity = sampleSlack.segment_capacity ∧ r.GetSize = sampleSlack.GetSize ∧
        ∀ i, i < sampleSlack.GetSize →
          ∃ x, sampleSlack.Get i = .ok x ∧ r.Get i = .ok (x * 2) :=
  have hreach : sampleSlack.Reachable :=
    .popFront _ (.append _ 3 (.append _ 2 (.append _ 1 (.construct 2 fresh2 rfl))))
  ⟨hreach, C9_map sampleSlack hreach (fun x => x * 2)⟩

/-- C10: for every reachable deque `d`, whatever its segment layout, `d.Map(identity)`
returns a deque of the same size on which `Get` answers every index as it does
on `d`. -/
theorem C10_map_identity (d : SegmentDeque T) (hreach : d.Reachable) :
    ∃ r, d.Map (fun x => x) = .ok r ∧ r.GetSize = d.GetSize ∧ r.toList = d.toList ∧
      ∀ i, r.Get i = d.Get i := by
  have hwf := hreach.wf
  obtain ⟨r, hr, hreachr, hl, -⟩ := d.Map_spec hwf (fun x => x)
  have hwfr := hreachr.wf
  rw [List.map_id'] at hl
  refine ⟨r, hr, ?_, hl, ?_⟩
  · show r.total_size = d.total_size
    rw [hwfr.size_eq, hl, hwf.size_eq]
  · intro i
    rw [r.Get_eq hwfr, d.Get_eq hwf, hl]

/-- Witness for C10 on the deque whose last chain segment is empty. -/
theorem C10_map_identity_witness :
    sampleEmptyLast.Reachable ∧
      ∃ r, sampleEmptyLast.Map (fun x => x) = .ok r ∧ r.GetSize = sampleEmptyLast.GetSize ∧
        r.toList = sampleEmptyLast.toList ∧ ∀ i, r.Get i = sampleEmptyLast.Get i :=
  have hreach : sampleEmptyLast.Reachable :=
    .prepend _ 2 (.prepend _ 1 (.construct 2 fresh2 rfl))
  ⟨hreach, C10_map_identity sampleEmptyLast hreach⟩

/-! ## The element sequence as read through `Get` -/

theorem filterMap_range_getElem? {α : Type} (l : List α) (n : Nat) (h : n ≤ l.length) :
    (List.range n).filterMap (fun i => l[i]?) = l.take n := by
  induction n with
  | zero => simp
  | succ n ih =>
    have hn : n < l.length := by omega
    rw [List.range_succ, List.filterMap_append, ih (by omega), List.take_succ]
    simp [List.getElem?_eq_getElem hn]

theorem length_filterMap_eq_filter {α β : Type} (g : α → Option β) (q : α → Bool)
    (h : ∀ a, (g a).isSome = q a) (l : List α) :
    (l.filterMap g).length = (l.filter q).length := by
  induction l with
  | nil => rfl
  | cons a l ih =>
    have ha := h a
    cases hg : g a with
    | none =>
      rw [hg] at ha
      simp only [Option.isSome_none] at ha
      rw [List.filterMap_cons_none hg, List.filter_cons_of_neg (by simp [← ha]), ih]
    | some b =>
      rw [hg] at ha
      simp only [Option.isSome_some] at ha
      rw [List.filterMap_cons_some hg, List.filter_cons_of_pos (by simp [← ha]),
        List.length_cons, List.length_cons, ih]

theorem SegmentDeque.contents_eq (d : SegmentDeque T) (hwf : d.WF) : d.contents = d.toList := by
  have hf : (fun i => match d.Get i with
      | .ok x => some x
      | .error _ => none) = fun i => d.toList[i]? := by
    funext i
    rw [d.Get_eq hwf]
    cases d.toList[i]? <;> rfl
  unfold SegmentDeque.contents
  rw [hf, filterMap_range_getElem? _ _ (by
    show d.total_size ≤ _
    rw [hwf.size_eq]), List.take_of_length_le (by
    show _ ≤ d.total_size
    rw [hwf.size_eq])]

theorem SegmentDeque.reachable_of_appendAll (values : List T) :
    ∀ d : SegmentDeque T, d.Reachable → (d.AppendAll values).Reachable := by
  induction values with
  | nil => intro d h; exact h
  | cons v values ih => intro d h; exact ih _ (.append d v h)

/-! ## `Where`, `Reduce` and `FlatMap` -/

theorem SegmentDeque.whereLoop_spec (d : SegmentDeque T) (hwf : d.WF) (predicate : T → Bool)
    (rem : Nat) :
    ∀ (i : Nat) (result : SegmentDeque T), result.Reachable → i + rem = d.total_size →
      result.toList = (d.toList.take i).filter predicate →
      ∃ r, d.whereLoop predicate rem i result = .ok r ∧ r.Reachable ∧
        r.toList = d.toList.filter predicate ∧
        r.segment_capacity = result.segment_capacity := by
  induction rem with
  | zero =>
    intro i result hreach hi hl
    refine ⟨result, rfl, hreach, ?_, rfl⟩
    rw [hl, List.take_of_length_le (by rw [← hwf.size_eq]; omega)]
  | succ rem ih =>
    intro i result hreach hi hl
    obtain ⟨x, hx, hget⟩ := d.Get_elem_of_lt hwf i (by
      show i < d.total_size
      omega)
    simp only [SegmentDeque.whereLoop, hget]
    cases hp : predicate x with
    | true =>
      simp only [if_true]
      obtain ⟨r1, hrun, hwf1, hl1, hc1⟩ := result.Append_spec hreach.wf x
      have hreach1 : r1.Reachable := by
        have := SegmentDeque.Reachable.append result x hreach
        rw [hrun] at this
        exact this
      obtain ⟨r, hr, hreachr, hlr, hcr⟩ := ih (i + 1) r1 hreach1 (by omega) (by
        rw [hl1, hl, List.take_succ, hx]
        simp [hp])
      refine ⟨r, ?_, hreachr, hlr, by rw [hcr, hc1]⟩
      simp only [hrun]
      exact hr
    | false =>
      simp only [Bool.false_eq_true, if_false]
      exact ih (i + 1) result hreach (by omega) (by
        rw [hl, List.take_succ, hx]
        simp [hp])

theorem SegmentDeque.Where_spec (d : SegmentDeque T) (hwf : d.WF) (predicate : T → Bool) :
    ∃ r, d.Where predicate = .ok r ∧ r.Reachable ∧ r.toList = d.toList.filter predicate ∧
      r.segment_capacity = d.segment_capacity := by
  have hc : (SegmentDeque.Construct d.segment_capacity : Except Error (SegmentDeque T)) = _ :=
    SegmentDeque.Construct_pos d.segment_capacity hwf.cap_pos
  obtain ⟨-, hwf0, hl0, hcap0⟩ := SegmentDeque.Construct_spec _ _ hc
  obtain ⟨r, hr, hreach, hl, hcap⟩ := d.whereLoop_spec hwf predicate d.GetSize 0 _
    (SegmentDeque.Reachable.construct _ _ hc) (by simp [SegmentDeque.GetSize]) (by
      rw [hl0]; simp)
  refine ⟨r, ?_, hreach, hl, by rw [hcap]⟩
  simp only [SegmentDeque.Where, hc]
  exact hr

/-- C11: for every reachable deque `d` and predicate `p`, `d.Where(p)` returns a deque
whose element sequence is the element sequence of `d` filtered by `p` (exactly the
elements satisfying `p`, in their original order), and whose size is the number of
indices `i < d.GetSize()` at which `p(d.Get(i))` holds. -/
theorem C11_where (d : SegmentDeque T) (hreach : d.Reachable) (p : T → Bool) :
    ∃ r, d.Where p = .ok r ∧ r.Reachable ∧ r.segment_capacity = d.segment_capacity ∧
      r.contents = d.contents.filter p ∧
      r.GetSize = ((List.range d.GetSize).filter (fun i =>
        match d.Get i with
        | .ok x => p x
        | .error _ => false)).length := by
  have hwf := hreach.wf
  obtain ⟨r, hr, hreachr, hl, hcap⟩ := d.Where_spec hwf p
  have hwfr := hreachr.wf
  have hsize : r.GetSize = (d.toList.filter p).length := by
    show r.total_size = _
    rw [hwfr.size_eq, hl]
  refine ⟨r, hr, hreachr, hcap, ?_, ?_⟩
  · rw [r.contents_eq hwfr, d.contents_eq hwf, hl]
  · rw [hsize, ← d.contents_eq hwf]
    unfold SegmentDeque.contents
    rw [List.filter_filterMap]
    apply length_filterMap_eq_filter
    intro i
    cases d.Get i with
    | error e => rfl
    | ok x => cases hp : p x <;> simp [Option.filter, hp]

/-- Witness for C11: the even elements of 1..5 are 2, 4. -/
theorem C11_where_witness :
    sampleFive.Reachable ∧
      ∃ r, sampleFive.Where (fun x => x % 2 == 0) = .ok r ∧ r.contents = [2, 4] :=
  have hreach : sampleFive.Reachable :=
    SegmentDeque.reachable_of_appendAll _ _ (.construct 2 fresh2 rfl)
  ⟨hreach, by
    obtain ⟨r, hr, -, -, hcont, -⟩ := C11_where sampleFive hreach (fun x => x % 2 == 0)
    exact ⟨r, hr, by rw [hcont]; rfl⟩⟩

theorem SegmentDeque.reduceLoop_spec (d : SegmentDeque T) (hwf : d.WF) (func : T → T → T)
    (rem : Nat) :
    ∀ (i : Nat) (result : T), i + rem = d.total_size →
      d.reduceLoop func rem i result = .ok ((d.toList.drop i).foldl func result) := by
  induction rem with
  | zero =>
    intro i result hi
    rw [List.drop_of_length_le (by rw [← hwf.size_eq]; omega)]
    rfl
  | succ rem ih =>
    intro i result hi
    have hlt : i < d.toList.length := by rw [← hwf.size_eq]; omega
    have hget : d.Get i = .ok (d.toList[i]) :=
      (d.Get_ok_iff hwf i _).mpr (List.getElem?_eq_getElem hlt)
    simp only [SegmentDeque.reduceLoop, hget]
    rw [ih (i + 1) _ (by omega), List.drop_eq_getElem_cons hlt, List.foldl_cons]

/-- C12: for every reachable deque `d`, function `f` and initial value `init`,
`d.Reduce(f, init)` returns the left fold of `f` from `init` over the element sequence
of `d` in index order; on an empty deque it returns `init`. -/
theorem C12_reduce (d : SegmentDeque T) (hreach : d.Reachable) (f : T → T → T) (init : T) :
    d.Reduce f init = .ok (d.contents.foldl f init) ∧
    (d.GetSize = 0 → d.Reduce f init = .ok init) := by
  have hwf := hreach.wf
  have h : d.Reduce f init = .ok (d.contents.foldl f init) := by
    rw [d.contents_eq hwf]
    exact d.reduceLoop_spec hwf f d.GetSize 0 init (by simp [SegmentDeque.GetSize])
  refine ⟨h, fun hz => ?_⟩
  rw [h, d.contents_eq hwf]
  have hnil : d.toList = [] := by
    apply List.eq_nil_of_length_eq_zero
    rw [← hwf.size_eq]
    exact hz
  rw [hnil]
  rfl

/-- Witness for C12: the sum of 1..5 is 15. -/
theorem C12_reduce_witness :
    sampleFive.Reachable ∧ sampleFive.Reduce (fun acc x => acc + x) 0 = .ok 15 :=
  have hreach : sampleFive.Reachable :=
    SegmentDeque.reachable_of_appendAll _ _ (.construct 2 fresh2 rfl)
  ⟨hreach, (C12_reduce sampleFive hreach (fun acc x => acc + x) 0).1⟩

theorem Container.elements_drop {U : Type} (c : Container U) (j : Nat) (h : j < c.GetSize) :
    c.elements.drop j = c.Get j :: c.elements.drop (j + 1) := by
  have hlt : j < c.elements.length := by simp [Container.elements, h]
  rw [List.drop_eq_getElem_cons hlt]
  simp [Container.elements]

theorem SegmentDeque.flatMapInner_spec {U : Type} [Inhabited U] (c : Container U) (rem : Nat) :
    ∀ (j : Nat) (result : SegmentDeque U), result.Reachable → j + rem = c.GetSize →
      ∃ r, SegmentDeque.flatMapInner c rem j result = .ok r ∧ r.Reachable ∧
        r.toList = result.toList ++ c.elements.drop j ∧
        r.segment_capacity = result.segment_capacity := by
  induction rem with
  | zero =>
    intro j result hreach hj
    refine ⟨result, rfl, hreach, ?_, rfl⟩
    rw [List.drop_of_length_le (by simp [Container.elements]; omega), List.append_nil]
  | succ rem ih =>
    intro j result hreach hj
    obtain ⟨r1, hrun, hwf1, hl1, hc1⟩ := result.Append_spec hreach.wf (c.Get j)
    have hreach1 : r1.Reachable := by
      have := SegmentDeque.Reachable.append result (c.Get j) hreach
      rw [hrun] at this
      exact this
    obtain ⟨r, hr, hreachr, hlr, hcr⟩ := ih (j + 1) r1 hreach1 (by omega)
    refine ⟨r, ?_, hreachr, ?_, by rw [hcr, hc1]⟩
    · simp only [SegmentDeque.flatMapInner, hrun]
      exact hr
    · rw [hlr, hl1, c.elements_drop j (by omega), List.append_assoc]
      rfl

theorem SegmentDeque.flatMapLoop_spec {U : Type} [Inhabited U] (d : SegmentDeque T)
    (hwf : d.WF) (func : T → Container U) (rem : Nat) :
    ∀ (i : Nat) (result : SegmentDeque U), result.Reachable → i + rem = d.total_size →
      result.toList = ((d.toList.take i).map (fun x => (func x).elements)).flatten →
      ∃ r, d.flatMapLoop func rem i result = .ok r ∧ r.Reachable ∧
        r.toList = (d.toList.map (fun x => (func x).elements)).flatten ∧
        r.segment_capacity = result.segment_capacity := by
  induction rem with
  | zero =>
    intro i result hreach hi hl
    refine ⟨result, rfl, hreach, ?_, rfl⟩
    rw [hl, List.take_of_length_le (by rw [← hwf.size_eq]; omega)]
  | succ rem ih =>
    intro i result hreach hi hl
    obtain ⟨x, hx, hget⟩ := d.Get_elem_of_lt hwf i (by
      show i < d.total_size
      omega)
    obtain ⟨r1, hrun, hreach1, hl1, hc1⟩ :=
      SegmentDeque.flatMapInner_spec (func x) (func x).GetSize 0 result hreach (by simp)
    obtain ⟨r, hr, hreachr, hlr, hcr⟩ := ih (i + 1) r1 hreach1 (by omega) (by
      rw [hl1, hl, List.take_succ, hx]
      simp)
    refine ⟨r, ?_, hreachr, hlr, by rw [hcr, hc1]⟩
    simp only [SegmentDeque.flatMapLoop, hget, hrun]
    exact hr

/-- C13: for every reachable deque `d` and function `f` returning a container,
`d.FlatMap(f)` returns a deque whose element sequence is the concatenation, in index
order of `d`, of the elements of the containers `f(d.Get(i))`, each in its own index
order; its size is the sum of the sizes of these containers. -/
theorem C13_flatMap {U : Type} [Inhabited U] (d : SegmentDeque T) (hreach : d.Reachable)
    (f : T → Container U) :
    ∃ r, d.FlatMap f = .ok r ∧ r.Reachable ∧ r.segment_capacity = d.segment_capacity ∧
      r.contents = (d.contents.map (fun x => (f x).elements)).flatten ∧
      r.GetSize = (d.contents.map (fun x => (f x).GetSize)).sum := by
  have hwf := hreach.wf
  have hc : (SegmentDeque.Construct d.segment_capacity : Except Error (SegmentDeque U)) = _ :=
    SegmentDeque.Construct_pos d.segment_capacity hwf.cap_pos
  obtain ⟨-, hwf0, hl0, hcap0⟩ := SegmentDeque.Construct_spec _ _ hc
  obtain ⟨r, hr, hreachr, hl, hcap⟩ := d.flatMapLoop_spec hwf f d.GetSize 0 _
    (SegmentDeque.Reachable.construct _ _ hc) (by simp [SegmentDeque.GetSize]) (by
      rw [hl0]; simp)
  have hwfr := hreachr.wf
  refine ⟨r, ?_, hreachr, by rw [hcap], ?_, ?_⟩
  · simp only [SegmentDeque.FlatMap, hc]
    exact hr
  · rw [r.contents_eq hwfr, d.contents_eq hwf, hl]
  · show r.total_size = _
    rw [hwfr.size_eq, hl, d.contents_eq hwf, List.length_flatten, List.map_map]
    congr 2
    funext x
    simp [Container.elements]

/-- Witness for C13: repeating every element of 1..5 twice. -/
theorem C13_flatMap_witness :
    sampleFive.Reachable ∧
      ∃ r, sampleFive.FlatMap twice = .ok r ∧
        r.contents = [1, 1, 2, 2, 3, 3, 4, 4, 5, 5] ∧ r.GetSize = 10 :=
  have hreach : sampleFive.Reachable :=
    SegmentDeque.reachable_of_appendAll _ _ (.construct 2 fresh2 rfl)
  ⟨hreach, by
    obtain ⟨r, hr, -, -, hcont, hsize⟩ := C13_flatMap sampleFive hreach twice
    have hfive : sampleFive.contents = [1, 2, 3, 4, 5] := by
      rw [sampleFive.contents_eq hreach.wf]
      rfl
    rw [hfive] at hcont hsize
    exact ⟨r, hr, by rw [hcont]; rfl, by rw [hsize]; rfl⟩⟩

/-! ## The chain after each modifier -/

theorem SegmentDeque.Append_eq (d : SegmentDeque T) (hwf : d.WF) (v : T)
    (init : List (Segment T)) (last : Segment T)
    (hL : d.segments.items.nodes = init ++ [last]) :
    d.Append v = (.ok (),
      { segment_capacity := d.segment_capacity, total_size := d.total_size + 1,
        segments := ⟨⟨if last.back_size ≥ d.segment_capacity then
            init ++ [last, ⟨⟨⟨(List.replicate d.segment_capacity default).set 0 v⟩⟩, 0, 1⟩]
          else
            init ++ [⟨⟨⟨last.data.items.items.set last.back_size v⟩⟩,
              last.front_offset, last.back_size + 1⟩]⟩⟩ }) := by
  have hsz : d.segments.GetSize = init.length + 1 := by
    simp [ListSequence.GetSize, LinkedList.GetSize, hL]
  have hget : d.segments.Get init.length = .ok last :=
    ListSequence.Get_of_getElem? _ (by rw [hL]; exact getElem?_append_length init [] last)
  obtain ⟨hfb, hbc, hlen⟩ := hwf.segs last (by simp [hL])
  have hcap := hwf.cap_pos
  simp only [SegmentDeque.Append, SegmentDeque.CheckBackCapacity, hsz, usub_succ_one, hget]
  by_cases hfull : last.back_size ≥ d.segment_capacity
  · simp only [if_pos hfull]
    have hsz1 : (d.segments.Append (Segment.ofData
        (MutableArraySequence.ofSize d.segment_capacity))).GetSize = (init.length + 1) + 1 := by
      simp [ListSequence.GetSize, LinkedList.GetSize, ListSequence.Append, LinkedList.Append, hL]
    have hget1 : (d.segments.Append (Segment.ofData
        (MutableArraySequence.ofSize d.segment_capacity))).Get (init.length + 1) =
        .ok (Segment.ofData (MutableArraySequence.ofSize d.segment_capacity)) :=
      ListSequence.Get_of_getElem? _ (by
        simp only [ListSequence.Append, LinkedList.Append, hL]
        have := getElem?_append_length (init ++ [last]) []
          (Segment.ofData (MutableArraySequence.ofSize d.segment_capacity) : Segment T)
        simpa using this)
    have hnot : ¬ (Segment.ofData (MutableArraySequence.ofSize d.segment_capacity) :
        Segment T).back_size ≥ (Segment.ofData (MutableArraySequence.ofSize
          d.segment_capacity) : Segment T).data.GetSize := by
      simp [Segment.ofData, MutableArraySequence.ofSize, DynamicArray.ofSize,
        MutableArraySequence.GetSize, DynamicArray.GetSize]
      omega
    have hset : (Segment.ofData (MutableArraySequence.ofSize d.segment_capacity) :
        Segment T).data.Set v (Segment.ofData (MutableArraySequence.ofSize
          d.segment_capacity) : Segment T).back_size =
        .ok ⟨⟨(List.replicate d.segment_capacity default).set 0 v⟩⟩ :=
      MutableArraySequence.Set_of_lt _ v (by
        simp [Segment.ofData, MutableArraySequence.ofSize, DynamicArray.ofSize]
        omega)
    simp only [hsz1, usub_succ_one, hget1, if_neg hnot, hset]
    simp only [SegmentDeque.setSegment, ListSequence.Append, LinkedList.Append, hL]
    have hset2 := set_append_length (init ++ [last]) []
      (Segment.ofData (MutableArraySequence.ofSize d.segment_capacity) : Segment T)
      ⟨⟨⟨(List.replicate d.segment_capacity default).set 0 v⟩⟩, 0, 1⟩
    simp only [List.length_append, List.length_cons, List.length_nil, Nat.zero_add] at hset2
    simp only [Segment.ofData, Nat.zero_add] at hset2 ⊢
    rw [hset2]
    simp
  · simp only [if_neg hfull, hsz, usub_succ_one, hget]
    have hlt : last.back_size < last.data.items.items.length := by omega
    have hnot : ¬ last.back_size ≥ last.data.GetSize := by
      simp only [MutableArraySequence.GetSize, DynamicArray.GetSize]; omega
    simp only [if_neg hnot, MutableArraySequence.Set_of_lt _ v hlt, SegmentDeque.setSegment, hL,
      set_append_length]

theorem SegmentDeque.Prepend_eq (d : SegmentDeque T) (hwf : d.WF) (v : T)
    (first : Segment T) (rest : List (Segment T))
    (hL : d.segments.items.nodes = first :: rest) :
    d.Prepend v = (.ok (),
      { segment_capacity := d.segment_capacity, total_size := d.total_size + 1,
        segments := ⟨⟨if first.front_offset = 0 then
            ⟨⟨⟨(List.replicate d.segment_capacity default).set (d.segment_capacity - 1) v⟩⟩,
              d.segment_capacity - 1, d.segment_capacity⟩ :: first :: rest
          else
            ⟨⟨⟨first.data.items.items.set (first.front_offset - 1) v⟩⟩,
              first.front_offset - 1, first.back_size⟩ :: rest⟩⟩ }) := by
  have hget : d.segments.Get 0 = .ok first :=
    ListSequence.Get_of_getElem? _ (by rw [hL]; simp)
  obtain ⟨hfb, hbc, hlen⟩ := hwf.segs first (by simp [hL])
  have hcap := hwf.cap_pos
  simp only [SegmentDeque.Prepend, SegmentDeque.CheckFrontCapacity, hget]
  by_cases hz : first.front_offset = 0
  · simp only [if_pos hz]
    have hget1 : (d.segments.Prepend (⟨MutableArraySequence.ofSize d.segment_capacity,
        d.segment_capacity, d.segment_capacity⟩ : Segment T)).Get 0 =
        .ok ⟨MutableArraySequence.ofSize d.segment_capacity, d.segment_capacity,
          d.segment_capacity⟩ :=
      ListSequence.Get_of_getElem? _ (by simp [ListSequence.Prepend, LinkedList.Prepend])
    have hin : d.segment_capacity - 1 <
        (MutableArraySequence.ofSize d.segment_capacity : MutableArraySequence T).GetSize := by
      simp [MutableArraySequence.ofSize, DynamicArray.ofSize, MutableArraySequence.GetSize,
        DynamicArray.GetSize]
      omega
    have hset : (MutableArraySequence.ofSize d.segment_capacity : MutableArraySequence T).Set v
        (d.segment_capacity - 1) =
        .ok ⟨⟨(List.replicate d.segment_capacity default).set (d.segment_capacity - 1) v⟩⟩ :=
      MutableArraySequence.Set_of_lt _ v (by
        simp [MutableArraySequence.ofSize, DynamicArray.ofSize]
        omega)
    simp only [Segment.ofData]
    simp only [hget1, usub_of_le hcap, if_pos hin, hset]
    simp only [SegmentDeque.setSegment, ListSequence.Prepend, LinkedList.Prepend, hL,
      List.set_cons_zero]
  · simp only [if_neg hz, hget]
    have hslack : 1 ≤ first.front_offset := by omega
    have hlt : first.front_offset - 1 < first.data.items.items.length := by omega
    have hin : first.front_offset - 1 < first.data.GetSize := by
      simp only [MutableArraySequence.GetSize, DynamicArray.GetSize]; omega
    simp only [usub_of_le hslack, if_pos hin, MutableArraySequence.Set_of_lt _ v hlt,
      SegmentDeque.setSegment, hL, List.set_cons_zero]

theorem exists_not_isEmpty_of_chainElems_ne_nil (l : List (Segment T)) (h : chainElems l ≠ []) :
    ∃ s ∈ l, s.IsEmpty = false := by
  by_contra hall
  apply h
  apply chainElems_of_all_empty
  intro s hs
  cases he : s.IsEmpty with
  | true => rfl
  | false => exact absurd ⟨s, hs, he⟩ hall

theorem SegmentDeque.popBackLoop_shape (d : SegmentDeque T) (A : List (Segment T)) :
    ∀ B : List (Segment T), d.segments.items.nodes = A ++ B →
      (∀ s ∈ B, s.IsEmpty = true) → (∃ s ∈ A, s.IsEmpty = false) →
      ∃ X j Y, d.segments.items.nodes = X ++ j :: Y ∧ j.IsEmpty = false ∧
        (∀ s ∈ Y, s.IsEmpty = true) ∧
        d.popBackLoop A.length = (.ok (),
          { segment_capacity := d.segment_capacity, total_size := usub d.total_size 1,
            segments := ⟨⟨X ++ { j with back_size := j.back_size - 1 } :: Y⟩⟩ }) := by
  induction A using List.reverseRecOn with
  | nil => intro B _ _ hex; obtain ⟨s, hs, -⟩ := hex; simp at hs
  | append_singleton A s ih =>
    intro B hd hB hex
    have hd1 : d.segments.items.nodes = A ++ s :: B := by simp [hd]
    have hget : d.segments.Get A.length = .ok s :=
      ListSequence.Get_of_getElem? _ (by rw [hd1]; exact getElem?_append_length A B s)
    simp only [List.length_append, List.length_cons, List.length_nil, Nat.zero_add,
      SegmentDeque.popBackLoop, hget]
    cases he : s.IsEmpty with
    | true =>
      simp only [Bool.not_true, Bool.false_eq_true, if_false]
      apply ih (s :: B) hd1
      · intro t ht
        simp only [List.mem_cons] at ht
        rcases ht with ht | ht
        · rw [ht]; exact he
        · exact hB t ht
      · obtain ⟨t, ht, hte⟩ := hex
        simp only [List.mem_append, List.mem_singleton] at ht
        rcases ht with ht | ht
        · exact ⟨t, ht, hte⟩
        · rw [ht, he] at hte; cases hte
    | false =>
      have hlt : s.front_offset < s.back_size := by
        simp only [Segment.IsEmpty, decide_eq_false_iff_not] at he
        omega
      simp only [Bool.not_false, if_true, SegmentDeque.setSegment, hd1, set_append_length,
        usub_of_le (show 1 ≤ s.back_size by omega)]
      exact ⟨A, s, B, rfl, he, hB, rfl⟩

theorem SegmentDeque.popFrontLoop_shape (d : SegmentDeque T) (B : List (Segment T)) :
    ∀ A : List (Segment T), d.segments.items.nodes = A ++ B →
      (∀ s ∈ A, s.IsEmpty = true) → (∃ s ∈ B, s.IsEmpty = false) →
      ∃ X j Y, d.segments.items.nodes = X ++ j :: Y ∧ j.IsEmpty = false ∧
        (∀ s ∈ X, s.IsEmpty = true) ∧
        d.popFrontLoop B.length A.length = (.ok (),
          { segment_capacity := d.segment_capacity, total_size := usub d.total_size 1,
            segments := ⟨⟨X ++ { j with front_offset := j.front_offset + 1 } :: Y⟩⟩ }) := by
  induction B with
  | nil => intro A _ _ hex; obtain ⟨s, hs, -⟩ := hex; simp at hs
  | cons s B ih =>
    intro A hd hA hex
    have hget : d.segments.Get A.length = .ok s :=
      ListSequence.Get_of_getElem? _ (by rw [hd]; exact getElem?_append_length A B s)
    simp only [List.length_cons, SegmentDeque.popFrontLoop, hget]
    cases he : s.IsEmpty with
    | true =>
      simp only [Bool.not_true, Bool.false_eq_true, if_false]
      have := ih (A ++ [s]) (by simp [hd])
        (by
          intro t ht
          simp only [List.mem_append, List.mem_singleton] at ht
          rcases ht with ht | ht
          · exact hA t ht
          · rw [ht]; exact he)
        (by
          obtain ⟨t, ht, hte⟩ := hex
          simp only [List.mem_cons] at ht
          rcases ht with ht | ht
          · rw [ht, he] at hte; cases hte
          · exact ⟨t, ht, hte⟩)
      simpa using this
    | false =>
      simp only [Bool.not_false, if_true, SegmentDeque.setSegment, hd, set_append_length]
      exact ⟨A, s, B, rfl, he, hA, rfl⟩

theorem SegmentDeque.CleanupEmptySegments_exit (d : SegmentDeque T)
    (hne : d.segments.items.nodes ≠ []) :
    ∃ d1 A B, d.CleanupEmptySegments = (.ok (), d1) ∧
      d1.segment_capacity = d.segment_capacity ∧ d1.total_size = d.total_size ∧
      d1.segments.items.nodes ≠ [] ∧
      d.segments.items.nodes = A ++ d1.segments.items.nodes ++ B ∧
      (∀ s ∈ A, s.IsEmpty = true) ∧ (∀ s ∈ B, s.IsEmpty = true) ∧
      ((d1.segments.items.nodes ++ B).length ≤ 1 ∨
        ∃ first rest, d1.segments.items.nodes ++ B = first :: rest ∧ first.IsEmpty = false) ∧
      (d1.segments.items.nodes.length ≤ 1 ∨
        ∃ init last, d1.segments.items.nodes = init ++ [last] ∧ last.IsEmpty = false) := by
  obtain ⟨d1, A, hrun1, hc1, ht1, hne1, hsplit1, hA, hexit1⟩ :=
    SegmentDeque.cleanupFrontLoop_spec d.segments.GetSize d hne
  obtain ⟨d2, B, hrun2, hc2, ht2, hne2, hsplit2, hB, hexit2⟩ :=
    SegmentDeque.cleanupBackLoop_spec d1.segments.GetSize d1 hne1
  refine ⟨d2, A, B, ?_, by rw [hc2, hc1], by rw [ht2, ht1], hne2, ?_, hA, hB, ?_, ?_⟩
  · simp only [SegmentDeque.CleanupEmptySegments, hrun1, hrun2]
  · rw [hsplit1, hsplit2, List.append_assoc]
  · rw [← hsplit2]
    exact hexit1 (Nat.le_refl _)
  · exact hexit2 (Nat.le_refl _)

/-! ## The layout of the chain in reachable states -/

theorem mem_tail_of_infix {α : Type} (A L B : List α) (s : α) (h : s ∈ L.tail) :
    s ∈ (A ++ L ++ B).tail := by
  cases L with
  | nil => simp at h
  | cons a L =>
    cases A with
    | nil =>
      simp only [List.nil_append, List.cons_append, List.tail_cons, List.mem_append] at h ⊢
      exact Or.inl h
    | cons b A =>
      simp only [List.cons_append, List.tail_cons, List.mem_append, List.mem_cons] at h ⊢
      exact Or.inl (Or.inr (Or.inr h))

theorem mem_dropLast_of_infix {α : Type} (A L B : List α) (s : α) (h : s ∈ L.dropLast) :
    s ∈ (A ++ L ++ B).dropLast := by
  have hL : L ≠ [] := by
    intro h0; rw [h0] at h; simp at h
  rcases List.eq_nil_or_concat B with hB | ⟨B', b, hB⟩
  · rw [hB, List.append_nil, List.dropLast_append_of_ne_nil _ hL]
    exact List.mem_append_right _ h
  · rw [hB, List.concat_eq_append, ← List.append_assoc, List.dropLast_concat]
    simp only [List.mem_append]
    exact Or.inl (Or.inr (List.mem_of_mem_dropLast h))

theorem layout_back_after_cleanup (c : Nat) (X Y A L B : List (Segment T)) (j : Segment T)
    (hsplit : X ++ j :: Y = A ++ L ++ B)
    (hX : ∀ s ∈ X, s.back_size = c) (hY : ∀ s ∈ Y, s.IsEmpty = true)
    (hexit : L.length ≤ 1 ∨ ∃ init last, L = init ++ [last] ∧ last.IsEmpty = false) :
    ∀ s ∈ L.dropLast, s.back_size = c := by
  intro s hs
  rcases hexit with hlen | ⟨init, last, hL, hlast⟩
  · exfalso
    have : L.dropLast.length = 0 := by rw [List.length_dropLast]; omega
    rw [List.length_eq_zero] at this
    rw [this] at hs
    simp at hs
  · rw [hL, List.dropLast_concat] at hs
    rw [hL] at hsplit
    have h2 : X ++ j :: Y = (A ++ init) ++ (last :: B) := by
      rw [hsplit]; simp
    rcases List.append_eq_append_iff.mp h2 with ⟨a', h3, h4⟩ | ⟨c', h3, h4⟩
    · -- `A ++ init = X ++ a'`, `j :: Y = a' ++ last :: B`
      cases a' with
      | nil =>
        apply hX
        rw [List.append_nil] at h3
        rw [← h3]
        exact List.mem_append_right _ hs
      | cons x a' =>
        exfalso
        simp only [List.cons_append, List.cons.injEq] at h4
        have hmem : last ∈ Y := by rw [h4.2]; simp
        rw [hY last hmem] at hlast
        cases hlast
    · -- `X = A ++ init ++ c'`
      apply hX
      rw [h3]
      simp only [List.mem_append]
      exact Or.inl (Or.inr hs)

theorem layout_front_after_cleanup (X Y A L B : List (Segment T)) (j : Segment T)
    (hsplit : X ++ j :: Y = A ++ L ++ B)
    (hX : ∀ s ∈ X, s.IsEmpty = true) (hY : ∀ s ∈ Y, s.front_offset = 0)
    (hexit : (L ++ B).length ≤ 1 ∨
      ∃ first rest, L ++ B = first :: rest ∧ first.IsEmpty = false) :
    ∀ s ∈ L.tail, s.front_offset = 0 := by
  intro s hs
  cases L with
  | nil => simp at hs
  | cons h t =>
    simp only [List.tail_cons] at hs
    rcases hexit with hlen | ⟨first, rest, hL, hfirst⟩
    · exfalso
      have : t.length = 0 := by
        simp only [List.cons_append, List.length_cons, List.length_append] at hlen
        omega
      rw [List.length_eq_zero] at this
      rw [this] at hs
      simp at hs
    · simp only [List.cons_append, List.cons.injEq] at hL
      have hh : h.IsEmpty = false := by rw [hL.1]; exact hfirst
      have h2 : X ++ j :: Y = (A ++ [h]) ++ (t ++ B) := by
        rw [hsplit]; simp
      rcases List.append_eq_append_iff.mp h2 with ⟨a', h3, h4⟩ | ⟨c', h3, h4⟩
      · -- `A ++ [h] = X ++ a'`, `j :: Y = a' ++ (t ++ B)`
        cases a' with
        | nil =>
          exfalso
          rw [List.append_nil] at h3
          have hmem : h ∈ X := by rw [← h3]; simp
          rw [hX h hmem] at hh
          cases hh
        | cons x a' =>
          simp only [List.cons_append, List.cons.injEq] at h4
          apply hY
          rw [h4.2]
          simp only [List.mem_append]
          exact Or.inr (Or.inl hs)
      · -- `X = A ++ [h] ++ c'`
        exfalso
        have hmem : h ∈ X := by rw [h3]; simp
        rw [hX h hmem] at hh
        cases hh

theorem getLast?_concat_eq {α : Type} (l : List α) (a : α) : (l ++ [a]).getLast? = some a := by
  simp

theorem SegmentDeque.Construct_layout (c : Nat) (d : SegmentDeque T)
    (h : SegmentDeque.Construct c = .ok d) : d.Layout := by
  have hc := (SegmentDeque.Construct_spec c d h).1
  rw [SegmentDeque.Construct_pos c hc] at h
  cases h
  exact ⟨by simp, by simp, by simp⟩

theorem SegmentDeque.Append_layout (d : SegmentDeque T) (hwf : d.WF) (hlay : d.Layout) (v : T) :
    (d.Append v).2.Layout ∧
      ∀ last, (d.Append v).2.segments.items.nodes.getLast? = some last →
        last.IsEmpty = false := by
  obtain ⟨init, last, hL⟩ := exists_concat_of_ne_nil _ hwf.chain_ne
  obtain ⟨hfb, hbc, hlen⟩ := hwf.segs last (by simp [hL])
  have htail := hlay.tail_front
  have hinit := hlay.init_back
  rw [hL] at htail
  rw [hL, List.dropLast_concat] at hinit
  rw [d.Append_eq hwf v init last hL]
  by_cases hfull : last.back_size ≥ d.segment_capacity
  · simp only [if_pos hfull]
    have hlastE : ∀ l : Segment T, (init ++ [last, (⟨⟨⟨(List.replicate d.segment_capacity
        default).set 0 v⟩⟩, 0, 1⟩ : Segment T)]).getLast? = some l → l.IsEmpty = false := by
      intro l hl
      have e : init ++ [last, (⟨⟨⟨(List.replicate d.segment_capacity default).set 0 v⟩⟩, 0, 1⟩ :
          Segment T)] = (init ++ [last]) ++ [⟨⟨⟨(List.replicate d.segment_capacity
            default).set 0 v⟩⟩, 0, 1⟩] := by simp
      rw [e, getLast?_concat_eq, Option.some.injEq] at hl
      rw [← hl]
      simp [Segment.IsEmpty]
    refine ⟨⟨?_, ?_, fun first l _ hl _ => Or.inr (hlastE l hl)⟩, hlastE⟩
    · intro s hs
      have e : init ++ [last, (⟨⟨⟨(List.replicate d.segment_capacity default).set 0 v⟩⟩, 0, 1⟩ :
          Segment T)] = (init ++ [last]) ++ [⟨⟨⟨(List.replicate d.segment_capacity
            default).set 0 v⟩⟩, 0, 1⟩] := by simp
      simp only [e, List.tail_append_of_ne_nil (show init ++ [last] ≠ [] by simp),
        List.mem_append, List.mem_singleton] at hs
      rcases hs with hs | hs
      · exact htail s hs
      · rw [hs]
    · intro s hs
      have e : init ++ [last, (⟨⟨⟨(List.replicate d.segment_capacity default).set 0 v⟩⟩, 0, 1⟩ :
          Segment T)] = (init ++ [last]) ++ [⟨⟨⟨(List.replicate d.segment_capacity
            default).set 0 v⟩⟩, 0, 1⟩] := by simp
      simp only [e, List.dropLast_concat, List.mem_append, List.mem_singleton] at hs
      rcases hs with hs | hs
      · exact hinit s hs
      · rw [hs]
        show last.back_size = d.segment_capacity
        omega
  · simp only [if_neg hfull]
    have hlastE : ∀ l : Segment T, (init ++ [(⟨⟨⟨last.data.items.items.set last.back_size v⟩⟩,
        last.front_offset, last.back_size + 1⟩ : Segment T)]).getLast? = some l →
        l.IsEmpty = false := by
      intro l hl
      rw [getLast?_concat_eq, Option.some.injEq] at hl
      rw [← hl]
      simp only [Segment.IsEmpty, decide_eq_false_iff_not]
      omega
    refine ⟨⟨?_, ?_, fun first l _ hl _ => Or.inr (hlastE l hl)⟩, hlastE⟩
    · intro s hs
      cases init with
      | nil => simp at hs
      | cons a init =>
        simp only [List.cons_append, List.tail_cons, List.mem_append, List.mem_singleton] at hs htail
        rcases hs with hs | hs
        · exact htail s (Or.inl hs)
        · rw [hs]
          exact htail last (Or.inr rfl)
    · intro s hs
      rw [List.dropLast_concat] at hs
      exact hinit s hs

theorem SegmentDeque.Prepend_layout (d : SegmentDeque T) (hwf : d.WF) (hlay : d.Layout) (v : T) :
    (d.Prepend v).2.Layout ∧
      ∀ first, (d.Prepend v).2.segments.items.nodes.head? = some first →
        first.IsEmpty = false := by
  obtain ⟨first, rest, hL⟩ := List.exists_cons_of_ne_nil hwf.chain_ne
  obtain ⟨hfb, hbc, hlen⟩ := hwf.segs first (by simp [hL])
  have hcap := hwf.cap_pos
  have htail := hlay.tail_front
  have hinit := hlay.init_back
  rw [hL, List.tail_cons] at htail
  rw [hL] at hinit
  rw [d.Prepend_eq hwf v first rest hL]
  by_cases hz : first.front_offset = 0
  · simp only [if_pos hz]
    have hfirstE : ∀ f : Segment T, ((⟨⟨⟨(List.replicate d.segment_capacity default).set
        (d.segment_capacity - 1) v⟩⟩, d.segment_capacity - 1, d.segment_capacity⟩ : Segment T) ::
          first :: rest).head? = some f → f.IsEmpty = false := by
      intro f hf
      simp only [List.head?_cons, Option.some.injEq] at hf
      rw [← hf]
      simp only [Segment.IsEmpty, decide_eq_false_iff_not]
      omega
    refine ⟨⟨?_, ?_, fun f last hf _ _ => Or.inl (hfirstE f hf)⟩, hfirstE⟩
    · intro s hs
      simp only [List.tail_cons, List.mem_cons] at hs
      rcases hs with hs | hs
      · rw [hs]; exact hz
      · exact htail s hs
    · intro s hs
      simp only [List.dropLast_cons₂, List.mem_cons] at hs
      rcases hs with hs | hs
      · rw [hs]
      · exact hinit s hs
  · simp only [if_neg hz]
    have hfirstE : ∀ f : Segment T, ((⟨⟨⟨first.data.items.items.set (first.front_offset - 1)
        v⟩⟩, first.front_offset - 1, first.back_size⟩ : Segment T) :: rest).head? = some f →
        f.IsEmpty = false := by
      intro f hf
      simp only [List.head?_cons, Option.some.injEq] at hf
      rw [← hf]
      simp only [Segment.IsEmpty, decide_eq_false_iff_not]
      omega
    refine ⟨⟨?_, ?_, fun f last hf _ _ => Or.inl (hfirstE f hf)⟩, hfirstE⟩
    · intro s hs
      simp only [List.tail_cons] at hs
      exact htail s hs
    · intro s hs
      cases rest with
      | nil => simp at hs
      | cons r rest =>
        simp only [List.dropLast_cons₂, List.mem_cons] at hs hinit
        rcases hs with hs | hs
        · rw [hs]
          exact hinit first (Or.inl rfl)
        · exact hinit s (Or.inr hs)

theorem trimmed_of_exit (L B : List (Segment T)) (hne : L ≠ [])
    (hfront : (L ++ B).length ≤ 1 ∨
      ∃ first rest, L ++ B = first :: rest ∧ first.IsEmpty = false)
    (hback : L.length ≤ 1 ∨ ∃ init last, L = init ++ [last] ∧ last.IsEmpty = false) :
    L.length ≤ 1 ∨
      ((∀ first, L.head? = some first → first.IsEmpty = false) ∧
       (∀ last, L.getLast? = some last → last.IsEmpty = false)) := by
  by_cases hlen : L.length ≤ 1
  · exact Or.inl hlen
  · right
    constructor
    · intro f hf
      rcases hfront with h | ⟨first, rest, h, hfirst⟩
      · simp only [List.length_append] at h
        omega
      · obtain ⟨a, t, rfl⟩ := List.exists_cons_of_ne_nil hne
        simp only [List.cons_append, List.cons.injEq] at h
        simp only [List.head?_cons, Option.some.injEq] at hf
        rw [← hf, h.1]
        exact hfirst
    · intro l hl
      rcases hback with h | ⟨init, last, h, hlast⟩
      · omega
      · rw [h, getLast?_concat_eq, Option.some.injEq] at hl
        rw [← hl]
        exact hlast

theorem SegmentDeque.PopBack_layout (d : SegmentDeque T) (hwf : d.WF) (hlay : d.Layout)
    (hpos : d.total_size ≠ 0) : d.PopBack.2.Layout ∧ d.PopBack.2.Trimmed := by
  obtain ⟨X, j, Y, hd, hj, hY, hrun⟩ := d.popBackLoop_shape d.segments.items.nodes []
    (by simp) (by simp)
    (exists_not_isEmpty_of_chainElems_ne_nil _ (d.toList_ne_nil hwf hpos))
  obtain ⟨d2, A, B, hclean, hc2, ht2, hne2, hsplit, hA, hB, hexitF, hexitB⟩ :=
    SegmentDeque.CleanupEmptySegments_exit
      ({ segment_capacity := d.segment_capacity, total_size := usub d.total_size 1,
         segments := ⟨⟨X ++ { j with back_size := j.back_size - 1 } :: Y⟩⟩ } : SegmentDeque T)
      (by simp)
  have hpop : d.PopBack = (.ok (), d2) := by
    simp only [SegmentDeque.PopBack, if_neg hpos, ListSequence.GetSize, LinkedList.GetSize, hrun,
      hclean]
  simp only at hsplit hc2
  have htrim := trimmed_of_exit d2.segments.items.nodes B hne2 hexitF hexitB
  have htail := hlay.tail_front
  have hinit := hlay.init_back
  rw [hd] at htail hinit
  rw [hpop]
  refine ⟨⟨?_, ?_, ?_⟩, htrim⟩
  · intro s hs
    have hmem := mem_tail_of_infix A _ B s hs
    rw [← hsplit] at hmem
    cases X with
    | nil =>
      simp only [List.nil_append, List.tail_cons] at hmem htail
      exact htail s hmem
    | cons x X =>
      simp only [List.cons_append, List.tail_cons, List.mem_append, List.mem_cons] at hmem htail
      rcases hmem with h | h | h
      · exact htail s (Or.inl h)
      · rw [h]
        exact htail j (Or.inr (Or.inl rfl))
      · exact htail s (Or.inr (Or.inr h))
  · rw [hc2]
    apply layout_back_after_cleanup d.segment_capacity X Y A _ B _ hsplit _ hY hexitB
    intro s hs
    apply hinit
    rw [List.dropLast_append_of_ne_nil _ (by simp)]
    exact List.mem_append_left _ hs
  · intro first last hf hl hlen
    have hlen2 : 2 ≤ d2.segments.items.nodes.length := hlen
    rcases htrim with h | ⟨h, -⟩
    · omega
    · exact Or.inl (h first hf)

theorem SegmentDeque.PopFront_layout (d : SegmentDeque T) (hwf : d.WF) (hlay : d.Layout)
    (hpos : d.total_size ≠ 0) : d.PopFront.2.Layout ∧ d.PopFront.2.Trimmed := by
  obtain ⟨X, j, Y, hd, hj, hX, hrun⟩ := d.popFrontLoop_shape d.segments.items.nodes []
    (by simp) (by simp)
    (exists_not_isEmpty_of_chainElems_ne_nil _ (d.toList_ne_nil hwf hpos))
  obtain ⟨d2, A, B, hclean, hc2, ht2, hne2, hsplit, hA, hB, hexitF, hexitB⟩ :=
    SegmentDeque.CleanupEmptySegments_exit
      ({ segment_capacity := d.segment_capacity, total_size := usub d.total_size 1,
         segments := ⟨⟨X ++ { j with front_offset := j.front_offset + 1 } :: Y⟩⟩ } :
           SegmentDeque T)
      (by simp)
  have hpop : d.PopFront = (.ok (), d2) := by
    simp only [List.length_nil] at hrun
    simp only [SegmentDeque.PopFront, if_neg hpos, ListSequence.GetSize, LinkedList.GetSize, hrun,
      hclean]
  simp only at hsplit hc2
  have htrim := trimmed_of_exit d2.segments.items.nodes B hne2 hexitF hexitB
  have htail := hlay.tail_front
  have hinit := hlay.init_back
  rw [hd] at htail hinit
  rw [hpop]
  refine ⟨⟨?_, ?_, ?_⟩, htrim⟩
  · apply layout_front_after_cleanup X Y A _ B _ hsplit hX _ hexitF
    intro s hs
    apply htail
    cases X with
    | nil => simpa using hs
    | cons x X =>
      simp only [List.cons_append, List.tail_cons, List.mem_append, List.mem_cons]
      exact Or.inr (Or.inr hs)
  · intro s hs
    rw [hc2]
    have hmem := mem_dropLast_of_infix A _ B s hs
    rw [← hsplit, List.dropLast_append_of_ne_nil _ (by simp)] at hmem
    rw [List.dropLast_append_of_ne_nil _ (by simp)] at hinit
    simp only [List.mem_append] at hmem hinit
    rcases hmem with h | h
    · exact hinit s (Or.inl h)
    · cases Y with
      | nil => simp at h
      | cons y Y =>
        simp only [List.dropLast_cons₂, List.mem_cons] at h hinit
        rcases h with h | h
        · rw [h]
          exact hinit j (Or.inr (Or.inl rfl))
        · exact hinit s (Or.inr (Or.inr h))
  · intro first last hf hl hlen
    have hlen2 : 2 ≤ d2.segments.items.nodes.length := hlen
    rcases htrim with h | ⟨h, -⟩
    · omega
    · exact Or.inl (h first hf)

theorem SegmentDeque.Reachable.layout {d : SegmentDeque T} (h : d.Reachable) : d.Layout := by
  induction h with
  | construct c d hc => exact SegmentDeque.Construct_layout c d hc
  | append d v hr ih => exact (d.Append_layout hr.wf ih v).1
  | prepend d v hr ih => exact (d.Prepend_layout hr.wf ih v).1
  | popBack d hr ih =>
    by_cases hz : d.total_size = 0
    · rw [d.PopBack_of_empty hz]; exact ih
    · exact (d.PopBack_layout hr.wf ih hz).1
  | popFront d hr ih =>
    by_cases hz : d.total_size = 0
    · rw [d.PopFront_of_empty hz]; exact ih
    · exact (d.PopFront_layout hr.wf ih hz).1

/-! ## Invariants of the chain -/

theorem SegmentDeque.GetSegment_ok_iff (d : SegmentDeque T) (i : Nat) (s : Segment T) :
    d.GetSegment i = .ok s ↔ d.segments.items.nodes[i]? = some s := by
  unfold SegmentDeque.GetSegment
  by_cases h : i ≥ d.segments.GetSize
  · rw [if_pos h, List.getElem?_eq_none (by
      simpa [ListSequence.GetSize, LinkedList.GetSize] using h)]
    simp
  · rw [if_neg h]
    have hlt : i < d.segments.items.nodes.length := by
      simpa [ListSequence.GetSize, LinkedList.GetSize] using h
    rw [ListSequence.Get_node_of_lt _ hlt, List.getElem?_eq_getElem hlt]
    simp

theorem mem_tail_of_getElem? {α : Type} (l : List α) (i : Nat) (s : α) (h : l[i]? = some s)
    (hi : 0 < i) : s ∈ l.tail := by
  cases l with
  | nil => simp at h
  | cons a l =>
    cases i with
    | zero => omega
    | succ i =>
      simp only [List.getElem?_cons_succ] at h
      exact List.mem_iff_getElem?.mpr ⟨i, h⟩

theorem mem_dropLast_of_getElem? {α : Type} (l : List α) (i : Nat) (s : α)
    (h : l[i]? = some s) (hi : i + 1 < l.length) : s ∈ l.dropLast := by
  rw [List.dropLast_eq_take]
  apply List.mem_iff_getElem?.mpr
  exact ⟨i, by rw [List.getElem?_take_of_lt (by omega)]; exact h⟩

theorem Segment.isEmpty_of_window_nil (s : Segment T)
    (hb : s.back_size ≤ s.data.items.items.length) (h : s.window = []) : s.IsEmpty = true := by
  cases he : s.IsEmpty with
  | true => rfl
  | false => exact absurd h (s.window_ne_nil he hb)

theorem SegmentDeque.all_isEmpty_of_size_zero (d : SegmentDeque T) (hwf : d.WF)
    (hz : d.total_size = 0) : ∀ s ∈ d.segments.items.nodes, s.IsEmpty = true := by
  intro s hs
  have hnil : d.toList = [] := by
    apply List.eq_nil_of_length_eq_zero
    rw [← hwf.size_eq]
    exact hz
  obtain ⟨-, hbc, hlen⟩ := hwf.segs s hs
  apply s.isEmpty_of_window_nil (by omega)
  simp only [SegmentDeque.toList, chainElems, List.flatten_eq_nil_iff, List.mem_map] at hnil
  exact hnil _ ⟨s, hs, rfl⟩

theorem SegmentDeque.single_of_size_zero (d : SegmentDeque T) (hwf : d.WF) (hlay : d.Layout)
    (hz : d.total_size = 0) :
    ∃ seg, d.segments.items.nodes = [seg] ∧ seg.IsEmpty = true := by
  have hall := d.all_isEmpty_of_size_zero hwf hz
  obtain ⟨first, rest, hL⟩ := List.exists_cons_of_ne_nil hwf.chain_ne
  cases rest with
  | nil => exact ⟨first, hL, hall first (by simp [hL])⟩
  | cons r rest =>
    exfalso
    obtain ⟨init, last, hL2⟩ := exists_concat_of_ne_nil _ hwf.chain_ne
    have := hlay.ends first last (by rw [hL]; rfl) (by rw [hL2]; exact getLast?_concat_eq _ _)
      (by rw [hL]; simp)
    rcases this with h | h
    · rw [hall first (by simp [hL])] at h; cases h
    · rw [hall last (by simp [hL2])] at h; cases h

/-- C17: in every reachable state `GetSegmentCount() >= 1`, and a segment that is
neither the first nor the last of the chain is not empty. -/
theorem C17_chain_nondegenerate (d : SegmentDeque T) (hreach : d.Reachable) :
    1 ≤ d.GetSegmentCount ∧
    ∀ i seg, 0 < i → i + 1 < d.GetSegmentCount → d.GetSegment i = .ok seg →
      seg.IsEmpty = false := by
  have hwf := hreach.wf
  have hlay := hreach.layout
  refine ⟨?_, ?_⟩
  · show 1 ≤ d.segments.items.nodes.length
    exact List.length_pos.mpr hwf.chain_ne
  · intro i seg h0 h1 hget
    rw [d.GetSegment_ok_iff] at hget
    have hf := hlay.tail_front seg (mem_tail_of_getElem? _ i seg hget h0)
    have hb := hlay.init_back seg (mem_dropLast_of_getElem? _ i seg hget h1)
    have hcap := hwf.cap_pos
    simp only [Segment.IsEmpty, decide_eq_false_iff_not]
    omega

/-- Witness for C17 on a chain of three segments. -/
theorem C17_chain_nondegenerate_witness :
    sampleThree.Reachable ∧ 1 ≤ sampleThree.GetSegmentCount ∧
      ∀ i seg, 0 < i → i + 1 < sampleThree.GetSegmentCount →
        sampleThree.GetSegment i = .ok seg → seg.IsEmpty = false :=
  have hreach : sampleThree.Reachable :=
    .popFront _ (SegmentDeque.reachable_of_appendAll _ _ (.construct 2 fresh2 rfl))
  ⟨hreach, C17_chain_nondegenerate sampleThree hreach⟩

theorem SegmentDeque.ends_of_size_ne_zero (d : SegmentDeque T) (hwf : d.WF)
    (hz : d.total_size ≠ 0)
    (h : d.segments.items.nodes.length ≤ 1 ∨
      ((∀ first, d.segments.items.nodes.head? = some first → first.IsEmpty = false) ∧
       (∀ last, d.segments.items.nodes.getLast? = some last → last.IsEmpty = false))) :
    (∀ first, d.segments.items.nodes.head? = some first → first.IsEmpty = false) ∧
    (∀ last, d.segments.items.nodes.getLast? = some last → last.IsEmpty = false) := by
  rcases h with hlen | h
  · obtain ⟨seg, rest, hL⟩ := List.exists_cons_of_ne_nil hwf.chain_ne
    have hrest : rest = [] := by
      rw [hL] at hlen
      simp only [List.length_cons] at hlen
      exact List.eq_nil_of_length_eq_zero (by omega)
    rw [hrest] at hL
    have hseg : seg.IsEmpty = false := by
      obtain ⟨s, hs, hse⟩ := exists_not_isEmpty_of_chainElems_ne_nil _ (d.toList_ne_nil hwf hz)
      rw [hL, List.mem_singleton] at hs
      rw [← hs]
      exact hse
    rw [hL]
    constructor
    · intro first hf
      simp only [List.head?_cons, Option.some.injEq] at hf
      rw [← hf]; exact hseg
    · intro last hl
      simp only [List.getLast?_singleton, Option.some.injEq] at hl
      rw [← hl]; exact hseg
  · exact h

/-- C18 fails as stated: after `Prepend(1)` on a fresh deque of capacity 2 the deque
holds one element and the last segment of its chain is empty; after
`Append(1); Append(2); PopFront(); PopFront(); Append(3)` it holds one element and the
first segment of its chain is empty. -/
theorem C18_counterexample :
    ((fresh2.Prepend 1).2.Reachable ∧ (fresh2.Prepend 1).1 = .ok () ∧
      (fresh2.Prepend 1).2.GetSize = 1 ∧
      ∃ last, (fresh2.Prepend 1).2.segments.items.nodes.getLast? = some last ∧
        last.IsEmpty = true) ∧
    (sampleAppendAfterDrain.Reachable ∧ sampleAppendAfterDrain.GetSize = 1 ∧
      ∃ first, sampleAppendAfterDrain.segments.items.nodes.head? = some first ∧
        first.IsEmpty = true) :=
  ⟨⟨.prepend _ 1 (.construct 2 fresh2 rfl), rfl, rfl, ⟨⟨⟨⟨[0, 0]⟩⟩, 0, 0⟩, rfl, rfl⟩⟩,
   ⟨.append _ 3 (.popFront _ (.popFront _ (.append _ 2 (.append _ 1 (.construct 2 fresh2 rfl))))),
    rfl, ⟨⟨⟨⟨[1, 2]⟩⟩, 2, 2⟩, rfl, rfl⟩⟩⟩

/-- C18, amended: in every reachable state, an empty deque has a chain of exactly one
segment, which is empty; in a non-empty deque the first and the last segment are not
both empty; the last segment is non-empty right after `Append`, the first right after
`Prepend`, and after a `PopBack` or `PopFront` that leaves the deque non-empty both
the first and the last segment are non-empty. -/
theorem C18_boundary_segments (d : SegmentDeque T) (hreach : d.Reachable) :
    (d.GetSize = 0 → ∃ seg, d.segments.items.nodes = [seg] ∧ seg.IsEmpty = true) ∧
    (d.GetSize ≠ 0 → ∀ first last, d.segments.items.nodes.head? = some first →
      d.segments.items.nodes.getLast? = some last →
      first.IsEmpty = false ∨ last.IsEmpty = false) ∧
    (∀ v last, (d.Append v).2.segments.items.nodes.getLast? = some last →
      last.IsEmpty = false) ∧
    (∀ v first, (d.Prepend v).2.segments.items.nodes.head? = some first →
      first.IsEmpty = false) ∧
    (d.PopBack.2.GetSize ≠ 0 →
      (∀ first, d.PopBack.2.segments.items.nodes.head? = some first → first.IsEmpty = false) ∧
      (∀ last, d.PopBack.2.segments.items.nodes.getLast? = some last →
        last.IsEmpty = false)) ∧
    (d.PopFront.2.GetSize ≠ 0 →
      (∀ first, d.PopFront.2.segments.items.nodes.head? = some first →
        first.IsEmpty = false) ∧
      (∀ last, d.PopFront.2.segments.items.nodes.getLast? = some last →
        last.IsEmpty = false)) := by
  have hwf := hreach.wf
  have hlay := hreach.layout
  refine ⟨fun hz => d.single_of_size_zero hwf hlay hz, ?_,
    fun v => (d.Append_layout hwf hlay v).2, fun v => (d.Prepend_layout hwf hlay v).2, ?_, ?_⟩
  · intro hz first last hf hl
    by_cases hlen : 2 ≤ d.segments.items.nodes.length
    · exact hlay.ends first last hf hl hlen
    · exact Or.inl ((d.ends_of_size_ne_zero hwf hz (Or.inl (by omega))).1 first hf)
  · intro hz2
    have hwf2 : d.PopBack.2.WF := (SegmentDeque.Reachable.popBack d hreach).wf
    by_cases hz : d.total_size = 0
    · exfalso
      rw [d.PopBack_of_empty hz] at hz2
      exact hz2 hz
    · exact d.PopBack.2.ends_of_size_ne_zero hwf2 hz2 (d.PopBack_layout hwf hlay hz).2
  · intro hz2
    have hwf2 : d.PopFront.2.WF := (SegmentDeque.Reachable.popFront d hreach).wf
    by_cases hz : d.total_size = 0
    · exfalso
      rw [d.PopFront_of_empty hz] at hz2
      exact hz2 hz
    · exact d.PopFront.2.ends_of_size_ne_zero hwf2 hz2 (d.PopFront_layout hwf hlay hz).2

/-- Witness for C18 (amended) on the deque holding 2, 1 before an empty last segment. -/
theorem C18_boundary_segments_witness :
    sampleEmptyLast.Reachable ∧ sampleEmptyLast.GetSize ≠ 0 ∧
      ∀ first last, sampleEmptyLast.segments.items.nodes.head? = some first →
        sampleEmptyLast.segments.items.nodes.getLast? = some last →
        first.IsEmpty = false ∨ last.IsEmpty = false :=
  have hreach : sampleEmptyLast.Reachable :=
    .prepend _ 2 (.prepend _ 1 (.construct 2 fresh2 rfl))
  have hne : sampleEmptyLast.GetSize ≠ 0 := by decide
  ⟨hreach, hne, (C18_boundary_segments sampleEmptyLast hreach).2.1 hne⟩

/-- C19: in every reachable state `GetSize()` is the sum over the segments of the chain
of their effective sizes `back_size - front_offset`. -/
theorem C19_total_size (d : SegmentDeque T) (hreach : d.Reachable) :
    d.GetSize = (d.segments.items.nodes.map Segment.GetEffectiveSize).sum ∧
    d.GetSize = (d.segments.items.nodes.map (fun s => s.back_size - s.front_offset)).sum := by
  have hwf := hreach.wf
  have h1 : d.GetSize = (d.segments.items.nodes.map (fun s => s.back_size - s.front_offset)).sum := by
    show d.total_size = _
    rw [hwf.size_eq, SegmentDeque.toList, chainElems, List.length_flatten, List.map_map]
    congr 1
    apply List.map_congr_left
    intro s hs
    obtain ⟨-, hbc, hlen⟩ := hwf.segs s hs
    exact s.window_length (by omega)
  refine ⟨?_, h1⟩
  rw [h1]
  congr 1
  apply List.map_congr_left
  intro s hs
  obtain ⟨hfb, -, -⟩ := hwf.segs s hs
  exact (usub_of_le hfb).symm

/-- Witness for C19 on a chain of three segments. -/
theorem C19_total_size_witness :
    sampleThree.Reachable ∧
      sampleThree.GetSize = (sampleThree.segments.items.nodes.map Segment.GetEffectiveSize).sum :=
  have hreach : sampleThree.Reachable :=
    .popFront _ (SegmentDeque.reachable_of_appendAll _ _ (.construct 2 fresh2 rfl))
  ⟨hreach, (C19_total_size sampleThree hreach).1⟩

/-- C20: in every reachable state every segment of the chain has
`0 <= front_offset <= back_size <= segment_capacity`, so that `GetEffectiveSize()` is the
true difference `back_size - front_offset` and the unsigned subtraction does not wrap. -/
theorem C20_segment_cursors (d : SegmentDeque T) (hreach : d.Reachable) (i : Nat)
    (seg : Segment T) (hseg : d.GetSegment i = .ok seg) :
    0 ≤ seg.front_offset ∧ seg.front_offset ≤ seg.back_size ∧
    seg.back_size ≤ d.segment_capacity ∧
    seg.GetEffectiveSize + seg.front_offset = seg.back_size ∧
    seg.GetEffectiveSize ≤ d.segment_capacity := by
  have hwf := hreach.wf
  rw [d.GetSegment_ok_iff] at hseg
  obtain ⟨hfb, hbc, -⟩ := hwf.segs seg (List.mem_iff_getElem?.mpr ⟨i, hseg⟩)
  have he : seg.GetEffectiveSize = seg.back_size - seg.front_offset := usub_of_le hfb
  refine ⟨Nat.zero_le _, hfb, hbc, ?_, ?_⟩ <;> omega

/-- Witness for C20 on the first segment of the deque with front slack. -/
theorem C20_segment_cursors_witness :
    sampleSlack.Reachable ∧
      sampleSlack.GetSegment 0 = .ok ⟨⟨⟨[1, 2]⟩⟩, 1, 2⟩ ∧
      (1 : Nat) ≤ 2 ∧ 2 ≤ sampleSlack.segment_capacity :=
  have hreach : sampleSlack.Reachable :=
    .popFront _ (.append _ 3 (.append _ 2 (.append _ 1 (.construct 2 fresh2 rfl))))
  have h := C20_segment_cursors sampleSlack hreach 0 ⟨⟨⟨[1, 2]⟩⟩, 1, 2⟩ rfl
  ⟨hreach, rfl, h.2.1, h.2.2.1⟩

/-! ## The iterators -/

theorem Segment.effectiveSize_of_isEmpty (s : Segment T) (h1 : s.front_offset ≤ s.back_size)
    (h : s.IsEmpty = true) : s.GetEffectiveSize = 0 := by
  simp only [Segment.IsEmpty, decide_eq_true_eq] at h
  rw [Segment.GetEffectiveSize, usub_of_le h1]
  omega

theorem SegmentDeque.accumulated_succ (d : SegmentDeque T) (i : Nat) (s : Segment T)
    (h : d.segments.items.nodes[i]? = some s) :
    d.accumulated (i + 1) = d.accumulated i + s.GetEffectiveSize := by
  simp only [SegmentDeque.accumulated, List.take_succ, h, List.map_append, List.sum_append]
  simp

theorem SegmentDeque.accumulated_total (d : SegmentDeque T) (hwf : d.WF) (i : Nat)
    (h : d.segments.items.nodes.length ≤ i) : d.accumulated i = d.total_size := by
  have h1 : d.total_size = (d.segments.items.nodes.map (fun s => s.back_size - s.front_offset)).sum := by
    rw [hwf.size_eq, SegmentDeque.toList, chainElems, List.length_flatten, List.map_map]
    congr 1
    apply List.map_congr_left
    intro s hs
    obtain ⟨-, hbc, hlen⟩ := hwf.segs s hs
    exact s.window_length (by omega)
  rw [h1, SegmentDeque.accumulated, List.take_of_length_le h]
  congr 1
  apply List.map_congr_left
  intro s hs
  exact usub_of_le (hwf.segs s hs).1

theorem SegmentDeque.accumulated_le (d : SegmentDeque T) (hwf : d.WF) (i : Nat) :
    d.accumulated i ≤ d.total_size := by
  rw [← d.accumulated_total hwf d.segments.items.nodes.length (Nat.le_refl _)]
  simp only [SegmentDeque.accumulated, List.take_length]
  conv => rhs; rw [← List.take_append_drop i d.segments.items.nodes]
  rw [List.map_append, List.sum_append]
  omega

theorem skipEmptySegments_spec (d : SegmentDeque T) (hwf : d.WF) (fuel : Nat) :
    ∀ idx, d.GetSegmentCount ≤ idx + fuel →
      ∃ idx', skipEmptySegments d fuel idx = (.ok (), idx') ∧ idx ≤ idx' ∧
        d.accumulated idx' = d.accumulated idx ∧
        (idx' < d.GetSegmentCount →
          ∃ s, d.segments.items.nodes[idx']? = some s ∧ s.IsEmpty = false) := by
  induction fuel with
  | zero =>
    intro idx h
    exact ⟨idx, rfl, Nat.le_refl _, rfl, fun hlt => by omega⟩
  | succ fuel ih =>
    intro idx h
    simp only [skipEmptySegments]
    by_cases hlt : idx < d.GetSegmentCount
    · rw [if_pos hlt]
      have hlt2 : idx < d.segments.items.nodes.length := hlt
      have hs : d.segments.items.nodes[idx]? = some (d.segments.items.nodes[idx]) :=
        List.getElem?_eq_getElem hlt2
      rw [(d.GetSegment_ok_iff idx _).mpr hs]
      simp only
      cases he : (d.segments.items.nodes[idx]).IsEmpty with
      | true =>
        simp only [if_true]
        obtain ⟨idx', hrun, hle, hacc, hex⟩ := ih (idx + 1) (by omega)
        refine ⟨idx', hrun, by omega, ?_, hex⟩
        rw [hacc, d.accumulated_succ idx _ hs,
          Segment.effectiveSize_of_isEmpty _ (hwf.segs _ (List.getElem_mem _)).1 he]
        rfl
      | false =>
        simp only [Bool.false_eq_true, if_false]
        exact ⟨idx, rfl, Nat.le_refl _, rfl, fun _ => ⟨_, hs, he⟩⟩
    · rw [if_neg hlt]
      exact ⟨idx, rfl, Nat.le_refl _, rfl, fun h2 => absurd h2 hlt⟩

theorem chain_index (L : List (Segment T)) :
    (∀ s ∈ L, s.front_offset ≤ s.back_size ∧ s.back_size ≤ s.data.items.items.length) →
    ∀ (i pos : Nat) (s : Segment T), L[i]? = some s → pos < s.GetEffectiveSize →
      s.front_offset + pos < s.data.items.items.length ∧
      (chainElems L)[((L.take i).map Segment.GetEffectiveSize).sum + pos]? =
        s.data.items.items[s.front_offset + pos]? := by
  induction L with
  | nil => intro _ i pos s h; simp at h
  | cons a L ih =>
    intro hwf i pos s hi hpos
    have ha := hwf a (by simp)
    have heff : ∀ t : Segment T, t.front_offset ≤ t.back_size →
        t.back_size ≤ t.data.items.items.length → t.GetEffectiveSize = t.window.length := by
      intro t h1 h2
      rw [Segment.window_length t h2, Segment.GetEffectiveSize, usub_of_le h1]
    cases i with
    | zero =>
      simp only [List.getElem?_cons_zero, Option.some.injEq] at hi
      subst hi
      rw [heff a ha.1 ha.2] at hpos
      obtain ⟨hb, hw⟩ := a.window_getElem pos hpos ha.2
      refine ⟨hb, ?_⟩
      simp only [List.take_zero, List.map_nil, List.sum_nil, Nat.zero_add, chainElems_cons]
      rw [List.getElem?_append_left hpos, hw]
    | succ i =>
      simp only [List.getElem?_cons_succ] at hi
      obtain ⟨hb, hget⟩ := ih (fun t ht => hwf t (by simp [ht])) i pos s hi hpos
      refine ⟨hb, ?_⟩
      simp only [List.take_succ_cons, List.map_cons, List.sum_cons, chainElems_cons,
        heff a ha.1 ha.2]
      rw [List.getElem?_append_right (by omega), ← hget]
      congr 1
      omega

theorem Segment.effectiveSize_pos (s : Segment T) (h : s.IsEmpty = false) :
    0 < s.GetEffectiveSize := by
  simp only [Segment.IsEmpty, decide_eq_false_iff_not] at h
  rw [Segment.GetEffectiveSize, usub_of_le (by omega)]
  omega

theorem SegmentDeque.accumulated_add_le (d : SegmentDeque T) (hwf : d.WF) (i : Nat)
    (s : Segment T) (h : d.segments.items.nodes[i]? = some s) :
    d.accumulated i + s.GetEffectiveSize ≤ d.total_size := by
  rw [← d.accumulated_succ i s h]
  exact d.accumulated_le hwf (i + 1)

theorem ConstDequeIterator.Get_positioned (it : ConstDequeIterator) (d : SegmentDeque T)
    (hwf : d.WF) (k : Nat) (h : it.Positioned d k) :
    ∃ x, d.toList[k]? = some x ∧ it.Get d = .ok x := by
  obtain ⟨hst, seg, hseg, hpos, hk⟩ := h
  have hlt : it.segment_idx < d.segments.items.nodes.length := (List.getElem?_eq_some.mp hseg).1
  obtain ⟨hb, hidx⟩ := chain_index d.segments.items.nodes
    (fun s hs => ⟨(hwf.segs s hs).1, by rw [(hwf.segs s hs).2.2]; exact (hwf.segs s hs).2.1⟩)
    it.segment_idx it.pos_in_segment seg hseg hpos
  refine ⟨seg.data.items.items[seg.front_offset + it.pos_in_segment], ?_, ?_⟩
  · rw [hk]
    show (chainElems d.segments.items.nodes)[_]? = _
    rw [show d.accumulated it.segment_idx =
      ((d.segments.items.nodes.take it.segment_idx).map Segment.GetEffectiveSize).sum from rfl,
      hidx, List.getElem?_eq_getElem hb]
  · have hnot : ¬ ((!it.started || decide (it.segment_idx ≥ d.GetSegmentCount)) = true) := by
      have : ¬ it.segment_idx ≥ d.GetSegmentCount := by
        show ¬ it.segment_idx ≥ d.segments.items.nodes.length
        omega
      simp [hst, this]
    simp only [ConstDequeIterator.Get, if_neg hnot, (d.GetSegment_ok_iff _ _).mpr hseg,
      Segment.Get, MutableArraySequence.Get_slot_of_lt _ hb]

theorem ConstDequeIterator.Get_not_started (it : ConstDequeIterator) (d : SegmentDeque T)
    (h : it.started = false) : it.Get d = .error (.out_of_range "Iterator out of range") := by
  simp [ConstDequeIterator.Get, h]

theorem ConstDequeIterator.Get_exhausted (it : ConstDequeIterator) (d : SegmentDeque T)
    (h : it.Exhausted d) : it.Get d = .error (.out_of_range "Iterator out of range") := by
  obtain ⟨-, hle⟩ := h
  simp [ConstDequeIterator.Get, hle]

theorem ConstDequeIterator.after_skip (d : SegmentDeque T) (hwf : d.WF) (idx' k : Nat)
    (hacc : d.accumulated idx' = k)
    (hex : idx' < d.GetSegmentCount →
      ∃ s, d.segments.items.nodes[idx']? = some s ∧ s.IsEmpty = false) :
    decide (idx' < d.GetSegmentCount) = decide (k < d.total_size) ∧
    (k < d.total_size → (⟨idx', 0, true⟩ : ConstDequeIterator).Positioned d k) ∧
    (d.total_size ≤ k → (⟨idx', 0, true⟩ : ConstDequeIterator).Exhausted d) := by
  by_cases hlt : idx' < d.GetSegmentCount
  · obtain ⟨s, hs, hse⟩ := hex hlt
    have hpos := s.effectiveSize_pos hse
    have hle := d.accumulated_add_le hwf idx' s hs
    have hk : k < d.total_size := by omega
    refine ⟨by simp [hlt, hk], fun _ => ⟨rfl, s, hs, hpos, by simp [hacc]⟩, fun h => by omega⟩
  · have htot := d.accumulated_total hwf idx' (by
      show d.GetSegmentCount ≤ idx'
      omega)
    have hk : ¬ k < d.total_size := by omega
    refine ⟨by simp [hlt, hk], fun h => absurd h hk, fun _ => ⟨rfl, by
      show d.GetSegmentCount ≤ idx'
      omega⟩⟩

theorem ConstDequeIterator.Next_fresh (d : SegmentDeque T) (hwf : d.WF) :
    ∃ it', d.GetIterator.Next d = (.ok (decide (0 < d.total_size)), it') ∧
      (0 < d.total_size → it'.Positioned d 0) ∧ (d.total_size ≤ 0 → it'.Exhausted d) := by
  obtain ⟨idx', hrun, -, hacc, hex⟩ := skipEmptySegments_spec d hwf d.GetSegmentCount 0 (by omega)
  have h0 : d.accumulated 0 = 0 := by simp [SegmentDeque.accumulated]
  obtain ⟨hdec, hp, he⟩ := ConstDequeIterator.after_skip d hwf idx' 0 (by rw [hacc, h0]) hex
  refine ⟨⟨idx', 0, true⟩, ?_, hp, he⟩
  simp only [ConstDequeIterator.Next, SegmentDeque.GetIterator, Bool.not_false, if_true, hrun,
    hdec]

theorem ConstDequeIterator.Next_positioned (it : ConstDequeIterator) (d : SegmentDeque T)
    (hwf : d.WF) (k : Nat) (h : it.Positioned d k) :
    ∃ it', it.Next d = (.ok (decide (k + 1 < d.total_size)), it') ∧
      (k + 1 < d.total_size → it'.Positioned d (k + 1)) ∧
      (d.total_size ≤ k + 1 → it'.Exhausted d) := by
  obtain ⟨hst, seg, hseg, hpos, hk⟩ := h
  have hlt : it.segment_idx < d.segments.items.nodes.length := (List.getElem?_eq_some.mp hseg).1
  have hnot : ¬ it.segment_idx ≥ d.GetSegmentCount := by
    show ¬ it.segment_idx ≥ d.segments.items.nodes.length
    omega
  have hle := d.accumulated_add_le hwf it.segment_idx seg hseg
  simp only [ConstDequeIterator.Next, hst, Bool.not_true, Bool.false_eq_true, if_false,
    if_neg hnot, (d.GetSegment_ok_iff _ _).mpr hseg]
  by_cases hend : it.pos_in_segment + 1 ≥ seg.GetEffectiveSize
  · rw [if_pos hend]
    obtain ⟨idx', hrun, -, hacc, hex⟩ :=
      skipEmptySegments_spec d hwf d.GetSegmentCount (it.segment_idx + 1) (by omega)
    obtain ⟨hdec, hp, he⟩ := ConstDequeIterator.after_skip d hwf idx' (k + 1) (by
      rw [hacc, d.accumulated_succ _ seg hseg]; omega) hex
    refine ⟨⟨idx', 0, true⟩, ?_, hp, he⟩
    simp only [hrun, hdec]
  · rw [if_neg hend]
    have hk1 : k + 1 < d.total_size := by omega
    have hidx : it.segment_idx < d.GetSegmentCount := hlt
    refine ⟨⟨it.segment_idx, it.pos_in_segment + 1, true⟩, ?_, ?_, fun h => by omega⟩
    · simp [hidx, hk1]
    · intro _
      refine ⟨rfl, seg, hseg, ?_, ?_⟩
      · show it.pos_in_segment + 1 < seg.GetEffectiveSize
        omega
      · show k + 1 = d.accumulated it.segment_idx + (it.pos_in_segment + 1)
        omega

theorem ConstDequeIterator.Next_exhausted (it : ConstDequeIterator) (d : SegmentDeque T)
    (h : it.Exhausted d) : it.Next d = (.ok false, it) := by
  obtain ⟨hst, hle⟩ := h
  simp only [ConstDequeIterator.Next, hst, Bool.not_true, Bool.false_eq_true, if_false]
  rw [if_pos hle]

theorem ConstDequeIterator.advance_spec (d : SegmentDeque T) (hwf : d.WF) (k : Nat) :
    ((ConstDequeIterator.advance d k d.GetIterator).Next d).1 =
      .ok (decide (k < d.total_size)) ∧
    (k < d.total_size → (ConstDequeIterator.advance d (k + 1) d.GetIterator).Positioned d k) ∧
    (d.total_size ≤ k → (ConstDequeIterator.advance d (k + 1) d.GetIterator).Exhausted d) := by
  induction k with
  | zero =>
    obtain ⟨it', hrun, hp, he⟩ := ConstDequeIterator.Next_fresh d hwf
    simp only [ConstDequeIterator.advance, hrun]
    exact ⟨trivial, hp, he⟩
  | succ k ih =>
    obtain ⟨-, hp, he⟩ := ih
    by_cases hk : k < d.total_size
    · obtain ⟨it', hrun, hp', he'⟩ := ConstDequeIterator.Next_positioned _ d hwf k (hp hk)
      have e : ConstDequeIterator.advance d (k + 1 + 1) d.GetIterator =
          ((ConstDequeIterator.advance d (k + 1) d.GetIterator).Next d).2 := rfl
      rw [e, hrun]
      exact ⟨rfl, hp', he'⟩
    · have hex := he (by omega)
      have hrun := ConstDequeIterator.Next_exhausted _ d hex
      have e : ConstDequeIterator.advance d (k + 1 + 1) d.GetIterator =
          ((ConstDequeIterator.advance d (k + 1) d.GetIterator).Next d).2 := rfl
      rw [e, hrun]
      have hdec : decide (k + 1 < d.total_size) = false := by simp; omega
      rw [hdec]
      exact ⟨rfl, fun h => by omega, fun _ => hex⟩

theorem MutableDequeIterator.Next_toConst (it : MutableDequeIterator) (d : SegmentDeque T) :
    (it.Next d).1 = (it.toConst.Next d).1 ∧ (it.Next d).2.toConst = (it.toConst.Next d).2 := by
  obtain ⟨idx, pos, st⟩ := it
  simp only [MutableDequeIterator.Next, ConstDequeIterator.Next, MutableDequeIterator.toConst]
  split
  · split <;> simp_all
  · split
    · exact ⟨rfl, rfl⟩
    · split
      · exact ⟨rfl, rfl⟩
      · split
        · split <;> simp_all
        · exact ⟨rfl, rfl⟩

theorem MutableDequeIterator.Get_toConst (it : MutableDequeIterator) (d : SegmentDeque T) :
    it.Get d = it.toConst.Get d := rfl

theorem MutableDequeIterator.advance_toConst (d : SegmentDeque T) (k : Nat)
    (it : MutableDequeIterator) :
    (MutableDequeIterator.advance d k it).toConst = ConstDequeIterator.advance d k it.toConst := by
  induction k with
  | zero => rfl
  | succ k ih =>
    simp only [MutableDequeIterator.advance, ConstDequeIterator.advance]
    rw [(MutableDequeIterator.Next_toConst _ d).2, ih]

theorem MutableDequeIterator.advance_next (d : SegmentDeque T) (k : Nat) :
    ((MutableDequeIterator.advance d k d.GetMutableIterator).Next d).1 =
      ((ConstDequeIterator.advance d k d.GetIterator).Next d).1 ∧
    (MutableDequeIterator.advance d k d.GetMutableIterator).Get d =
      (ConstDequeIterator.advance d k d.GetIterator).Get d := by
  have h := MutableDequeIterator.advance_toConst d k d.GetMutableIterator
  have h0 : (d.GetMutableIterator).toConst = d.GetIterator := rfl
  rw [h0] at h
  exact ⟨by rw [(MutableDequeIterator.Next_toConst _ d).1, h],
    by rw [MutableDequeIterator.Get_toConst, h]⟩

/-- C14: for every reachable deque of size `n`, a fresh iterator of either variant
returns true from each of its first `n` calls of `Next()` and false from the next one,
and `Get()` after the call number `k + 1` returns `d.Get(k)`: the iteration visits every
element once, in index order. -/
theorem C14_iteration_order (d : SegmentDeque T) (hreach : d.Reachable) :
    (∀ k, k < d.GetSize →
      ((ConstDequeIterator.advance d k d.GetIterator).Next d).1 = .ok true ∧
      (∃ x, d.Get k = .ok x) ∧
      (ConstDequeIterator.advance d (k + 1) d.GetIterator).Get d = d.Get k) ∧
    ((ConstDequeIterator.advance d d.GetSize d.GetIterator).Next d).1 = .ok false ∧
    (∀ k, k < d.GetSize →
      ((MutableDequeIterator.advance d k d.GetMutableIterator).Next d).1 = .ok true ∧
      (MutableDequeIterator.advance d (k + 1) d.GetMutableIterator).Get d = d.Get k) ∧
    ((MutableDequeIterator.advance d d.GetSize d.GetMutableIterator).Next d).1 = .ok false := by
  have hwf := hreach.wf
  have hconst : ∀ k, k < d.GetSize →
      ((ConstDequeIterator.advance d k d.GetIterator).Next d).1 = .ok true ∧
      (∃ x, d.Get k = .ok x) ∧
      (ConstDequeIterator.advance d (k + 1) d.GetIterator).Get d = d.Get k := by
    intro k hk
    obtain ⟨hrun, hp, -⟩ := ConstDequeIterator.advance_spec d hwf k
    have hk' : k < d.total_size := hk
    obtain ⟨x, hx, hget⟩ := ConstDequeIterator.Get_positioned _ d hwf k (hp hk')
    have hdget : d.Get k = .ok x := (d.Get_ok_iff hwf k x).mpr hx
    refine ⟨?_, ⟨x, hdget⟩, by rw [hget, hdget]⟩
    rw [hrun]
    simp [hk']
  have hlast : ((ConstDequeIterator.advance d d.GetSize d.GetIterator).Next d).1 = .ok false := by
    rw [(ConstDequeIterator.advance_spec d hwf d.GetSize).1]
    simp [SegmentDeque.GetSize]
  refine ⟨hconst, hlast, ?_, ?_⟩
  · intro k hk
    obtain ⟨h1, -, h3⟩ := hconst k hk
    exact ⟨by rw [(MutableDequeIterator.advance_next d k).1]; exact h1,
      by rw [(MutableDequeIterator.advance_next d (k + 1)).2]; exact h3⟩
  · rw [(MutableDequeIterator.advance_next d d.GetSize).1]
    exact hlast

/-- Witness for C14 on the deque whose first chain segment is empty. -/
theorem C14_iteration_order_witness :
    sampleEmptyFirst.Reachable ∧
      ((ConstDequeIterator.advance sampleEmptyFirst sampleEmptyFirst.GetSize
        sampleEmptyFirst.GetIterator).Next sampleEmptyFirst).1 = .ok false :=
  have hreach : sampleEmptyFirst.Reachable :=
    .append _ 4 (.append _ 3 (.popFront _ (.popFront _
      (.append _ 2 (.append _ 1 (.construct 2 fresh2 rfl))))))
  ⟨hreach, (C14_iteration_order sampleEmptyFirst hreach).2.1⟩

/-- C15: for both iterator variants over a reachable deque, `Get()` throws the
out-of-range error before the first `Next()` and after a `Next()` that returned false,
and returns an element after a `Next()` that returned true; `Next()` itself never
throws, and on an empty deque the first `Next()` returns false. -/
theorem C15_iterator_get (d : SegmentDeque T) (hreach : d.Reachable) :
    d.GetIterator.Get d = .error (.out_of_range "Iterator out of range") ∧
    d.GetMutableIterator.Get d = .error (.out_of_range "Iterator out of range") ∧
    (∀ k,
      (∃ b, ((ConstDequeIterator.advance d k d.GetIterator).Next d).1 = .ok b) ∧
      (((ConstDequeIterator.advance d k d.GetIterator).Next d).1 = .ok true →
        ∃ x, (ConstDequeIterator.advance d (k + 1) d.GetIterator).Get d = .ok x) ∧
      (((ConstDequeIterator.advance d k d.GetIterator).Next d).1 = .ok false →
        (ConstDequeIterator.advance d (k + 1) d.GetIterator).Get d =
          .error (.out_of_range "Iterator out of range"))) ∧
    (∀ k,
      (∃ b, ((MutableDequeIterator.advance d k d.GetMutableIterator).Next d).1 = .ok b) ∧
      (((MutableDequeIterator.advance d k d.GetMutableIterator).Next d).1 = .ok true →
        ∃ x, (MutableDequeIterator.advance d (k + 1) d.GetMutableIterator).Get d = .ok x) ∧
      (((MutableDequeIterator.advance d k d.GetMutableIterator).Next d).1 = .ok false →
        (MutableDequeIterator.advance d (k + 1) d.GetMutableIterator).Get d =
          .error (.out_of_range "Iterator out of range"))) ∧
    (d.GetSize = 0 → (d.GetIterator.Next d).1 = .ok false ∧
      (d.GetMutableIterator.Next d).1 = .ok false) := by
  have hwf := hreach.wf
  have hconst : ∀ k,
      (∃ b, ((ConstDequeIterator.advance d k d.GetIterator).Next d).1 = .ok b) ∧
      (((ConstDequeIterator.advance d k d.GetIterator).Next d).1 = .ok true →
        ∃ x, (ConstDequeIterator.advance d (k + 1) d.GetIterator).Get d = .ok x) ∧
      (((ConstDequeIterator.advance d k d.GetIterator).Next d).1 = .ok false →
        (ConstDequeIterator.advance d (k + 1) d.GetIterator).Get d =
          .error (.out_of_range "Iterator out of range")) := by
    intro k
    obtain ⟨hrun, hp, he⟩ := ConstDequeIterator.advance_spec d hwf k
    refine ⟨⟨_, hrun⟩, ?_, ?_⟩
    · intro htrue
      rw [hrun] at htrue
      have hk : k < d.total_size := by simpa using htrue
      obtain ⟨x, -, hget⟩ := ConstDequeIterator.Get_positioned _ d hwf k (hp hk)
      exact ⟨x, hget⟩
    · intro hfalse
      rw [hrun] at hfalse
      have hk : d.total_size ≤ k := by simpa using hfalse
      exact ConstDequeIterator.Get_exhausted _ d (he hk)
  have hfirst : d.GetSize = 0 → (d.GetIterator.Next d).1 = .ok false := by
    intro hz
    have := (ConstDequeIterator.advance_spec d hwf 0).1
    simp only [ConstDequeIterator.advance] at this
    rw [this]
    have hz' : d.total_size = 0 := hz
    simp [hz']
  refine ⟨ConstDequeIterator.Get_not_started _ d rfl, ?_, hconst, ?_, ?_⟩
  · rw [MutableDequeIterator.Get_toConst]
    exact ConstDequeIterator.Get_not_started _ d rfl
  · intro k
    obtain ⟨h1, h2, h3⟩ := hconst k
    rw [(MutableDequeIterator.advance_next d k).1, (MutableDequeIterator.advance_next d (k + 1)).2]
    exact ⟨h1, h2, h3⟩
  · intro hz
    refine ⟨hfirst hz, ?_⟩
    have := (MutableDequeIterator.advance_next d 0).1
    simp only [MutableDequeIterator.advance, ConstDequeIterator.advance] at this
    rw [this]
    exact hfirst hz

/-- Witness for C15 on a fresh deque: the first `Next()` returns false. -/
theorem C15_iterator_get_witness :
    fresh2.Reachable ∧ fresh2.GetSize = 0 ∧
      (fresh2.GetIterator.Next fresh2).1 = .ok false ∧
      (fresh2.GetMutableIterator.Next fresh2).1 = .ok false :=
  have hreach : fresh2.Reachable := .construct 2 fresh2 rfl
  ⟨hreach, rfl, (C15_iterator_get fresh2 hreach).2.2.2.2 rfl⟩

/-! ## Writing through the mutable iterator -/

theorem set_eq_self_of_getElem? {α : Type} (l : List α) (i : Nat) (a : α) (h : l[i]? = some a) :
    l.set i a = l := by
  induction l generalizing i with
  | nil => rfl
  | cons b l ih =>
    cases i with
    | zero =>
      simp only [List.getElem?_cons_zero, Option.some.injEq] at h
      rw [List.set_cons_zero, h]
    | succ i =>
      simp only [List.getElem?_cons_succ] at h
      rw [List.set_cons_succ, ih i h]

theorem map_set_eq_of_eq {α β : Type} (f : α → β) (l : List α) (i : Nat) (a b : α)
    (h : l[i]? = some a) (hf : f b = f a) : (l.set i b).map f = l.map f := by
  rw [List.map_set, hf]
  exact set_eq_self_of_getElem? _ i _ (by rw [List.getElem?_map, h]; rfl)

theorem Segment.window_set (s : Segment T) (pos : Nat) (v : T) :
    Segment.window { s with data := ⟨⟨s.data.items.items.set (s.front_offset + pos) v⟩⟩ } =
      s.window.set pos v := by
  have e : ¬ s.front_offset + pos < s.front_offset := by omega
  simp only [Segment.window, List.drop_set, if_neg e, List.set_take]
  congr 2
  omega

theorem chain_set (v : T) (L : List (Segment T)) :
    (∀ s ∈ L, s.front_offset ≤ s.back_size ∧ s.back_size ≤ s.data.items.items.length) →
    ∀ (i pos : Nat) (s : Segment T), L[i]? = some s → pos < s.GetEffectiveSize →
      chainElems (L.set i { s with data := ⟨⟨s.data.items.items.set (s.front_offset + pos) v⟩⟩ }) =
        (chainElems L).set (((L.take i).map Segment.GetEffectiveSize).sum + pos) v := by
  induction L with
  | nil => intro _ i pos s h; simp at h
  | cons a L ih =>
    intro hwf i pos s hi hpos
    have ha := hwf a (by simp)
    have heff : a.GetEffectiveSize = a.window.length := by
      rw [Segment.window_length a ha.2, Segment.GetEffectiveSize, usub_of_le ha.1]
    cases i with
    | zero =>
      simp only [List.getElem?_cons_zero, Option.some.injEq] at hi
      subst hi
      rw [heff] at hpos
      simp only [List.set_cons_zero, List.take_zero, List.map_nil, List.sum_nil, Nat.zero_add,
        chainElems_cons, Segment.window_set]
      rw [List.set_append_left _ _ hpos]
    | succ i =>
      simp only [List.getElem?_cons_succ] at hi
      simp only [List.set_cons_succ, List.take_succ_cons, List.map_cons, List.sum_cons,
        chainElems_cons, heff]
      rw [ih (fun t ht => hwf t (by simp [ht])) i pos s hi hpos,
        List.set_append_right _ _ (by omega)]
      congr 2
      omega

theorem SegmentDeque.store_spec (d : SegmentDeque T) (hwf : d.WF) (idx pos : Nat)
    (seg : Segment T) (hseg : d.segments.items.nodes[idx]? = some seg)
    (hpos : pos < seg.GetEffectiveSize) (v : T) :
    (d.store ⟨idx, seg.front_offset + pos⟩ v).WF ∧
    (d.store ⟨idx, seg.front_offset + pos⟩ v).toList = d.toList.set (d.accumulated idx + pos) v ∧
    (d.store ⟨idx, seg.front_offset + pos⟩ v).cursors = d.cursors ∧
    (d.store ⟨idx, seg.front_offset + pos⟩ v).segment_capacity = d.segment_capacity ∧
    (d.store ⟨idx, seg.front_offset + pos⟩ v).total_size = d.total_size ∧
    (∀ j, (d.store ⟨idx, seg.front_offset + pos⟩ v).accumulated j = d.accumulated j) ∧
    ∃ seg', (d.store ⟨idx, seg.front_offset + pos⟩ v).segments.items.nodes[idx]? = some seg' ∧
      seg'.GetEffectiveSize = seg.GetEffectiveSize := by
  have hlt : idx < d.segments.items.nodes.length := (List.getElem?_eq_some.mp hseg).1
  have hsegs : ∀ s ∈ d.segments.items.nodes,
      s.front_offset ≤ s.back_size ∧ s.back_size ≤ s.data.items.items.length :=
    fun s hs => ⟨(hwf.segs s hs).1, by rw [(hwf.segs s hs).2.2]; exact (hwf.segs s hs).2.1⟩
  have hstore : d.store ⟨idx, seg.front_offset + pos⟩ v =
      { d with segments := ⟨⟨d.segments.items.nodes.set idx
        { seg with data := ⟨⟨seg.data.items.items.set (seg.front_offset + pos) v⟩⟩ }⟩⟩ } := by
    simp only [SegmentDeque.store, hseg, SegmentDeque.setSegment]
  have hlist := chain_set v d.segments.items.nodes hsegs idx pos seg hseg hpos
  rw [hstore]
  refine ⟨⟨hwf.cap_pos, ?_, ?_, ?_⟩, ?_, ?_, rfl, rfl, ?_, ?_⟩
  · intro h
    have := congrArg List.length h
    simp only [List.length_set, List.length_nil] at this
    omega
  · intro s hs
    rcases List.mem_or_eq_of_mem_set hs with h | h
    · exact hwf.segs s h
    · rw [h]
      obtain ⟨h1, h2, h3⟩ := hwf.segs seg (List.mem_iff_getElem?.mpr ⟨idx, hseg⟩)
      exact ⟨h1, h2, by simp only [List.length_set]; exact h3⟩
  · show d.total_size = (chainElems _).length
    rw [hlist, List.length_set]
    exact hwf.size_eq
  · exact hlist
  · exact map_set_eq_of_eq (fun s => (s.front_offset, s.back_size)) _ idx seg
      ⟨⟨⟨seg.data.items.items.set (seg.front_offset + pos) v⟩⟩, seg.front_offset, seg.back_size⟩
      hseg rfl
  · intro j
    simp only [SegmentDeque.accumulated, List.map_take]
    rw [map_set_eq_of_eq Segment.GetEffectiveSize _ idx seg
      ⟨⟨⟨seg.data.items.items.set (seg.front_offset + pos) v⟩⟩, seg.front_offset, seg.back_size⟩
      hseg rfl]
  · refine ⟨⟨⟨⟨seg.data.items.items.set (seg.front_offset + pos) v⟩⟩, seg.front_offset,
      seg.back_size⟩, ?_, rfl⟩
    simp only [List.getElem?_set]
    simp [hlt]

theorem MutableDequeIterator.GetRef_positioned (it : MutableDequeIterator) (d : SegmentDeque T)
    (hwf : d.WF) (k : Nat) (h : it.toConst.Positioned d k) :
    ∃ seg x, d.segments.items.nodes[it.segment_idx]? = some seg ∧
      it.pos_in_segment < seg.GetEffectiveSize ∧
      k = d.accumulated it.segment_idx + it.pos_in_segment ∧
      d.toList[k]? = some x ∧
      it.GetRef d = .ok ⟨it.segment_idx, seg.front_offset + it.pos_in_segment⟩ ∧
      d.load ⟨it.segment_idx, seg.front_offset + it.pos_in_segment⟩ = x := by
  obtain ⟨hst, seg, hseg, hpos, hk⟩ := h
  simp only [MutableDequeIterator.toConst] at hst hseg hpos hk
  have hlt : it.segment_idx < d.segments.items.nodes.length := (List.getElem?_eq_some.mp hseg).1
  obtain ⟨hb, hidx⟩ := chain_index d.segments.items.nodes
    (fun s hs => ⟨(hwf.segs s hs).1, by rw [(hwf.segs s hs).2.2]; exact (hwf.segs s hs).2.1⟩)
    it.segment_idx it.pos_in_segment seg hseg hpos
  refine ⟨seg, seg.data.items.items[seg.front_offset + it.pos_in_segment], hseg, hpos, hk,
    ?_, ?_, ?_⟩
  · rw [hk]
    show (chainElems d.segments.items.nodes)[_]? = _
    rw [show d.accumulated it.segment_idx =
      ((d.segments.items.nodes.take it.segment_idx).map Segment.GetEffectiveSize).sum from rfl,
      hidx, List.getElem?_eq_getElem hb]
  · have hnot : ¬ ((!it.started || decide (it.segment_idx ≥ d.GetSegmentCount)) = true) := by
      have : ¬ it.segment_idx ≥ d.GetSegmentCount := by
        show ¬ it.segment_idx ≥ d.segments.items.nodes.length
        omega
      simp [hst, this]
    simp only [MutableDequeIterator.GetRef, if_neg hnot, (d.GetSegment_ok_iff _ _).mpr hseg,
      DynamicArray.CheckIndex_slot_of_lt _ hb]
  · simp only [SegmentDeque.load, hseg, List.getElem?_eq_getElem hb, Option.getD_some]

theorem MutableDequeIterator.Get_eq_load (it : MutableDequeIterator) (d : SegmentDeque T) :
    it.Get d = match it.GetRef d with
      | .ok r => .ok (d.load r)
      | .error e => .error e := by
  unfold MutableDequeIterator.Get MutableDequeIterator.GetRef
  split
  · rfl
  · cases hseg : d.GetSegment it.segment_idx with
    | error e => rfl
    | ok segment =>
      have hnode := (d.GetSegment_ok_iff _ _).mp hseg
      simp only [Segment.Get, MutableArraySequence.Get, DynamicArray.Get]
      cases hchk : segment.data.items.CheckIndex (segment.front_offset + it.pos_in_segment) with
      | error e => rfl
      | ok u => simp only [SegmentDeque.load, hnode]

theorem MutableDequeIterator.Next_step (it : MutableDequeIterator) (d : SegmentDeque T)
    (hwf : d.WF) (m : Nat)
    (h : (m = 0 ∧ it = d.GetMutableIterator) ∨ (0 < m ∧ it.toConst.Positioned d (m - 1))) :
    ∃ it1, it.Next d = (.ok (decide (m < d.total_size)), it1) ∧
      (m < d.total_size → it1.toConst.Positioned d m) := by
  obtain ⟨h1, h2⟩ := MutableDequeIterator.Next_toConst it d
  have hpair : it.Next d = ((it.Next d).1, (it.Next d).2) := rfl
  rcases h with ⟨hm, hit⟩ | ⟨hm, hp⟩
  · obtain ⟨it', hrun, hp', -⟩ := ConstDequeIterator.Next_fresh d hwf
    have hc : it.toConst = d.GetIterator := by rw [hit]; rfl
    rw [hc, hrun] at h1 h2
    refine ⟨(it.Next d).2, ?_, ?_⟩
    · rw [hpair, h1, hm]
    · intro hlt
      rw [h2]
      rw [hm] at hlt ⊢
      exact hp' hlt
  · obtain ⟨it', hrun, hp', -⟩ := ConstDequeIterator.Next_positioned _ d hwf (m - 1) hp
    have e : m - 1 + 1 = m := by omega
    rw [e] at hrun hp'
    rw [hrun] at h1 h2
    refine ⟨(it.Next d).2, ?_, ?_⟩
    · rw [hpair, h1]
    · intro hlt
      rw [h2]
      exact hp' hlt

theorem mutateEach_spec (g : T → T) (L0 : List T) (fuel : Nat) :
    ∀ (d : SegmentDeque T) (it : MutableDequeIterator) (m count : Nat), d.WF →
      d.toList = (L0.take m).map g ++ L0.drop m → m ≤ L0.length → L0.length - m + 1 ≤ fuel →
      ((m = 0 ∧ it = d.GetMutableIterator) ∨ (0 < m ∧ it.toConst.Positioned d (m - 1))) →
      ∃ d' it', mutateEach g fuel d it count = some (.ok (d', it', count + (L0.length - m))) ∧
        d'.WF ∧ d'.toList = L0.map g ∧ d'.cursors = d.cursors ∧
        d'.segment_capacity = d.segment_capacity := by
  induction fuel with
  | zero => intro d it m count _ _ _ hfuel; omega
  | succ fuel ih =>
    intro d it m count hwf hl hm hfuel hit
    have hn : d.total_size = L0.length := by
      rw [hwf.size_eq, hl]
      simp only [List.length_append, List.length_map, List.length_take, List.length_drop]
      omega
    obtain ⟨it1, hrun, hp⟩ := MutableDequeIterator.Next_step it d hwf m hit
    by_cases hlt : m < L0.length
    · have hlt' : m < d.total_size := by omega
      have hdec : decide (m < d.total_size) = true := by simp [hlt']
      rw [hdec] at hrun
      obtain ⟨seg, x, hseg, hpos, hk, hx, hre, hload⟩ :=
        MutableDequeIterator.GetRef_positioned it1 d hwf m (hp hlt')
      obtain ⟨hwf2, hl2, hcur2, hcap2, htot2, hacc2, seg', hseg', heff'⟩ :=
        d.store_spec hwf it1.segment_idx it1.pos_in_segment seg hseg hpos (g x)
      have hxm : L0[m]? = some x := by
        rw [hl, List.getElem?_append_right (by
          simp only [List.length_map, List.length_take]; omega)] at hx
        simp only [List.length_map, List.length_take, List.getElem?_drop] at hx
        rw [← hx]
        congr 1
        omega
      have hl2' : (d.store ⟨it1.segment_idx, seg.front_offset + it1.pos_in_segment⟩ (g x)).toList =
          (L0.take (m + 1)).map g ++ L0.drop (m + 1) := by
        rw [hl2, ← hk, hl, List.set_append_right _ _ (by
          simp only [List.length_map, List.length_take]; omega)]
        have e1 : m - (List.map g (List.take m L0)).length = 0 := by
          simp only [List.length_map, List.length_take]; omega
        rw [e1, List.drop_eq_getElem_cons hlt, List.set_cons_zero, List.take_succ, hxm]
        rw [List.getElem?_eq_getElem hlt, Option.some.injEq] at hxm
        simp [hxm]
      have hpos2 : it1.toConst.Positioned
          (d.store ⟨it1.segment_idx, seg.front_offset + it1.pos_in_segment⟩ (g x)) m := by
        refine ⟨(hp hlt').1, seg', hseg', ?_, ?_⟩
        · rw [heff']; exact hpos
        · rw [hacc2]; exact hk
      obtain ⟨d', it', hrec, hwf', hl', hcur', hcap'⟩ :=
        ih _ it1 (m + 1) (count + 1) hwf2 hl2' (by omega) (by omega)
          (Or.inr ⟨by omega, by simpa using hpos2⟩)
      refine ⟨d', it', ?_, hwf', hl', by rw [hcur', hcur2], by rw [hcap', hcap2]⟩
      simp only [mutateEach, hrun, hre, hload]
      rw [hrec]
      congr 4
      omega
    · have hdec : decide (m < d.total_size) = false := by simp; omega
      rw [hdec] at hrun
      refine ⟨d, it1, ?_, hwf, ?_, rfl, rfl⟩
      · simp only [mutateEach, hrun]
        congr 4
        omega
      · have hm2 : m = L0.length := by omega
        rw [hl, hm2]
        simp

/-- C16: traversing a reachable deque with the mutable iterator and replacing every
visited element `x` by `g(x)` through the reference returned by `Get()` ends after
exactly `GetSize()` calls of `Next()` that returned true, and leaves a deque of the same
size, segment count, capacity and segment cursors in which `Get(i)` is `g` of the old
`Get(i)` for every index `i`. -/
theorem C16_mutable_traversal (d : SegmentDeque T) (hreach : d.Reachable) (g : T → T)
    (fuel : Nat) (hfuel : d.GetSize + 1 ≤ fuel) :
    ∃ d' it', mutateEach g fuel d d.GetMutableIterator 0 = some (.ok (d', it', d.GetSize)) ∧
      d'.GetSize = d.GetSize ∧ d'.GetSegmentCount = d.GetSegmentCount ∧
      d'.segment_capacity = d.segment_capacity ∧ d'.cursors = d.cursors ∧
      d'.contents = d.contents.map g ∧
      ∀ i, i < d.GetSize → ∃ x, d.Get i = .ok x ∧ d'.Get i = .ok (g x) := by
  have hwf := hreach.wf
  have hsz : d.GetSize = d.toList.length := hwf.size_eq
  obtain ⟨d', it', hrun, hwf', hl', hcur', hcap'⟩ :=
    mutateEach_spec g d.toList fuel d d.GetMutableIterator 0 0 hwf (by simp) (by omega)
      (by omega) (Or.inl ⟨rfl, rfl⟩)
  have hsz' : d'.GetSize = d.GetSize := by
    show d'.total_size = d.total_size
    rw [hwf'.size_eq, hl', List.length_map, hwf.size_eq]
  refine ⟨d', it', ?_, hsz', ?_, hcap', hcur', ?_, ?_⟩
  · rw [hrun, hsz]
    simp
  · have := congrArg List.length hcur'
    simpa [SegmentDeque.cursors] using this
  · rw [d'.contents_eq hwf', d.contents_eq hwf, hl']
  · intro i hi
    obtain ⟨x, hx, hget⟩ := d.Get_elem_of_lt hwf i hi
    refine ⟨x, hget, ?_⟩
    rw [d'.Get_ok_iff hwf', hl', List.getElem?_map, hx]
    rfl

/-- Witness for C16: doubling 1..5 in place gives 2, 4, 6, 8, 10. -/
theorem C16_mutable_traversal_witness :
    sampleFive.Reachable ∧ sampleFive.GetSize + 1 ≤ 6 ∧
      ∃ d' it', mutateEach (fun x => x * 2) 6 sampleFive sampleFive.GetMutableIterator 0 =
          some (.ok (d', it', 5)) ∧
        d'.contents = [2, 4, 6, 8, 10] ∧ d'.cursors = sampleFive.cursors :=
  have hreach : sampleFive.Reachable :=
    SegmentDeque.reachable_of_appendAll _ _ (.construct 2 fresh2 rfl)
  have hfuel : sampleFive.GetSize + 1 ≤ 6 := by decide
  ⟨hreach, hfuel, by
    obtain ⟨d', it', hrun, -, -, -, hcur, hcont, -⟩ :=
      C16_mutable_traversal sampleFive hreach (fun x => x * 2) 6 hfuel
    have hfive : sampleFive.contents = [1, 2, 3, 4, 5] := by
      rw [sampleFive.contents_eq hreach.wf]
      rfl
    exact ⟨d', it', hrun, by rw [hcont, hfive]; rfl, hcur⟩⟩

/-! ## The accessors, the growth of the chain and boundary cleanup -/

theorem concat_of_getElem?_last {α : Type} (l : List α) (a : α)
    (h : l[l.length - 1]? = some a) : ∃ init, l = init ++ [a] := by
  have hne : l ≠ [] := by
    rintro rfl
    simp at h
  obtain ⟨init, b, rfl⟩ := exists_concat_of_ne_nil l hne
  rw [← List.getLast?_eq_getElem?, getLast?_concat_eq] at h
  exact ⟨init, by rw [Option.some.inj h]⟩

theorem cons_of_getElem?_zero {α : Type} (l : List α) (a : α) (h : l[0]? = some a) :
    ∃ rest, l = a :: rest := by
  cases l with
  | nil => simp at h
  | cons b rest =>
    simp only [List.getElem?_cons_zero, Option.some.injEq] at h
    exact ⟨rest, by rw [h]⟩

/-- C21: `GetSegment(i)` throws `out_of_range` exactly when `i >= GetSegmentCount()` and
otherwise returns the segment at position `i` of the chain.  The accessors `GetSize`,
`IsEmpty`, `GetSegmentCount` and `GetSegment` contain no assignment; they are embedded as
functions of the deque that yield a value and no new state. -/
theorem C21_getSegment (d : SegmentDeque T) (i : Nat) :
    (d.GetSegment i = .error (.out_of_range "Segment index out of range") ↔
      d.GetSegmentCount ≤ i) ∧
    (∀ e, d.GetSegment i = .error e → e = .out_of_range "Segment index out of range") ∧
    (∀ s, d.GetSegment i = .ok s ↔ d.segments.items.nodes[i]? = some s) ∧
    (i < d.GetSegmentCount → ∃ s, d.GetSegment i = .ok s) := by
  by_cases h : i ≥ d.segments.GetSize
  · have hg : d.GetSegment i = .error (.out_of_range "Segment index out of range") := by
      unfold SegmentDeque.GetSegment
      rw [if_pos h]
    refine ⟨⟨fun _ => h, fun _ => hg⟩, ?_, d.GetSegment_ok_iff i, ?_⟩
    · intro e he
      rw [hg] at he
      injection he with he
      exact he.symm
    · intro hlt
      exact absurd h (Nat.not_le.mpr hlt)
  · have hlt : i < d.segments.items.nodes.length := Nat.not_le.mp h
    have hg : d.GetSegment i = .ok (d.segments.items.nodes[i]) := by
      unfold SegmentDeque.GetSegment
      rw [if_neg h]
      exact ListSequence.Get_node_of_lt _ hlt
    refine ⟨⟨fun he => ?_, fun hle => absurd hle h⟩, ?_, d.GetSegment_ok_iff i,
      fun _ => ⟨_, hg⟩⟩
    · rw [hg] at he
      cases he
    · intro e he
      rw [hg] at he
      cases he

/-- Witness for C21 on a chain of three segments: position 1 holds the full middle
segment, position 3 is out of range. -/
theorem C21_getSegment_witness :
    sampleThree.GetSegmentCount = 3 ∧
      sampleThree.GetSegment 1 = .ok ⟨⟨⟨[3, 4]⟩⟩, 0, 2⟩ ∧
      sampleThree.GetSegment 3 = .error (.out_of_range "Segment index out of range") :=
  ⟨rfl, ((C21_getSegment sampleThree 1).2.2.1 _).mpr rfl,
    (C21_getSegment sampleThree 3).1.mpr (by decide)⟩

/-- C23: in every reachable state `Prepend` does not take its defensive error path.  After
`CheckFrontCapacity` the first segment has `front_offset >= 1`, the decrement does not
wrap, the decremented `front_offset` is below the size of the buffer, and `Prepend`
returns normally: `runtime_error("Front capacity check failed")` is not thrown. -/
theorem C23_prepend_defensive (d : SegmentDeque T) (hreach : d.Reachable) (v : T) :
    ∃ d1 first, d.CheckFrontCapacity = (.ok (), d1) ∧ d1.segments.Get 0 = .ok first ∧
      1 ≤ first.front_offset ∧
      usub first.front_offset 1 = first.front_offset - 1 ∧
      usub first.front_offset 1 < first.data.GetSize ∧
      (d.Prepend v).1 = .ok () ∧
      (d.Prepend v).1 ≠ .error (.runtime_error "Front capacity check failed") := by
  have hwf := hreach.wf
  obtain ⟨d1, first, rest, hcf, hwf1, -, -, hnodes, hfo⟩ := d.CheckFrontCapacity_spec hwf
  have hget : d1.segments.Get 0 = .ok first :=
    ListSequence.Get_of_getElem? _ (by rw [hnodes]; simp)
  obtain ⟨hfb, hbc, hlen⟩ := hwf1.segs first (by rw [hnodes]; simp)
  obtain ⟨dP, hP, -⟩ := d.Prepend_spec hwf v
  refine ⟨d1, first, hcf, hget, hfo, usub_of_le hfo, ?_, by rw [hP], ?_⟩
  · rw [usub_of_le hfo]
    show first.front_offset - 1 < first.data.items.items.length
    omega
  · rw [hP]
    intro h
    cases h

/-- Witness for C23 on a fresh deque, whose first segment has no front slack before the
call. -/
theorem C23_prepend_defensive_witness :
    fresh2.Reachable ∧ (fresh2.Prepend 7).1 = .ok () ∧
      (fresh2.Prepend 7).1 ≠ .error (.runtime_error "Front capacity check failed") :=
  have hreach : fresh2.Reachable := .construct 2 fresh2 rfl
  have h := C23_prepend_defensive fresh2 hreach 7
  ⟨hreach, by obtain ⟨_, _, _, _, _, _, _, h1, _⟩ := h; exact h1,
    by obtain ⟨_, _, _, _, _, _, _, _, h2⟩ := h; exact h2⟩

/-- C24: in every reachable state, `Append` adds one segment to the chain if the last
segment has `back_size >= segment_capacity` before the call and leaves the number of
segments unchanged otherwise; `Prepend` adds one segment if the first segment has
`front_offset == 0` before the call and leaves the number unchanged otherwise, and when
it adds one the new first segment ends with `front_offset == segment_capacity - 1` and
`back_size == segment_capacity`. -/
theorem C24_segment_count (d : SegmentDeque T) (hreach : d.Reachable) (v : T) :
    (∃ first last, d.GetSegment 0 = .ok first ∧
      d.GetSegment (d.GetSegmentCount - 1) = .ok last) ∧
    (∀ last, d.GetSegment (d.GetSegmentCount - 1) = .ok last →
      (d.Append v).2.GetSegmentCount =
        if last.back_size ≥ d.segment_capacity then d.GetSegmentCount + 1
        else d.GetSegmentCount) ∧
    (∀ first, d.GetSegment 0 = .ok first →
      (d.Prepend v).2.GetSegmentCount =
        if first.front_offset = 0 then d.GetSegmentCount + 1 else d.GetSegmentCount) ∧
    (∀ first, d.GetSegment 0 = .ok first → first.front_offset = 0 →
      ∃ added, (d.Prepend v).2.GetSegment 0 = .ok added ∧
        added.front_offset = d.segment_capacity - 1 ∧
        added.back_size = d.segment_capacity) := by
  have hwf := hreach.wf
  refine ⟨?_, ?_, ?_, ?_⟩
  · obtain ⟨init, last, hL⟩ := exists_concat_of_ne_nil _ hwf.chain_ne
    cases hn : d.segments.items.nodes with
    | nil => exact absurd hn hwf.chain_ne
    | cons first rest =>
      refine ⟨first, last, (d.GetSegment_ok_iff 0 first).mpr (by rw [hn]; simp),
        (d.GetSegment_ok_iff _ last).mpr ?_⟩
      show d.segments.items.nodes[d.segments.items.nodes.length - 1]? = some last
      rw [← List.getLast?_eq_getElem?, hL, getLast?_concat_eq]
  · intro last hl
    rw [d.GetSegment_ok_iff] at hl
    obtain ⟨init, hL⟩ := concat_of_getElem?_last _ _ hl
    rw [d.Append_eq hwf v init last hL]
    show (if last.back_size ≥ d.segment_capacity then _ else _ : List (Segment T)).length =
      if last.back_size ≥ d.segment_capacity then d.segments.items.nodes.length + 1
      else d.segments.items.nodes.length
    rw [hL]
    split <;> simp
  · intro first hf
    rw [d.GetSegment_ok_iff] at hf
    obtain ⟨rest, hL⟩ := cons_of_getElem?_zero _ _ hf
    rw [d.Prepend_eq hwf v first rest hL]
    show (if first.front_offset = 0 then _ else _ : List (Segment T)).length =
      if first.front_offset = 0 then d.segments.items.nodes.length + 1
      else d.segments.items.nodes.length
    rw [hL]
    split <;> simp
  · intro first hf hz
    rw [d.GetSegment_ok_iff] at hf
    obtain ⟨rest, hL⟩ := cons_of_getElem?_zero _ _ hf
    rw [d.Prepend_eq hwf v first rest hL, if_pos hz]
    exact ⟨⟨⟨⟨(List.replicate d.segment_capacity default).set (d.segment_capacity - 1) v⟩⟩,
      d.segment_capacity - 1, d.segment_capacity⟩,
      (SegmentDeque.GetSegment_ok_iff _ 0 _).mpr (by simp), rfl, rfl⟩

/-- Witness for C24 on the deque of capacity 2 holding 1..5 in three segments: the last
segment has a free slot, so `Append` keeps three segments; the first has no front slack,
so `Prepend` makes four. -/
theorem C24_segment_count_witness :
    sampleFive.Reachable ∧ sampleFive.GetSegmentCount = 3 ∧
      (sampleFive.Append 6).2.GetSegmentCount = 3 ∧
      (sampleFive.Prepend 0).2.GetSegmentCount = 4 :=
  have hreach : sampleFive.Reachable :=
    SegmentDeque.reachable_of_appendAll _ _ (.construct 2 fresh2 rfl)
  have h := C24_segment_count sampleFive hreach
  ⟨hreach, rfl, (h 6).2.1 ⟨⟨⟨[5, 0]⟩⟩, 0, 1⟩ rfl, (h 0).2.2.1 ⟨⟨⟨[1, 2]⟩⟩, 0, 2⟩ rfl⟩

theorem SegmentDeque.CleanupEmptySegments_wf (e : SegmentDeque T) (hwf : e.WF) :
    ∃ e1, e.CleanupEmptySegments = (.ok (), e1) ∧ e1.WF ∧ e1.total_size = e.total_size ∧
      e1.toList = e.toList ∧ e1.segment_capacity = e.segment_capacity := by
  obtain ⟨e1, A, B, hrun, hc, ht, hne, hsplit, hA, hB⟩ :=
    e.CleanupEmptySegments_spec hwf.chain_ne
  have hl : e1.toList = e.toList := SegmentDeque.CleanupEmptySegments_toList e e1 A B hsplit hA hB
  refine ⟨e1, hrun, ⟨by rw [hc]; exact hwf.cap_pos, hne, ?_, by rw [ht, hl]; exact hwf.size_eq⟩,
    ht, hl, hc⟩
  intro s hs
  rw [hc]
  exact hwf.segs s (by rw [hsplit]; simp [hs])

theorem SegmentDeque.afterBackScan_wf (d : SegmentDeque T) (hwf : d.WF)
    (hpos : d.total_size ≠ 0) :
    d.afterBackScan.WF ∧ d.afterBackScan.toList = d.toList.dropLast ∧
      d.PopBack = d.afterBackScan.CleanupEmptySegments := by
  obtain ⟨d1, hrun, hc, ht, hne, hsegs, hl⟩ :=
    d.popBackLoop_spec d.segments.items.nodes [] (by simp) (by simp)
      (d.toList_ne_nil hwf hpos) hwf.segs
  have e : d.afterBackScan = d1 := by
    simp only [SegmentDeque.afterBackScan, ListSequence.GetSize, LinkedList.GetSize, hrun]
  rw [e]
  refine ⟨⟨by rw [hc]; exact hwf.cap_pos, hne, by rw [hc]; exact hsegs, ?_⟩, hl, ?_⟩
  · rw [ht, hl, List.length_dropLast, usub_of_le (by omega), hwf.size_eq]
  · simp only [SegmentDeque.PopBack, if_neg hpos]
    simp only [ListSequence.GetSize, LinkedList.GetSize, hrun]

theorem SegmentDeque.afterFrontScan_wf (d : SegmentDeque T) (hwf : d.WF)
    (hpos : d.total_size ≠ 0) :
    d.afterFrontScan.WF ∧ d.afterFrontScan.toList = d.toList.tail ∧
      d.PopFront = d.afterFrontScan.CleanupEmptySegments := by
  obtain ⟨d1, hrun, hc, ht, hne, hsegs, hl⟩ :=
    d.popFrontLoop_spec d.segments.items.nodes [] (by simp) (by simp)
      (d.toList_ne_nil hwf hpos) hwf.segs
  simp only [List.length_nil] at hrun
  have e : d.afterFrontScan = d1 := by
    simp only [SegmentDeque.afterFrontScan, ListSequence.GetSize, LinkedList.GetSize, hrun]
  rw [e]
  refine ⟨⟨by rw [hc]; exact hwf.cap_pos, hne, by rw [hc]; exact hsegs, ?_⟩, hl, ?_⟩
  · rw [ht, hl, List.length_tail, usub_of_le (by omega), hwf.size_eq]
  · simp only [SegmentDeque.PopFront, if_neg hpos]
    simp only [ListSequence.GetSize, LinkedList.GetSize, hrun]

theorem SegmentDeque.trimmed_segments (d : SegmentDeque T) (hwf : d.WF) (h : d.Trimmed) :
    d.GetSegmentCount = 1 ∨
      ∃ first last, d.GetSegment 0 = .ok first ∧
        d.GetSegment (d.GetSegmentCount - 1) = .ok last ∧
        first.IsEmpty = false ∧ last.IsEmpty = false := by
  have hne := hwf.chain_ne
  have hlen : 0 < d.segments.items.nodes.length := List.length_pos.mpr hne
  rcases h with h | ⟨hf, hl⟩
  · left
    show d.segments.items.nodes.length = 1
    omega
  · right
    obtain ⟨init, last, hL⟩ := exists_concat_of_ne_nil _ hne
    cases hn : d.segments.items.nodes with
    | nil => exact absurd hn hne
    | cons first rest =>
      refine ⟨first, last, (d.GetSegment_ok_iff 0 first).mpr (by rw [hn]; simp),
        (d.GetSegment_ok_iff _ last).mpr ?_, hf first (by rw [hn]; rfl),
        hl last (by rw [hL, getLast?_concat_eq])⟩
      show d.segments.items.nodes[d.segments.items.nodes.length - 1]? = some last
      rw [← List.getLast?_eq_getElem?, hL, getLast?_concat_eq]

/-- C25: after a `PopBack` or `PopFront` that returned normally on a reachable deque, the
chain has exactly one segment or its first and its last segment are both non-empty.
`CleanupEmptySegments` returns normally and changes neither `total_size` nor the values
`Get(0)`, ..., `Get(size - 1)`, on every deque satisfying the representation invariant,
which the deque does when the pops call it. -/
theorem C25_cleanup (d : SegmentDeque T) (hreach : d.Reachable) :
    (d.PopBack.1 = .ok () →
      d.PopBack.2.GetSegmentCount = 1 ∨
        ∃ first last, d.PopBack.2.GetSegment 0 = .ok first ∧
          d.PopBack.2.GetSegment (d.PopBack.2.GetSegmentCount - 1) = .ok last ∧
          first.IsEmpty = false ∧ last.IsEmpty = false) ∧
    (d.PopFront.1 = .ok () →
      d.PopFront.2.GetSegmentCount = 1 ∨
        ∃ first last, d.PopFront.2.GetSegment 0 = .ok first ∧
          d.PopFront.2.GetSegment (d.PopFront.2.GetSegmentCount - 1) = .ok last ∧
          first.IsEmpty = false ∧ last.IsEmpty = false) ∧
    (d.GetSize ≠ 0 →
      d.afterBackScan.WF ∧ d.PopBack = d.afterBackScan.CleanupEmptySegments ∧
      d.afterFrontScan.WF ∧ d.PopFront = d.afterFrontScan.CleanupEmptySegments) ∧
    (∀ e : SegmentDeque T, e.WF →
      e.CleanupEmptySegments.1 = .ok () ∧
      e.CleanupEmptySegments.2.GetSize = e.GetSize ∧
      e.CleanupEmptySegments.2.contents = e.contents ∧
      ∀ i, e.CleanupEmptySegments.2.Get i = e.Get i) := by
  have hwf := hreach.wf
  have hlay := hreach.layout
  refine ⟨?_, ?_, ?_, ?_⟩
  · intro hok
    have hz : d.total_size ≠ 0 := by
      intro hz
      rw [d.PopBack_of_empty hz] at hok
      cases hok
    exact d.PopBack.2.trimmed_segments (SegmentDeque.Reachable.popBack d hreach).wf
      (d.PopBack_layout hwf hlay hz).2
  · intro hok
    have hz : d.total_size ≠ 0 := by
      intro hz
      rw [d.PopFront_of_empty hz] at hok
      cases hok
    exact d.PopFront.2.trimmed_segments (SegmentDeque.Reachable.popFront d hreach).wf
      (d.PopFront_layout hwf hlay hz).2
  · intro hz
    obtain ⟨hb, -, hb2⟩ := d.afterBackScan_wf hwf hz
    obtain ⟨hf, -, hf2⟩ := d.afterFrontScan_wf hwf hz
    exact ⟨hb, hb2, hf, hf2⟩
  · intro e he
    obtain ⟨e1, hrun, hwf1, ht, hl, -⟩ := e.CleanupEmptySegments_wf he
    rw [hrun]
    refine ⟨rfl, ht, ?_, ?_⟩
    · show e1.contents = e.contents
      rw [e1.contents_eq hwf1, e.contents_eq he, hl]
    · intro i
      show e1.Get i = e.Get i
      rw [e1.Get_eq hwf1, e.Get_eq he, hl]

/-- Witness for C25: `PopBack` on the deque holding one element before an empty last
segment leaves a single segment, and cleanup of the state before it keeps the size. -/
theorem C25_cleanup_witness :
    (fresh2.Prepend 1).2.Reachable ∧ (fresh2.Prepend 1).2.PopBack.1 = .ok () ∧
      ((fresh2.Prepend 1).2.PopBack.2.GetSegmentCount = 1 ∨
        ∃ first last, (fresh2.Prepend 1).2.PopBack.2.GetSegment 0 = .ok first ∧
          (fresh2.Prepend 1).2.PopBack.2.GetSegment
            ((fresh2.Prepend 1).2.PopBack.2.GetSegmentCount - 1) = .ok last ∧
          first.IsEmpty = false ∧ last.IsEmpty = false) :=
  have hreach : (fresh2.Prepend 1).2.Reachable := .prepend _ 1 (.construct 2 fresh2 rfl)
  ⟨hreach, rfl, (C25_cleanup _ hreach).1 rfl⟩

/-! ## The chain between the cursor update of a pop and boundary cleanup -/

theorem SegmentDeque.afterBackScan_shape (d : SegmentDeque T) (hwf : d.WF)
    (hpos : d.total_size ≠ 0) :
    ∃ X j Y, d.segments.items.nodes = X ++ j :: Y ∧ j.IsEmpty = false ∧
      (∀ s ∈ Y, s.IsEmpty = true) ∧
      d.afterBackScan =
        { segment_capacity := d.segment_capacity, total_size := usub d.total_size 1,
          segments := ⟨⟨X ++ { j with back_size := j.back_size - 1 } :: Y⟩⟩ } := by
  obtain ⟨X, j, Y, hd, hj, hY, hrun⟩ := d.popBackLoop_shape d.segments.items.nodes []
    (by simp) (by simp)
    (exists_not_isEmpty_of_chainElems_ne_nil _ (d.toList_ne_nil hwf hpos))
  refine ⟨X, j, Y, hd, hj, hY, ?_⟩
  simp only [SegmentDeque.afterBackScan, ListSequence.GetSize, LinkedList.GetSize, hrun]

theorem SegmentDeque.afterFrontScan_shape (d : SegmentDeque T) (hwf : d.WF)
    (hpos : d.total_size ≠ 0) :
    ∃ X j Y, d.segments.items.nodes = X ++ j :: Y ∧ j.IsEmpty = false ∧
      (∀ s ∈ X, s.IsEmpty = true) ∧
      d.afterFrontScan =
        { segment_capacity := d.segment_capacity, total_size := usub d.total_size 1,
          segments := ⟨⟨X ++ { j with front_offset := j.front_offset + 1 } :: Y⟩⟩ } := by
  obtain ⟨X, j, Y, hd, hj, hX, hrun⟩ := d.popFrontLoop_shape d.segments.items.nodes []
    (by simp) (by simp)
    (exists_not_isEmpty_of_chainElems_ne_nil _ (d.toList_ne_nil hwf hpos))
  simp only [List.length_nil] at hrun
  refine ⟨X, j, Y, hd, hj, hX, ?_⟩
  simp only [SegmentDeque.afterFrontScan, ListSequence.GetSize, LinkedList.GetSize, hrun]

theorem SegmentDeque.GetSegment_eq (d : SegmentDeque T) (i : Nat) :
    d.GetSegment i =
      match d.segments.items.nodes[i]? with
      | some s => .ok s
      | none => .error (.out_of_range "Segment index out of range") := by
  by_cases h : i < d.segments.items.nodes.length
  · rw [List.getElem?_eq_getElem h]
    exact (d.GetSegment_ok_iff i _).mpr (List.getElem?_eq_getElem h)
  · rw [List.getElem?_eq_none (Nat.not_lt.mp h)]
    exact if_pos (show i ≥ d.segments.GetSize from Nat.not_lt.mp h)

theorem ends_after_update (X Y : List (Segment T)) (j j' : Segment T)
    (h2 : 2 ≤ (X ++ j :: Y).length)
    (hends : ∀ first last, (X ++ j :: Y).head? = some first →
      (X ++ j :: Y).getLast? = some last → first.IsEmpty = false ∨ last.IsEmpty = false)
    (first last : Segment T) (hf : (X ++ j' :: Y).head? = some first)
    (hl : (X ++ j' :: Y).getLast? = some last)
    (hfe : first.IsEmpty = true) (hle : last.IsEmpty = true) :
    j'.IsEmpty = true ∧
      ((X = [] ∧ (X ++ j :: Y).getLast? = some last) ∨
       (Y = [] ∧ (X ++ j :: Y).head? = some first)) := by
  cases X with
  | nil =>
    simp only [List.nil_append, List.head?_cons, Option.some.injEq] at hf
    subst hf
    refine ⟨hfe, Or.inl ⟨rfl, ?_⟩⟩
    by_cases hY : Y = []
    · subst hY
      simp at h2
    · obtain ⟨Y0, y, rfl⟩ := exists_concat_of_ne_nil Y hY
      have e1 : [] ++ j :: (Y0 ++ [y]) = (j :: Y0) ++ [y] := by simp
      have e2 : [] ++ j' :: (Y0 ++ [y]) = (j' :: Y0) ++ [y] := by simp
      rw [e2, getLast?_concat_eq] at hl
      rw [e1, getLast?_concat_eq]
      exact hl
  | cons x X =>
    simp only [List.cons_append, List.head?_cons, Option.some.injEq] at hf
    subst hf
    by_cases hY : Y = []
    · subst hY
      have e2 : x :: X ++ [j'] = (x :: X) ++ [j'] := rfl
      rw [e2, getLast?_concat_eq] at hl
      exact ⟨by rw [Option.some.inj hl]; exact hle, Or.inr ⟨rfl, rfl⟩⟩
    · obtain ⟨Y0, y, rfl⟩ := exists_concat_of_ne_nil Y hY
      exfalso
      have e1 : x :: X ++ j :: (Y0 ++ [y]) = (x :: X ++ j :: Y0) ++ [y] := by simp
      have e2 : x :: X ++ j' :: (Y0 ++ [y]) = (x :: X ++ j' :: Y0) ++ [y] := by simp
      rw [e2, getLast?_concat_eq] at hl
      have := hends x y rfl (by rw [e1, getLast?_concat_eq])
      rw [Option.some.inj hl] at this
      rw [hfe, hle] at this
      simp at this

theorem scan_boundaries (d e : SegmentDeque T) (hlay : d.Layout) (X Y : List (Segment T))
    (j j' : Segment T) (hd : d.segments.items.nodes = X ++ j :: Y)
    (he : e.segments.items.nodes = X ++ j' :: Y) (h2 : 2 ≤ d.GetSegmentCount) :
    d.GetSegment X.length = .ok j ∧ e.GetSegmentCount = d.GetSegmentCount ∧
      e.GetSegment X.length = .ok j' ∧
      (∀ q, q ≠ X.length → e.GetSegment q = d.GetSegment q) ∧
      ∀ first last, e.GetSegment 0 = .ok first →
        e.GetSegment (d.GetSegmentCount - 1) = .ok last →
        first.IsEmpty = true → last.IsEmpty = true →
          j'.IsEmpty = true ∧
          ((X.length = 0 ∧ d.GetSegment (d.GetSegmentCount - 1) = .ok last) ∨
           (X.length = d.GetSegmentCount - 1 ∧ d.GetSegment 0 = .ok first)) := by
  have hcount : d.GetSegmentCount = (X ++ j :: Y).length := by
    show d.segments.items.nodes.length = _
    rw [hd]
  have hcount' : e.GetSegmentCount = (X ++ j' :: Y).length := by
    show e.segments.items.nodes.length = _
    rw [he]
  have hlen : (X ++ j' :: Y).length = (X ++ j :: Y).length := by simp
  refine ⟨(d.GetSegment_ok_iff _ _).mpr (by rw [hd]; exact getElem?_append_length X Y j),
    by rw [hcount', hcount, hlen],
    (e.GetSegment_ok_iff _ _).mpr (by rw [he]; exact getElem?_append_length X Y j'), ?_, ?_⟩
  · intro q hq
    rw [e.GetSegment_eq, d.GetSegment_eq, he, hd, ← set_append_length X Y j j',
      List.getElem?_set_ne (Ne.symm hq)]
  · intro first last hf hl hfe hle
    rw [e.GetSegment_ok_iff, he, ← List.head?_eq_getElem?] at hf
    rw [e.GetSegment_ok_iff, he, hcount, ← hlen, ← List.getLast?_eq_getElem?] at hl
    have hends := hlay.ends
    rw [hd] at hends
    obtain ⟨hj', hcase⟩ := ends_after_update X Y j j' (by rw [← hcount]; exact h2)
      (fun f l h1 h2' => hends f l h1 h2' (by rw [← hcount]; exact h2)) first last hf hl hfe hle
    refine ⟨hj', ?_⟩
    rcases hcase with ⟨hX, hlast⟩ | ⟨hY, hfirst⟩
    · left
      refine ⟨by rw [hX]; rfl, (d.GetSegment_ok_iff _ _).mpr ?_⟩
      show d.segments.items.nodes[d.segments.items.nodes.length - 1]? = some last
      rw [← List.getLast?_eq_getElem?, hd]
      exact hlast
    · right
      refine ⟨by rw [hcount, hY]; simp, (d.GetSegment_ok_iff _ _).mpr ?_⟩
      rw [← List.head?_eq_getElem?, hd]
      exact hfirst

/-- C26 fails as stated.  After `Prepend(1)` on a fresh deque of capacity 2 the chain has
two segments; `PopBack()` succeeds, and right after its cursor update the first and the
last segment are both empty.  The same holds for `PopFront()` after `Append(1); Append(2);
PopFront(); PopFront(); Append(3)`, and for `PopBack()` on a chain of three segments whose
first segment is empty, where two elements remain. -/
theorem C26_counterexample :
    (sampleOneThenEmpty.Reachable ∧ 2 ≤ sampleOneThenEmpty.GetSegmentCount ∧
      sampleOneThenEmpty.PopBack.1 = .ok () ∧
      ∃ first last, sampleOneThenEmpty.afterBackScan.GetSegment 0 = .ok first ∧
        sampleOneThenEmpty.afterBackScan.GetSegment 1 = .ok last ∧
        first.IsEmpty = true ∧ last.IsEmpty = true) ∧
    (sampleAppendAfterDrain.Reachable ∧ 2 ≤ sampleAppendAfterDrain.GetSegmentCount ∧
      sampleAppendAfterDrain.PopFront.1 = .ok () ∧
      ∃ first last, sampleAppendAfterDrain.afterFrontScan.GetSegment 0 = .ok first ∧
        sampleAppendAfterDrain.afterFrontScan.GetSegment 1 = .ok last ∧
        first.IsEmpty = true ∧ last.IsEmpty = true) ∧
    (sampleEmptyFirstThree.Reachable ∧ sampleEmptyFirstThree.GetSegmentCount = 3 ∧
      sampleEmptyFirstThree.PopBack.1 = .ok () ∧
      sampleEmptyFirstThree.afterBackScan.GetSize = 2 ∧
      ∃ first last, sampleEmptyFirstThree.afterBackScan.GetSegment 0 = .ok first ∧
        sampleEmptyFirstThree.afterBackScan.GetSegment 2 = .ok last ∧
        first.IsEmpty = true ∧ last.IsEmpty = true) :=
  have hdrain : sampleAppendAfterDrain.Reachable :=
    .append _ 3 (.popFront _ (.popFront _ (.append _ 2 (.append _ 1 (.construct 2 fresh2 rfl)))))
  ⟨⟨.prepend _ 1 (.construct 2 fresh2 rfl), by decide, rfl,
      ⟨⟨⟨⟨[0, 1]⟩⟩, 1, 1⟩, ⟨⟨⟨[0, 0]⟩⟩, 0, 0⟩, rfl, rfl, rfl, rfl⟩⟩,
   ⟨hdrain, by decide, rfl,
      ⟨⟨⟨⟨[1, 2]⟩⟩, 2, 2⟩, ⟨⟨⟨[3, 0]⟩⟩, 1, 1⟩, rfl, rfl, rfl, rfl⟩⟩,
   ⟨.append _ 5 (.append _ 4 hdrain), rfl, rfl, rfl,
      ⟨⟨⟨⟨[1, 2]⟩⟩, 2, 2⟩, ⟨⟨⟨[5, 0]⟩⟩, 0, 0⟩, rfl, rfl, rfl, rfl⟩⟩⟩

/-- C26, amended: for every reachable deque that holds an element and whose chain has at
least two segments, at most one of the two boundary segments is empty before the call;
the cursor update of `PopBack` (of `PopFront`) changes one segment of the chain, which
was non-empty, and no other; and right after it, before boundary cleanup runs, the first
and the last segment are both empty only if the segment just popped from is itself the
first or the last of the chain and has become empty, the segment at the opposite end
being the one that was already empty before the call. -/
theorem C26_pop_boundaries (d : SegmentDeque T) (hreach : d.Reachable)
    (h2 : 2 ≤ d.GetSegmentCount) (hpos : d.GetSize ≠ 0) :
    (∀ first last, d.GetSegment 0 = .ok first →
      d.GetSegment (d.GetSegmentCount - 1) = .ok last →
      first.IsEmpty = false ∨ last.IsEmpty = false) ∧
    (∃ p seg, d.GetSegment p = .ok seg ∧ seg.IsEmpty = false ∧
      d.afterBackScan.GetSegmentCount = d.GetSegmentCount ∧
      d.afterBackScan.GetSegment p = .ok { seg with back_size := seg.back_size - 1 } ∧
      (∀ q, q ≠ p → d.afterBackScan.GetSegment q = d.GetSegment q) ∧
      ∀ first last, d.afterBackScan.GetSegment 0 = .ok first →
        d.afterBackScan.GetSegment (d.GetSegmentCount - 1) = .ok last →
        first.IsEmpty = true → last.IsEmpty = true →
          ({ seg with back_size := seg.back_size - 1 } : Segment T).IsEmpty = true ∧
          ((p = 0 ∧ d.GetSegment (d.GetSegmentCount - 1) = .ok last) ∨
           (p = d.GetSegmentCount - 1 ∧ d.GetSegment 0 = .ok first))) ∧
    (∃ p seg, d.GetSegment p = .ok seg ∧ seg.IsEmpty = false ∧
      d.afterFrontScan.GetSegmentCount = d.GetSegmentCount ∧
      d.afterFrontScan.GetSegment p = .ok { seg with front_offset := seg.front_offset + 1 } ∧
      (∀ q, q ≠ p → d.afterFrontScan.GetSegment q = d.GetSegment q) ∧
      ∀ first last, d.afterFrontScan.GetSegment 0 = .ok first →
        d.afterFrontScan.GetSegment (d.GetSegmentCount - 1) = .ok last →
        first.IsEmpty = true → last.IsEmpty = true →
          ({ seg with front_offset := seg.front_offset + 1 } : Segment T).IsEmpty = true ∧
          ((p = 0 ∧ d.GetSegment (d.GetSegmentCount - 1) = .ok last) ∨
           (p = d.GetSegmentCount - 1 ∧ d.GetSegment 0 = .ok first))) := by
  have hwf := hreach.wf
  have hlay := hreach.layout
  refine ⟨?_, ?_, ?_⟩
  · intro first last hf hl
    rw [d.GetSegment_ok_iff, ← List.head?_eq_getElem?] at hf
    rw [d.GetSegment_ok_iff] at hl
    exact hlay.ends first last hf (by rw [List.getLast?_eq_getElem?]; exact hl) h2
  · obtain ⟨X, j, Y, hd, hj, -, hscan⟩ := d.afterBackScan_shape hwf hpos
    obtain ⟨h1, h3, h4, h5, h6⟩ := scan_boundaries d d.afterBackScan hlay X Y j
      { j with back_size := j.back_size - 1 } hd (by rw [hscan]) h2
    exact ⟨X.length, j, h1, hj, h3, h4, h5, h6⟩
  · obtain ⟨X, j, Y, hd, hj, -, hscan⟩ := d.afterFrontScan_shape hwf hpos
    obtain ⟨h1, h3, h4, h5, h6⟩ := scan_boundaries d d.afterFrontScan hlay X Y j
      { j with front_offset := j.front_offset + 1 } hd (by rw [hscan]) h2
    exact ⟨X.length, j, h1, hj, h3, h4, h5, h6⟩

/-- Witness for C26 (amended) on the deque holding one element before an empty last
segment: before the pop the first segment is non-empty. -/
theorem C26_pop_boundaries_witness :
    sampleOneThenEmpty.Reachable ∧ 2 ≤ sampleOneThenEmpty.GetSegmentCount ∧
      sampleOneThenEmpty.GetSize ≠ 0 ∧
      ((⟨⟨⟨[0, 1]⟩⟩, 1, 2⟩ : Segment Int).IsEmpty = false ∨
        (⟨⟨⟨[0, 0]⟩⟩, 0, 0⟩ : Segment Int).IsEmpty = false) :=
  have hreach : sampleOneThenEmpty.Reachable := .prepend _ 1 (.construct 2 fresh2 rfl)
  ⟨hreach, by decide, by decide,
    (C26_pop_boundaries sampleOneThenEmpty hreach (by decide) (by decide)).1 _ _ rfl rfl⟩

/-! ## The number of segments -/

theorem SegmentDeque.size_eq_sum (d : SegmentDeque T) (hwf : d.WF) :
    d.total_size = (d.segments.items.nodes.map Segment.GetEffectiveSize).sum := by
  have h := d.accumulated_total hwf d.segments.items.nodes.length (Nat.le_refl _)
  rw [SegmentDeque.accumulated, List.take_length] at h
  exact h.symm

theorem sum_map_of_const {α : Type} (f : α → Nat) (c : Nat) (l : List α)
    (h : ∀ s ∈ l, f s = c) : (l.map f).sum = l.length * c := by
  induction l with
  | nil => simp
  | cons a l ih =>
    rw [List.map_cons, List.sum_cons, h a (List.mem_cons_self _ _),
      ih (fun s hs => h s (List.mem_cons_of_mem _ hs)), List.length_cons, Nat.succ_mul]
    omega

theorem SegmentDeque.Layout.interior_full {d : SegmentDeque T} (hlay : d.Layout)
    (s : Segment T) (hs : s ∈ d.segments.items.nodes.tail.dropLast) :
    s.GetEffectiveSize = d.segment_capacity := by
  have h1 : s.front_offset = 0 := hlay.tail_front s (List.mem_of_mem_dropLast hs)
  have h2 : s.back_size = d.segment_capacity := by
    apply hlay.init_back
    rw [← List.tail_dropLast] at hs
    exact List.mem_of_mem_tail hs
  rw [Segment.GetEffectiveSize, h1, h2, usub_of_le (Nat.zero_le _)]
  rfl

theorem SegmentDeque.interior_le_size (d : SegmentDeque T) (hwf : d.WF) (hlay : d.Layout) :
    (d.segments.items.nodes.length - 2) * d.segment_capacity ≤ d.total_size := by
  rw [d.size_eq_sum hwf]
  have hsub : (d.segments.items.nodes.tail.dropLast.map Segment.GetEffectiveSize).Sublist
      (d.segments.items.nodes.map Segment.GetEffectiveSize) :=
    ((List.dropLast_sublist _).trans (List.tail_sublist _)).map _
  have hle := hsub.sum_le_sum (fun a _ => Nat.zero_le a)
  rw [sum_map_of_const _ d.segment_capacity _ (fun s hs => hlay.interior_full s hs),
    List.length_dropLast, List.length_tail] at hle
  have e : d.segments.items.nodes.length - 1 - 1 = d.segments.items.nodes.length - 2 := by
    omega
  rw [e] at hle
  exact hle

/-- C27: in every reachable state `GetSegmentCount() <= GetSize() / segment_capacity + 2`,
the division being the integer one. -/
theorem C27_segment_bound (d : SegmentDeque T) (hreach : d.Reachable) :
    d.GetSegmentCount ≤ d.GetSize / d.segment_capacity + 2 := by
  have hwf := hreach.wf
  have h := d.interior_le_size hwf hreach.layout
  have h2 : d.segments.items.nodes.length - 2 ≤ d.total_size / d.segment_capacity :=
    (Nat.le_div_iff_mul_le hwf.cap_pos).mpr h
  show d.segments.items.nodes.length ≤ d.total_size / d.segment_capacity + 2
  omega

/-- Witness for C27 where the bound is met: three elements in three segments of
capacity 2. -/
theorem C27_segment_bound_witness :
    sampleEmptyFirstThree.GetSize = 3 ∧ sampleEmptyFirstThree.segment_capacity = 2 ∧
      sampleEmptyFirstThree.GetSegmentCount = 3 ∧
      sampleEmptyFirstThree.GetSegmentCount ≤
        sampleEmptyFirstThree.GetSize / sampleEmptyFirstThree.segment_capacity + 2 :=
  ⟨rfl, rfl, rfl, C27_segment_bound sampleEmptyFirstThree
    (.append _ 5 (.append _ 4 (.append _ 3 (.popFront _ (.popFront _
      (.append _ 2 (.append _ 1 (.construct 2 fresh2 rfl))))))))⟩

theorem SegmentDeque.Append_shape (d : SegmentDeque T) (hwf : d.WF) (v : T)
    (hfront : ∀ s ∈ d.segments.items.nodes, s.front_offset = 0)
    (hback : ∀ s ∈ d.segments.items.nodes.dropLast, s.back_size = d.segment_capacity) :
    (∀ s ∈ (d.Append v).2.segments.items.nodes, s.front_offset = 0) ∧
    (∀ s ∈ (d.Append v).2.segments.items.nodes.dropLast,
      s.back_size = (d.Append v).2.segment_capacity) ∧
    (∀ last, (d.Append v).2.segments.items.nodes.getLast? = some last →
      1 ≤ last.back_size) := by
  obtain ⟨init, last, hL⟩ := exists_concat_of_ne_nil _ hwf.chain_ne
  rw [d.Append_eq hwf v init last hL]
  rw [hL] at hfront hback
  rw [List.dropLast_concat] at hback
  have hlast0 : last.front_offset = 0 := hfront last (by simp)
  obtain ⟨-, hbc, -⟩ := hwf.segs last (by rw [hL]; simp)
  by_cases hfull : last.back_size ≥ d.segment_capacity
  · simp only [if_pos hfull]
    have e : init ++ [last, (⟨⟨⟨(List.replicate d.segment_capacity default).set 0 v⟩⟩, 0, 1⟩ :
        Segment T)] = (init ++ [last]) ++ [⟨⟨⟨(List.replicate d.segment_capacity default).set 0 v⟩⟩,
          0, 1⟩] := by simp
    rw [e]
    refine ⟨?_, ?_, ?_⟩
    · intro s hs
      rcases List.mem_append.mp hs with h | h
      · exact hfront s h
      · rw [List.mem_singleton.mp h]
    · rw [List.dropLast_concat]
      intro s hs
      rcases List.mem_append.mp hs with h | h
      · exact hback s h
      · rw [List.mem_singleton.mp h]
        omega
    · intro l hl
      rw [getLast?_concat_eq] at hl
      rw [← Option.some.inj hl]
  · simp only [if_neg hfull]
    refine ⟨?_, ?_, ?_⟩
    · intro s hs
      rcases List.mem_append.mp hs with h | h
      · exact hfront s (List.mem_append_left _ h)
      · rw [List.mem_singleton.mp h]
        exact hlast0
    · rw [List.dropLast_concat]
      exact hback
    · intro l hl
      rw [getLast?_concat_eq] at hl
      rw [← Option.some.inj hl]
      exact Nat.le_add_left 1 _

theorem SegmentDeque.AppendAll_shape (values : List T) :
    ∀ d : SegmentDeque T, d.WF →
      (∀ s ∈ d.segments.items.nodes, s.front_offset = 0) →
      (∀ s ∈ d.segments.items.nodes.dropLast, s.back_size = d.segment_capacity) →
      (values = [] → ∀ last, d.segments.items.nodes.getLast? = some last →
        1 ≤ last.back_size) →
      (∀ s ∈ (d.AppendAll values).segments.items.nodes, s.front_offset = 0) ∧
      (∀ s ∈ (d.AppendAll values).segments.items.nodes.dropLast,
        s.back_size = (d.AppendAll values).segment_capacity) ∧
      (∀ last, (d.AppendAll values).segments.items.nodes.getLast? = some last →
        1 ≤ last.back_size) := by
  induction values with
  | nil =>
    intro d _ hfront hback hlast
    exact ⟨hfront, hback, hlast rfl⟩
  | cons v vs ih =>
    intro d hwf hfront hback _
    obtain ⟨h1, h2, h3⟩ := d.Append_shape hwf v hfront hback
    obtain ⟨d1, hrun, hwf1, -, -⟩ := d.Append_spec hwf v
    have hwf1' : (d.Append v).2.WF := by rw [hrun]; exact hwf1
    exact ih (d.Append v).2 hwf1' h1 h2 (fun _ => h3)

/-- C28: after `N >= 1` calls of `Append` on a freshly constructed deque of segment
capacity `c`, `GetSegmentCount()` is the ceiling of `N / c`, and every segment except the
last has `front_offset == 0` and `back_size == c`; the last one has `front_offset == 0`
and holds the remaining `N - (GetSegmentCount() - 1) * c` elements. -/
theorem C28_append_segments (c : Nat) (d0 : SegmentDeque T)
    (hd0 : SegmentDeque.Construct c = .ok d0) (values : List T) (hN : 1 ≤ values.length) :
    (d0.AppendAll values).GetSegmentCount = (values.length + c - 1) / c ∧
    ((d0.AppendAll values).GetSegmentCount - 1) * c < values.length ∧
    values.length ≤ (d0.AppendAll values).GetSegmentCount * c ∧
    (∀ i seg, (d0.AppendAll values).GetSegment i = .ok seg →
      i + 1 < (d0.AppendAll values).GetSegmentCount →
      seg.front_offset = 0 ∧ seg.back_size = c) ∧
    (∀ last, (d0.AppendAll values).GetSegment ((d0.AppendAll values).GetSegmentCount - 1) =
        .ok last →
      last.front_offset = 0 ∧
      last.back_size = values.length - ((d0.AppendAll values).GetSegmentCount - 1) * c) := by
  obtain ⟨hc, hwf0, hl0, hcap0⟩ := SegmentDeque.Construct_spec c d0 hd0
  have hnodes0 : d0.segments.items.nodes = [⟨⟨⟨List.replicate c default⟩⟩, 0, 0⟩] := by
    rw [SegmentDeque.Construct_pos c hc] at hd0
    injection hd0 with hd0
    rw [← hd0]
  obtain ⟨hwf, hl, hcap⟩ := SegmentDeque.AppendAll_spec values d0 hwf0
  have hvne : values ≠ [] := by
    intro h
    rw [h] at hN
    simp at hN
  obtain ⟨hfront, hback, hlast⟩ := SegmentDeque.AppendAll_shape values d0 hwf0
    (by rw [hnodes0]; intro s hs; rw [List.mem_singleton.mp hs])
    (by rw [hnodes0]; intro s hs; simp at hs)
    (fun h => absurd h hvne)
  rw [hcap, hcap0] at hback
  obtain ⟨init, last, hL⟩ := exists_concat_of_ne_nil _ hwf.chain_ne
  have hsize : (d0.AppendAll values).total_size = values.length := by
    rw [hwf.size_eq, hl, hl0]
    simp
  have hsum := (d0.AppendAll values).size_eq_sum hwf
  rw [hsize, hL, List.map_append, List.sum_append] at hsum
  rw [hL, List.dropLast_concat] at hback
  have hinit : (init.map Segment.GetEffectiveSize).sum = init.length * c := by
    apply sum_map_of_const
    intro s hs
    rw [Segment.GetEffectiveSize, hfront s (by rw [hL]; exact List.mem_append_left _ hs),
      hback s hs, usub_of_le (Nat.zero_le _)]
    rfl
  have hlast0 : last.front_offset = 0 := hfront last (by rw [hL]; simp)
  have hlast1 : 1 ≤ last.back_size := hlast last (by rw [hL, getLast?_concat_eq])
  obtain ⟨-, hlastc, -⟩ := hwf.segs last (by rw [hL]; simp)
  rw [hcap, hcap0] at hlastc
  have hlasteff : last.GetEffectiveSize = last.back_size := by
    rw [Segment.GetEffectiveSize, hlast0, usub_of_le (Nat.zero_le _)]
    rfl
  rw [hinit] at hsum
  simp only [List.map_cons, List.map_nil, List.sum_cons, List.sum_nil, hlasteff,
    Nat.add_zero] at hsum
  have hcount : (d0.AppendAll values).GetSegmentCount = init.length + 1 := by
    show (d0.AppendAll values).segments.items.nodes.length = _
    rw [hL]
    simp
  rw [hcount]
  refine ⟨?_, ?_, ?_, ?_, ?_⟩
  · symm
    apply Nat.div_eq_of_lt_le
    · rw [Nat.add_mul]; omega
    · rw [Nat.add_mul, Nat.add_mul]; omega
  · show (init.length + 1 - 1) * c < values.length
    rw [Nat.add_sub_cancel]
    omega
  · rw [Nat.add_mul]; omega
  · intro i seg hseg hi
    rw [SegmentDeque.GetSegment_ok_iff, hL] at hseg
    have hi' : i < init.length := by omega
    rw [List.getElem?_append_left hi'] at hseg
    have hmem : seg ∈ init := List.mem_iff_getElem?.mpr ⟨i, hseg⟩
    exact ⟨hfront seg (by rw [hL]; exact List.mem_append_left _ hmem), hback seg hmem⟩
  · intro l hl'
    rw [SegmentDeque.GetSegment_ok_iff, hL] at hl'
    have e : init.length + 1 - 1 = init.length := by omega
    rw [e] at hl' ⊢
    have hl2 : (init ++ [last])[init.length]? = some last := getElem?_append_length init [] last
    rw [hl2] at hl'
    rw [← Option.some.inj hl']
    exact ⟨hlast0, by omega⟩

/-- Witness for C28, the run of `Tests::TestBoundaryConditions`: capacity 2 and the ten
appends of 0..9 give exactly 5 segments. -/
theorem C28_append_segments_witness :
    (SegmentDeque.Construct 2 : Except Error (SegmentDeque Int)) = .ok fresh2 ∧
      1 ≤ boundaryBack.length ∧ boundaryBack.length = 10 ∧
      (fresh2.AppendAll boundaryBack).GetSegmentCount = 5 :=
  ⟨rfl, by decide, rfl, (C28_append_segments 2 fresh2 rfl boundaryBack (by decide)).1⟩

/-! ## The position of an iterator -/

theorem ConstDequeIterator.Next_false (it : ConstDequeIterator) (d : SegmentDeque T)
    (h : (it.Next d).1 = .ok false) : (it.Next d).2.Exhausted d := by
  obtain ⟨idx, pos, st⟩ := it
  revert h
  simp only [ConstDequeIterator.Next, ConstDequeIterator.Exhausted]
  split
  · split <;> simp_all
  · split
    · simp_all
    · split
      · simp
      · split
        · split <;> simp_all
        · simp_all

theorem ConstDequeIterator.advance_exhausted (d : SegmentDeque T) (it : ConstDequeIterator)
    (h : it.Exhausted d) (j : Nat) :
    ConstDequeIterator.advance d j it = it ∧
      (ConstDequeIterator.advance d j it).Next d = (.ok false, it) := by
  induction j with
  | zero => exact ⟨rfl, ConstDequeIterator.Next_exhausted it d h⟩
  | succ j ih =>
    have e : ConstDequeIterator.advance d (j + 1) it =
        ((ConstDequeIterator.advance d j it).Next d).2 := rfl
    rw [e, ih.2]
    exact ⟨rfl, ConstDequeIterator.Next_exhausted it d h⟩

theorem MutableDequeIterator.toConst_injective (a b : MutableDequeIterator)
    (h : a.toConst = b.toConst) : a = b := by
  obtain ⟨i1, p1, s1⟩ := a
  obtain ⟨i2, p2, s2⟩ := b
  simp only [MutableDequeIterator.toConst, ConstDequeIterator.mk.injEq] at h
  obtain ⟨h1, h2, h3⟩ := h
  rw [h1, h2, h3]

theorem MutableDequeIterator.advance_stable (d : SegmentDeque T) (it : MutableDequeIterator)
    (h : it.toConst.Exhausted d) (j : Nat) :
    MutableDequeIterator.advance d j it = it ∧
      (MutableDequeIterator.advance d j it).Next d = (.ok false, it) := by
  have hstep : it.Next d = (.ok false, it) := by
    have hc := ConstDequeIterator.Next_exhausted it.toConst d h
    obtain ⟨h1, h2⟩ := MutableDequeIterator.Next_toConst it d
    rw [hc] at h1 h2
    exact Prod.ext h1 (MutableDequeIterator.toConst_injective _ _ h2)
  induction j with
  | zero => exact ⟨rfl, hstep⟩
  | succ j ih =>
    have e : MutableDequeIterator.advance d (j + 1) it =
        ((MutableDequeIterator.advance d j it).Next d).2 := rfl
    rw [e, ih.2]
    exact ⟨rfl, hstep⟩

theorem ConstDequeIterator.Positioned.segment {it : ConstDequeIterator} {d : SegmentDeque T}
    {k : Nat} (hwf : d.WF) (h : it.Positioned d k) :
    ∃ seg, d.GetSegment it.segment_idx = .ok seg ∧ it.segment_idx < d.GetSegmentCount ∧
      seg.IsEmpty = false ∧ it.pos_in_segment < seg.GetEffectiveSize := by
  obtain ⟨-, seg, hseg, hpos, -⟩ := h
  refine ⟨seg, (d.GetSegment_ok_iff _ _).mpr hseg, (List.getElem?_eq_some.mp hseg).1, ?_, hpos⟩
  obtain ⟨hfb, -, -⟩ := hwf.segs seg (List.mem_iff_getElem?.mpr ⟨_, hseg⟩)
  cases he : seg.IsEmpty with
  | false => rfl
  | true =>
    rw [seg.effectiveSize_of_isEmpty hfb he] at hpos
    omega

/-- C29: for both iterator variants over a reachable deque that is not modified in
between, whenever a call of `Next()` has returned true, `segment_idx` is a position of
the chain, the segment there is non-empty, and `pos_in_segment` is below its effective
size. -/
theorem C29_iterator_position (d : SegmentDeque T) (hreach : d.Reachable) (k : Nat) :
    (((ConstDequeIterator.advance d k d.GetIterator).Next d).1 = .ok true →
      ∃ seg, d.GetSegment (ConstDequeIterator.advance d (k + 1) d.GetIterator).segment_idx =
          .ok seg ∧
        (ConstDequeIterator.advance d (k + 1) d.GetIterator).segment_idx < d.GetSegmentCount ∧
        seg.IsEmpty = false ∧
        (ConstDequeIterator.advance d (k + 1) d.GetIterator).pos_in_segment <
          seg.GetEffectiveSize) ∧
    (((MutableDequeIterator.advance d k d.GetMutableIterator).Next d).1 = .ok true →
      ∃ seg, d.GetSegment
          (MutableDequeIterator.advance d (k + 1) d.GetMutableIterator).segment_idx = .ok seg ∧
        (MutableDequeIterator.advance d (k + 1) d.GetMutableIterator).segment_idx <
          d.GetSegmentCount ∧
        seg.IsEmpty = false ∧
        (MutableDequeIterator.advance d (k + 1) d.GetMutableIterator).pos_in_segment <
          seg.GetEffectiveSize) := by
  have hwf := hreach.wf
  obtain ⟨hrun, hp, -⟩ := ConstDequeIterator.advance_spec d hwf k
  have hconst : ((ConstDequeIterator.advance d k d.GetIterator).Next d).1 = .ok true →
      ∃ seg, d.GetSegment (ConstDequeIterator.advance d (k + 1) d.GetIterator).segment_idx =
          .ok seg ∧
        (ConstDequeIterator.advance d (k + 1) d.GetIterator).segment_idx < d.GetSegmentCount ∧
        seg.IsEmpty = false ∧
        (ConstDequeIterator.advance d (k + 1) d.GetIterator).pos_in_segment <
          seg.GetEffectiveSize := by
    intro htrue
    rw [hrun] at htrue
    have hk : k < d.total_size := by simpa using htrue
    exact (hp hk).segment hwf
  refine ⟨hconst, ?_⟩
  intro htrue
  rw [(MutableDequeIterator.advance_next d k).1] at htrue
  have e : (MutableDequeIterator.advance d (k + 1) d.GetMutableIterator).toConst =
      ConstDequeIterator.advance d (k + 1) d.GetIterator :=
    MutableDequeIterator.advance_toConst d (k + 1) d.GetMutableIterator
  have e1 : (MutableDequeIterator.advance d (k + 1) d.GetMutableIterator).segment_idx =
      (ConstDequeIterator.advance d (k + 1) d.GetIterator).segment_idx := by
    rw [← e]; rfl
  have e2 : (MutableDequeIterator.advance d (k + 1) d.GetMutableIterator).pos_in_segment =
      (ConstDequeIterator.advance d (k + 1) d.GetIterator).pos_in_segment := by
    rw [← e]; rfl
  rw [e1, e2]
  exact hconst htrue

/-- Witness for C29 on the deque with an empty first segment: the first `Next()` returns
true and leaves the iterator on segment 1, which is non-empty. -/
theorem C29_iterator_position_witness :
    sampleEmptyFirst.Reachable ∧
      (sampleEmptyFirst.GetIterator.Next sampleEmptyFirst).1 = .ok true ∧
      (sampleEmptyFirst.GetIterator.Next sampleEmptyFirst).2.segment_idx = 1 ∧
      ∃ seg, sampleEmptyFirst.GetSegment 1 = .ok seg ∧ seg.IsEmpty = false :=
  have hreach : sampleEmptyFirst.Reachable :=
    .append _ 4 (.append _ 3 (.popFront _ (.popFront _
      (.append _ 2 (.append _ 1 (.construct 2 fresh2 rfl))))))
  have h := (C29_iterator_position sampleEmptyFirst hreach 0).1 rfl
  ⟨hreach, rfl, rfl, by obtain ⟨seg, h1, -, h3, -⟩ := h; exact ⟨seg, h1, h3⟩⟩

/-- C30: for both iterator variants, on a deque that is not modified in between, once a
call of `Next()` has returned false every later call of `Next()` returns false and leaves
`segment_idx`, `pos_in_segment` and `started` as they are. -/
theorem C30_exhausted_stable (d : SegmentDeque T) :
    (∀ it : ConstDequeIterator, (it.Next d).1 = .ok false →
      ∀ j, ConstDequeIterator.advance d j (it.Next d).2 = (it.Next d).2 ∧
        (ConstDequeIterator.advance d j (it.Next d).2).Next d = (.ok false, (it.Next d).2)) ∧
    (∀ it : MutableDequeIterator, (it.Next d).1 = .ok false →
      ∀ j, MutableDequeIterator.advance d j (it.Next d).2 = (it.Next d).2 ∧
        (MutableDequeIterator.advance d j (it.Next d).2).Next d =
          (.ok false, (it.Next d).2)) := by
  refine ⟨?_, ?_⟩
  · intro it h j
    exact ConstDequeIterator.advance_exhausted d _ (ConstDequeIterator.Next_false it d h) j
  · intro it h j
    obtain ⟨h1, h2⟩ := MutableDequeIterator.Next_toConst it d
    rw [h1] at h
    have hex := ConstDequeIterator.Next_false it.toConst d h
    rw [← h2] at hex
    exact MutableDequeIterator.advance_stable d _ hex j

/-- Witness for C30 on the deque holding 1..5: the sixth `Next()` returns false, and so
does the call made after three more. -/
theorem C30_exhausted_stable_witness :
    ((ConstDequeIterator.advance sampleFive 5 sampleFive.GetIterator).Next sampleFive).1 =
        .ok false ∧
      ((ConstDequeIterator.advance sampleFive 3
        ((ConstDequeIterator.advance sampleFive 5 sampleFive.GetIterator).Next sampleFive).2).Next
          sampleFive).1 = .ok false :=
  ⟨rfl, by
    rw [((C30_exhausted_stable sampleFive).1
      (ConstDequeIterator.advance sampleFive 5 sampleFive.GetIterator) rfl 3).2]⟩

/-! ## Link traversals of the modifiers -/

theorem ListSequence.GetSteps_of_lt (s : ListSequence T) {i : Nat}
    (h : i < s.items.nodes.length) : s.GetSteps i = i := by
  simp only [ListSequence.GetSteps, LinkedList.GetSteps, LinkedList.CheckIndex_node_of_lt _ h]

theorem ListSequence.GetSteps_zero (s : ListSequence T) : s.GetSteps 0 = 0 := by
  simp only [ListSequence.GetSteps, LinkedList.GetSteps]
  split <;> rfl

theorem ListSequence.GetSteps_le (s : ListSequence T) (i : Nat) : s.GetSteps i ≤ i := by
  simp only [ListSequence.GetSteps, LinkedList.GetSteps]
  split
  · exact Nat.zero_le _
  · exact Nat.le_refl _

theorem ListSequence.RemoveNodeSteps_zero (s : ListSequence T) : s.RemoveNodeSteps 0 = 0 := by
  simp only [ListSequence.RemoveNodeSteps, LinkedList.RemoveNodeSteps]
  split
  · rfl
  · split
    · rfl
    · rename_i hok hlt
      exfalso
      by_cases hz : s.items.nodes.length = 0
      · have : s.items.CheckIndex 0 =
            .error (.out_of_range ("Index " ++ toString 0 ++ " is out of range")) := by
          simp only [LinkedList.CheckIndex, LinkedList.GetSize]
          rw [if_pos (Or.inr hz)]
        rw [this] at hok
        cases hok
      · apply hlt
        rw [usub_of_le (Nat.zero_le _)]
        show 0 < s.items.nodes.length - 0
        omega

theorem ListSequence.RemoveNodeSteps_last (s : ListSequence T) (init : List T) (last : T)
    (hL : s.items.nodes = init ++ [last]) : s.RemoveNodeSteps init.length = 0 := by
  have hlt : init.length < s.items.nodes.length := by rw [hL]; simp
  have hsz : s.items.GetSize = init.length + 1 := by
    simp [LinkedList.GetSize, hL]
  simp only [ListSequence.RemoveNodeSteps, LinkedList.RemoveNodeSteps,
    LinkedList.CheckIndex_node_of_lt _ hlt, hsz, usub_succ_one]
  have h1 : usub (init.length + 1) init.length = 1 := by
    rw [usub_of_le (by omega)]; omega
  have h2 : usub init.length init.length = 0 := by
    rw [usub_of_le (Nat.le_refl _)]; omega
  rw [h1, h2]
  split <;> omega

theorem SegmentDeque.PrependSteps_eq (d : SegmentDeque T) : d.PrependSteps = 0 := by
  simp only [SegmentDeque.PrependSteps, SegmentDeque.CheckFrontCapacitySteps,
    ListSequence.GetSteps_zero]
  split <;> simp [ListSequence.GetSteps_zero]

theorem SegmentDeque.AppendSteps_eq (d : SegmentDeque T) (hwf : d.WF) (v : T) :
    d.AppendSteps = (d.GetSegmentCount - 1) + ((d.Append v).2.GetSegmentCount - 1) := by
  obtain ⟨init, last, hL⟩ := exists_concat_of_ne_nil _ hwf.chain_ne
  have hsz : d.segments.GetSize = init.length + 1 := by
    simp [ListSequence.GetSize, LinkedList.GetSize, hL]
  have hget : d.segments.Get init.length = .ok last :=
    ListSequence.Get_of_getElem? _ (by rw [hL]; exact getElem?_append_length init [] last)
  have hsteps : d.segments.GetSteps init.length = init.length :=
    ListSequence.GetSteps_of_lt _ (by rw [hL]; simp)
  have hk : d.GetSegmentCount = init.length + 1 := hsz
  rw [d.Append_eq hwf v init last hL, hk]
  simp only [SegmentDeque.AppendSteps, SegmentDeque.CheckBackCapacitySteps,
    SegmentDeque.CheckBackCapacity, hsz, usub_succ_one, hget, hsteps]
  by_cases hfull : last.back_size ≥ d.segment_capacity
  · simp only [if_pos hfull]
    have hsz1 : (d.segments.Append (Segment.ofData
        (MutableArraySequence.ofSize d.segment_capacity))).GetSize = (init.length + 1) + 1 := by
      simp [ListSequence.GetSize, LinkedList.GetSize, ListSequence.Append, LinkedList.Append, hL]
    have hsteps1 : (d.segments.Append (Segment.ofData
        (MutableArraySequence.ofSize d.segment_capacity))).GetSteps (init.length + 1) =
        init.length + 1 :=
      ListSequence.GetSteps_of_lt _ (by
        simp [ListSequence.Append, LinkedList.Append, hL])
    simp only [hsz1, usub_succ_one, hsteps1]
    show init.length + (init.length + 1) = init.length + 1 - 1 +
      ((init ++ [last, _]).length - 1)
    simp
  · simp only [if_neg hfull, hsz, usub_succ_one, hsteps]
    show init.length + init.length = init.length + 1 - 1 + ((init ++ [_]).length - 1)
    simp

theorem SegmentDeque.count_mul_cap_ge (d : SegmentDeque T) (hwf : d.WF) :
    d.total_size ≤ d.GetSegmentCount * d.segment_capacity := by
  rw [d.size_eq_sum hwf]
  have hsegs := hwf.segs
  show _ ≤ d.segments.items.nodes.length * d.segment_capacity
  generalize d.segments.items.nodes = L at hsegs
  induction L with
  | nil => simp
  | cons s L ih =>
    have hs := hsegs s (List.mem_cons_self _ _)
    have he : s.GetEffectiveSize = s.back_size - s.front_offset := usub_of_le hs.1
    have := ih (fun t ht => hsegs t (List.mem_cons_of_mem _ ht))
    rw [List.map_cons, List.sum_cons, List.length_cons, Nat.succ_mul]
    have h2 := hs.2.1
    omega

theorem SegmentDeque.count_le_append (d : SegmentDeque T) (hwf : d.WF) (v : T) :
    d.GetSegmentCount ≤ (d.Append v).2.GetSegmentCount := by
  obtain ⟨init, last, hL⟩ := exists_concat_of_ne_nil _ hwf.chain_ne
  rw [d.Append_eq hwf v init last hL]
  show d.segments.items.nodes.length ≤
    (if last.back_size ≥ d.segment_capacity then _ else _ : List (Segment T)).length
  rw [hL]
  split <;> simp

theorem totalSteps_appends_ge (values : List T) :
    ∀ (d : SegmentDeque T) (m : Nat), d.WF → m ≤ d.GetSegmentCount →
      values.length * (m - 1) ≤ totalSteps (values.map Op.append) d := by
  induction values with
  | nil => intro d m _ _; simp [totalSteps]
  | cons v vs ih =>
    intro d m hwf hm
    obtain ⟨d1, hrun, hwf1, -, -⟩ := d.Append_spec hwf v
    have hwf1' : (d.Append v).2.WF := by rw [hrun]; exact hwf1
    have hle := d.count_le_append hwf v
    have hrest := ih (d.Append v).2 m hwf1' (Nat.le_trans hm hle)
    have hstep : m - 1 ≤ d.AppendSteps := by
      rw [d.AppendSteps_eq hwf v]
      omega
    simp only [List.map_cons, totalSteps, Op.steps, Op.call, List.length_cons, Nat.succ_mul]
    omega

theorem totalSteps_append (a b : List (Op T)) (d : SegmentDeque T) :
    totalSteps (a ++ b) d = totalSteps a d + totalSteps b (runOps a d) := by
  induction a generalizing d with
  | nil => simp [totalSteps, runOps]
  | cons op a ih =>
    show op.steps d + totalSteps (a ++ b) (op.call d).2 =
      (op.steps d + totalSteps a (op.call d).2) + totalSteps b (runOps a (op.call d).2)
    rw [ih]
    omega

theorem runOps_appends (values : List T) :
    ∀ d : SegmentDeque T, runOps (values.map Op.append) d = d.AppendAll values := by
  induction values with
  | nil => intro d; rfl
  | cons v vs ih =>
    intro d
    simp only [List.map_cons, runOps, Op.call, ih]
    rfl

theorem totalSteps_unbounded (c : Nat) (d0 : SegmentDeque T)
    (hd0 : SegmentDeque.Construct c = .ok d0) (v : T) (K : Nat) :
    K * (List.replicate (2 * ((2 * K + 2) * c)) (Op.append v)).length <
      totalSteps (List.replicate (2 * ((2 * K + 2) * c)) (Op.append v)) d0 := by
  obtain ⟨hc, hwf0, hl0, hcap0⟩ := SegmentDeque.Construct_spec c d0 hd0
  have hrep : List.replicate (2 * ((2 * K + 2) * c)) (Op.append v) =
      (List.replicate ((2 * K + 2) * c) v).map Op.append ++
        (List.replicate ((2 * K + 2) * c) v).map Op.append := by
    rw [← List.map_append, ← List.replicate_add, List.map_replicate]
    congr 1
    omega
  rw [hrep, totalSteps_append, runOps_appends]
  obtain ⟨hwf, hl, hcap⟩ := SegmentDeque.AppendAll_spec (List.replicate ((2 * K + 2) * c) v) d0 hwf0
  have hsize : (d0.AppendAll (List.replicate ((2 * K + 2) * c) v)).total_size =
      (2 * K + 2) * c := by
    rw [hwf.size_eq, hl, hl0]
    simp
  have hge := (d0.AppendAll (List.replicate ((2 * K + 2) * c) v)).count_mul_cap_ge hwf
  rw [hsize, hcap, hcap0] at hge
  have hcount : 2 * K + 2 ≤ (d0.AppendAll (List.replicate ((2 * K + 2) * c) v)).GetSegmentCount :=
    Nat.le_of_mul_le_mul_right hge hc
  have hlow := totalSteps_appends_ge (List.replicate ((2 * K + 2) * c) v) _ (2 * K + 2) hwf hcount
  simp only [List.length_replicate, List.length_append, List.length_map] at hlow ⊢
  have hP : 0 < (2 * K + 2) * c := Nat.mul_pos (by omega) hc
  have e1 : (2 * K + 2) * c * (2 * K + 2 - 1) = (2 * K + 2) * c * (2 * K) + (2 * K + 2) * c := by
    have : 2 * K + 2 - 1 = 2 * K + 1 := by omega
    rw [this, Nat.mul_add, Nat.mul_one]
  have e2 : K * ((2 * K + 2) * c + (2 * K + 2) * c) = (2 * K + 2) * c * (2 * K) := by ring
  rw [e1] at hlow
  rw [e2]
  omega

theorem SegmentDeque.cleanupFrontLoopSteps_eq (fuel : Nat) :
    ∀ d : SegmentDeque T, d.cleanupFrontLoopSteps fuel = 0 := by
  induction fuel with
  | zero => intro d; rfl
  | succ fuel ih =>
    intro d
    simp only [SegmentDeque.cleanupFrontLoopSteps, ListSequence.GetSteps_zero,
      ListSequence.RemoveNodeSteps_zero, Nat.zero_add, Nat.add_zero]
    repeat' split
    all_goals first | rfl | exact ih _

theorem SegmentDeque.cleanupBackLoopSteps_le (fuel : Nat) :
    ∀ d : SegmentDeque T,
      d.cleanupBackLoopSteps fuel ≤
        (2 * d.emptySegments + 1) * (d.segments.items.nodes.length - 1) := by
  induction fuel with
  | zero => intro d; exact Nat.zero_le _
  | succ fuel ih =>
    intro d
    by_cases hne : d.segments.items.nodes = []
    · have hsz : d.segments.GetSize = 0 := by
        simp [ListSequence.GetSize, LinkedList.GetSize, hne]
      simp [SegmentDeque.cleanupBackLoopSteps, hsz]
    · obtain ⟨init, last, hL⟩ := exists_concat_of_ne_nil _ hne
      have hget : d.segments.Get init.length = .ok last :=
        ListSequence.Get_of_getElem? _ (by rw [hL]; exact getElem?_append_length init [] last)
      have hsz : d.segments.GetSize = init.length + 1 := by
        simp [ListSequence.GetSize, LinkedList.GetSize, hL]
      have hsteps : d.segments.GetSteps init.length = init.length :=
        ListSequence.GetSteps_of_lt _ (by rw [hL]; simp)
      have hlen : d.segments.items.nodes.length - 1 = init.length := by
        rw [hL]; simp
      have hE : d.emptySegments =
          init.countP Segment.IsEmpty + if last.IsEmpty = true then 1 else 0 := by
        simp only [SegmentDeque.emptySegments, hL, List.countP_append, List.countP_cons,
          List.countP_nil, Nat.zero_add]
      rw [hlen, hE]
      simp only [SegmentDeque.cleanupBackLoopSteps, hsz, usub_succ_one]
      by_cases hmany : init.length + 1 > 1
      · rw [if_pos hmany]
        simp only [hget, hsteps]
        cases he : last.IsEmpty with
        | true =>
          simp only [if_true]
          rw [ListSequence.RemoveNodeSteps_last _ init last hL,
            ListSequence.RemoveNode_of_lt _ (show init.length < d.segments.items.nodes.length by
              rw [hL]; simp)]
          have herase : d.segments.items.nodes.eraseIdx init.length = init := by
            rw [hL, List.eraseIdx_append_of_length_le (Nat.le_refl _)]
            simp
          simp only [herase]
          have hrec := ih { d with segments := ⟨⟨init⟩⟩ }
          simp only [SegmentDeque.emptySegments] at hrec
          have key : ∀ n E S : Nat, S ≤ (2 * E + 1) * (n - 1) →
              n + (n + 0 + S) ≤ (2 * (E + 1) + 1) * n := by
            intro n E S h
            have hmono : (2 * E + 1) * (n - 1) ≤ (2 * E + 1) * n :=
              Nat.mul_le_mul_left _ (Nat.sub_le _ _)
            have hexp : (2 * (E + 1) + 1) * n = (2 * E + 1) * n + 2 * n := by ring
            rw [hexp]
            omega
          exact key _ _ _ hrec
        | false =>
          simp only [Bool.false_eq_true, if_false, Nat.add_zero]
          exact Nat.le_mul_of_pos_left _ (by omega)
      · rw [if_neg hmany]
        exact Nat.zero_le _

theorem SegmentDeque.cleanupBackLoopSteps_ge (d : SegmentDeque T)
    (hne : d.segments.items.nodes ≠ []) :
    (d.cleanupBackLoop d.segments.GetSize).2.segments.items.nodes.length - 1 ≤
      d.cleanupBackLoopSteps d.segments.GetSize := by
  obtain ⟨d1, A, hrun, -, -, -, hsplit, -, -⟩ :=
    SegmentDeque.cleanupBackLoop_spec d.segments.GetSize d hne
  rw [hrun]
  have hle : d1.segments.items.nodes.length ≤ d.segments.items.nodes.length := by
    rw [hsplit]; simp
  obtain ⟨init, last, hL⟩ := exists_concat_of_ne_nil _ hne
  have hsz : d.segments.GetSize = init.length + 1 := by
    simp [ListSequence.GetSize, LinkedList.GetSize, hL]
  have hsteps : d.segments.GetSteps init.length = init.length :=
    ListSequence.GetSteps_of_lt _ (by rw [hL]; simp)
  have hlen : d.segments.items.nodes.length = init.length + 1 := by rw [hL]; simp
  rw [hlen] at hle
  show d1.segments.items.nodes.length - 1 ≤ _
  simp only [hsz, SegmentDeque.cleanupBackLoopSteps, usub_succ_one, hsteps]
  by_cases hmany : init.length + 1 > 1
  · rw [if_pos hmany]
    omega
  · rw [if_neg hmany]
    omega

theorem SegmentDeque.popBackLoopSteps_le (d : SegmentDeque T) (A : List (Segment T)) :
    ∀ B : List (Segment T), d.segments.items.nodes = A ++ B →
      d.popBackLoopSteps A.length ≤ (A.countP Segment.IsEmpty + 1) * (A.length - 1) := by
  induction A using List.reverseRecOn with
  | nil => intro B _; exact Nat.zero_le _
  | append_singleton A s ih =>
    intro B hd
    have hd1 : d.segments.items.nodes = A ++ s :: B := by simp [hd]
    have hget : d.segments.Get A.length = .ok s :=
      ListSequence.Get_of_getElem? _ (by rw [hd1]; exact getElem?_append_length A B s)
    have hsteps : d.segments.GetSteps A.length = A.length :=
      ListSequence.GetSteps_of_lt _ (by rw [hd1]; simp)
    simp only [List.length_append, List.length_cons, List.length_nil, Nat.zero_add,
      SegmentDeque.popBackLoopSteps, hget, hsteps, List.countP_append, List.countP_cons,
      List.countP_nil, Nat.add_sub_cancel]
    cases he : s.IsEmpty with
    | true =>
      simp only [Bool.not_true, Bool.false_eq_true, if_false, if_true]
      have hrec := ih (s :: B) hd1
      have hmono : (A.countP Segment.IsEmpty + 1) * (A.length - 1) ≤
          (A.countP Segment.IsEmpty + 1) * A.length :=
        Nat.mul_le_mul_left _ (Nat.sub_le _ _)
      have hexp : (A.countP Segment.IsEmpty + 1 + 1) * A.length =
          (A.countP Segment.IsEmpty + 1) * A.length + A.length := by ring
      rw [hexp]
      omega
    | false =>
      simp only [Bool.not_false, if_true, Bool.false_eq_true, if_false, Nat.add_zero]
      exact Nat.le_mul_of_pos_left _ (by omega)

theorem SegmentDeque.popFrontLoopSteps_le (d : SegmentDeque T) (B : List (Segment T)) :
    ∀ A : List (Segment T), d.segments.items.nodes = A ++ B →
      d.popFrontLoopSteps B.length A.length ≤
        (B.countP Segment.IsEmpty + 1) * (d.segments.items.nodes.length - 1) := by
  induction B with
  | nil => intro A _; exact Nat.zero_le _
  | cons s B ih =>
    intro A hd
    have hget : d.segments.Get A.length = .ok s :=
      ListSequence.Get_of_getElem? _ (by rw [hd]; exact getElem?_append_length A B s)
    have hsteps : d.segments.GetSteps A.length = A.length :=
      ListSequence.GetSteps_of_lt _ (by rw [hd]; simp)
    have hA : A.length ≤ d.segments.items.nodes.length - 1 := by
      rw [hd]; simp
    simp only [List.length_cons, SegmentDeque.popFrontLoopSteps, hget, hsteps,
      List.countP_cons]
    cases he : s.IsEmpty with
    | true =>
      simp only [Bool.not_true, Bool.false_eq_true, if_false, if_true]
      have hrec := ih (A ++ [s]) (by simp [hd])
      simp only [List.length_append, List.length_cons, List.length_nil, Nat.zero_add] at hrec
      have hexp : (B.countP Segment.IsEmpty + 1 + 1) * (d.segments.items.nodes.length - 1) =
          (B.countP Segment.IsEmpty + 1) * (d.segments.items.nodes.length - 1) +
            (d.segments.items.nodes.length - 1) := by ring
      rw [hexp]
      omega
    | false =>
      simp only [Bool.not_false, if_true, Bool.false_eq_true, if_false, Nat.add_zero]
      exact Nat.le_trans hA (Nat.le_mul_of_pos_left _ (by omega))

theorem SegmentDeque.emptySegments_le_one (d : SegmentDeque T) (hwf : d.WF) (hlay : d.Layout) :
    d.emptySegments ≤ 1 := by
  have hint : ∀ s ∈ d.segments.items.nodes.tail.dropLast, s.IsEmpty = false := by
    intro s hs
    have heff := hlay.interior_full s hs
    have hmem : s ∈ d.segments.items.nodes :=
      List.mem_of_mem_tail (List.mem_of_mem_dropLast hs)
    obtain ⟨hfb, -, -⟩ := hwf.segs s hmem
    cases he : s.IsEmpty with
    | false => rfl
    | true =>
      rw [s.effectiveSize_of_isEmpty hfb he] at heff
      have := hwf.cap_pos
      omega
  have hends := hlay.ends
  unfold SegmentDeque.emptySegments
  cases hn : d.segments.items.nodes with
  | nil => simp
  | cons first rest =>
    rw [hn] at hint hends
    by_cases hrest : rest = []
    · subst hrest
      exact List.countP_le_length _
    · obtain ⟨mids, last, rfl⟩ := exists_concat_of_ne_nil rest hrest
      simp only [List.tail_cons, List.dropLast_concat] at hint
      have hmid : mids.countP Segment.IsEmpty = 0 := by
        rw [List.countP_eq_zero]
        intro s hs
        rw [hint s hs]
        simp
      have he := hends first last rfl
        (by
          have e : first :: (mids ++ [last]) = (first :: mids) ++ [last] := rfl
          rw [e, getLast?_concat_eq])
        (by simp)
      simp only [List.countP_cons, List.countP_append, List.countP_nil, hmid, Nat.zero_add]
      have key : ∀ a b : Bool, a = false ∨ b = false →
          (if b = true then 1 else 0) + (if a = true then 1 else 0) ≤ 1 := by
        intro a b h
        cases a <;> cases b <;> simp at h ⊢
      exact key _ _ he

theorem SegmentDeque.CleanupEmptySegmentsSteps_le (e : SegmentDeque T)
    (hne : e.segments.items.nodes ≠ []) :
    e.CleanupEmptySegmentsSteps ≤
      (2 * e.emptySegments + 1) * (e.segments.items.nodes.length - 1) := by
  obtain ⟨e1, A, hrun, -, -, -, hsplit, -, -⟩ :=
    SegmentDeque.cleanupFrontLoop_spec e.segments.GetSize e hne
  simp only [SegmentDeque.CleanupEmptySegmentsSteps, SegmentDeque.cleanupFrontLoopSteps_eq,
    hrun, Nat.zero_add]
  have hback := SegmentDeque.cleanupBackLoopSteps_le e1.segments.GetSize e1
  have hE : e1.emptySegments ≤ e.emptySegments := by
    simp only [SegmentDeque.emptySegments, hsplit, List.countP_append]
    omega
  have hlen : e1.segments.items.nodes.length - 1 ≤ e.segments.items.nodes.length - 1 := by
    rw [hsplit]
    simp only [List.length_append]
    omega
  exact Nat.le_trans hback (Nat.mul_le_mul (by omega) hlen)

theorem SegmentDeque.CleanupEmptySegmentsSteps_ge (e : SegmentDeque T)
    (hne : e.segments.items.nodes ≠ []) :
    e.CleanupEmptySegments.2.segments.items.nodes.length - 1 ≤ e.CleanupEmptySegmentsSteps := by
  obtain ⟨e1, A, hrun, -, -, hne1, -, -, -⟩ :=
    SegmentDeque.cleanupFrontLoop_spec e.segments.GetSize e hne
  simp only [SegmentDeque.CleanupEmptySegmentsSteps, SegmentDeque.CleanupEmptySegments,
    SegmentDeque.cleanupFrontLoopSteps_eq, hrun, Nat.zero_add]
  exact e1.cleanupBackLoopSteps_ge hne1

theorem countP_update_le (X Y : List (Segment T)) (j j' : Segment T) (hj : j.IsEmpty = false) :
    (X ++ j' :: Y).countP Segment.IsEmpty ≤ (X ++ j :: Y).countP Segment.IsEmpty + 1 := by
  simp only [List.countP_append, List.countP_cons, hj]
  split
  · simp only [Bool.false_eq_true, if_false, Nat.add_zero]
    omega
  · simp

theorem SegmentDeque.PopBackSteps_le (d : SegmentDeque T) (hwf : d.WF) (hlay : d.Layout) :
    d.PopBackSteps ≤ 7 * (d.GetSegmentCount - 1) := by
  by_cases hz : d.total_size = 0
  · simp [SegmentDeque.PopBackSteps, hz]
  · obtain ⟨X, j, Y, hd, hj, -, hrun⟩ := d.popBackLoop_shape d.segments.items.nodes []
      (by simp) (by simp)
      (exists_not_isEmpty_of_chainElems_ne_nil _ (d.toList_ne_nil hwf hz))
    have hE := d.emptySegments_le_one hwf hlay
    have hscan := d.popBackLoopSteps_le d.segments.items.nodes [] (by simp)
    have hclean := SegmentDeque.CleanupEmptySegmentsSteps_le
      ({ segment_capacity := d.segment_capacity, total_size := usub d.total_size 1,
         segments := ⟨⟨X ++ { j with back_size := j.back_size - 1 } :: Y⟩⟩ } : SegmentDeque T)
      (by simp)
    have hE1 := countP_update_le X Y j { j with back_size := j.back_size - 1 } hj
    rw [← hd] at hE1
    have hlen : (X ++ { j with back_size := j.back_size - 1 } :: Y).length =
        d.segments.items.nodes.length := by rw [hd]; simp
    simp only [SegmentDeque.emptySegments, hlen] at hclean hE
    simp only [SegmentDeque.PopBackSteps, if_neg hz, ListSequence.GetSize, LinkedList.GetSize,
      hrun]
    show _ ≤ 7 * (d.segments.items.nodes.length - 1)
    have h1 : (d.segments.items.nodes.countP Segment.IsEmpty + 1) *
        (d.segments.items.nodes.length - 1) ≤ 2 * (d.segments.items.nodes.length - 1) :=
      Nat.mul_le_mul_right _ (by omega)
    have h2 : (2 * (X ++ { j with back_size := j.back_size - 1 } :: Y).countP Segment.IsEmpty + 1) *
        (d.segments.items.nodes.length - 1) ≤ 5 * (d.segments.items.nodes.length - 1) :=
      Nat.mul_le_mul_right _ (by omega)
    omega

theorem SegmentDeque.PopFrontSteps_le (d : SegmentDeque T) (hwf : d.WF) (hlay : d.Layout) :
    d.PopFrontSteps ≤ 7 * (d.GetSegmentCount - 1) := by
  by_cases hz : d.total_size = 0
  · simp [SegmentDeque.PopFrontSteps, hz]
  · obtain ⟨X, j, Y, hd, hj, -, hrun⟩ := d.popFrontLoop_shape d.segments.items.nodes []
      (by simp) (by simp)
      (exists_not_isEmpty_of_chainElems_ne_nil _ (d.toList_ne_nil hwf hz))
    have hE := d.emptySegments_le_one hwf hlay
    have hscan := d.popFrontLoopSteps_le d.segments.items.nodes [] (by simp)
    have hclean := SegmentDeque.CleanupEmptySegmentsSteps_le
      ({ segment_capacity := d.segment_capacity, total_size := usub d.total_size 1,
         segments := ⟨⟨X ++ { j with front_offset := j.front_offset + 1 } :: Y⟩⟩ } :
        SegmentDeque T)
      (by simp)
    have hE1 := countP_update_le X Y j { j with front_offset := j.front_offset + 1 } hj
    rw [← hd] at hE1
    have hlen : (X ++ { j with front_offset := j.front_offset + 1 } :: Y).length =
        d.segments.items.nodes.length := by rw [hd]; simp
    simp only [SegmentDeque.emptySegments, hlen] at hclean hE
    simp only [List.length_nil] at hrun hscan
    simp only [SegmentDeque.PopFrontSteps, if_neg hz, ListSequence.GetSize, LinkedList.GetSize,
      hrun]
    show _ ≤ 7 * (d.segments.items.nodes.length - 1)
    have h1 : (d.segments.items.nodes.countP Segment.IsEmpty + 1) *
        (d.segments.items.nodes.length - 1) ≤ 2 * (d.segments.items.nodes.length - 1) :=
      Nat.mul_le_mul_right _ (by omega)
    have h2 : (2 * (X ++ { j with front_offset := j.front_offset + 1 } :: Y).countP
          Segment.IsEmpty + 1) *
        (d.segments.items.nodes.length - 1) ≤ 5 * (d.segments.items.nodes.length - 1) :=
      Nat.mul_le_mul_right _ (by omega)
    omega

theorem SegmentDeque.PopBackSteps_ge (d : SegmentDeque T) (hwf : d.WF)
    (hz : d.total_size ≠ 0) : d.GetSegmentCount - 1 ≤ d.PopBackSteps := by
  obtain ⟨init, last, hL⟩ := exists_concat_of_ne_nil _ hwf.chain_ne
  have hsz : d.segments.GetSize = init.length + 1 := by
    simp [ListSequence.GetSize, LinkedList.GetSize, hL]
  have hsteps : d.segments.GetSteps init.length = init.length :=
    ListSequence.GetSteps_of_lt _ (by rw [hL]; simp)
  have hk : d.GetSegmentCount = init.length + 1 := hsz
  rw [hk]
  simp only [SegmentDeque.PopBackSteps, if_neg hz, hsz, SegmentDeque.popBackLoopSteps, hsteps]
  omega

theorem SegmentDeque.PopFrontSteps_ge (d : SegmentDeque T) (hwf : d.WF)
    (hz : d.total_size ≠ 0) : d.PopFront.2.GetSegmentCount - 1 ≤ d.PopFrontSteps := by
  obtain ⟨hwf1, -, hpop⟩ := d.afterFrontScan_wf hwf hz
  have hge := d.afterFrontScan.CleanupEmptySegmentsSteps_ge hwf1.chain_ne
  rw [← hpop] at hge
  obtain ⟨d1, hrun, -, -, hne, -, -⟩ :=
    d.popFrontLoop_spec d.segments.items.nodes [] (by simp) (by simp)
      (d.toList_ne_nil hwf hz) hwf.segs
  simp only [List.length_nil] at hrun
  have e : d.afterFrontScan = d1 := by
    simp only [SegmentDeque.afterFrontScan, ListSequence.GetSize, LinkedList.GetSize, hrun]
  rw [e] at hge
  show d.PopFront.2.segments.items.nodes.length - 1 ≤ _
  simp only [SegmentDeque.PopFrontSteps, if_neg hz, ListSequence.GetSize, LinkedList.GetSize,
    hrun]
  omega

/-- C22 fails as stated.  On the deque of capacity 2 holding 1..5 in three segments one
`Append` walks 4 links of the chain, two in each of its calls
`segments->Get(segments->GetSize() - 1)`, since `LinkedList::Get` walks from `head`; the
ten appends of `Tests::TestBoundaryConditions` walk 36 links; and there is no constant
`K` such that every sequence of calls on a fresh deque of capacity 2 walks at most
`K` links per call. -/
theorem C22_counterexample :
    (sampleFive.Reachable ∧ sampleFive.GetSegmentCount = 3 ∧ sampleFive.AppendSteps = 4) ∧
    totalSteps (boundaryBack.map Op.append) fresh2 = 36 ∧
    ¬ ∃ K : Nat, ∀ ops : List (Op Int), totalSteps ops fresh2 ≤ K * ops.length :=
  ⟨⟨SegmentDeque.reachable_of_appendAll _ _ (.construct 2 fresh2 rfl), rfl, rfl⟩, by decide,
    fun ⟨K, h⟩ =>
      absurd (h (List.replicate (2 * ((2 * K + 2) * 2)) (Op.append 0)))
        (Nat.not_le.mpr (totalSteps_unbounded 2 fresh2 rfl 0 K))⟩

/-- C22, amended: count the links of the segment chain walked by a call (the executions
of `current_node = current_node->next` and `current_node = current_node->prev` in
`LinkedList::Get` and `LinkedList::RemoveNode`), and let `k` be `GetSegmentCount()`
before the call and `k'` after it.  In every reachable state `Prepend` walks no link;
`Append` walks `(k - 1) + (k' - 1)` links, which is at least `2 * (k - 1)`; `PopBack` on a
non-empty deque walks at least `k - 1` links and at most `7 * (k - 1)`; `PopFront` on a
non-empty deque walks at least `k' - 1` links and at most `7 * (k - 1)`.  `Prepend` is
independent of the number of segments; `Append`, `PopBack` and `PopFront` take time
proportional to the number of segments and are not amortized O(1). -/
theorem C22_link_traversals (d : SegmentDeque T) (hreach : d.Reachable) (v : T) :
    d.PrependSteps = 0 ∧
    d.AppendSteps = (d.GetSegmentCount - 1) + ((d.Append v).2.GetSegmentCount - 1) ∧
    2 * (d.GetSegmentCount - 1) ≤ d.AppendSteps ∧
    (d.GetSize ≠ 0 → d.GetSegmentCount - 1 ≤ d.PopBackSteps) ∧
    d.PopBackSteps ≤ 7 * (d.GetSegmentCount - 1) ∧
    (d.GetSize ≠ 0 → d.PopFront.2.GetSegmentCount - 1 ≤ d.PopFrontSteps) ∧
    d.PopFrontSteps ≤ 7 * (d.GetSegmentCount - 1) := by
  have hwf := hreach.wf
  have hlay := hreach.layout
  have happ := d.AppendSteps_eq hwf v
  have hmono := d.count_le_append hwf v
  exact ⟨d.PrependSteps_eq, happ, by rw [happ]; omega, d.PopBackSteps_ge hwf,
    d.PopBackSteps_le hwf hlay, d.PopFrontSteps_ge hwf, d.PopFrontSteps_le hwf hlay⟩

/-- Witness for C22 (amended) on the deque of capacity 2 holding 1..5 in three segments:
`Prepend` walks no link, `Append` walks 4, `PopBack` walks 7 and `PopFront` walks 2. -/
theorem C22_link_traversals_witness :
    sampleFive.Reachable ∧ sampleFive.GetSegmentCount = 3 ∧
      sampleFive.PrependSteps = 0 ∧ sampleFive.AppendSteps = 4 ∧
      sampleFive.PopBackSteps = 7 ∧ sampleFive.PopFrontSteps = 2 ∧
      sampleFive.PopBackSteps ≤ 7 * (sampleFive.GetSegmentCount - 1) :=
  have hreach : sampleFive.Reachable :=
    SegmentDeque.reachable_of_appendAll _ _ (.construct 2 fresh2 rfl)
  have h := C22_link_traversals sampleFive hreach 6
  ⟨hreach, rfl, h.1, rfl, rfl, rfl, h.2.2.2.2.1⟩

/-! ## The empty deque, the layout of the chain and the buffers -/

/-- C31: in every reachable state, `GetSize() == 0` implies `GetSegmentCount() == 1`; the
single segment of an empty deque is empty. -/
theorem C31_empty_single (d : SegmentDeque T) (hreach : d.Reachable) (hz : d.GetSize = 0) :
    d.GetSegmentCount = 1 ∧ ∃ seg, d.GetSegment 0 = .ok seg ∧ seg.IsEmpty = true := by
  obtain ⟨seg, hnodes, hemp⟩ := d.single_of_size_zero hreach.wf hreach.layout hz
  refine ⟨?_, seg, (d.GetSegment_ok_iff 0 seg).mpr (by rw [hnodes]; rfl), hemp⟩
  show d.segments.items.nodes.length = 1
  rw [hnodes]
  rfl

/-- Witness for C31 on the deque emptied by `Prepend(1); PopBack()`, whose chain had two
segments before the pop. -/
theorem C31_empty_single_witness :
    sampleOneThenEmpty.GetSegmentCount = 2 ∧ sampleOneThenEmpty.PopBack.2.Reachable ∧
      sampleOneThenEmpty.PopBack.2.GetSize = 0 ∧
      sampleOneThenEmpty.PopBack.2.GetSegmentCount = 1 :=
  have hreach : sampleOneThenEmpty.PopBack.2.Reachable :=
    .popBack _ (.prepend _ 1 (.construct 2 fresh2 rfl))
  ⟨rfl, hreach, rfl, (C31_empty_single _ hreach rfl).1⟩

/-- C32: in every reachable state every segment that is not the first of the chain has
`front_offset == 0` and every segment that is not the last has
`back_size == segment_capacity`; a segment that is neither holds `segment_capacity`
elements. -/
theorem C32_segment_layout (d : SegmentDeque T) (hreach : d.Reachable) (i : Nat)
    (seg : Segment T) (hseg : d.GetSegment i = .ok seg) :
    (0 < i → seg.front_offset = 0) ∧
    (i + 1 < d.GetSegmentCount → seg.back_size = d.segment_capacity) ∧
    (0 < i → i + 1 < d.GetSegmentCount →
      seg.GetEffectiveSize = d.segment_capacity ∧ seg.IsEmpty = false) := by
  have hlay := hreach.layout
  have hcap := hreach.wf.cap_pos
  rw [d.GetSegment_ok_iff] at hseg
  have hf : 0 < i → seg.front_offset = 0 :=
    fun h0 => hlay.tail_front seg (mem_tail_of_getElem? _ i seg hseg h0)
  have hb : i + 1 < d.GetSegmentCount → seg.back_size = d.segment_capacity :=
    fun h1 => hlay.init_back seg (mem_dropLast_of_getElem? _ i seg hseg h1)
  refine ⟨hf, hb, fun h0 h1 => ⟨?_, ?_⟩⟩
  · rw [Segment.GetEffectiveSize, hf h0, hb h1, usub_of_le (Nat.zero_le _)]
    rfl
  · have h2 := hf h0
    have h3 := hb h1
    simp only [Segment.IsEmpty, decide_eq_false_iff_not]
    omega

/-- Witness for C32 on the middle segment of a chain of three segments of capacity 2. -/
theorem C32_segment_layout_witness :
    sampleThree.Reachable ∧ sampleThree.GetSegment 1 = .ok ⟨⟨⟨[3, 4]⟩⟩, 0, 2⟩ ∧
      (⟨⟨⟨[3, 4]⟩⟩, 0, 2⟩ : Segment Int).GetEffectiveSize = sampleThree.segment_capacity :=
  have hreach : sampleThree.Reachable :=
    .popFront _ (SegmentDeque.reachable_of_appendAll _ _ (.construct 2 fresh2 rfl))
  ⟨hreach, rfl,
    ((C32_segment_layout sampleThree hreach 1 _ rfl).2.2 (by decide) (by decide)).1⟩

/-- C33: in every reachable state the buffer of every segment has `segment_capacity`
slots.  In `Append`, the segment `last` taken after `CheckBackCapacity()` has
`back_size < data->GetSize()`: the branch `last->data->Append(value)` is not taken, the
value is stored with `last->data->Set(value, last->back_size)`, which returns normally
and keeps the buffer at `segment_capacity` slots. -/
theorem C33_buffer_length (d : SegmentDeque T) (hreach : d.Reachable) (v : T) :
    (∀ i seg, d.GetSegment i = .ok seg → seg.data.GetSize = d.segment_capacity) ∧
    ∃ d1 last data1, d.CheckBackCapacity = (.ok (), d1) ∧
      d1.segments.Get (usub d1.segments.GetSize 1) = .ok last ∧
      ¬ (last.back_size ≥ last.data.GetSize) ∧
      last.data.Set v last.back_size = .ok data1 ∧
      data1.GetSize = d.segment_capacity ∧
      d.Append v = (.ok (),
        { d1.setSegment (usub d1.segments.GetSize 1)
            { last with data := data1, back_size := last.back_size + 1 } with
          total_size := d1.total_size + 1 }) := by
  have hwf := hreach.wf
  refine ⟨?_, ?_⟩
  · intro i seg hseg
    rw [d.GetSegment_ok_iff] at hseg
    exact (hwf.segs seg (List.mem_iff_getElem?.mpr ⟨i, hseg⟩)).2.2
  · obtain ⟨d1, L0, last, hcb, hwf1, -, hcap, hnodes, hlt⟩ := d.CheckBackCapacity_spec hwf
    have hsz : d1.segments.GetSize = L0.length + 1 := by
      simp [ListSequence.GetSize, LinkedList.GetSize, hnodes]
    have hget : d1.segments.Get L0.length = .ok last :=
      ListSequence.Get_of_getElem? _ (by rw [hnodes]; exact getElem?_append_length L0 [] last)
    obtain ⟨-, -, hlen⟩ := hwf1.segs last (by rw [hnodes]; simp)
    rw [hcap] at hlen
    have hslot : last.back_size < last.data.items.items.length := by omega
    have hnot : ¬ (last.back_size ≥ last.data.GetSize) := by
      show ¬ (last.back_size ≥ last.data.items.items.length)
      omega
    have hset := MutableArraySequence.Set_of_lt last.data v hslot
    refine ⟨d1, last, _, hcb, by rw [hsz, usub_succ_one]; exact hget, hnot, hset, ?_, ?_⟩
    · show (last.data.items.items.set last.back_size v).length = d.segment_capacity
      rw [List.length_set]
      exact hlen
    · simp only [SegmentDeque.Append, hcb, hsz, usub_succ_one, hget, if_neg hnot, hset]
      rfl

/-- Witness for C33 on the deque holding 1..5: the last segment has one of its two slots
in use, and `Append(6)` stores into the second. -/
theorem C33_buffer_length_witness :
    sampleFive.Reachable ∧
      sampleFive.GetSegment 2 = .ok ⟨⟨⟨[5, 0]⟩⟩, 0, 1⟩ ∧
      (⟨⟨⟨[5, 0]⟩⟩, 0, 1⟩ : Segment Int).data.GetSize = sampleFive.segment_capacity ∧
      (sampleFive.Append 6).2.GetSegment 2 = .ok ⟨⟨⟨[5, 6]⟩⟩, 0, 2⟩ :=
  have hreach : sampleFive.Reachable :=
    SegmentDeque.reachable_of_appendAll _ _ (.construct 2 fresh2 rfl)
  ⟨hreach, rfl, (C33_buffer_length sampleFive hreach 6).1 2 _ rfl, rfl⟩

/-- C34: for every reachable deque and every value `v`, `Append(v)` followed by
`PopBack()`, and `Prepend(v)` followed by `PopFront()`, return normally and leave a deque
with the size and the values `Get(0)`, ..., `Get(size - 1)` it had before. -/
theorem C34_round_trip (d : SegmentDeque T) (hreach : d.Reachable) (v : T) :
    ((d.Append v).1 = .ok () ∧ (d.Append v).2.PopBack.1 = .ok () ∧
      (d.Append v).2.PopBack.2.GetSize = d.GetSize ∧
      (d.Append v).2.PopBack.2.contents = d.contents ∧
      ∀ i, (d.Append v).2.PopBack.2.Get i = d.Get i) ∧
    ((d.Prepend v).1 = .ok () ∧ (d.Prepend v).2.PopFront.1 = .ok () ∧
      (d.Prepend v).2.PopFront.2.GetSize = d.GetSize ∧
      (d.Prepend v).2.PopFront.2.contents = d.contents ∧
      ∀ i, (d.Prepend v).2.PopFront.2.Get i = d.Get i) := by
  have hwf := hreach.wf
  refine ⟨?_, ?_⟩
  · obtain ⟨d1, h1, hwf1, hl1, -⟩ := d.Append_spec hwf v
    have hpos : d1.total_size ≠ 0 := by
      rw [hwf1.size_eq, hl1]
      simp
    obtain ⟨d2, h2, hwf2, hl2, -⟩ := d1.PopBack_spec hwf1 hpos
    have hl : d2.toList = d.toList := by
      rw [hl2, hl1, List.dropLast_concat]
    rw [h1]
    show _ ∧ d1.PopBack.1 = .ok () ∧ d1.PopBack.2.GetSize = d.GetSize ∧
      d1.PopBack.2.contents = d.contents ∧ ∀ i, d1.PopBack.2.Get i = d.Get i
    rw [h2]
    refine ⟨rfl, rfl, ?_, ?_, ?_⟩
    · show d2.total_size = d.total_size
      rw [hwf2.size_eq, hwf.size_eq, hl]
    · rw [d2.contents_eq hwf2, d.contents_eq hwf, hl]
    · intro i
      rw [d2.Get_eq hwf2, d.Get_eq hwf, hl]
  · obtain ⟨d1, h1, hwf1, hl1, -⟩ := d.Prepend_spec hwf v
    have hpos : d1.total_size ≠ 0 := by
      rw [hwf1.size_eq, hl1]
      simp
    obtain ⟨d2, h2, hwf2, hl2, -⟩ := d1.PopFront_spec hwf1 hpos
    have hl : d2.toList = d.toList := by
      rw [hl2, hl1, List.tail_cons]
    rw [h1]
    show _ ∧ d1.PopFront.1 = .ok () ∧ d1.PopFront.2.GetSize = d.GetSize ∧
      d1.PopFront.2.contents = d.contents ∧ ∀ i, d1.PopFront.2.Get i = d.Get i
    rw [h2]
    refine ⟨rfl, rfl, ?_, ?_, ?_⟩
    · show d2.total_size = d.total_size
      rw [hwf2.size_eq, hwf.size_eq, hl]
    · rw [d2.contents_eq hwf2, d.contents_eq hwf, hl]
    · intro i
      rw [d2.Get_eq hwf2, d.Get_eq hwf, hl]

/-- Witness for C34 on a fresh deque, where `Prepend(7); PopFront()` keeps the elements
but not the chain: the segment left is the one `Prepend` added. -/
theorem C34_round_trip_witness :
    fresh2.Reachable ∧ (fresh2.Prepend 7).2.PopFront.2.contents = fresh2.contents ∧
      (fresh2.Prepend 7).2.PopFront.2.GetSize = 0 ∧
      (fresh2.Prepend 7).2.PopFront.2.cursors = [(0, 0)] ∧ fresh2.cursors = [(0, 0)] :=
  have hreach : fresh2.Reachable := .construct 2 fresh2 rfl
  ⟨hreach, (C34_round_trip fresh2 hreach 7).2.2.2.2.1, rfl, by decide, by decide⟩

/-! ## The growable array -/

theorem DynamicArray.CheckIndex_of_ge (a : DynamicArray T) {i : Nat} (h : a.items.length ≤ i) :
    a.CheckIndex i = .error (.out_of_range ("Index " ++ toString i ++ " is out of range")) := by
  have h1 : i ≥ a.items.length ∨ a.items.length = 0 := Or.inl h
  simp only [DynamicArray.CheckIndex, DynamicArray.GetSize, if_pos h1]

theorem DynamicArray.Get_eq_getElem? (a : DynamicArray T) (i : Nat) :
    a.Get i = match a.items[i]? with
      | some x => .ok x
      | none => .error (.out_of_range ("Index " ++ toString i ++ " is out of range")) := by
  by_cases h : i < a.items.length
  · simp only [DynamicArray.Get, DynamicArray.CheckIndex_slot_of_lt _ h,
      List.getElem?_eq_getElem h, Option.getD_some]
  · simp only [DynamicArray.Get, DynamicArray.CheckIndex_of_ge _ (Nat.not_lt.mp h),
      List.getElem?_eq_none (Nat.not_lt.mp h)]

theorem DynamicArray.Set_slot_of_lt (a : DynamicArray T) (v : T) {i : Nat}
    (h : i < a.items.length) : a.Set v i = .ok ⟨a.items.set i v⟩ := by
  simp only [DynamicArray.Set, DynamicArray.CheckIndex_slot_of_lt _ h]

theorem DynamicArray.Set_of_ge (a : DynamicArray T) (v : T) {i : Nat}
    (h : a.items.length ≤ i) :
    a.Set v i = .error (.out_of_range ("Index " ++ toString i ++ " is out of range")) := by
  simp only [DynamicArray.Set, DynamicArray.CheckIndex_of_ge _ h]

theorem DynamicArray.copyLoop_getElem? (items : List T) :
    ∀ (rem i : Nat) (new_items : List T) (j : Nat),
      (DynamicArray.copyLoop items rem i new_items)[j]? =
        if i ≤ j ∧ j < i + rem ∧ j < new_items.length then some (items[j]?.getD default)
        else new_items[j]? := by
  intro rem
  induction rem with
  | zero =>
    intro i new_items j
    rw [DynamicArray.copyLoop, if_neg (by omega)]
  | succ rem ih =>
    intro i new_items j
    rw [DynamicArray.copyLoop, ih, List.length_set, List.getElem?_set]
    by_cases h1 : i + 1 ≤ j ∧ j < i + 1 + rem ∧ j < new_items.length
    · rw [if_pos h1, if_pos (by omega)]
    · rw [if_neg h1]
      by_cases h2 : i = j
      · subst h2
        rw [if_pos rfl]
        by_cases h3 : i < new_items.length
        · rw [if_pos h3, if_pos (by omega)]
        · rw [if_neg h3, if_neg (by omega)]
          exact (List.getElem?_eq_none (by omega)).symm
      · rw [if_neg h2, if_neg (by omega)]

theorem DynamicArray.shiftLoop_getElem? (items : List T) :
    ∀ (rem i : Nat) (new_items : List T) (j : Nat),
      (DynamicArray.shiftLoop items rem i new_items)[j]? =
        if i ≤ j ∧ j < i + rem ∧ j < new_items.length then some (items[usub j 1]?.getD default)
        else new_items[j]? := by
  intro rem
  induction rem with
  | zero =>
    intro i new_items j
    rw [DynamicArray.shiftLoop, if_neg (by omega)]
  | succ rem ih =>
    intro i new_items j
    rw [DynamicArray.shiftLoop, ih, List.length_set, List.getElem?_set]
    by_cases h1 : i + 1 ≤ j ∧ j < i + 1 + rem ∧ j < new_items.length
    · rw [if_pos h1, if_pos (by omega)]
    · rw [if_neg h1]
      by_cases h2 : i = j
      · subst h2
        rw [if_pos rfl]
        by_cases h3 : i < new_items.length
        · rw [if_pos h3, if_pos (by omega)]
        · rw [if_neg h3, if_neg (by omega)]
          exact (List.getElem?_eq_none (by omega)).symm
      · rw [if_neg h2, if_neg (by omega)]

theorem DynamicArray.copyLoop_length (items : List T) :
    ∀ (rem i : Nat) (new_items : List T),
      (DynamicArray.copyLoop items rem i new_items).length = new_items.length := by
  intro rem
  induction rem with
  | zero => intro i new_items; rfl
  | succ rem ih =>
    intro i new_items
    rw [DynamicArray.copyLoop, ih, List.length_set]

theorem DynamicArray.insertInto_spec (items : List T) (v : T) (index : Nat)
    (hi : index ≤ items.length) (new_items : List T)
    (hlen : new_items.length = items.length + 1) :
    DynamicArray.insertInto items v index (items.length + 1) new_items =
      items.take index ++ v :: items.drop index := by
  apply List.ext_getElem?
  intro j
  simp only [DynamicArray.insertInto]
  rw [DynamicArray.shiftLoop_getElem?, List.length_set, DynamicArray.copyLoop_length,
    List.getElem?_set, DynamicArray.copyLoop_length, DynamicArray.copyLoop_getElem?,
    List.getElem?_append, List.length_take, Nat.min_eq_left hi, List.getElem?_take]
  by_cases h1 : j < index
  · rw [if_neg (by omega), if_neg (by omega), if_pos (by omega), if_pos h1, if_pos h1,
      List.getElem?_eq_getElem (by omega)]
    rfl
  · rw [if_neg h1]
    by_cases h2 : j = index
    · subst h2
      rw [if_neg (by omega), if_pos rfl, if_pos (by omega), Nat.sub_self]
      simp
    · by_cases h3 : j < items.length + 1
      · rw [if_pos (by omega), usub_of_le (by omega),
          List.getElem?_eq_getElem (show j - 1 < items.length by omega)]
        have e : j - index = (j - index - 1) + 1 := by omega
        rw [e, List.getElem?_cons_succ, List.getElem?_drop,
          List.getElem?_eq_getElem (show index + (j - index - 1) < items.length by omega)]
        simp only [Option.getD_some, Option.some.injEq]
        congr 1
        omega
      · rw [if_neg (by omega), if_neg (by omega), if_neg (by omega),
          List.getElem?_eq_none (by omega)]
        have e : j - index = (j - index - 1) + 1 := by omega
        rw [e, List.getElem?_cons_succ, List.getElem?_drop,
          List.getElem?_eq_none (by omega)]

theorem DynamicArray.Resize_items (a : DynamicArray T) (m : Nat) :
    (a.Resize m).items = a.items.take m ++ List.replicate (m - a.items.length) default := by
  apply List.ext_getElem?
  intro j
  simp only [DynamicArray.Resize, DynamicArray.GetSize]
  rw [DynamicArray.copyLoop_getElem?, List.length_replicate, List.getElem?_append,
    List.length_take, List.getElem?_take, List.getElem?_replicate, List.getElem?_replicate]
  by_cases hlt : a.items.length < m
  · rw [if_pos hlt, Nat.min_eq_right (by omega)]
    by_cases h1 : j < a.items.length
    · rw [if_pos (by omega), if_pos h1, if_pos (by omega), List.getElem?_eq_getElem h1]
      rfl
    · rw [if_neg (by omega), if_neg h1]
      by_cases h2 : j < m
      · rw [if_pos h2, if_pos (by omega)]
      · rw [if_neg h2, if_neg (by omega)]
  · rw [if_neg hlt, Nat.min_eq_left (by omega)]
    by_cases h1 : j < m
    · rw [if_pos (by omega), if_pos h1, if_pos h1, List.getElem?_eq_getElem (by omega)]
      rfl
    · rw [if_neg (by omega), if_neg h1, if_neg h1, if_neg (by omega)]

/-- C38: for a dynamic array of size `n`, an index `i <= n` and a value `v`,
`InsertAt(v, i)` returns normally and leaves an array of size `n + 1` holding the old
elements `0..i-1`, then `v`, then the old elements `i..n-1`; whatever the new buffer
holds when allocated, every slot of it is assigned.  For `i > n` the call throws
`out_of_range` before anything is written. -/
theorem C38_array_insertAt (a : DynamicArray T) (v : T) (i : Nat) :
    (i ≤ a.GetSize →
      (∀ new_items : List T, new_items.length = a.GetSize + 1 →
        DynamicArray.insertInto a.items v i (a.GetSize + 1) new_items =
          a.items.take i ++ v :: a.items.drop i) ∧
      ∃ a1, a.InsertAt v i = .ok a1 ∧ a1.GetSize = a.GetSize + 1 ∧
        a1.items = a.items.take i ++ v :: a.items.drop i ∧
        a1.Get i = .ok v ∧
        (∀ j, j < i → a1.Get j = a.Get j) ∧
        (∀ j, i ≤ j → j < a.GetSize → a1.Get (j + 1) = a.Get j)) ∧
    (a.GetSize < i →
      a.InsertAt v i = .error (.out_of_range ("Index " ++ toString i ++ " is out of range"))) := by
  refine ⟨?_, ?_⟩
  · intro hi
    have hi' : i ≤ a.items.length := hi
    have hspec := fun new_items hlen =>
      DynamicArray.insertInto_spec a.items v i hi' new_items hlen
    have hchk : (if i ≠ a.GetSize then a.CheckIndex i else .ok ()) = .ok () := by
      by_cases h : i = a.GetSize
      · rw [if_neg (by simpa using h)]
      · rw [if_pos h]
        exact DynamicArray.CheckIndex_slot_of_lt _ (by
          have : i ≠ a.items.length := h
          omega)
    have hrun : a.InsertAt v i = .ok ⟨a.items.take i ++ v :: a.items.drop i⟩ := by
      simp only [DynamicArray.InsertAt, hchk]
      rw [show a.GetSize = a.items.length from rfl,
        hspec _ (by simp)]
    refine ⟨hspec, _, hrun, ?_, rfl, ?_, ?_, ?_⟩
    · show (a.items.take i ++ v :: a.items.drop i).length = a.items.length + 1
      simp only [List.length_append, List.length_take, List.length_cons, List.length_drop]
      omega
    · rw [DynamicArray.Get_eq_getElem?]
      have : (a.items.take i ++ v :: a.items.drop i)[i]? = some v := by
        rw [List.getElem?_append_right (by simp [Nat.min_eq_left hi'])]
        simp [Nat.min_eq_left hi']
      simp only [this]
    · intro j hj
      rw [DynamicArray.Get_eq_getElem?, DynamicArray.Get_eq_getElem?]
      have : (a.items.take i ++ v :: a.items.drop i)[j]? = a.items[j]? := by
        rw [List.getElem?_append_left (by simp [Nat.min_eq_left hi']; exact hj),
          List.getElem?_take, if_pos hj]
      simp only [this]
    · intro j hij hj
      rw [DynamicArray.Get_eq_getElem?, DynamicArray.Get_eq_getElem?]
      have : (a.items.take i ++ v :: a.items.drop i)[j + 1]? = a.items[j]? := by
        rw [List.getElem?_append_right (by simp [Nat.min_eq_left hi']; omega),
          List.length_take, Nat.min_eq_left hi']
        have e : j + 1 - i = (j - i) + 1 := by omega
        rw [e, List.getElem?_cons_succ, List.getElem?_drop]
        congr 1
        omega
      have hj' : j < a.items.length := hj
      rw [List.getElem?_eq_getElem hj'] at this
      simp only [this, List.getElem?_eq_getElem hj']
  · intro hlt
    have hne : i ≠ a.GetSize := by omega
    simp only [DynamicArray.InsertAt, if_pos hne,
      DynamicArray.CheckIndex_of_ge a (show a.items.length ≤ i from Nat.le_of_lt hlt)]

/-- Witness for C38: inserting 9 at index 1 of the array 1, 2, 3, a case for which
`i <= n` holds. -/
theorem C38_array_insertAt_witness :
    (1 : Nat) ≤ (⟨[1, 2, 3]⟩ : DynamicArray Int).GetSize ∧
      (⟨[1, 2, 3]⟩ : DynamicArray Int).InsertAt 9 1 = .ok ⟨[1, 9, 2, 3]⟩ ∧
      ∃ a1, (⟨[1, 2, 3]⟩ : DynamicArray Int).InsertAt 9 1 = .ok a1 ∧ a1.GetSize = 4 :=
  ⟨by decide, rfl, by
    obtain ⟨-, a1, h1, h2, -⟩ := (C38_array_insertAt (⟨[1, 2, 3]⟩ : DynamicArray Int) 9 1).1
      (by decide)
    exact ⟨a1, h1, h2⟩⟩

/-- C39: for a dynamic array of size `n` and any `m`, `Resize(m)` leaves an array of size
`m` whose element at each index below `min(n, m)` is the old one and whose element at
each index from `n` up to `m` is the value-initialised (default) one. -/
theorem C39_array_resize (a : DynamicArray T) (m : Nat) :
    (a.Resize m).GetSize = m ∧
    (a.Resize m).items = a.items.take m ++ List.replicate (m - a.GetSize) default ∧
    (∀ i, i < a.GetSize → i < m → (a.Resize m).Get i = a.Get i) ∧
    (∀ i, a.GetSize ≤ i → i < m → (a.Resize m).Get i = .ok default) := by
  have hitems := a.Resize_items m
  refine ⟨?_, hitems, ?_, ?_⟩
  · show (a.Resize m).items.length = m
    rw [hitems]
    simp only [List.length_append, List.length_take, List.length_replicate]
    omega
  · intro i hn hm
    have hn' : i < a.items.length := hn
    rw [DynamicArray.Get_eq_getElem?, DynamicArray.Get_eq_getElem?, hitems,
      List.getElem?_append_left (by simp only [List.length_take]; omega),
      List.getElem?_take, if_pos hm]
  · intro i hn hm
    have hn' : a.items.length ≤ i := hn
    rw [DynamicArray.Get_eq_getElem?, hitems,
      List.getElem?_append_right (by simp only [List.length_take]; omega),
      List.getElem?_replicate, if_pos (by simp only [List.length_take]; omega)]

/-- Witness for C39: growing the array 1, 2, 3 to five slots and shrinking it to two. -/
theorem C39_array_resize_witness :
    ((⟨[1, 2, 3]⟩ : DynamicArray Int).Resize 5).items = [1, 2, 3, 0, 0] ∧
      ((⟨[1, 2, 3]⟩ : DynamicArray Int).Resize 2).items = [1, 2] ∧
      ((⟨[1, 2, 3]⟩ : DynamicArray Int).Resize 5).GetSize = 5 :=
  ⟨rfl, rfl, (C39_array_resize (⟨[1, 2, 3]⟩ : DynamicArray Int) 5).1⟩

/-- C40: for a dynamic array of size `n`, `Get(i)` and `Set(v, i)` throw `out_of_range`
exactly when `i >= n`.  A `Set(v, i)` that returns makes `Get(i)` return `v` and keeps
the size and every other element.  A `Set` that throws has written nothing: `CheckIndex`
throws before the assignment, and the call yields no new array. -/
theorem C40_array_get_set (a : DynamicArray T) (v : T) (i : Nat) :
    (a.GetSize ≤ i ↔
      a.Get i = .error (.out_of_range ("Index " ++ toString i ++ " is out of range"))) ∧
    (a.GetSize ≤ i ↔
      a.Set v i = .error (.out_of_range ("Index " ++ toString i ++ " is out of range"))) ∧
    (i < a.GetSize ↔ ∃ x, a.Get i = .ok x) ∧
    (i < a.GetSize ↔ ∃ a1, a.Set v i = .ok a1) ∧
    (∀ a1, a.Set v i = .ok a1 →
      a1.GetSize = a.GetSize ∧ a1.Get i = .ok v ∧ ∀ j, j ≠ i → a1.Get j = a.Get j) := by
  by_cases h : i < a.items.length
  · have hget : a.Get i = .ok a.items[i] := by
      rw [DynamicArray.Get_eq_getElem?, List.getElem?_eq_getElem h]
    have hset := a.Set_slot_of_lt v h
    have hn : ¬ a.GetSize ≤ i := Nat.not_le.mpr h
    refine ⟨⟨fun hh => absurd hh hn, fun hh => ?_⟩, ⟨fun hh => absurd hh hn, fun hh => ?_⟩,
      ⟨fun _ => ⟨_, hget⟩, fun _ => h⟩, ⟨fun _ => ⟨_, hset⟩, fun _ => h⟩, ?_⟩
    · rw [hget] at hh
      cases hh
    · rw [hset] at hh
      cases hh
    · intro a1 h1
      rw [hset] at h1
      injection h1 with h1
      subst h1
      refine ⟨?_, ?_, ?_⟩
      · show (a.items.set i v).length = a.items.length
        exact List.length_set ..
      · rw [DynamicArray.Get_eq_getElem?]
        simp only [List.getElem?_set, if_pos h, if_true]
      · intro j hj
        rw [DynamicArray.Get_eq_getElem?, DynamicArray.Get_eq_getElem?]
        simp only [List.getElem?_set, if_neg (Ne.symm hj)]
  · have hge : a.items.length ≤ i := Nat.not_lt.mp h
    have hget : a.Get i =
        .error (.out_of_range ("Index " ++ toString i ++ " is out of range")) := by
      rw [DynamicArray.Get_eq_getElem?, List.getElem?_eq_none hge]
    have hset := a.Set_of_ge v hge
    refine ⟨⟨fun _ => hget, fun _ => hge⟩, ⟨fun _ => hset, fun _ => hge⟩,
      ⟨fun hh => absurd hh h, fun ⟨x, hx⟩ => ?_⟩, ⟨fun hh => absurd hh h, fun ⟨a1, h1⟩ => ?_⟩, ?_⟩
    · rw [hget] at hx
      cases hx
    · rw [hset] at h1
      cases h1
    · intro a1 h1
      rw [hset] at h1
      cases h1

/-- Witness for C40 on the array 1, 2, 3: `Set(9, 1)` returns and is read back, `Set(9, 3)`
throws. -/
theorem C40_array_get_set_witness :
    (⟨[1, 2, 3]⟩ : DynamicArray Int).Set 9 1 = .ok ⟨[1, 9, 3]⟩ ∧
      (⟨[1, 9, 3]⟩ : DynamicArray Int).Get 1 = .ok 9 ∧
      (⟨[1, 2, 3]⟩ : DynamicArray Int).Set 9 3 =
        .error (.out_of_range ("Index " ++ toString 3 ++ " is out of range")) :=
  ⟨rfl, ((C40_array_get_set (⟨[1, 2, 3]⟩ : DynamicArray Int) 9 1).2.2.2.2 _ rfl).2.1,
    (C40_array_get_set (⟨[1, 2, 3]⟩ : DynamicArray Int) 9 3).2.1.mp (by decide)⟩

/-! ## Assignment through the reference returned by `Get` -/

theorem SegmentDeque.getRefLoop_spec (d : SegmentDeque T) (index : Nat) (B : List (Segment T)) :
    ∀ A : List (Segment T), d.segments.items.nodes = A ++ B →
      (∀ s ∈ B, s.front_offset ≤ s.back_size ∧ s.back_size ≤ s.data.items.items.length) →
      (A.map Segment.GetEffectiveSize).sum ≤ index →
      index < (A.map Segment.GetEffectiveSize).sum + (B.map Segment.GetEffectiveSize).sum →
      ∃ k seg, d.segments.items.nodes[k]? = some seg ∧
        d.accumulated k ≤ index ∧ index - d.accumulated k < seg.GetEffectiveSize ∧
        d.getRefLoop index B.length A.length (A.map Segment.GetEffectiveSize).sum =
          .ok ⟨k, seg.front_offset + (index - d.accumulated k)⟩ := by
  induction B with
  | nil =>
    intro A _ _ h1 h2
    simp only [List.map_nil, List.sum_nil, Nat.add_zero] at h2
    omega
  | cons s B ih =>
    intro A hd hB hle hlt
    have hs := hB s (by simp)
    have hnode : d.segments.items.nodes[A.length]? = some s := by
      rw [hd]; exact getElem?_append_length A B s
    have hget : d.segments.Get A.length = .ok s := ListSequence.Get_of_getElem? _ hnode
    have hacc : d.accumulated A.length = (A.map Segment.GetEffectiveSize).sum := by
      simp only [SegmentDeque.accumulated, hd, List.take_left']
    have heff : s.GetEffectiveSize = s.back_size - s.front_offset := usub_of_le hs.1
    simp only [List.length_cons, SegmentDeque.getRefLoop, hget]
    by_cases hin : (A.map Segment.GetEffectiveSize).sum + s.GetEffectiveSize > index
    · rw [if_pos hin, usub_of_le hle]
      have hslot : s.front_offset + (index - (A.map Segment.GetEffectiveSize).sum) <
          s.data.items.items.length := by omega
      refine ⟨A.length, s, hnode, by rw [hacc]; exact hle, by rw [hacc]; omega, ?_⟩
      simp only [DynamicArray.CheckIndex_slot_of_lt _ hslot, hacc]
    · rw [if_neg hin]
      have h1 := ih (A ++ [s]) (by simp [hd]) (fun t ht => hB t (by simp [ht]))
      simp only [List.map_append, List.map_cons, List.map_nil, List.sum_append, List.sum_cons,
        List.sum_nil, Nat.add_zero, List.length_append, List.length_cons, List.length_nil,
        Nat.zero_add] at h1
      apply h1 (by omega)
      simp only [List.map_cons, List.sum_cons] at hlt
      omega

theorem SegmentDeque.GetRef_spec (d : SegmentDeque T) (hwf : d.WF) (index : Nat)
    (h : index < d.total_size) :
    ∃ k seg pos, d.segments.items.nodes[k]? = some seg ∧ pos < seg.GetEffectiveSize ∧
      index = d.accumulated k + pos ∧ d.GetRef index = .ok ⟨k, seg.front_offset + pos⟩ := by
  have hsum := d.size_eq_sum hwf
  obtain ⟨k, seg, hseg, hle, hlt, hrun⟩ := d.getRefLoop_spec index d.segments.items.nodes []
    (by simp)
    (fun s hs => ⟨(hwf.segs s hs).1, by rw [(hwf.segs s hs).2.2]; exact (hwf.segs s hs).2.1⟩)
    (by simp) (by simp only [List.map_nil, List.sum_nil, Nat.zero_add]; omega)
  refine ⟨k, seg, index - d.accumulated k, hseg, hlt, by omega, ?_⟩
  simp only [List.length_nil, List.map_nil, List.sum_nil] at hrun
  simp only [SegmentDeque.GetRef, if_neg (Nat.not_le.mpr h), ListSequence.GetSize,
    LinkedList.GetSize, hrun]

/-- C35: for every reachable deque, index `i < GetSize()` and value `v`, the non-const
`Get(i)` returns a reference to the element that `Get(i)` reads, and the assignment
`deque.Get(i) = v` makes `Get(i)` return `v`, leaves `Get(j)` as it was for every
`j != i`, and leaves `GetSize()`, `GetSegmentCount()`, the segment capacity and the
cursors of every segment as they were. -/
theorem C35_assign_through_get (d : SegmentDeque T) (hreach : d.Reachable) (i : Nat)
    (hi : i < d.GetSize) (v : T) :
    ∃ r, d.GetRef i = .ok r ∧ d.Get i = .ok (d.load r) ∧
      d.assign i v = (.ok (), d.store r v) ∧
      (d.assign i v).2.Get i = .ok v ∧
      (∀ j, j ≠ i → (d.assign i v).2.Get j = d.Get j) ∧
      (d.assign i v).2.GetSize = d.GetSize ∧
      (d.assign i v).2.GetSegmentCount = d.GetSegmentCount ∧
      (d.assign i v).2.segment_capacity = d.segment_capacity ∧
      (d.assign i v).2.cursors = d.cursors := by
  have hwf := hreach.wf
  obtain ⟨k, seg, pos, hseg, hpos, hk, href⟩ := d.GetRef_spec hwf i hi
  obtain ⟨hwf1, hl1, hcur, hcap, htot, -, -⟩ := d.store_spec hwf k pos seg hseg hpos v
  have hilt : i < d.toList.length := by rw [← hwf.size_eq]; exact hi
  obtain ⟨hb, hidx⟩ := chain_index d.segments.items.nodes
    (fun s hs => ⟨(hwf.segs s hs).1, by rw [(hwf.segs s hs).2.2]; exact (hwf.segs s hs).2.1⟩)
    k pos seg hseg hpos
  have hassign : d.assign i v = (.ok (), d.store ⟨k, seg.front_offset + pos⟩ v) := by
    simp only [SegmentDeque.assign, href]
  rw [hassign]
  refine ⟨_, href, ?_, rfl, ?_, ?_, htot, ?_, hcap, hcur⟩
  · rw [d.Get_eq hwf, hk]
    show (match (chainElems d.segments.items.nodes)[d.accumulated k + pos]? with
      | some x => Except.ok x
      | none => Except.error (Error.out_of_range "Index out of range")) = _
    rw [show d.accumulated k =
      ((d.segments.items.nodes.take k).map Segment.GetEffectiveSize).sum from rfl,
      hidx, List.getElem?_eq_getElem hb]
    simp only [SegmentDeque.load, hseg, List.getElem?_eq_getElem hb, Option.getD_some]
  · show (d.store ⟨k, seg.front_offset + pos⟩ v).Get i = .ok v
    rw [SegmentDeque.Get_eq _ hwf1, hl1, ← hk, List.getElem?_set, if_pos rfl, if_pos hilt]
  · intro j hj
    show (d.store ⟨k, seg.front_offset + pos⟩ v).Get j = d.Get j
    rw [SegmentDeque.Get_eq _ hwf1, d.Get_eq hwf, hl1, ← hk, List.getElem?_set,
      if_neg (Ne.symm hj)]
  · have hlen := congrArg List.length hcur
    simp only [SegmentDeque.cursors, List.length_map] at hlen
    exact hlen

/-- Witness for C35 on the deque with front slack holding 2, 3: `deque.Get(1) = 9` writes
slot 0 of the second segment. -/
theorem C35_assign_through_get_witness :
    sampleSlack.Reachable ∧ 1 < sampleSlack.GetSize ∧
      sampleSlack.GetRef 1 = .ok ⟨1, 0⟩ ∧
      (sampleSlack.assign 1 9).2.contents = [2, 9] ∧
      (sampleSlack.assign 1 9).2.Get 1 = .ok 9 :=
  have hreach : sampleSlack.Reachable :=
    .popFront _ (.append _ 3 (.append _ 2 (.append _ 1 (.construct 2 fresh2 rfl))))
  ⟨hreach, by decide, rfl, by decide, by
    obtain ⟨r, -, -, -, h, -⟩ := C35_assign_through_get sampleSlack hreach 1 (by decide) 9
    exact h⟩

/-! ## The linked list, node by node -/

theorem LinkedNodes.Represents.node_cell {U : Type} {l : LinkedNodes U} {addrs : List Nat}
    {L : List U} (h : l.Represents addrs L) (k a : Nat) (x : U) (ha : addrs[k]? = some a)
    (hx : L[k]? = some x) :
    l.cells[a]? = some ⟨x, addrs[k + 1]?, if k = 0 then none else addrs[k - 1]?⟩ := by
  have hk : k < L.length := (List.getElem?_eq_some.mp hx).1
  have := h.2.2.2.2.2 k hk
  rw [ha, hx] at this
  simpa using this

theorem LinkedNodes.Represents.of_node_cells {U : Type} {l : LinkedNodes U} {addrs : List Nat}
    {L : List U} (hlen : addrs.length = L.length) (hsize : l.size = L.length)
    (hnd : addrs.Nodup) (hhead : l.head = addrs[0]?) (htail : l.tail = addrs[addrs.length - 1]?)
    (hcells : ∀ k a x, addrs[k]? = some a → L[k]? = some x →
      l.cells[a]? =
        some (⟨x, addrs[k + 1]?, if k = 0 then none else addrs[k - 1]?⟩ : Node U)) :
    l.Represents addrs L := by
  refine ⟨hlen, hsize, hnd, hhead, htail, ?_⟩
  intro k hk
  have hk' : k < addrs.length := by omega
  rw [List.getElem?_eq_getElem hk', List.getElem?_eq_getElem hk]
  simp only [Option.some_bind, Option.map_some']
  exact hcells k _ _ (List.getElem?_eq_getElem hk') (List.getElem?_eq_getElem hk)

theorem LinkedNodes.Represents.node_addr_inj {U : Type} {l : LinkedNodes U} {addrs : List Nat}
    {L : List U} (h : l.Represents addrs L) {j k a : Nat} (hj : addrs[j]? = some a)
    (hk : addrs[k]? = some a) : j = k :=
  List.getElem?_inj (List.getElem?_eq_some.mp hj).1 h.2.2.1 (by rw [hj, hk])

theorem LinkedNodes.nodes_walkNext {U : Type} {l : LinkedNodes U} {addrs : List Nat}
    {L : List U} (h : l.Represents addrs L) :
    ∀ n k, k + n < L.length →
      LinkedNodes.walkNext l.cells n addrs[k]? = some addrs[k + n]? := by
  intro n
  induction n with
  | zero => intro k _; rfl
  | succ n ih =>
    intro k hk
    have hka : k < addrs.length := by rw [h.1]; omega
    have hkl : k < L.length := by omega
    have hcell := h.node_cell k _ _ (List.getElem?_eq_getElem hka) (List.getElem?_eq_getElem hkl)
    rw [List.getElem?_eq_getElem hka]
    simp only [LinkedNodes.walkNext, LinkedNodes.deref, hcell]
    rw [ih (k + 1) (by omega)]
    congr 2
    omega

theorem LinkedNodes.nodes_walkPrev {U : Type} {l : LinkedNodes U} {addrs : List Nat}
    {L : List U} (h : l.Represents addrs L) :
    ∀ n k, n ≤ k → k < L.length →
      LinkedNodes.walkPrev l.cells n addrs[k]? = some addrs[k - n]? := by
  intro n
  induction n with
  | zero => intro k _ _; rfl
  | succ n ih =>
    intro k hnk hk
    have hka : k < addrs.length := by rw [h.1]; omega
    have hcell := h.node_cell k _ _ (List.getElem?_eq_getElem hka) (List.getElem?_eq_getElem hk)
    rw [List.getElem?_eq_getElem hka]
    simp only [LinkedNodes.walkPrev, LinkedNodes.deref, hcell]
    rw [if_neg (by omega), ih (k - 1) (by omega) (by omega)]
    congr 2
    omega

theorem LinkedNodes.nodes_CheckIndex_ok {U : Type} (l : LinkedNodes U) {i : Nat} (h : i < l.size) :
    l.CheckIndex i = .ok () := by
  have h1 : ¬ (i ≥ l.size ∨ l.size = 0) := by omega
  simp only [LinkedNodes.CheckIndex, if_neg h1]

theorem LinkedNodes.nodes_CheckIndex_error {U : Type} (l : LinkedNodes U) {i : Nat} (h : l.size ≤ i) :
    l.CheckIndex i = .error (.out_of_range ("Index " ++ toString i ++ " is out of range")) := by
  simp only [LinkedNodes.CheckIndex, if_pos (Or.inl h : i ≥ l.size ∨ l.size = 0)]

theorem LinkedNodes.nodes_Get {U : Type} {l : LinkedNodes U} {addrs : List Nat}
    {L : List U} (h : l.Represents addrs L) (i : Nat) :
    l.Get i = match L[i]? with
      | some x => .ok x
      | none => .thrown (.out_of_range ("Index " ++ toString i ++ " is out of range")) := by
  by_cases hi : i < L.length
  · have hia : i < addrs.length := by rw [h.1]; exact hi
    have hwalk := LinkedNodes.nodes_walkNext h i 0 (by omega)
    rw [Nat.zero_add, ← h.2.2.2.1] at hwalk
    have hcell := h.node_cell i _ _ (List.getElem?_eq_getElem hia) (List.getElem?_eq_getElem hi)
    simp only [LinkedNodes.Get, l.nodes_CheckIndex_ok (show i < l.size by rw [h.2.1]; exact hi),
      hwalk, List.getElem?_eq_getElem hia, LinkedNodes.deref, hcell, List.getElem?_eq_getElem hi]
  · have hle : L.length ≤ i := Nat.not_lt.mp hi
    simp only [LinkedNodes.Get, l.nodes_CheckIndex_error (show l.size ≤ i by rw [h.2.1]; exact hle),
      List.getElem?_eq_none hle]

theorem LinkedNodes.nodes_getElem?_congr {U : Type} (xs : List U) {m m' : Nat} (h : m = m') :
    xs[m]? = xs[m']? := by rw [h]

theorem LinkedNodes.nodes_unlink {U : Type} {l : LinkedNodes U} {addrs : List Nat}
    {L : List U} (h : l.Represents addrs L) (i : Nat) (hi : i < L.length) :
    ∃ l1, l.unlink i = some l1 ∧ l1.Represents (addrs.eraseIdx i) (L.eraseIdx i) := by
  have hlen := h.1
  have hsize := h.2.1
  have hia : i < addrs.length := by rw [hlen]; exact hi
  have hwalk : (if i < usub l.size i then LinkedNodes.walkNext l.cells i l.head
      else LinkedNodes.walkPrev l.cells (usub l.size 1 - i) l.tail) = some (some addrs[i]) := by
    rw [usub_of_le (show i ≤ l.size by omega), usub_of_le (show 1 ≤ l.size by omega)]
    split
    · rw [h.2.2.2.1, LinkedNodes.nodes_walkNext h i 0 (by omega), Nat.zero_add,
        List.getElem?_eq_getElem hia]
    · rw [h.2.2.2.2.1,
        LinkedNodes.nodes_walkPrev h (l.size - 1 - i) (addrs.length - 1) (by omega) (by omega),
        LinkedNodes.nodes_getElem?_congr addrs
          (show addrs.length - 1 - (l.size - 1 - i) = i by omega),
        List.getElem?_eq_getElem hia]
  have hcur := h.node_cell i _ _ (List.getElem?_eq_getElem hia) (List.getElem?_eq_getElem hi)
  -- the links of the predecessor
  obtain ⟨cells1, head1, hA, hhead1, hcells1⟩ : ∃ cells1 head1,
      (match (if i = 0 then none else addrs[i - 1]?) with
        | some prev =>
          match LinkedNodes.setNext l.cells (some prev) addrs[i + 1]? with
          | none => none
          | some cells1 => some (cells1, l.head)
        | none => some (l.cells, addrs[i + 1]?)) = some (cells1, head1) ∧
      head1 = (addrs.eraseIdx i)[0]? ∧
      ∀ k a x, addrs[k]? = some a → L[k]? = some x →
        cells1[a]? = some (⟨x, if k + 1 = i then addrs[i + 1]? else addrs[k + 1]?,
          if k = 0 then none else addrs[k - 1]?⟩ : Node U) := by
    by_cases hi0 : i = 0
    · subst hi0
      refine ⟨l.cells, addrs[1]?, by simp, ?_, ?_⟩
      · rw [List.getElem?_eraseIdx]; simp
      · intro k a x ha hx
        rw [if_neg (by omega)]
        exact h.node_cell k a x ha hx
    · have hp : i - 1 < addrs.length := by omega
      have hpl : i - 1 < L.length := by omega
      have hpc := h.node_cell (i - 1) _ _ (List.getElem?_eq_getElem hp) (List.getElem?_eq_getElem hpl)
      refine ⟨l.cells.set addrs[i - 1]
        ⟨L[i - 1], addrs[i + 1]?, if i - 1 = 0 then none else addrs[i - 1 - 1]?⟩, l.head,
        ?_, ?_, ?_⟩
      · simp only [if_neg hi0, List.getElem?_eq_getElem hp, LinkedNodes.setNext, hpc]
      · rw [h.2.2.2.1, List.getElem?_eraseIdx, if_pos (by omega)]
      · intro k a x ha hx
        by_cases hk : k + 1 = i
        · have hk' : k = i - 1 := by omega
          subst hk'
          rw [List.getElem?_eq_getElem hp] at ha
          rw [List.getElem?_eq_getElem hpl] at hx
          cases ha
          cases hx
          rw [if_pos hk, List.getElem?_set_self (List.getElem?_eq_some.mp hpc).1]
        · have hne : addrs[i - 1] ≠ a := by
            intro e
            have := h.node_addr_inj (List.getElem?_eq_getElem hp) (e ▸ ha)
            omega
          rw [if_neg hk, List.getElem?_set_ne hne]
          exact h.node_cell k a x ha hx
  have hcur1 := hcells1 i _ _ (List.getElem?_eq_getElem hia) (List.getElem?_eq_getElem hi)
  rw [if_neg (show ¬ (i + 1 = i) by omega)] at hcur1
  -- the links of the successor
  obtain ⟨cells2, tail2, hB, htail2, hcells2⟩ : ∃ cells2 tail2,
      (match addrs[i + 1]? with
        | some next =>
          match LinkedNodes.setPrev cells1 (some next)
              (if i = 0 then none else addrs[i - 1]?) with
          | none => none
          | some cells2 => some (cells2, l.tail)
        | none => some (cells1, if i = 0 then none else addrs[i - 1]?)) =
        some (cells2, tail2) ∧
      tail2 = (addrs.eraseIdx i)[(addrs.eraseIdx i).length - 1]? ∧
      ∀ k a x, addrs[k]? = some a → L[k]? = some x → k ≠ i →
        cells2[a]? = some (⟨x, if k + 1 = i then addrs[i + 1]? else addrs[k + 1]?,
          if k = i + 1 then (if i = 0 then none else addrs[i - 1]?)
          else if k = 0 then none else addrs[k - 1]?⟩ : Node U) := by
    by_cases hn : i + 1 < addrs.length
    · have hnl : i + 1 < L.length := by omega
      have hnc := hcells1 (i + 1) _ _ (List.getElem?_eq_getElem hn)
        (List.getElem?_eq_getElem hnl)
      rw [if_neg (show ¬ (i + 1 + 1 = i) by omega)] at hnc
      refine ⟨cells1.set addrs[i + 1]
        ⟨L[i + 1], addrs[i + 1 + 1]?, if i = 0 then none else addrs[i - 1]?⟩, l.tail,
        ?_, ?_, ?_⟩
      · simp only [List.getElem?_eq_getElem hn, LinkedNodes.setPrev, hnc]
      · rw [h.2.2.2.2.1, List.length_eraseIdx, if_pos hia, List.getElem?_eraseIdx,
          if_neg (show ¬ (addrs.length - 1 - 1 < i) by omega)]
        exact LinkedNodes.nodes_getElem?_congr addrs (by omega)
      · intro k a x ha hx hki
        by_cases hk : k = i + 1
        · subst hk
          rw [List.getElem?_eq_getElem hn] at ha
          rw [List.getElem?_eq_getElem hnl] at hx
          cases ha
          cases hx
          rw [if_neg (show ¬ (i + 1 + 1 = i) by omega), if_pos (rfl : i + 1 = i + 1),
            List.getElem?_set_self (List.getElem?_eq_some.mp hnc).1]
        · have hne : addrs[i + 1] ≠ a := by
            intro e
            have := h.node_addr_inj (List.getElem?_eq_getElem hn) (e ▸ ha)
            omega
          rw [if_neg hk, List.getElem?_set_ne hne]
          exact hcells1 k a x ha hx
    · have hnone : addrs[i + 1]? = none := List.getElem?_eq_none (by omega)
      refine ⟨cells1, if i = 0 then none else addrs[i - 1]?, ?_, ?_, ?_⟩
      · simp only [hnone]
      · rw [List.length_eraseIdx, if_pos hia]
        by_cases hi0 : i = 0
        · rw [if_pos hi0]
          refine (List.getElem?_eq_none ?_).symm
          rw [List.length_eraseIdx, if_pos hia]
          omega
        · rw [if_neg hi0, List.getElem?_eraseIdx,
            if_pos (show addrs.length - 1 - 1 < i by omega)]
          exact LinkedNodes.nodes_getElem?_congr addrs (by omega)
      · intro k a x ha hx hki
        have hka : k < addrs.length := (List.getElem?_eq_some.mp ha).1
        rw [if_neg (show ¬ (k = i + 1) by omega)]
        exact hcells1 k a x ha hx
  refine ⟨⟨cells2, head1, tail2, usub l.size 1⟩, ?_, ?_⟩
  · simp only [LinkedNodes.unlink, hwalk, LinkedNodes.deref, hcur, hA, hcur1, hB]
  · refine LinkedNodes.Represents.of_node_cells ?_ ?_ ?_ hhead1 htail2 ?_
    · rw [List.length_eraseIdx, List.length_eraseIdx, if_pos hia, if_pos hi, hlen]
    · show usub l.size 1 = _
      rw [usub_of_le (show 1 ≤ l.size by omega), List.length_eraseIdx, if_pos hi, hsize]
    · exact h.2.2.1.sublist (List.eraseIdx_sublist addrs i)
    · intro k a x ha hx
      rw [List.getElem?_eraseIdx] at ha hx
      by_cases hk : k < i
      · rw [if_pos hk] at ha hx
        have e1 : (if k + 1 = i then addrs[i + 1]? else addrs[k + 1]?) =
            (addrs.eraseIdx i)[k + 1]? := by
          rw [List.getElem?_eraseIdx]
          by_cases hk1 : k + 1 = i
          · rw [if_pos hk1, if_neg (show ¬ (k + 1 < i) by omega)]
            exact LinkedNodes.nodes_getElem?_congr addrs (by omega)
          · rw [if_neg hk1, if_pos (show k + 1 < i by omega)]
        have e2 : (if k = 0 then none else addrs[k - 1]?) =
            (if k = 0 then none else (addrs.eraseIdx i)[k - 1]?) := by
          rw [List.getElem?_eraseIdx, if_pos (show k - 1 < i by omega)]
        rw [hcells2 k a x ha hx (by omega), if_neg (show ¬ (k = i + 1) by omega), e1, e2]
      · rw [if_neg hk] at ha hx
        have e1 : (if k + 1 + 1 = i then addrs[i + 1]? else addrs[k + 1 + 1]?) =
            (addrs.eraseIdx i)[k + 1]? := by
          rw [List.getElem?_eraseIdx, if_neg (show ¬ (k + 1 + 1 = i) by omega),
            if_neg (show ¬ (k + 1 < i) by omega)]
        have e2 : (if k + 1 = i + 1 then (if i = 0 then none else addrs[i - 1]?)
            else if k + 1 = 0 then none else addrs[k + 1 - 1]?) =
            (if k = 0 then none else (addrs.eraseIdx i)[k - 1]?) := by
          rw [List.getElem?_eraseIdx]
          by_cases hki : k = i
          · subst hki
            rw [if_pos (rfl : k + 1 = k + 1)]
            by_cases hk0 : k = 0
            · rw [if_pos hk0, if_pos hk0]
            · rw [if_neg hk0, if_neg hk0, if_pos (show k - 1 < k by omega)]
          · rw [if_neg (show ¬ (k + 1 = i + 1) by omega), if_neg (show ¬ (k + 1 = 0) by omega),
              if_neg (show ¬ (k = 0) by omega), if_neg (show ¬ (k - 1 < i) by omega)]
            exact LinkedNodes.nodes_getElem?_congr addrs (by omega)
        rw [hcells2 (k + 1) a x ha hx (by omega), e1, e2]

theorem LinkedNodes.nodes_RemoveNode {U : Type} {l : LinkedNodes U} {addrs : List Nat}
    {L : List U} (h : l.Represents addrs L) (i : Nat) (hi : i < L.length) :
    ∃ l1, l.RemoveNode i = .ok l1 ∧ l1.Represents (addrs.eraseIdx i) (L.eraseIdx i) := by
  obtain ⟨l1, h1, h2⟩ := LinkedNodes.nodes_unlink h i hi
  refine ⟨l1, ?_, h2⟩
  simp only [LinkedNodes.RemoveNode, l.nodes_CheckIndex_ok (show i < l.size by rw [h.2.1]; exact hi),
    h1, Outcome.ofOption]

theorem LinkedNodes.nodes_RemoveNode_error {U : Type} {l : LinkedNodes U} {addrs : List Nat}
    {L : List U} (h : l.Represents addrs L) (i : Nat) (hi : L.length ≤ i) :
    l.RemoveNode i = .thrown (.out_of_range ("Index " ++ toString i ++ " is out of range")) := by
  simp only [LinkedNodes.RemoveNode, l.nodes_CheckIndex_error (show l.size ≤ i by rw [h.2.1]; exact hi)]

theorem LinkedNodes.Represents.of_empty {U : Type} :
    (LinkedNodes.empty : LinkedNodes U).Represents [] [] :=
  ⟨rfl, rfl, List.nodup_nil, rfl, rfl, fun k hk => absurd hk (Nat.not_lt_zero k)⟩

theorem LinkedNodes.Represents.node_addr_lt {U : Type} {l : LinkedNodes U} {addrs : List Nat}
    {L : List U} (h : l.Represents addrs L) {k a : Nat} (ha : addrs[k]? = some a) :
    a < l.cells.length := by
  have hk : k < L.length := by rw [← h.1]; exact (List.getElem?_eq_some.mp ha).1
  exact (List.getElem?_eq_some.mp (h.node_cell k a _ ha (List.getElem?_eq_getElem hk))).1

theorem LinkedNodes.Represents.node_fresh {U : Type} {l : LinkedNodes U} {addrs : List Nat}
    {L : List U} (h : l.Represents addrs L) : l.cells.length ∉ addrs := by
  intro hmem
  obtain ⟨k, hk⟩ := List.mem_iff_getElem?.mp hmem
  exact Nat.lt_irrefl _ (h.node_addr_lt hk)

theorem LinkedNodes.nodes_Append {U : Type} {l : LinkedNodes U} {addrs : List Nat}
    {L : List U} (h : l.Represents addrs L) (v : U) :
    ∃ l1, l.Append v = .ok l1 ∧ l1.Represents (addrs ++ [l.cells.length]) (L ++ [v]) := by
  have hlen := h.1
  have hsize := h.2.1
  have hnd : (addrs ++ [l.cells.length]).Nodup :=
    List.Nodup.append h.2.2.1 (List.nodup_singleton _)
      (by
        intro a ha hb
        rw [List.mem_singleton] at hb
        exact h.node_fresh (hb ▸ ha))
  have hnew : (l.cells ++ [(⟨v, none, none⟩ : Node U)])[l.cells.length]? =
      some ⟨v, none, none⟩ := by
    rw [List.getElem?_append_right (Nat.le_refl _), Nat.sub_self]
    rfl
  by_cases hnil : addrs.length = 0
  · have hL : L.length = 0 := by omega
    have ha0 : addrs = [] := List.length_eq_zero.mp hnil
    have hL0 : L = [] := List.length_eq_zero.mp hL
    have htail : l.tail = none := by rw [h.2.2.2.2.1, ha0]; rfl
    refine ⟨⟨l.cells ++ [(⟨v, none, none⟩ : Node U)], some l.cells.length, some l.cells.length,
      l.size + 1⟩, by simp only [LinkedNodes.Append, htail], ?_⟩
    subst ha0 hL0
    refine LinkedNodes.Represents.of_node_cells rfl (by show l.size + 1 = 1; rw [hsize]; rfl) hnd
      rfl rfl ?_
    intro k a x ha hx
    have hk : k = 0 := by
      have := (List.getElem?_eq_some.mp ha).1
      simp at this
      exact this
    subst hk
    simp at ha hx
    subst ha hx
    show (l.cells ++ [(⟨v, none, none⟩ : Node U)])[l.cells.length]? = _
    rw [hnew]
    rfl
  · have hp : addrs.length - 1 < addrs.length := by omega
    have hpl : addrs.length - 1 < L.length := by omega
    have htail : l.tail = some addrs[addrs.length - 1] := by
      rw [h.2.2.2.2.1, List.getElem?_eq_getElem hp]
    have hc := h.node_cell _ _ _ (List.getElem?_eq_getElem hp) (List.getElem?_eq_getElem hpl)
    have hnone : addrs[addrs.length - 1 + 1]? = none := List.getElem?_eq_none (by omega)
    rw [hnone] at hc
    have htlt : addrs[addrs.length - 1] < l.cells.length := (List.getElem?_eq_some.mp hc).1
    have hc1 : (l.cells ++ [(⟨v, none, none⟩ : Node U)])[addrs[addrs.length - 1]]? =
        some ⟨L[addrs.length - 1], none,
          if addrs.length - 1 = 0 then none else addrs[addrs.length - 1 - 1]?⟩ := by
      rw [List.getElem?_append_left htlt, hc]
    have hne : addrs[addrs.length - 1] ≠ l.cells.length := by omega
    have hc2 : ((l.cells ++ [(⟨v, none, none⟩ : Node U)]).set addrs[addrs.length - 1]
        ⟨L[addrs.length - 1], some l.cells.length,
          if addrs.length - 1 = 0 then none else addrs[addrs.length - 1 - 1]?⟩)[l.cells.length]? =
        some ⟨v, none, none⟩ := by
      rw [List.getElem?_set_ne hne, hnew]
    refine ⟨⟨((l.cells ++ [(⟨v, none, none⟩ : Node U)]).set addrs[addrs.length - 1]
        ⟨L[addrs.length - 1], some l.cells.length,
          if addrs.length - 1 = 0 then none else addrs[addrs.length - 1 - 1]?⟩).set
        l.cells.length ⟨v, none, some addrs[addrs.length - 1]⟩,
      l.head, some l.cells.length, l.size + 1⟩,
      by simp only [LinkedNodes.Append, htail, LinkedNodes.setNext, hc1,
        LinkedNodes.setPrev, hc2], ?_⟩
    refine LinkedNodes.Represents.of_node_cells (by simp [hlen]) (by simp [hsize]) hnd ?_ ?_ ?_
    · show l.head = _
      rw [h.2.2.2.1, List.getElem?_append_left (by omega)]
    · simp
    · intro k a x ha hx
      show (((l.cells ++ [(⟨v, none, none⟩ : Node U)]).set addrs[addrs.length - 1] _).set
        l.cells.length _)[a]? = _
      by_cases hk : k < addrs.length
      · rw [List.getElem?_append_left hk] at ha
        rw [List.getElem?_append_left (show k < L.length by omega)] at hx
        have halt := h.node_addr_lt ha
        rw [List.getElem?_set_ne (show l.cells.length ≠ a by omega)]
        by_cases hkl : k = addrs.length - 1
        · subst hkl
          rw [List.getElem?_eq_getElem hp] at ha
          rw [List.getElem?_eq_getElem hpl] at hx
          cases ha
          cases hx
          rw [List.getElem?_set_self (by rw [List.length_append]; omega)]
          congr 2
          · rw [List.getElem?_append_right (by omega)]
            simp [show addrs.length - 1 + 1 - addrs.length = 0 by omega]
          · by_cases h0 : addrs.length - 1 = 0
            · rw [if_pos h0, if_pos h0]
            · rw [if_neg h0, if_neg h0, List.getElem?_append_left (by omega)]
        · have hne2 : addrs[addrs.length - 1] ≠ a := by
            intro e
            have := h.node_addr_inj (List.getElem?_eq_getElem hp) (e ▸ ha)
            omega
          rw [List.getElem?_set_ne hne2, List.getElem?_append_left halt, h.node_cell k a x ha hx]
          congr 2
          · rw [List.getElem?_append_left (by omega)]
          · by_cases h0 : k = 0
            · rw [if_pos h0, if_pos h0]
            · rw [if_neg h0, if_neg h0, List.getElem?_append_left (by omega)]
      · have hkeq : k = addrs.length := by
          have := (List.getElem?_eq_some.mp ha).1
          rw [List.length_append, List.length_singleton] at this
          omega
        subst hkeq
        rw [List.getElem?_append_right (Nat.le_refl _)] at ha
        rw [hlen, List.getElem?_append_right (Nat.le_refl _)] at hx
        simp at ha hx
        subst ha hx
        rw [List.getElem?_set_self (by simp)]
        congr 2
        · exact (List.getElem?_eq_none (by simp)).symm
        · rw [if_neg hnil, List.getElem?_append_left (by omega),
            List.getElem?_eq_getElem (by omega)]

theorem LinkedNodes.nodes_Prepend {U : Type} {l : LinkedNodes U} {addrs : List Nat}
    {L : List U} (h : l.Represents addrs L) (v : U) :
    ∃ l1, l.Prepend v = .ok l1 ∧ l1.Represents (l.cells.length :: addrs) (v :: L) := by
  have hlen := h.1
  have hsize := h.2.1
  have hnd : (l.cells.length :: addrs).Nodup := List.nodup_cons.mpr ⟨h.node_fresh, h.2.2.1⟩
  have hnew : (l.cells ++ [(⟨v, none, none⟩ : Node U)])[l.cells.length]? =
      some ⟨v, none, none⟩ := by
    rw [List.getElem?_append_right (Nat.le_refl _), Nat.sub_self]
    rfl
  by_cases hnil : addrs.length = 0
  · have hL : L.length = 0 := by omega
    have ha0 : addrs = [] := List.length_eq_zero.mp hnil
    have hL0 : L = [] := List.length_eq_zero.mp hL
    have htail : l.tail = none := by rw [h.2.2.2.2.1, ha0]; rfl
    refine ⟨⟨l.cells ++ [(⟨v, none, none⟩ : Node U)], some l.cells.length, some l.cells.length,
      l.size + 1⟩, by simp only [LinkedNodes.Prepend, htail], ?_⟩
    subst ha0 hL0
    refine LinkedNodes.Represents.of_node_cells rfl (by show l.size + 1 = 1; rw [hsize]; rfl) hnd
      rfl rfl ?_
    intro k a x ha hx
    have hk : k = 0 := by
      have := (List.getElem?_eq_some.mp ha).1
      simp at this
      exact this
    subst hk
    simp at ha hx
    subst ha hx
    show (l.cells ++ [(⟨v, none, none⟩ : Node U)])[l.cells.length]? = _
    rw [hnew]
    rfl
  · have hp : addrs.length - 1 < addrs.length := by omega
    have h0 : 0 < addrs.length := by omega
    have h0l : 0 < L.length := by omega
    have htail : l.tail = some addrs[addrs.length - 1] := by
      rw [h.2.2.2.2.1, List.getElem?_eq_getElem hp]
    have hhead : l.head = some addrs[0] := by
      rw [h.2.2.2.1, List.getElem?_eq_getElem h0]
    have hc := h.node_cell _ _ _ (List.getElem?_eq_getElem h0) (List.getElem?_eq_getElem h0l)
    rw [if_pos rfl] at hc
    have hhlt : addrs[0] < l.cells.length := (List.getElem?_eq_some.mp hc).1
    have hc1 : (l.cells ++ [(⟨v, none, none⟩ : Node U)])[addrs[0]]? =
        some ⟨L[0], addrs[0 + 1]?, none⟩ := by
      rw [List.getElem?_append_left hhlt, hc]
    have hne : addrs[0] ≠ l.cells.length := by omega
    have hc2 : ((l.cells ++ [(⟨v, none, none⟩ : Node U)]).set addrs[0]
        ⟨L[0], addrs[0 + 1]?, some l.cells.length⟩)[l.cells.length]? =
        some ⟨v, none, none⟩ := by
      rw [List.getElem?_set_ne hne, hnew]
    refine ⟨⟨((l.cells ++ [(⟨v, none, none⟩ : Node U)]).set addrs[0]
        ⟨L[0], addrs[0 + 1]?, some l.cells.length⟩).set
        l.cells.length ⟨v, some addrs[0], none⟩,
      some l.cells.length, l.tail, l.size + 1⟩,
      by simp only [LinkedNodes.Prepend, htail, hhead, LinkedNodes.setNext, hc1,
        LinkedNodes.setPrev, hc2], ?_⟩
    refine LinkedNodes.Represents.of_node_cells (by simp [hlen]) (by simp [hsize]) hnd
      List.getElem?_cons_zero.symm ?_ ?_
    · show l.tail = _
      rw [h.2.2.2.2.1, List.length_cons, Nat.add_sub_cancel,
        LinkedNodes.nodes_getElem?_congr (l.cells.length :: addrs)
          (show addrs.length = addrs.length - 1 + 1 by omega),
        List.getElem?_cons_succ]
    · intro k a x ha hx
      show (((l.cells ++ [(⟨v, none, none⟩ : Node U)]).set addrs[0] _).set
        l.cells.length _)[a]? = _
      cases k with
      | zero =>
        simp at ha hx
        subst ha hx
        rw [List.getElem?_set_self (by simp)]
        congr 2
        rw [List.getElem?_cons_succ, List.getElem?_eq_getElem h0]
      | succ m =>
        rw [List.getElem?_cons_succ] at ha hx
        have halt := h.node_addr_lt ha
        rw [List.getElem?_set_ne (show l.cells.length ≠ a by omega),
          if_neg (show ¬ (m + 1 = 0) by omega), Nat.add_sub_cancel, List.getElem?_cons_succ]
        by_cases hm : m = 0
        · subst hm
          rw [List.getElem?_eq_getElem h0] at ha
          rw [List.getElem?_eq_getElem h0l] at hx
          cases ha
          cases hx
          rw [List.getElem?_set_self (by rw [List.length_append]; omega),
            List.getElem?_cons_zero]
        · have hne2 : addrs[0] ≠ a := by
            intro e
            have := h.node_addr_inj (List.getElem?_eq_getElem h0) (e ▸ ha)
            omega
          rw [List.getElem?_set_ne hne2, List.getElem?_append_left halt, h.node_cell m a x ha hx,
            if_neg hm,
            LinkedNodes.nodes_getElem?_congr (l.cells.length :: addrs)
              (show m = m - 1 + 1 by omega),
            List.getElem?_cons_succ]

theorem LinkedNodes.nodes_AppendAll {U : Type} (values : List U) :
    ∀ {l : LinkedNodes U} {addrs : List Nat} {L : List U}, l.Represents addrs L →
      ∃ l1 addrs1, l.AppendAll values = .ok l1 ∧ l1.Represents addrs1 (L ++ values) := by
  induction values with
  | nil =>
    intro l addrs L h
    exact ⟨l, addrs, rfl, by rw [List.append_nil]; exact h⟩
  | cons v values ih =>
    intro l addrs L h
    obtain ⟨l1, h1, hrep1⟩ := LinkedNodes.nodes_Append h v
    obtain ⟨l2, addrs2, h2, hrep2⟩ := ih hrep1
    refine ⟨l2, addrs2, ?_, ?_⟩
    · simp only [LinkedNodes.AppendAll, h1, h2]
    · rw [List.append_assoc] at hrep2
      exact hrep2

/-- C36: for a linked list of size `n` and `i < n`, `LinkedList::RemoveNode(i)` and
`ListSequence::RemoveNode(i)` return and leave a well-linked list of size `n - 1` in which
`Get(j)` is what it was for `j < i` and what `Get(j + 1)` was for `i <= j < n - 1`; for
`i >= n` they throw `std::out_of_range` (from `CheckIndex`, before any node is touched, so
the list is the one it was).  The statement is about the nodes and their `next` and `prev`
pointers (`l`), and about the chain of values that stands for them in the embedding of the
deque (`s`), which the nodes represent before and after the call. -/
theorem C36_remove_node (l : LinkedNodes T) (addrs : List Nat) (s : ListSequence T)
    (h : l.Represents addrs s.items.nodes) (i : Nat) :
    (i < l.GetSize →
      ∃ l1 s1, l.RemoveNode i = .ok l1 ∧ l.SequenceRemoveNode i = .ok l1 ∧
        s.RemoveNode i = .ok s1 ∧ l1.Represents (addrs.eraseIdx i) s1.items.nodes ∧
        l1.GetSize = l.GetSize - 1 ∧ s1.GetSize = s.GetSize - 1 ∧
        (∀ j, j < l.GetSize → ∃ x, l.Get j = .ok x ∧ s.Get j = .ok x) ∧
        (∀ j, j < l1.GetSize → ∃ x, l1.Get j = .ok x ∧ s1.Get j = .ok x) ∧
        (∀ j, j < i → l1.Get j = l.Get j ∧ s1.Get j = s.Get j) ∧
        (∀ j, i ≤ j → j < l.GetSize - 1 →
          l1.Get j = l.Get (j + 1) ∧ s1.Get j = s.Get (j + 1))) ∧
    (l.GetSize ≤ i →
      l.RemoveNode i =
        .thrown (.out_of_range ("Index " ++ toString i ++ " is out of range")) ∧
      l.SequenceRemoveNode i =
        .thrown (.out_of_range ("Index " ++ toString i ++ " is out of range")) ∧
      s.RemoveNode i =
        .error (.out_of_range ("Index " ++ toString i ++ " is out of range"))) := by
  have hsz : l.GetSize = s.items.nodes.length := h.2.1
  have hget : ∀ {l0 : LinkedNodes T} {a0 : List Nat} {s0 : ListSequence T},
      l0.Represents a0 s0.items.nodes → ∀ j (hj : j < s0.items.nodes.length),
        l0.Get j = .ok s0.items.nodes[j] ∧ s0.Get j = .ok s0.items.nodes[j] := by
    intro l0 a0 s0 h0 j hj
    refine ⟨?_, ListSequence.Get_node_of_lt s0 hj⟩
    rw [LinkedNodes.nodes_Get h0 j, List.getElem?_eq_getElem hj]
  constructor
  · intro hi
    rw [hsz] at hi
    obtain ⟨l1, hr, hrep⟩ := LinkedNodes.nodes_RemoveNode h i hi
    have hrep1 : l1.Represents (addrs.eraseIdx i)
        (⟨⟨s.items.nodes.eraseIdx i⟩⟩ : ListSequence T).items.nodes := hrep
    have hlen1 : (s.items.nodes.eraseIdx i).length = s.items.nodes.length - 1 := by
      rw [List.length_eraseIdx, if_pos hi]
    have hsz1 : l1.GetSize = s.items.nodes.length - 1 := by
      rw [← hlen1]; exact hrep.2.1
    refine ⟨l1, ⟨⟨s.items.nodes.eraseIdx i⟩⟩, hr, hr, ListSequence.RemoveNode_of_lt s hi,
      hrep, ?_, ?_, ?_, ?_, ?_, ?_⟩
    · rw [hsz1, hsz]
    · show (s.items.nodes.eraseIdx i).length = s.items.nodes.length - 1
      exact hlen1
    · intro j hj
      rw [hsz] at hj
      exact ⟨_, hget h j hj⟩
    · intro j hj
      rw [hsz1, ← hlen1] at hj
      exact ⟨_, hget hrep1 j hj⟩
    · intro j hj
      have hj0 : j < s.items.nodes.length := by omega
      have hj1 : j < (s.items.nodes.eraseIdx i).length := by omega
      have e : (s.items.nodes.eraseIdx i)[j] = s.items.nodes[j] := by
        have := List.getElem?_eraseIdx s.items.nodes i j
        rw [if_pos hj, List.getElem?_eq_getElem hj1, List.getElem?_eq_getElem hj0] at this
        exact Option.some.inj this
      obtain ⟨a1, a2⟩ := hget hrep1 j hj1
      obtain ⟨b1, b2⟩ := hget h j hj0
      exact ⟨by rw [a1, b1]; exact congrArg _ e, by rw [a2, b2]; exact congrArg _ e⟩
    · intro j hij hj
      rw [hsz] at hj
      have hj0 : j + 1 < s.items.nodes.length := by omega
      have hj1 : j < (s.items.nodes.eraseIdx i).length := by omega
      have e : (s.items.nodes.eraseIdx i)[j] = s.items.nodes[j + 1] := by
        have := List.getElem?_eraseIdx s.items.nodes i j
        rw [if_neg (show ¬ (j < i) by omega), List.getElem?_eq_getElem hj1,
          List.getElem?_eq_getElem hj0] at this
        exact Option.some.inj this
      obtain ⟨a1, a2⟩ := hget hrep1 j hj1
      obtain ⟨b1, b2⟩ := hget h (j + 1) hj0
      exact ⟨by rw [a1, b1]; exact congrArg _ e, by rw [a2, b2]; exact congrArg _ e⟩
  · intro hi
    rw [hsz] at hi
    have hr := LinkedNodes.nodes_RemoveNode_error h i hi
    refine ⟨hr, hr, ?_⟩
    have hc : i ≥ s.items.GetSize ∨ s.items.GetSize = 0 := Or.inl hi
    simp only [ListSequence.RemoveNode, LinkedList.RemoveNode, LinkedList.CheckIndex, if_pos hc]

/-- Witness for C36 on the list 10, 20, 30, 40 built by four calls of `Append`:
`RemoveNode(2)` leaves 10, 20, 40. -/
theorem C36_remove_node_witness :
    (LinkedNodes.empty : LinkedNodes Int).AppendAll [10, 20, 30, 40] = .ok fourNodes ∧
      fourNodes.Represents [0, 1, 2, 3] [10, 20, 30, 40] ∧
      ∃ l1, fourNodes.RemoveNode 2 = .ok l1 ∧ l1.GetSize = 3 ∧
        l1.Get 0 = .ok 10 ∧ l1.Get 1 = .ok 20 ∧ l1.Get 2 = .ok 40 :=
  have hrep : fourNodes.Represents [0, 1, 2, 3]
      (⟨⟨[10, 20, 30, 40]⟩⟩ : ListSequence Int).items.nodes := by decide
  ⟨by decide, hrep, by
    obtain ⟨l1, s1, h1, -, -, -, h2, -, -, -, h3, h4⟩ :=
      (C36_remove_node fourNodes [0, 1, 2, 3] ⟨⟨[10, 20, 30, 40]⟩⟩ hrep 2).1 (by decide)
    refine ⟨l1, h1, h2, ?_, ?_, ?_⟩
    · rw [(h3 0 (by decide)).1]; decide
    · rw [(h3 1 (by decide)).1]; decide
    · rw [(h4 2 (by decide) (by decide)).1]; decide⟩

/-- C37 at its failing inputs: on the list sequence built by `Append(10); Append(20)`
the call `InsertAt(99, 1)` returns with `GetSize() == 3`, yet `Get(1)` is still 20 and
`Get(2)` dereferences `nullptr`: the new node was linked in front of the first node, which
`head` still points at.  On the sequence 10, 20, 30, 40 the call `InsertAt(99, 2)` puts 99
at position 1, not 2.  Both calls take the branch of `LinkedList::InsertAt` that walks
`index` links back from `tail`. -/
theorem C37_insertAt_failing_input :
    (LinkedNodes.empty : LinkedNodes Int).AppendAll [10, 20] = .ok twoNodes ∧
      twoNodes.SequenceInsertAt 99 1 = .ok twoNodesInserted ∧
      twoNodesInserted.GetSize = 3 ∧
      twoNodesInserted.SequenceGet 0 = .ok 10 ∧
      twoNodesInserted.SequenceGet 1 = .ok 20 ∧
      twoNodesInserted.SequenceGet 2 = .undefined ∧
      (LinkedNodes.empty : LinkedNodes Int).AppendAll [10, 20, 30, 40] = .ok fourNodes ∧
      fourNodes.SequenceInsertAt 99 2 = .ok fourNodesInserted ∧
      fourNodesInserted.GetSize = 5 ∧
      fourNodesInserted.SequenceGet 0 = .ok 10 ∧
      fourNodesInserted.SequenceGet 1 = .ok 99 ∧
      fourNodesInserted.SequenceGet 2 = .ok 20 ∧
      fourNodesInserted.SequenceGet 3 = .ok 30 ∧
      fourNodesInserted.SequenceGet 4 = .ok 40 := by
  decide

end SegDeque
